import Mathlib

/-!
# PintOS threads: semaphores, locks and priority donation

A shallow embedding of `src/threads/synch.c` and of the parts of
`src/threads/thread.c` it calls.  C pointers to `struct thread` and to
`struct lock` are natural numbers (addresses); a nullable pointer is an
`Option`.  Kernel memory is the record `KState`; every C function becomes a
function on `KState`, returning `none` where the C code fails an `ASSERT`
(kernel panic) or dereferences a null pointer.  A semaphore is passed by value
and handed back, because the functions of `synch.c` receive it through a
pointer that may point into a lock or onto a stack frame.

A function that can suspend its caller (`sema_down`, `lock_acquire`) runs up to
the context switch inside `thread_block` and reports `suspended`; the
continuation that the thread executes once it is scheduled again is a second
function (`sema_down_loop`, `lock_acquire_resume`).
-/

namespace PintOS

/-! ## Data model -/

/-- Address of a `struct thread`. -/
abbrev thread_ptr := Nat

/-- Address of a `struct lock`. -/
abbrev lock_ptr := Nat

/-- The `enum thread_status` of `thread.h`, in declaration order. -/
inductive thread_status where
  | THREAD_RUNNING
  | THREAD_READY
  | THREAD_BLOCKED
  | THREAD_DYING
deriving DecidableEq, Repr

/-- The `enum intr_level` of `interrupt.h`. -/
inductive intr_level where
  | INTR_OFF
  | INTR_ON
deriving DecidableEq, Repr

open thread_status intr_level

/-- The fields of `struct thread` that `thread.c` and `synch.c` read or write.
`priority` is the effective priority, `original_priority` the base priority.
The intrusive links `elem` and `d_elem` are represented by membership in the
lists that thread them. -/
structure thread where
  tid : Int
  status : thread_status
  priority : Int
  wakeup_tick : Int
  original_priority : Int
  lock_to_wait_on : Option lock_ptr
  donators_list : List thread_ptr
  magic : Nat
deriving DecidableEq, Repr

/-- A `struct semaphore`: an `unsigned` counter and the list of waiters. -/
structure semaphore where
  value : Nat
  waiters : List thread_ptr
deriving DecidableEq, Repr

/-- A `struct lock`: the holder (null when free) and a binary semaphore. -/
structure lock where
  holder : Option thread_ptr
  semaphore : semaphore
deriving DecidableEq, Repr

/-- Kernel memory: the thread control blocks, the locks, the file-scope
variables of `thread.c`, and the interrupt state kept by `interrupt.c`.
`current` is the value of `running_thread ()`.  `semas` holds the semaphores
that are reached through a pointer of their own (the `semaphore_elem` a thread
waiting on a condition variable keeps on its stack).  `next_tid` is the static
counter of `allocate_tid`. -/
structure KState where
  threads : thread_ptr → thread
  locks : lock_ptr → lock
  ready_list : List thread_ptr
  sleep_list : List thread_ptr
  destruction_req : List thread_ptr
  idle_thread : Option thread_ptr
  initial_thread : Option thread_ptr
  current : thread_ptr
  next_tick_to_awake : Int
  thread_ticks : Nat
  level : intr_level
  in_intr_context : Bool
  yield_requested : Bool
  yield_on_return : Bool
  idle_ticks : Nat
  kernel_ticks : Nat
  semas : Nat → semaphore
  next_tid : Int

/-- Outcome of a call that may sleep: it ran to its end, or the caller was
switched out inside `thread_block` and continues when scheduled again. -/
inductive call_status where
  | completed
  | suspended
deriving DecidableEq, Repr

open call_status

/-- The constant `THREAD_MAGIC` of `thread.c`. -/
def THREAD_MAGIC : Nat := 0xcd6abf4b

/-- Modelled from the spec: `thread.h` is not among the source files; this is
the lowest priority PintOS declares there. -/
def PRI_MIN : Int := 0

/-- Modelled from the spec: `thread.h` is not among the source files; this is
the highest priority PintOS declares there. -/
def PRI_MAX : Int := 63

/-- One more than the largest value of the C type `unsigned`. -/
def UINT_MODULUS : Nat := 4294967296

/-- Store `v` at address `i` of a memory map. -/
def upd {α : Type} (f : Nat → α) (i : Nat) (v : α) : Nat → α :=
  fun j => if j = i then v else f j

/-- Write the thread control block at `t`. -/
def set_thread (s : KState) (t : thread_ptr) (v : thread) : KState :=
  { s with threads := upd s.threads t v }

/-- Write the lock at `l`. -/
def set_lock (s : KState) (l : lock_ptr) (v : lock) : KState :=
  { s with locks := upd s.locks l v }

/-! ## The list library -/

/-- Insertion step of `list_sort`: `x` moves past exactly the elements that
are `less` than it. -/
def sort_insert {α : Type} (less : α → α → Bool) (x : α) : List α → List α
  | [] => [x]
  | y :: ys => if less y x then y :: sort_insert less x ys else x :: y :: ys

/-- Modelled from the spec: `list_sort` belongs to the kernel list library
(`lib/kernel/list.c`), which is not among the source files.  It reorders the
list so that no element is `less` than its predecessor and keeps the relative
order of elements that compare equal (a stable sort). -/
def list_sort {α : Type} (less : α → α → Bool) : List α → List α
  | [] => []
  | x :: xs => sort_insert less x (list_sort less xs)

/-! ## Interrupt state -/

/-- Modelled from the spec: `intr_disable` of `interrupt.c` turns interrupts
off; the caller keeps the previous level (`s.level`) in `old_level`. -/
def intr_disable (s : KState) : KState :=
  { s with level := INTR_OFF }

/-- Modelled from the spec: `intr_set_level` of `interrupt.c` restores the
level saved by `intr_disable`. -/
def intr_set_level (old_level : intr_level) (s : KState) : KState :=
  { s with level := old_level }

/-- Modelled from the spec: `intr_enable` of `interrupt.c` turns interrupts
on; `kernel_thread` calls it when a new thread runs for the first time. -/
def intr_enable (s : KState) : KState :=
  { s with level := INTR_ON }

/-- Modelled from the spec: `intr_yield_on_return` of `interrupt.c` may only
be called while an external interrupt is handled; it makes the handler yield
to a new thread just before it returns. -/
def intr_yield_on_return (s : KState) : Option KState :=
  if s.in_intr_context = true then some { s with yield_on_return := true } else none

/-! ## thread.c -/

/-- The macro `is_thread`, applied to a non-null pointer. -/
def is_thread (t : thread) : Bool :=
  t.magic == THREAD_MAGIC

/-- The function `thread_current`: the running thread, after its two
assertions. -/
def thread_current (s : KState) : Option thread_ptr :=
  if is_thread (s.threads s.current) = true
      ∧ (s.threads s.current).status = THREAD_RUNNING then
    some s.current
  else
    none

/-- The function `next_thread_to_run`: the front of the ready list, popped, or
the idle thread when the list is empty. -/
def next_thread_to_run (s : KState) : Option thread_ptr × KState :=
  match s.ready_list with
  | [] => (s.idle_thread, s)
  | t :: rest => (some t, { s with ready_list := rest })

/-- The function `schedule`.  `thread_launch` is the context-switch primitive:
after it `running_thread ()` is `next`. -/
def schedule (s : KState) : Option KState :=
  let curr := s.current
  match next_thread_to_run s with
  | (none, _) => none
  | (some next, s1) =>
    if s1.level ≠ INTR_OFF then none
    else if (s1.threads curr).status = THREAD_RUNNING then none
    else if is_thread (s1.threads next) = false then none
    else
      let s2 := set_thread s1 next { s1.threads next with status := THREAD_RUNNING }
      let s3 := { s2 with thread_ticks := 0 }
      if curr ≠ next then
        let s4 :=
          if (s3.threads curr).status = THREAD_DYING ∧ some curr ≠ s3.initial_thread then
            { s3 with destruction_req := s3.destruction_req ++ [curr] }
          else s3
        some { s4 with current := next }
      else
        some s3

/-- The function `thread_block`. -/
def thread_block (s : KState) : Option KState :=
  if s.in_intr_context = true then none
  else if s.level ≠ INTR_OFF then none
  else
    match thread_current s with
    | none => none
    | some cur =>
      schedule (set_thread s cur { s.threads cur with status := THREAD_BLOCKED })

/-- The function `thread_unblock`. -/
def thread_unblock (t : thread_ptr) (s : KState) : Option KState :=
  if is_thread (s.threads t) = false then none
  else
    let old_level := s.level
    let s1 := intr_disable s
    if (s1.threads t).status ≠ THREAD_BLOCKED then none
    else
      let s2 := { s1 with ready_list := s1.ready_list ++ [t] }
      let s3 := set_thread s2 t { s2.threads t with status := THREAD_READY }
      some (intr_set_level old_level s3)

/-- The function `do_schedule`.  Freeing the pages of the threads queued for
destruction is the page allocator's business; here the queue is drained. -/
def do_schedule (status : thread_status) (s : KState) : Option KState :=
  if s.level ≠ INTR_OFF then none
  else
    match thread_current s with
    | none => none
    | some cur =>
      let s1 := { s with destruction_req := [] }
      schedule (set_thread s1 cur { s1.threads cur with status := status })

/-- The function `thread_yield`, up to the context switch inside
`do_schedule`; the closing `intr_set_level` runs when the caller is scheduled
again. -/
def thread_yield (s : KState) : Option KState :=
  match thread_current s with
  | none => none
  | some curr =>
    if s.in_intr_context = true then none
    else
      let s1 := intr_disable s
      let s2 :=
        if some curr ≠ s1.idle_thread then
          { s1 with ready_list := s1.ready_list ++ [curr] }
        else s1
      do_schedule THREAD_READY s2

/-- The function `thread_set_priority`. -/
def thread_set_priority (new_priority : Int) (s : KState) : Option KState :=
  match thread_current s with
  | none => none
  | some cur => some (set_thread s cur { s.threads cur with priority := new_priority })

/-- The function `thread_get_priority`. -/
def thread_get_priority (s : KState) : Option Int :=
  match thread_current s with
  | none => none
  | some cur => some (s.threads cur).priority

/-- The constant `TIME_SLICE` of `thread.c`. -/
def TIME_SLICE : Nat := 4

/-- The largest `int64_t`, the initial value of `next_tick_to_awake`. -/
def INT64_MAX : Int := 9223372036854775807

/-- The function `thread_tick` (kernel build without `USERPROG`).  The
pre-increment of the `unsigned` tick counter wraps. -/
def thread_tick (s : KState) : Option KState :=
  match thread_current s with
  | none => none
  | some t =>
    let s1 :=
      if some t = s.idle_thread then { s with idle_ticks := s.idle_ticks + 1 }
      else { s with kernel_ticks := s.kernel_ticks + 1 }
    let s2 := { s1 with thread_ticks := (s1.thread_ticks + 1) % UINT_MODULUS }
    if s2.thread_ticks ≥ TIME_SLICE then intr_yield_on_return s2 else some s2

/-- The state after `k` consecutive calls of `thread_tick`. -/
def thread_tick_times : Nat → KState → Option KState
  | 0, s => some s
  | k + 1, s => (thread_tick_times k s).bind thread_tick

/-- The function `thread_exit` (kernel build without `USERPROG`), up to the
context switch that it never returns from. -/
def thread_exit (s : KState) : Option KState :=
  if s.in_intr_context = true then none
  else do_schedule THREAD_DYING (intr_disable s)

/-- The function `update_next_tick_to_awake`. -/
def update_next_tick_to_awake (tick : Int) (s : KState) : KState :=
  { s with
    next_tick_to_awake := if s.next_tick_to_awake > tick then tick else s.next_tick_to_awake }

/-- The function `get_next_tick_to_awake`. -/
def get_next_tick_to_awake (s : KState) : Int :=
  s.next_tick_to_awake

/-- The function `thread_sleep`, up to the context switch inside
`thread_block`; the closing `intr_set_level` runs when the caller is scheduled
again. -/
def thread_sleep (tick : Int) (s : KState) : Option KState :=
  let s1 := intr_disable s
  match thread_current s1 with
  | none => none
  | some cur =>
    if some cur = s1.idle_thread then none
    else
      let s2 := set_thread s1 cur { s1.threads cur with wakeup_tick := tick }
      let s3 := update_next_tick_to_awake tick s2
      let s4 := { s3 with sleep_list := s3.sleep_list ++ [cur] }
      thread_block s4

/-- The `while` loop of `thread_awake` over the part of the sleep list still
to be visited: a thread that is due is unlinked from the sleep list and
unblocked, any other thread stays and its wake-up tick enters the minimum. -/
def thread_awake_loop (current_tick : Int) : List thread_ptr → KState → Option KState
  | [], s => some s
  | t :: rest, s =>
    if current_tick ≥ (s.threads t).wakeup_tick then
      match thread_unblock t { s with sleep_list := s.sleep_list.erase t } with
      | none => none
      | some s1 => thread_awake_loop current_tick rest s1
    else
      thread_awake_loop current_tick rest (update_next_tick_to_awake (s.threads t).wakeup_tick s)

/-- The function `thread_awake`. -/
def thread_awake (current_tick : Int) (s : KState) : Option KState :=
  thread_awake_loop current_tick s.sleep_list { s with next_tick_to_awake := INT64_MAX }

/-- A `struct thread` after `memset (t, 0, sizeof *t)`.  The zeroed
`donators_list` is the empty list. -/
def thread_zero : thread :=
  { tid := 0, status := THREAD_RUNNING, priority := 0, wakeup_tick := 0,
    original_priority := 0, lock_to_wait_on := none, donators_list := [], magic := 0 }

/-- The function `init_thread`: after the `memset` only `status`, `priority`
and `magic` are assigned (the name and the stack pointer are not modelled). -/
def init_thread (t : thread_ptr) (priority : Int) (s : KState) : Option KState :=
  if PRI_MIN ≤ priority ∧ priority ≤ PRI_MAX then
    some (set_thread s t
      { thread_zero with status := THREAD_BLOCKED, priority := priority, magic := THREAD_MAGIC })
  else
    none

/-- Modelled from the spec: `cmp_priority` is called by `sema_up` but defined
in neither source file.  The spec has `up` select the waiter of highest
effective priority, so the comparison is "higher priority first". -/
def cmp_priority (s : KState) (a b : thread_ptr) : Bool :=
  decide ((s.threads a).priority > (s.threads b).priority)

/-- Modelled from the spec: `test_max_priority` is called by `sema_up` but
defined in neither source file.  The spec has the scheduler re-evaluate, after
a wake-up, whether a readied thread should pre-empt the running one: if its
priority exceeds the running thread's, a yield is to be triggered at the next
safe point.  The request is recorded in `yield_requested`. -/
def test_max_priority (s : KState) : KState :=
  if s.ready_list.any (fun t => decide ((s.threads t).priority > (s.threads s.current).priority))
  then { s with yield_requested := true }
  else s

/-! ## synch.c: semaphores -/

/-- The function `sema_init`. -/
def sema_init (value : Nat) : semaphore :=
  { value := value, waiters := [] }

/-- The `while` loop of `sema_down` and the two statements after it, entered
at the loop test.  A thread woken inside `thread_block` re-enters here.  With
the counter at 0 the caller is appended to the waiters and blocked; otherwise
the counter is decremented (it is not 0, so the `unsigned` does not wrap) and
the saved interrupt level restored. -/
def sema_down_loop (old_level : intr_level) (sema : semaphore) (s : KState) :
    Option (call_status × semaphore × KState) :=
  if sema.value = 0 then
    match thread_current s with
    | none => none
    | some cur =>
      match thread_block s with
      | none => none
      | some s1 => some (suspended, { sema with waiters := sema.waiters ++ [cur] }, s1)
  else
    some (completed, { sema with value := sema.value - 1 }, intr_set_level old_level s)

/-- The function `sema_down`, from its entry to its return or to the first
context switch. -/
def sema_down (sema : semaphore) (s : KState) : Option (call_status × semaphore × KState) :=
  if s.in_intr_context = true then none
  else sema_down_loop s.level sema (intr_disable s)

/-- The function `sema_try_down`. -/
def sema_try_down (sema : semaphore) (s : KState) : Bool × semaphore × KState :=
  let old_level := s.level
  let s1 := intr_disable s
  if sema.value > 0 then
    (true, { sema with value := sema.value - 1 }, intr_set_level old_level s1)
  else
    (false, sema, intr_set_level old_level s1)

/-- The function `sema_up`.  The increment of the `unsigned` counter wraps. -/
def sema_up (sema : semaphore) (s : KState) : Option (semaphore × KState) :=
  let old_level := s.level
  let s1 := intr_disable s
  let woken : Option (semaphore × KState) :=
    if sema.waiters ≠ [] then
      match list_sort (cmp_priority s1) sema.waiters with
      | [] => none
      | t :: rest =>
        match thread_unblock t s1 with
        | none => none
        | some s2 => some ({ sema with waiters := rest }, s2)
    else
      some (sema, s1)
  match woken with
  | none => none
  | some (sema1, s2) =>
    some ({ sema1 with value := (sema1.value + 1) % UINT_MODULUS },
          intr_set_level old_level (test_max_priority s2))

/-! ## synch.c: priority donation -/

/-- The loop of `donate_priority`, with `depth` iterations left and the walk
standing at `t`.  Reading the holder of a lock nobody holds is a null
dereference.  The second component lists, in order, the threads whose
`priority` the loop body has assigned. -/
def donate_loop : Nat → thread_ptr → KState → Option (KState × List thread_ptr)
  | 0, _, s => some (s, [])
  | depth + 1, t, s =>
    match (s.threads t).lock_to_wait_on with
    | none => some (s, [])
    | some l =>
      match (s.locks l).holder with
      | none => none
      | some holder =>
        let s1 := set_thread s holder
          { s.threads holder with priority := (s.threads t).priority }
        match donate_loop depth holder s1 with
        | none => none
        | some (s2, written) => some (s2, holder :: written)

/-- The function `donate_priority`, together with the list of threads whose
priority it assigned. -/
def donate_priority_trace (s : KState) : Option (KState × List thread_ptr) :=
  match thread_current s with
  | none => none
  | some t => donate_loop 8 t s

/-- The function `donate_priority`. -/
def donate_priority (s : KState) : Option KState :=
  (donate_priority_trace s).map Prod.fst

/-- The loop of `remove_with_lock` over the donors still to be visited: a
donor waiting on `lock` is unlinked, every other donor stays. -/
def remove_with_lock_loop (s : KState) (lock : lock_ptr) : List thread_ptr → List thread_ptr
  | [] => []
  | t :: rest =>
    if (s.threads t).lock_to_wait_on = some lock then
      remove_with_lock_loop s lock rest
    else
      t :: remove_with_lock_loop s lock rest

/-- The function `remove_with_lock`. -/
def remove_with_lock (lock : lock_ptr) (s : KState) : Option KState :=
  match thread_current s with
  | none => none
  | some cur =>
    some (set_thread s cur
      { s.threads cur with
        donators_list := remove_with_lock_loop s lock (s.threads cur).donators_list })

/-- The function `cmp_donator_priority`. -/
def cmp_donator_priority (s : KState) (new_donator existing_donator : thread_ptr) : Bool :=
  decide ((s.threads new_donator).priority > (s.threads existing_donator).priority)

/-- The function `refresh_priority`. -/
def refresh_priority (s : KState) : Option KState :=
  match thread_current s with
  | none => none
  | some cur =>
    let s1 := set_thread s cur
      { s.threads cur with priority := (s.threads cur).original_priority }
    if (s1.threads cur).donators_list ≠ [] then
      let sorted := list_sort (cmp_donator_priority s1) (s1.threads cur).donators_list
      let s2 := set_thread s1 cur { s1.threads cur with donators_list := sorted }
      match sorted with
      | [] => none
      | top_pri_donator :: _ =>
        if (s2.threads top_pri_donator).priority > (s2.threads cur).priority then
          some (set_thread s2 cur
            { s2.threads cur with priority := (s2.threads top_pri_donator).priority })
        else
          some s2
    else
      some s1

/-! ## synch.c: locks -/

/-- The function `lock_init`. -/
def lock_init : lock :=
  { holder := none, semaphore := sema_init 1 }

/-- The function `lock_held_by_current_thread`. -/
def lock_held_by_current_thread (lock : lock_ptr) (s : KState) : Option Bool :=
  match thread_current s with
  | none => none
  | some cur => some (decide ((s.locks lock).holder = some cur))

/-- The two statements of `lock_acquire` after `sema_down` has returned. -/
def lock_acquire_finish (lock : lock_ptr) (cur : thread_ptr) (s : KState) : KState :=
  let s1 := set_thread s cur { s.threads cur with lock_to_wait_on := none }
  set_lock s1 lock { s1.locks lock with holder := some cur }

/-- Store the semaphore handed back by a semaphore operation into the lock,
and finish the acquisition when the operation completed. -/
def lock_acquire_after_down (lock : lock_ptr) (cur : thread_ptr) :
    call_status × semaphore × KState → call_status × KState
  | (completed, sema, s) =>
    (completed, lock_acquire_finish lock cur (set_lock s lock { s.locks lock with semaphore := sema }))
  | (suspended, sema, s) =>
    (suspended, set_lock s lock { s.locks lock with semaphore := sema })

/-- The function `lock_acquire`, from its entry to its return or to the first
context switch inside `sema_down`. -/
def lock_acquire (lock : lock_ptr) (s : KState) : Option (call_status × KState) :=
  if s.in_intr_context = true then none
  else
    match lock_held_by_current_thread lock s with
    | none => none
    | some true => none
    | some false =>
      match thread_current s with
      | none => none
      | some cur =>
        let donated : Option KState :=
          match (s.locks lock).holder with
          | some holder =>
            let s1 := set_thread s cur { s.threads cur with lock_to_wait_on := some lock }
            let s2 := set_thread s1 holder
              { s1.threads holder with
                donators_list := (s1.threads holder).donators_list ++ [cur] }
            donate_priority s2
          | none => some s
        match donated with
        | none => none
        | some s3 =>
          (sema_down (s3.locks lock).semaphore s3).map (lock_acquire_after_down lock cur)

/-- The rest of `lock_acquire` for a caller that was suspended inside
`sema_down` and is running again: the loop test of `sema_down` is taken anew
(`old_level` is the interrupt level that `sema_down` saved on entry). -/
def lock_acquire_resume (old_level : intr_level) (lock : lock_ptr) (s : KState) :
    Option (call_status × KState) :=
  (sema_down_loop old_level (s.locks lock).semaphore s).map
    (lock_acquire_after_down lock s.current)

/-- The function `lock_try_acquire`. -/
def lock_try_acquire (lock : lock_ptr) (s : KState) : Option (Bool × KState) :=
  match lock_held_by_current_thread lock s with
  | none => none
  | some true => none
  | some false =>
    match sema_try_down (s.locks lock).semaphore s with
    | (true, sema, s1) =>
      match thread_current s1 with
      | none => none
      | some cur => some (true, set_lock s1 lock { holder := some cur, semaphore := sema })
    | (false, sema, s1) =>
      some (false, set_lock s1 lock { s1.locks lock with semaphore := sema })

/-- The function `lock_release`. -/
def lock_release (lock : lock_ptr) (s : KState) : Option KState :=
  match lock_held_by_current_thread lock s with
  | none => none
  | some false => none
  | some true =>
    match remove_with_lock lock s with
    | none => none
    | some s1 =>
      match refresh_priority s1 with
      | none => none
      | some s2 =>
        let s3 := set_lock s2 lock { s2.locks lock with holder := none }
        match sema_up (s3.locks lock).semaphore s3 with
        | none => none
        | some (sema, s4) => some (set_lock s4 lock { s4.locks lock with semaphore := sema })

/-! ## thread.c: thread creation -/

/-- Modelled from the spec: `TID_ERROR` is defined in `thread.h`, which is not
among the source files; it is the sentinel error identifier that thread
creation returns, `(tid_t) -1` in PintOS. -/
def TID_ERROR : Int := -1

/-- Modelled from the spec: `tid_t` is declared in `thread.h`, which is not
among the source files; in PintOS it is `int`, whose largest value this is. -/
def INT_MAX : Int := 2147483647

/-- Address of the file-scope lock `tid_lock` of `thread.c`. -/
def tid_lock : lock_ptr := 64

/-- The statements of `allocate_tid` after `lock_acquire` has returned:
`tid = next_tid++`, then `lock_release`.  Incrementing the signed counter at
its largest value is undefined behaviour. -/
def allocate_tid_locked (s : KState) : Option (Int × KState) :=
  if s.next_tid ≥ INT_MAX then none
  else
    match lock_release tid_lock { s with next_tid := s.next_tid + 1 } with
    | none => none
    | some s1 => some (s.next_tid, s1)

/-- Continue `allocate_tid` after its `lock_acquire`: a caller suspended inside
`lock_acquire` has no result yet (`none` in the first component). -/
def allocate_tid_after_acquire : call_status × KState → Option (Option Int × KState)
  | (suspended, s) => some (none, s)
  | (completed, s) => (allocate_tid_locked s).map fun r => (some r.1, r.2)

/-- The function `allocate_tid`, from its entry to its return or to the first
context switch inside `lock_acquire`. -/
def allocate_tid (s : KState) : Option (Option Int × KState) :=
  (lock_acquire tid_lock s).bind allocate_tid_after_acquire

/-- The rest of `allocate_tid` for a caller that was suspended inside
`lock_acquire` and is running again. -/
def allocate_tid_resume (old_level : intr_level) (s : KState) : Option (Option Int × KState) :=
  (lock_acquire_resume old_level tid_lock s).bind allocate_tid_after_acquire

/-- The statements of `thread_create` after `allocate_tid`: once it has
returned `tid`, the identifier is stored in the new thread `t` (the register
frame set up next is not modelled), `t` is unblocked and `tid` returned. -/
def thread_create_finish (t : thread_ptr) : Option Int × KState → Option (Option Int × KState)
  | (none, s) => some (none, s)
  | (some tid, s) =>
    match thread_unblock t (set_thread s t { s.threads t with tid := tid }) with
    | none => none
    | some s1 => some (some tid, s1)

/-- The function `thread_create`, from its entry to its return or to the first
context switch (inside `allocate_tid`).  `page` is the result of
`palloc_get_page`, null when the allocator is exhausted.  The first component
of the result is the value returned, or `none` while the caller is suspended. -/
def thread_create (priority : Int) (page : Option thread_ptr) (s : KState) :
    Option (Option Int × KState) :=
  match page with
  | none => some (some TID_ERROR, s)
  | some t =>
    match init_thread t priority s with
    | none => none
    | some s1 => (allocate_tid s1).bind (thread_create_finish t)

/-- The rest of `thread_create` for a caller that was suspended inside
`allocate_tid` and is running again; `t` is the page of the new thread. -/
def thread_create_resume (old_level : intr_level) (t : thread_ptr) (s : KState) :
    Option (Option Int × KState) :=
  (allocate_tid_resume old_level s).bind (thread_create_finish t)

/-! ## synch.c: condition variables -/

/-- A `struct condition`: the list of the `semaphore_elem`s of the waiting
threads, each given by the address of its semaphore in `KState.semas`. -/
structure condition where
  waiters : List Nat
deriving DecidableEq, Repr

/-- The function `cond_init`. -/
def cond_init : condition :=
  { waiters := [] }

/-- The priority `cmp_sema_priority` reads for one `semaphore_elem`: that of
the thread at the front of the semaphore's waiters.  For a semaphore without
waiters the C code reads a thread through the end sentinel of the list;
`cond_signal` below treats that as undefined behaviour, so the value given
here for that case is never used. -/
def sema_front_priority (s : KState) (p : Nat) : Int :=
  match (s.semas p).waiters with
  | [] => 0
  | t :: _ => (s.threads t).priority

/-- The function `cmp_sema_priority`. -/
def cmp_sema_priority (s : KState) (a b : Nat) : Bool :=
  decide (sema_front_priority s a > sema_front_priority s b)

/-- The function `cond_signal`.  Only the call of `list_sort` is governed by
the `if`; the statement that pops the front of the waiters and ups its
semaphore follows the `if` and runs in every case.  `list_pop_front` of the
list library asserts that the list is not empty.  `list_sort` compares as soon
as the list has two elements, which reads the waiters of every semaphore in
it. -/
def cond_signal (cond : condition) (lock : lock_ptr) (s : KState) :
    Option (condition × KState) :=
  if s.in_intr_context = true then none
  else
    match lock_held_by_current_thread lock s with
    | none => none
    | some false => none
    | some true =>
      let sorted : Option (List Nat) :=
        if cond.waiters ≠ [] then
          if 2 ≤ cond.waiters.length ∧
              cond.waiters.any (fun p => (s.semas p).waiters.isEmpty) = true then none
          else some (list_sort (cmp_sema_priority s) cond.waiters)
        else some cond.waiters
      match sorted with
      | none => none
      | some [] => none
      | some (p :: rest) =>
        match sema_up (s.semas p) s with
        | none => none
        | some (sema, s1) =>
          some ({ waiters := rest }, { s1 with semas := upd s1.semas p sema })

/-- The `while` loop of `cond_broadcast`, given `fuel` iterations: as long as
the waiter list is not empty, `cond_signal` is called.  The third component
counts the calls of `cond_signal`.  The result is `none` when `cond_signal`
fails or when the iterations given do not suffice. -/
def cond_broadcast_loop (lock : lock_ptr) : Nat → condition → KState →
    Option (condition × KState × Nat)
  | 0, cond, s => if cond.waiters = [] then some (cond, s, 0) else none
  | fuel + 1, cond, s =>
    if cond.waiters = [] then some (cond, s, 0)
    else
      match cond_signal cond lock s with
      | none => none
      | some (cond1, s1) =>
        match cond_broadcast_loop lock fuel cond1 s1 with
        | none => none
        | some (cond2, s2, k) => some (cond2, s2, k + 1)

/-- The function `cond_broadcast`, with the number of iterations its loop may
take. -/
def cond_broadcast (fuel : Nat) (cond : condition) (lock : lock_ptr) (s : KState) :
    Option (condition × KState × Nat) :=
  cond_broadcast_loop lock fuel cond s

/-! ## Semaphores in kernel memory -/

/-- Address of a semaphore in kernel memory: one that is reached through a
pointer of its own (an entry of `KState.semas`), or the semaphore inside a
lock. -/
inductive sema_ptr where
  | standalone (p : Nat)
  | in_lock (l : lock_ptr)
deriving DecidableEq, Repr

/-- Read the semaphore at an address. -/
def sema_at (s : KState) : sema_ptr → semaphore
  | sema_ptr.standalone p => s.semas p
  | sema_ptr.in_lock l => (s.locks l).semaphore

/-- Write the semaphore at an address. -/
def store_sema (s : KState) : sema_ptr → semaphore → KState
  | sema_ptr.standalone p, v => { s with semas := upd s.semas p v }
  | sema_ptr.in_lock l, v => set_lock s l { s.locks l with semaphore := v }

/-- The call `sema_up (r)` on the semaphore stored at `r`. -/
def sema_up_at (r : sema_ptr) (s : KState) : Option KState :=
  (sema_up (sema_at s r) s).map fun x => store_sema x.2 r x.1

/-- The call `sema_down (r)` on the semaphore stored at `r`, from its entry to
its return or to the first context switch. -/
def sema_down_at (r : sema_ptr) (s : KState) : Option (call_status × KState) :=
  (sema_down (sema_at s r) s).map fun x => (x.1, store_sema x.2.2 r x.2.1)

/-- The rest of `sema_down (r)` for a caller that was suspended in it and is
running again. -/
def sema_down_resume_at (old_level : intr_level) (r : sema_ptr) (s : KState) :
    Option (call_status × KState) :=
  (sema_down_loop old_level (sema_at s r) s).map fun x => (x.1, store_sema x.2.2 r x.2.1)

/-! ## Example states -/

/-- A live thread control block with the given status and priority. -/
def live_thread (status : thread_status) (priority : Int) : thread :=
  { thread_zero with status := status, priority := priority, magic := THREAD_MAGIC }

/-- Thread 1 runs with priority 31, threads 2 and 3 are blocked with
priorities 5 and 9, thread 4 is ready with priority 7; every lock is free. -/
def example_state : KState :=
  { threads := fun t =>
      if t = 1 then live_thread THREAD_RUNNING 31
      else if t = 2 then live_thread THREAD_BLOCKED 5
      else if t = 3 then live_thread THREAD_BLOCKED 9
      else if t = 4 then live_thread THREAD_READY 7
      else thread_zero,
    locks := fun _ => lock_init,
    ready_list := [4],
    sleep_list := [],
    destruction_req := [],
    idle_thread := none,
    initial_thread := some 1,
    current := 1,
    next_tick_to_awake := 9223372036854775807,
    thread_ticks := 0,
    level := INTR_ON,
    in_intr_context := false,
    yield_requested := false,
    yield_on_return := false,
    idle_ticks := 0,
    kernel_ticks := 0,
    semas := fun _ => sema_init 0,
    next_tid := 1 }

/-- The example state after its running thread 1 has acquired lock 0. -/
def example_locked : KState :=
  match lock_acquire 0 (set_lock example_state 0 lock_init) with
  | some (_, s) => s
  | none => example_state

/-- Kernel memory before any thread exists: zeroed thread blocks, every lock
as `lock_init` leaves it, empty lists. -/
def boot_state : KState :=
  { threads := fun _ => thread_zero,
    locks := fun _ => lock_init,
    ready_list := [],
    sleep_list := [],
    destruction_req := [],
    idle_thread := none,
    initial_thread := some 1,
    current := 1,
    next_tick_to_awake := 9223372036854775807,
    thread_ticks := 0,
    level := INTR_ON,
    in_intr_context := false,
    yield_requested := false,
    yield_on_return := false,
    idle_ticks := 0,
    kernel_ticks := 0,
    semas := fun _ => sema_init 0,
    next_tid := 1 }

/-- Two threads: thread 1 is set up by `init_thread` with priority `p1` and
made the running thread (as `thread_init` does with the initial thread);
thread 2 is set up by `init_thread` with priority `p2` and put on the ready
list by `thread_unblock` (as `thread_create` does). -/
def two_threads (p1 p2 : Int) : Option KState :=
  (init_thread 1 p1 boot_state).bind fun s1 =>
  (init_thread 2 p2 (set_thread s1 1 { s1.threads 1 with status := THREAD_RUNNING })).bind
    fun s2 => thread_unblock 2 s2

/-- Thread 1 acquires lock 0. -/
def holder_has_lock (p1 p2 : Int) : Option (call_status × KState) :=
  (two_threads p1 p2).bind fun s => lock_acquire 0 s

/-- Thread 1, holding lock 0, yields the CPU; thread 2 runs for the first time
(`kernel_thread` enables interrupts) and calls `lock_acquire` on lock 0. -/
def waiter_calls_acquire (p1 p2 : Int) : Option (call_status × KState) :=
  (holder_has_lock p1 p2).bind fun r =>
  (thread_yield r.2).bind fun s => lock_acquire 0 (intr_enable s)

/-- Thread 1 is running again (it returns from `thread_yield`, which restores
the interrupt level) and releases lock 0. -/
def holder_releases (p1 p2 : Int) : Option KState :=
  (waiter_calls_acquire p1 p2).bind fun r => lock_release 0 (intr_set_level INTR_ON r.2)

/-- Thread 1 yields once more; thread 2 is scheduled and continues its
suspended `lock_acquire`. -/
def waiter_resumes (p1 p2 : Int) : Option (call_status × KState) :=
  (holder_releases p1 p2).bind fun s =>
  (thread_yield s).bind fun s1 => lock_acquire_resume INTR_ON 0 s1

/-- The state in which `lock_acquire` calls `donate_priority` when thread 2
(priority 5) asks for lock 0 held by thread 1 (priority 20): thread 2 runs, its
`lock_to_wait_on` is lock 0 and it is on the donors list of thread 1. -/
def before_donation : Option KState :=
  (holder_has_lock 20 5).bind fun r =>
  (thread_yield r.2).map fun s =>
    let s1 := set_thread (intr_enable s) 2 { s.threads 2 with lock_to_wait_on := some 0 }
    set_thread s1 1 { s1.threads 1 with donators_list := (s1.threads 1).donators_list ++ [2] }

/-- A chain of nine nested lock waits: thread 0 runs with priority 40 and
waits on lock 0; for `i` from 1 to 8 thread `i` holds lock `i - 1` and waits on
lock `i`; thread 9 holds lock 8 and waits on nothing.  Threads 1 to 9 are
blocked with priority 10. -/
def chain_state : KState :=
  { example_state with
    threads := fun t =>
      if t = 0 then
        { live_thread THREAD_RUNNING 40 with lock_to_wait_on := some 0 }
      else if t < 9 then
        { live_thread THREAD_BLOCKED 10 with lock_to_wait_on := some t }
      else if t = 9 then live_thread THREAD_BLOCKED 10
      else thread_zero,
    locks := fun l =>
      if l < 9 then { holder := some (l + 1), semaphore := { value := 0, waiters := [l] } }
      else lock_init,
    ready_list := [],
    current := 0 }

/-- Thread 1 runs with base priority 3 and holds locks 0 and 1; thread 2
(priority 10) waits on lock 0 and thread 3 (priority 20) on lock 1, and both
are donors of thread 1, whose effective priority is 20. -/
def release_state : KState :=
  { example_state with
    threads := fun t =>
      if t = 1 then
        { live_thread THREAD_RUNNING 20 with original_priority := 3, donators_list := [2, 3] }
      else if t = 2 then { live_thread THREAD_BLOCKED 10 with lock_to_wait_on := some 0 }
      else if t = 3 then { live_thread THREAD_BLOCKED 20 with lock_to_wait_on := some 1 }
      else thread_zero,
    locks := fun l =>
      if l = 0 then { holder := some 1, semaphore := { value := 0, waiters := [2] } }
      else if l = 1 then { holder := some 1, semaphore := { value := 0, waiters := [3] } }
      else lock_init,
    ready_list := [] }

/-! ## Preconditions -/

/-- Every waiter of the semaphore is a live thread in state BLOCKED (what
`thread_unblock` asserts of the thread it is handed). -/
def waiters_blocked (sema : semaphore) (s : KState) : Prop :=
  ∀ t ∈ sema.waiters, is_thread (s.threads t) = true ∧ (s.threads t).status = THREAD_BLOCKED

/-- The running thread can be switched out: it passes the assertions of
`thread_current`, and the thread `schedule` would pick next is a live thread
other than the running one. -/
def can_switch_out (s : KState) : Prop :=
  thread_current s = some s.current ∧
  ∃ next, (next_thread_to_run s).1 = some next ∧ next ≠ s.current ∧
    is_thread (s.threads next) = true

/-- The running thread may release lock `l`: it passes the assertions of
`thread_current`, it holds `l`, and the waiters of `l` are live blocked
threads. -/
def can_release (l : lock_ptr) (s : KState) : Prop :=
  thread_current s = some s.current ∧ (s.locks l).holder = some s.current ∧
  waiters_blocked (s.locks l).semaphore s

/-! ## Notions used in the statements -/

/-- The thread that holds the lock `a` waits on (`a->lock_to_wait_on->holder`),
if `a` waits on a lock and that lock is held. -/
def waited_holder (s : KState) (a : thread_ptr) : Option thread_ptr :=
  match (s.threads a).lock_to_wait_on with
  | none => none
  | some l => (s.locks l).holder

/-- Thread `a` waits on a lock that thread `b` holds. -/
def waits_for (s : KState) (a b : thread_ptr) : Prop :=
  waited_holder s a = some b

instance waits_for_decidable (s : KState) (a b : thread_ptr) : Decidable (waits_for s a b) :=
  inferInstanceAs (Decidable (waited_holder s a = some b))

/-- Two thread control blocks agree on the fields priority donation works
with. -/
def same_donation (a b : thread) : Prop :=
  a.priority = b.priority ∧ a.original_priority = b.original_priority ∧
  a.lock_to_wait_on = b.lock_to_wait_on ∧ a.donators_list = b.donators_list

/-- The maximum of `base` and the effective priorities, in state `s`, of the
threads in `donors`; it is `base` when there is no donor. -/
def max_over_donors (s : KState) (base : Int) (donors : List thread_ptr) : Int :=
  (donors.map (fun d => (s.threads d).priority)).foldr max base

/-! ## Reachable lock states -/

/-- The kernel states reachable, as far as lock `l` is concerned, from
`lock_init` by calls of `lock_acquire` (and the resumption of a suspended
`lock_acquire`), `lock_try_acquire` and `lock_release` that pass their
assertions, made by whichever thread is running, interleaved with any other
kernel activity that does not write to the lock (`other`: scheduling, timer
interrupts, operations on other locks and semaphores). -/
inductive lock_reachable (l : lock_ptr) : KState → Prop where
  | init (s : KState) : lock_reachable l (set_lock s l lock_init)
  | acquire (s s' : KState) (st : call_status) :
      lock_reachable l s → lock_acquire l s = some (st, s') → lock_reachable l s'
  | resume (s s' : KState) (old_level : intr_level) (st : call_status) :
      lock_reachable l s → lock_acquire_resume old_level l s = some (st, s') →
      lock_reachable l s'
  | try_acquire (s s' : KState) (b : Bool) :
      lock_reachable l s → lock_try_acquire l s = some (b, s') → lock_reachable l s'
  | release (s s' : KState) :
      lock_reachable l s → lock_release l s = some s' → lock_reachable l s'
  | other (s s' : KState) :
      lock_reachable l s → s'.locks l = s.locks l → lock_reachable l s'

/-! ## Notions and example states for the scheduler, the sleep list and condition variables -/

/-- Exactly the live thread `c` is in state RUNNING. -/
def only_running (s : KState) (c : thread_ptr) : Prop :=
  ∀ t, (is_thread (s.threads t) = true ∧ (s.threads t).status = THREAD_RUNNING) ↔ t = c

/-- A state `p` is state `s` with the running thread moved to status `st`
and the ready list replaced by `q`, as `schedule` finds it when entered from
`thread_block`, `thread_yield`, `thread_exit` or `thread_sleep`. -/
def enters_schedule (s p : KState) (st : thread_status) (q : List thread_ptr) : Prop :=
  p.threads = upd s.threads s.current { s.threads s.current with status := st } ∧
  p.ready_list = q ∧ p.idle_thread = s.idle_thread ∧ p.current = s.current ∧
  p.sleep_list = s.sleep_list ∧ p.next_tick_to_awake = s.next_tick_to_awake ∧
  p.level = INTR_OFF

/-- The example state after its running thread 1 has called `thread_yield`. -/
def example_yielded : KState :=
  match thread_yield example_state with
  | some s => s
  | none => example_state

/-- The kernel states whose ready list was built, starting from an empty
list, by calls of `thread_unblock` and `thread_yield` that pass their
assertions. -/
inductive ready_queue_built : KState → Prop where
  | init (s : KState) : s.ready_list = [] → ready_queue_built s
  | unblock (s s' : KState) (t : thread_ptr) :
      ready_queue_built s → thread_unblock t s = some s' → ready_queue_built s'
  | yield (s s' : KState) :
      ready_queue_built s → thread_yield s = some s' → ready_queue_built s'

/-- The example state with an empty ready list, after `thread_unblock` of
thread 2 (priority 5) and then of thread 3 (priority 9). -/
def fifo_state : KState :=
  match (thread_unblock 2 { example_state with ready_list := [] }).bind (thread_unblock 3) with
  | some s => s
  | none => example_state

/-- The example state while a timer interrupt is handled. -/
def tick_state : KState :=
  { example_state with in_intr_context := true }

/-- Every thread on the sleep list is a live thread in state BLOCKED (what
`thread_unblock` asserts of the thread it is handed). -/
def sleepers_blocked (s : KState) : Prop :=
  ∀ t ∈ s.sleep_list, is_thread (s.threads t) = true ∧ (s.threads t).status = THREAD_BLOCKED

/-- The value `v` is the minimum wake-up tick of the threads in `l`, or
`INT64_MAX` when `l` is empty. -/
def is_min_wakeup (s : KState) (l : List thread_ptr) (v : Int) : Prop :=
  (l = [] → v = INT64_MAX) ∧ (∀ t ∈ l, v ≤ (s.threads t).wakeup_tick) ∧
  (l ≠ [] → ∃ t ∈ l, v = (s.threads t).wakeup_tick)

/-- Thread 1 runs; threads 2, 3 and 4 are ready, in this order. -/
def sleep_boot : KState :=
  { example_state with
    threads := fun t =>
      if t = 1 then live_thread THREAD_RUNNING 31
      else if t = 2 ∨ t = 3 ∨ t = 4 then live_thread THREAD_READY 31
      else thread_zero,
    ready_list := [2, 3, 4] }

/-- From `sleep_boot`: thread 1 sleeps until tick 5, then thread 2 until tick
3, then thread 3 until tick 8; thread 4 is left running. -/
def three_sleepers : KState :=
  match ((thread_sleep 5 sleep_boot).bind (thread_sleep 3)).bind (thread_sleep 8) with
  | some s => s
  | none => sleep_boot

/-- The scheduler bookkeeping is consistent: the ready list holds distinct
live READY threads, the sleep list holds distinct live BLOCKED threads, none of
them the idle thread, with wake-up ticks in the range of `int64_t`. -/
def queues_consistent (s : KState) : Prop :=
  (∀ t ∈ s.ready_list, is_thread (s.threads t) = true ∧
    (s.threads t).status = THREAD_READY) ∧
  s.ready_list.Nodup ∧ sleepers_blocked s ∧ s.sleep_list.Nodup ∧
  (∀ t ∈ s.sleep_list, some t ≠ s.idle_thread) ∧
  (∀ t ∈ s.sleep_list, (s.threads t).wakeup_tick ≤ INT64_MAX)

/-- The kernel states reachable from an initial state (empty sleep list,
`next_tick_to_awake = INT64_MAX`, a ready list of distinct live READY threads)
by calls of `thread_sleep` (with a tick that fits `int64_t`), `thread_awake`
and `thread_yield` that pass their assertions. -/
inductive sleep_reachable : KState → Prop where
  | init (s : KState) :
      s.sleep_list = [] → s.next_tick_to_awake = INT64_MAX →
      (∀ t ∈ s.ready_list, is_thread (s.threads t) = true ∧
        (s.threads t).status = THREAD_READY) →
      s.ready_list.Nodup → sleep_reachable s
  | sleep (s s' : KState) (tick : Int) :
      sleep_reachable s → tick ≤ INT64_MAX → thread_sleep tick s = some s' →
      sleep_reachable s'
  | awake (s s' : KState) (now : Int) :
      sleep_reachable s → thread_awake now s = some s' → sleep_reachable s'
  | yield (s s' : KState) :
      sleep_reachable s → thread_yield s = some s' → sleep_reachable s'

/-- Every entry of the condition variable's waiter list is the private
semaphore of one live thread that is blocked on it. -/
def cond_waiters_blocked (cond : condition) (s : KState) : Prop :=
  ∀ p ∈ cond.waiters, ∃ t, (s.semas p).waiters = [t] ∧
    is_thread (s.threads t) = true ∧ (s.threads t).status = THREAD_BLOCKED

/-- Thread 1 runs and holds lock 0; threads 2 (priority 5) and 3 (priority 9)
wait on a condition variable, blocked on their private semaphores 0 and 1,
which are queued in this order. -/
def cond_state : KState :=
  { example_locked with
    semas := fun p =>
      if p = 0 then { value := 0, waiters := [2] }
      else if p = 1 then { value := 0, waiters := [3] }
      else sema_init 0,
    ready_list := [] }

/-! ## Notions and example states for lock hand-over -/

/-- Threads 1 and 2, both of priority 0.  Thread 1 acquires lock 0 and yields;
thread 2 runs for the first time, acquires lock 1 and calls `lock_acquire` on
lock 0, where it blocks; thread 1 runs again and releases lock 0.  Thread 2 is
READY but has not run yet. -/
def released_before_resume : Option KState :=
  (two_threads 0 0).bind fun s0 =>
  (lock_acquire 0 s0).bind fun r1 =>
  (thread_yield r1.2).bind fun s2 =>
  (lock_acquire 1 (intr_enable s2)).bind fun r3 =>
  (lock_acquire 0 r3.2).bind fun r4 =>
  lock_release 0 (intr_set_level INTR_ON r4.2)

/-- The state in which `lock_acquire` calls `donate_priority` when, in
`released_before_resume`, the running thread 1 asks for lock 1: its
`lock_to_wait_on` is lock 1 and it is on the donors list of thread 2, the
holder. -/
def walk_entry : Option KState :=
  released_before_resume.map fun s =>
    let s1 := set_thread s 1 { s.threads 1 with lock_to_wait_on := some 1 }
    set_thread s1 2 { s1.threads 2 with donators_list := (s1.threads 2).donators_list ++ [1] }

/-- The donor-set invariant of the spec: the donors list of every thread `h`
holds exactly the threads whose `lock_to_wait_on` is a lock held by `h`. -/
def donor_set_invariant (s : KState) : Prop :=
  ∀ h t, t ∈ (s.threads h).donators_list ↔ waits_for s t h

/-- The state in which thread 2 (priority 10) calls `lock_acquire` on lock 0,
held by thread 1 (priority 1). -/
def contended_acquire : KState :=
  match (holder_has_lock 1 10).bind (fun r => (thread_yield r.2).map intr_enable) with
  | some s => s
  | none => example_state

/-- The state `contended_acquire` after thread 2 has called `lock_acquire` on
lock 0 and blocked. -/
def contended_blocked : KState :=
  match lock_acquire 0 contended_acquire with
  | some (_, s) => s
  | none => example_state

/-- No thread waits on two of the semaphores queued on the condition
variable (a thread is linked into one wait list at a time). -/
def cond_waiters_distinct (cond : condition) (s : KState) : Prop :=
  ∀ p ∈ cond.waiters, ∀ q ∈ cond.waiters, ∀ t,
    t ∈ (s.semas p).waiters → t ∈ (s.semas q).waiters → p = q

/-- The identifiers handed out so far: `tids_issued s h` holds when, since
the counter `next_tid` stood at its initial value 1, `allocate_tid` has handed
out exactly the identifiers in `h` (latest first) and the kernel is in state
`s`; `other` is any kernel activity that leaves the counter alone. -/
inductive tids_issued : KState → List Int → Prop where
  | init (s : KState) : s.next_tid = 1 → tids_issued s []
  | allocate (s s' : KState) (h : List Int) (tid : Int) :
      tids_issued s h → allocate_tid_locked s = some (tid, s') → tids_issued s' (tid :: h)
  | other (s s' : KState) (h : List Int) :
      tids_issued s h → s'.next_tid = s.next_tid → tids_issued s' h

/-- The example state with `tid_lock` as `lock_init` leaves it. -/
def create_state : KState :=
  set_lock example_state tid_lock lock_init

/-- The state `create_state` after its running thread 1 has created a thread
of priority 20 in the page at address 5. -/
def created_state : KState :=
  match thread_create 20 (some 5) create_state with
  | some (_, s) => s
  | none => example_state

/-! ## Notions for the scheduling linkage -/

/-- Thread `t` is linked into the ready list, the sleep list or the wait list
of some semaphore. -/
def linked (s : KState) (t : thread_ptr) : Prop :=
  t ∈ s.ready_list ∨ t ∈ s.sleep_list ∨ ∃ r, t ∈ (sema_at s r).waiters

/-- The kernel states reachable once the idle thread has stored itself in
`idle_thread` and blocked itself in `thread_block` (it is BLOCKED and on no
list), by calls of `thread_yield`, `sema_up` and `thread_awake` and by runs of
the scheduler (`schedule` itself, or `thread_block` entering it) that pass
their assertions. -/
inductive idle_parked_reachable : KState → Prop where
  | init (s : KState) (i : thread_ptr) :
      s.idle_thread = some i → (s.threads i).status = THREAD_BLOCKED → ¬ linked s i →
      idle_parked_reachable s
  | yield (s s' : KState) :
      idle_parked_reachable s → thread_yield s = some s' → idle_parked_reachable s'
  | up (s s' : KState) (r : sema_ptr) :
      idle_parked_reachable s → sema_up_at r s = some s' → idle_parked_reachable s'
  | awake (s s' : KState) (now : Int) :
      idle_parked_reachable s → thread_awake now s = some s' → idle_parked_reachable s'
  | block (s s' : KState) :
      idle_parked_reachable s → thread_block s = some s' → idle_parked_reachable s'
  | schedule (s s' : KState) :
      idle_parked_reachable s → schedule s = some s' → idle_parked_reachable s'

/-- Thread 1 runs; thread 2 is the idle thread, which has stored itself in
`idle_thread` and blocked itself; every list is empty. -/
def idle_parked : KState :=
  { example_state with
    threads := fun t =>
      if t = 1 then live_thread THREAD_RUNNING 31
      else if t = 2 then live_thread THREAD_BLOCKED 0
      else thread_zero,
    ready_list := [],
    idle_thread := some 2 }

/-- From `idle_parked`: thread 1 sleeps until tick 5, so that the idle thread
runs; the timer interrupt at tick 5 wakes thread 1; the idle thread yields. -/
def idle_yielded : KState :=
  match ((thread_sleep 5 idle_parked).bind (thread_awake 5)).bind thread_yield with
  | some s => s
  | none => idle_parked

/-- The state `idle_parked` with a third thread, of priority 7, blocked on
the semaphore at address 0. -/
def idle_parked_waiter : KState :=
  { idle_parked with
    threads := fun t =>
      if t = 1 then live_thread THREAD_RUNNING 31
      else if t = 2 then live_thread THREAD_BLOCKED 0
      else if t = 3 then live_thread THREAD_BLOCKED 7
      else thread_zero,
    semas := fun p => if p = 0 then { value := 0, waiters := [3] } else sema_init 0 }

/-- From `idle_parked_waiter`: thread 1 yields (and runs on, the ready list
being empty), then blocks, so that the idle thread runs. -/
def idle_running : KState :=
  match (thread_yield idle_parked_waiter).bind thread_block with
  | some s => s
  | none => idle_parked_waiter

/-- From `idle_running`: `sema_up` on the semaphore at address 0 wakes thread
3. -/
def idle_woke_waiter : KState :=
  match sema_up_at (sema_ptr.standalone 0) idle_running with
  | some s => s
  | none => idle_parked_waiter

/-- From `idle_woke_waiter`: the idle thread yields and thread 3 runs. -/
def idle_gave_way : KState :=
  match thread_yield idle_woke_waiter with
  | some s => s
  | none => idle_parked_waiter

/-- The scheduling linkage as the code keeps it.  Every thread in the ready
list is a live READY thread, and every live READY thread other than the idle
thread is in the ready list; every thread in the sleep list or in a wait list
is a live BLOCKED thread; no list holds a thread twice, no thread is in the
sleep list and in a wait list, or in two wait lists; the idle thread is neither
in the sleep list nor in a wait list. -/
structure linkage_invariant (s : KState) : Prop where
  ready_ok : ∀ t ∈ s.ready_list,
    is_thread (s.threads t) = true ∧ (s.threads t).status = THREAD_READY
  ready_all : ∀ t, is_thread (s.threads t) = true → (s.threads t).status = THREAD_READY →
    some t ≠ s.idle_thread → t ∈ s.ready_list
  sleep_ok : ∀ t ∈ s.sleep_list,
    is_thread (s.threads t) = true ∧ (s.threads t).status = THREAD_BLOCKED
  wait_ok : ∀ r, ∀ t ∈ (sema_at s r).waiters,
    is_thread (s.threads t) = true ∧ (s.threads t).status = THREAD_BLOCKED
  ready_nodup : s.ready_list.Nodup
  sleep_nodup : s.sleep_list.Nodup
  wait_nodup : ∀ r, (sema_at s r).waiters.Nodup
  sleep_wait : ∀ t ∈ s.sleep_list, ∀ r, t ∉ (sema_at s r).waiters
  wait_wait : ∀ r r' t, t ∈ (sema_at s r).waiters → t ∈ (sema_at s r').waiters → r = r'
  idle_free : ∀ i, s.idle_thread = some i →
    i ∉ s.sleep_list ∧ ∀ r, i ∉ (sema_at s r).waiters

/-- The kernel states reachable from a state without READY threads and with
empty ready list, sleep list and wait lists (as `thread_init` leaves the
kernel) by calls, made by the running thread, of `thread_create` (on a page
that holds no live thread), `thread_yield`, `sema_down`, `sema_up`,
`thread_sleep`, `thread_awake` and `thread_exit` that pass their assertions,
including the resumption of a caller suspended in `thread_create` or
`sema_down`.  The idle thread runs the function `idle`, which calls neither
`thread_create` nor `sema_down`; it can be made to yield.  A suspended
`thread_create` is resumed with the page it allocated, which is on no list. -/
inductive linkage_reachable : KState → Prop where
  | init (s : KState) :
      s.ready_list = [] → s.sleep_list = [] → (∀ r, (sema_at s r).waiters = []) →
      (∀ t, is_thread (s.threads t) = true → (s.threads t).status ≠ THREAD_READY) →
      linkage_reachable s
  | create (s s' : KState) (priority : Int) (page : Option thread_ptr) (ret : Option Int) :
      linkage_reachable s → some s.current ≠ s.idle_thread →
      (∀ t, page = some t → is_thread (s.threads t) = false) →
      thread_create priority page s = some (ret, s') → linkage_reachable s'
  | create_resume (s s' : KState) (old_level : intr_level) (t : thread_ptr)
      (ret : Option Int) :
      linkage_reachable s → some s.current ≠ s.idle_thread → ¬ linked s t →
      thread_create_resume old_level t s = some (ret, s') → linkage_reachable s'
  | yield (s s' : KState) :
      linkage_reachable s → thread_yield s = some s' → linkage_reachable s'
  | down (s s' : KState) (r : sema_ptr) (st : call_status) :
      linkage_reachable s → some s.current ≠ s.idle_thread →
      sema_down_at r s = some (st, s') → linkage_reachable s'
  | down_resume (s s' : KState) (old_level : intr_level) (r : sema_ptr) (st : call_status) :
      linkage_reachable s → some s.current ≠ s.idle_thread →
      sema_down_resume_at old_level r s = some (st, s') → linkage_reachable s'
  | up (s s' : KState) (r : sema_ptr) :
      linkage_reachable s → sema_up_at r s = some s' → linkage_reachable s'
  | sleep (s s' : KState) (tick : Int) :
      linkage_reachable s → thread_sleep tick s = some s' → linkage_reachable s'
  | awake (s s' : KState) (now : Int) :
      linkage_reachable s → thread_awake now s = some s' → linkage_reachable s'
  | exit (s s' : KState) :
      linkage_reachable s → thread_exit s = some s' → linkage_reachable s'

/-- From `idle_parked`: thread 1 sleeps until tick 5 and the idle thread
runs. -/
def idle_runs : KState :=
  match thread_sleep 5 idle_parked with
  | some s => s
  | none => idle_parked

/-- From `idle_runs`: the timer interrupt at tick 5 wakes thread 1 while the
idle thread is running. -/
def sleeper_woken : KState :=
  match thread_awake 5 idle_runs with
  | some s => s
  | none => idle_parked

/-- From `idle_parked`: thread 1 creates a thread of priority 20 in the page
at address 5. -/
def linkage_created : KState :=
  match thread_create 20 (some 5) idle_parked with
  | some (_, s) => s
  | none => idle_parked

/-- From `linkage_created`: thread 1 calls `sema_down` on the semaphore at
address 0, whose counter is 0, and blocks; thread 5 runs. -/
def linkage_blocked : KState :=
  match sema_down_at (sema_ptr.standalone 0) linkage_created with
  | some (_, s) => s
  | none => idle_parked

/-- From `linkage_blocked`: thread 5 sleeps until tick 9; the idle thread
runs. -/
def linkage_example : KState :=
  match thread_sleep 9 linkage_blocked with
  | some s => s
  | none => idle_parked

/-- The donors lists as the code keeps them, with what the proof needs about
the scheduling linkage and the lock counters: every thread on the donors list
of `h` has `lock_to_wait_on` set to a lock that `h` holds and is in the wait
list of that lock; the counter of a lock is at most 1, and 0 while the lock is
held. -/
structure donation_invariant (s : KState) : Prop where
  linkage : linkage_invariant s
  counter : ∀ l, (s.locks l).semaphore.value ≤ 1 ∧
    ((s.locks l).holder ≠ none → (s.locks l).semaphore.value = 0)
  donor_ok : ∀ h t, t ∈ (s.threads h).donators_list →
    ∃ l, (s.threads t).lock_to_wait_on = some l ∧ (s.locks l).holder = some h ∧
      t ∈ (s.locks l).semaphore.waiters

/-- The kernel states reachable through `lock_acquire` and `lock_release`:
from a state with a consistent scheduling linkage in which every lock is as
`lock_init` leaves it and no thread has a donor, by calls of `lock_acquire`
(and the resumption of a caller suspended in it), `lock_release` and
`thread_yield` that pass their assertions, and by changes of the interrupt
level.  The idle thread runs the function `idle`, which takes no lock. -/
inductive donation_reachable : KState → Prop where
  | init (s : KState) :
      linkage_invariant s → (∀ l, s.locks l = lock_init) →
      (∀ t, (s.threads t).donators_list = []) → donation_reachable s
  | acquire (s s' : KState) (l : lock_ptr) (st : call_status) :
      donation_reachable s → some s.current ≠ s.idle_thread →
      lock_acquire l s = some (st, s') → donation_reachable s'
  | resume (s s' : KState) (old_level : intr_level) (l : lock_ptr) (st : call_status) :
      donation_reachable s → some s.current ≠ s.idle_thread →
      thread_current s = some s.current →
      lock_acquire_resume old_level l s = some (st, s') → donation_reachable s'
  | release (s s' : KState) (l : lock_ptr) :
      donation_reachable s → lock_release l s = some s' → donation_reachable s'
  | yield (s s' : KState) :
      donation_reachable s → thread_yield s = some s' → donation_reachable s'
  | level (s : KState) (lv : intr_level) :
      donation_reachable s → donation_reachable (intr_set_level lv s)

/-- Threads 1, 2 and 3 as `init_thread` sets them up, with priorities 0, 20
and 10: thread 1 runs, threads 2 and 3 are on the ready list; every lock is
free. -/
def contenders : KState :=
  { example_state with
    threads := fun t =>
      if t = 1 then live_thread THREAD_RUNNING 0
      else if t = 2 then live_thread THREAD_READY 20
      else if t = 3 then live_thread THREAD_READY 10
      else thread_zero,
    ready_list := [2, 3] }

/-- From `contenders`: thread 1 has acquired lock 0. -/
def first_acquired : KState :=
  match lock_acquire 0 contenders with
  | some r => r.2
  | none => contenders

/-- Thread 1, holding lock 0, has yielded; thread 2 is switched in. -/
def second_scheduled : KState :=
  match thread_yield first_acquired with
  | some s => s
  | none => contenders

/-- Thread 2 runs for the first time (`kernel_thread` enables interrupts). -/
def second_runs : KState :=
  intr_set_level INTR_ON second_scheduled

/-- Thread 2 has called `lock_acquire` on lock 0 and is blocked; thread 3 is
switched in. -/
def second_blocked : KState :=
  match lock_acquire 0 second_runs with
  | some r => r.2
  | none => contenders

/-- Thread 3 runs for the first time. -/
def third_runs : KState :=
  intr_set_level INTR_ON second_blocked

/-- Thread 3 has called `lock_acquire` on lock 0 and is blocked; thread 1 is
switched in. -/
def third_blocked : KState :=
  match lock_acquire 0 third_runs with
  | some r => r.2
  | none => contenders

/-- Thread 1 is back from `thread_yield`, which restores the interrupt level:
it holds lock 0, and threads 2 and 3 wait for it. -/
def waiters_queued : KState :=
  intr_set_level INTR_ON third_blocked

/-- Thread 1 has released lock 0, which wakes thread 2. -/
def lock_released : KState :=
  match lock_release 0 waiters_queued with
  | some s => s
  | none => contenders

/-- Thread 1 has yielded after the release; thread 2 is switched in, inside
its suspended `lock_acquire`. -/
def second_resumes : KState :=
  match thread_yield lock_released with
  | some s => s
  | none => contenders

/-- The suspended `lock_acquire` of thread 2 has returned: thread 2 holds lock
0 and thread 3 is still blocked on it.  No thread other than thread 3 is inside
`lock_acquire` or `lock_release`. -/
def lock_handed_over : KState :=
  match lock_acquire_resume INTR_ON 0 second_resumes with
  | some r => r.2
  | none => contenders

/-! ## Lemmas on the list library -/

theorem sort_insert_perm {α : Type} (less : α → α → Bool) (x : α) (l : List α) :
    (sort_insert less x l).Perm (x :: l) := by
  induction l with
  | nil => simp [sort_insert]
  | cons y ys ih =>
    simp only [sort_insert]
    split
    · exact (List.Perm.cons y ih).trans (List.Perm.swap x y ys)
    · exact List.Perm.refl _

theorem list_sort_perm {α : Type} (less : α → α → Bool) (l : List α) :
    (list_sort less l).Perm l := by
  induction l with
  | nil => simp [list_sort]
  | cons x xs ih =>
    simp only [list_sort]
    exact (sort_insert_perm less x _).trans (List.Perm.cons x ih)

theorem list_sort_ne_nil {α : Type} (less : α → α → Bool) (l : List α) (h : l ≠ []) :
    list_sort less l ≠ [] := by
  intro h0
  have hp := list_sort_perm less l
  rw [h0] at hp
  exact h (List.Perm.eq_nil hp.symm)

/-- After sorting with a "greater key first" comparison, the front element
has the greatest key of the list. -/
theorem list_sort_head_max {α : Type} (key : α → Int) (l : List α) (t : α) (rest : List α)
    (h : list_sort (fun a b => decide (key a > key b)) l = t :: rest) :
    ∀ u ∈ l, key u ≤ key t := by
  induction l generalizing t rest with
  | nil => simp [list_sort] at h
  | cons x xs ih =>
    simp only [list_sort] at h
    cases hs : list_sort (fun a b => decide (key a > key b)) xs with
    | nil =>
      have hx : xs = [] := by
        by_contra hne
        exact list_sort_ne_nil _ xs hne hs
      rw [hs] at h
      simp only [sort_insert, List.cons.injEq] at h
      intro u hu
      rw [hx] at hu
      simp only [List.mem_singleton] at hu
      rw [hu, h.1]
    | cons t0 r0 =>
      rw [hs] at h
      have ih0 := ih t0 r0 hs
      simp only [sort_insert] at h
      by_cases hlt : key t0 > key x
      · simp only [hlt, decide_True, if_true, List.cons.injEq] at h
        intro u hu
        rw [← h.1]
        rcases List.mem_cons.mp hu with hu | hu
        · rw [hu]; exact le_of_lt hlt
        · exact ih0 u hu
      · simp only [hlt, decide_False, Bool.false_eq_true, if_false, List.cons.injEq] at h
        intro u hu
        rw [← h.1]
        rcases List.mem_cons.mp hu with hu | hu
        · rw [hu]
        · exact le_trans (ih0 u hu) (not_lt.mp hlt)

/-! ## Lemmas on thread.c -/

theorem upd_same {α : Type} (f : Nat → α) (i : Nat) (v : α) : upd f i v i = v := by
  simp [upd]

theorem upd_other {α : Type} (f : Nat → α) (i j : Nat) (v : α) (h : j ≠ i) :
    upd f i v j = f j := by
  simp [upd, h]

theorem intr_restore (s : KState) : intr_set_level s.level (intr_disable s) = s := by
  cases s; rfl

/-- What `thread_unblock` does to a live blocked thread. -/
theorem thread_unblock_blocked (t : thread_ptr) (s : KState)
    (h1 : is_thread (s.threads t) = true) (h2 : (s.threads t).status = THREAD_BLOCKED) :
    thread_unblock t s = some
      { s with
        threads := upd s.threads t { s.threads t with status := THREAD_READY },
        ready_list := s.ready_list ++ [t] } := by
  cases s
  simp_all [thread_unblock, intr_disable, intr_set_level, set_thread]

/-- The function `thread_unblock` succeeds only on a live blocked thread. -/
theorem thread_unblock_some (t : thread_ptr) (s s2 : KState)
    (h : thread_unblock t s = some s2) :
    is_thread (s.threads t) = true ∧ (s.threads t).status = THREAD_BLOCKED := by
  unfold thread_unblock at h
  by_cases h1 : is_thread (s.threads t) = false
  · simp [h1] at h
  · by_cases h2 : (s.threads t).status = THREAD_BLOCKED
    · exact ⟨by simpa using h1, h2⟩
    · simp [h1, intr_disable, h2] at h

theorem test_max_priority_threads (s : KState) :
    (test_max_priority s).threads = s.threads ∧ (test_max_priority s).locks = s.locks ∧
    (test_max_priority s).ready_list = s.ready_list ∧
    (test_max_priority s).current = s.current := by
  unfold test_max_priority
  split <;> simp

/-! ## Lemmas on semaphores -/

/-- With a waiter present, `sema_up` sorts the waiters, unblocks the front one
and increments the counter. -/
theorem sema_up_wake (sema : semaphore) (s : KState)
    (hne : sema.waiters ≠ []) (hblk : waiters_blocked sema s) :
    ∃ t rest, list_sort (cmp_priority s) sema.waiters = t :: rest ∧
      sema_up sema s = some
        ({ value := (sema.value + 1) % UINT_MODULUS, waiters := rest },
         intr_set_level s.level (test_max_priority
           { intr_disable s with
             threads := upd s.threads t { s.threads t with status := THREAD_READY },
             ready_list := s.ready_list ++ [t] })) := by
  have hsort : list_sort (cmp_priority s) sema.waiters ≠ [] := list_sort_ne_nil _ _ hne
  cases hl : list_sort (cmp_priority s) sema.waiters with
  | nil => exact absurd hl hsort
  | cons t rest =>
    refine ⟨t, rest, rfl, ?_⟩
    have hmem : t ∈ sema.waiters := by
      have := (list_sort_perm (cmp_priority s) sema.waiters).subset
      apply this
      rw [hl]; exact List.mem_cons_self _ _
    obtain ⟨ht1, ht2⟩ := hblk t hmem
    have hs1 : cmp_priority (intr_disable s) = cmp_priority s := rfl
    have hub := thread_unblock_blocked t (intr_disable s) ht1 ht2
    simp only [sema_up, hne, ne_eq, not_false_eq_true, if_true, hs1, hl, hub]
    rfl

/-- With no waiter, `sema_up` only increments the counter. -/
theorem sema_up_no_waiter (sema : semaphore) (s : KState) (he : sema.waiters = []) :
    sema_up sema s = some
      ({ value := (sema.value + 1) % UINT_MODULUS, waiters := [] },
       intr_set_level s.level (test_max_priority (intr_disable s))) := by
  cases sema with
  | mk v w =>
    simp only at he
    subst he
    simp [sema_up]

/-- What `thread_block` does when the running thread can be switched out: the
caller ends up BLOCKED, and only thread statuses, the ready list, the tick
counter and the running thread change. -/
theorem thread_block_switch (s : KState) (hctx : s.in_intr_context = false)
    (hlev : s.level = INTR_OFF) (hsw : can_switch_out s) :
    ∃ s', thread_block s = some s' ∧ (s'.threads s.current).status = THREAD_BLOCKED ∧
      s'.locks = s.locks := by
  obtain ⟨hcur, next, hnext, hne, hlive⟩ := hsw
  have hne2 : ¬ s.current = next := fun h => hne h.symm
  cases s with
  | mk threads locks ready sleep destr idle initial current tick ticks level ctx yr yo it kt sm nt =>
    simp only at hctx hlev hne hlive hne2
    subst hctx hlev
    cases ready with
    | nil =>
      simp only [next_thread_to_run] at hnext
      subst hnext
      simp [thread_block, hcur, schedule, next_thread_to_run, set_thread, upd, hne, hne2, hlive]
    | cons r rest =>
      simp only [next_thread_to_run, Option.some.injEq] at hnext
      subst hnext
      simp [thread_block, hcur, schedule, next_thread_to_run, set_thread, upd, hne, hne2, hlive]

/-- The loop of `sema_down` standing at a counter of 0: the caller is appended
to the waiters and blocked, the counter stays 0. -/
theorem sema_down_loop_zero (old_level : intr_level) (sema : semaphore) (s : KState)
    (hctx : s.in_intr_context = false) (hlev : s.level = INTR_OFF)
    (hsw : can_switch_out s) (hz : sema.value = 0) :
    ∃ s', sema_down_loop old_level sema s =
        some (suspended, { value := 0, waiters := sema.waiters ++ [s.current] }, s') ∧
      (s'.threads s.current).status = THREAD_BLOCKED ∧ s'.locks = s.locks := by
  obtain ⟨s', hb, hst, hl⟩ := thread_block_switch s hctx hlev hsw
  refine ⟨s', ?_, hst, hl⟩
  simp [sema_down_loop, hz, hsw.1, hb]

/-- The loop of `sema_down` never decrements a counter that is 0. -/
theorem sema_down_loop_value (old_level : intr_level) (sema sema' : semaphore)
    (s s' : KState) (st : call_status)
    (h : sema_down_loop old_level sema s = some (st, sema', s')) :
    (sema.value = 0 → sema'.value = 0 ∧ st = suspended) ∧
    (0 < sema.value → sema'.value + 1 = sema.value ∧ st = completed) := by
  unfold sema_down_loop at h
  by_cases hz : sema.value = 0
  · simp only [hz, if_true] at h
    cases hc : thread_current s with
    | none => simp [hc] at h
    | some cur =>
      cases hb : thread_block s with
      | none => simp [hc, hb] at h
      | some s1 =>
        simp only [hc, hb, Option.some.injEq, Prod.mk.injEq] at h
        obtain ⟨h1, h2, _⟩ := h
        subst h1 h2
        exact ⟨fun _ => ⟨rfl, rfl⟩, fun hp => absurd hz (Nat.pos_iff_ne_zero.mp hp)⟩
  · simp only [hz, if_false, Option.some.injEq, Prod.mk.injEq] at h
    obtain ⟨h1, h2, _⟩ := h
    subst h1 h2
    refine ⟨fun h0 => absurd h0 hz, fun _ => ⟨?_, rfl⟩⟩
    simp only
    omega

theorem can_switch_out_intr_disable (s : KState) (h : can_switch_out s) :
    can_switch_out (intr_disable s) := by
  obtain ⟨hcur, next, hnext, hne, hlive⟩ := h
  refine ⟨hcur, next, ?_, hne, hlive⟩
  cases s with
  | mk threads locks ready sleep destr idle initial current tick ticks level ctx yr yo it kt sm nt =>
    cases ready with
    | nil => simpa [next_thread_to_run, intr_disable] using hnext
    | cons r rest => simpa [next_thread_to_run, intr_disable] using hnext

/-! ## Frame lemmas: what leaves the locks untouched -/

theorem schedule_locks (s s' : KState) (h : schedule s = some s') : s'.locks = s.locks := by
  unfold schedule next_thread_to_run at h
  cases hr : s.ready_list with
  | nil =>
    simp only [hr] at h
    cases hi : s.idle_thread with
    | none => simp [hi] at h
    | some n =>
      simp only [hi] at h
      split_ifs at h <;> simp only [Option.some.injEq] at h <;> subst h <;> rfl
  | cons r rest =>
    simp only [hr] at h
    split_ifs at h <;> simp only [Option.some.injEq] at h <;> subst h <;> rfl

theorem thread_block_locks (s s' : KState) (h : thread_block s = some s') :
    s'.locks = s.locks := by
  unfold thread_block at h
  split_ifs at h
  cases hc : thread_current s with
  | none => simp [hc] at h
  | some cur =>
    simp only [hc] at h
    have hl := schedule_locks _ _ h
    exact hl

theorem sema_down_loop_locks (old_level : intr_level) (sema sema' : semaphore)
    (s s' : KState) (st : call_status)
    (h : sema_down_loop old_level sema s = some (st, sema', s')) : s'.locks = s.locks := by
  unfold sema_down_loop at h
  split_ifs at h
  · cases hc : thread_current s with
    | none => simp [hc] at h
    | some cur =>
      cases hb : thread_block s with
      | none => simp [hc, hb] at h
      | some s1 =>
        simp only [hc, hb, Option.some.injEq, Prod.mk.injEq] at h
        obtain ⟨_, _, h3⟩ := h
        subst h3
        exact thread_block_locks _ _ hb
  · simp only [Option.some.injEq, Prod.mk.injEq] at h
    obtain ⟨_, _, h3⟩ := h
    subst h3
    rfl

theorem donate_loop_locks (depth : Nat) (t : thread_ptr) (s s' : KState)
    (written : List thread_ptr) (h : donate_loop depth t s = some (s', written)) :
    s'.locks = s.locks := by
  induction depth generalizing t s s' written with
  | zero =>
    simp only [donate_loop, Option.some.injEq, Prod.mk.injEq] at h
    rw [← h.1]
  | succ n ih =>
    simp only [donate_loop] at h
    cases hw : (s.threads t).lock_to_wait_on with
    | none =>
      simp only [hw, Option.some.injEq, Prod.mk.injEq] at h
      rw [← h.1]
    | some l =>
      simp only [hw] at h
      cases hh : (s.locks l).holder with
      | none => simp [hh] at h
      | some holder =>
        simp only [hh] at h
        cases hd : donate_loop n holder
            (set_thread s holder { s.threads holder with priority := (s.threads t).priority }) with
        | none => simp [hd] at h
        | some r =>
          obtain ⟨s2, w2⟩ := r
          simp only [hd, Option.some.injEq, Prod.mk.injEq] at h
          have := ih _ _ _ _ hd
          rw [← h.1, this]
          rfl

/-! ## Claims C1 to C4: semaphores -/

/-- C1: on a semaphore with a non-empty wait set (of live blocked threads),
`sema_up` removes exactly one thread `t` from the wait set (the old wait set is
a rearrangement of `t` followed by the new one, so every other waiter stays),
and the effective priority of `t` is at least that of every thread that was
waiting. -/
theorem sema_up_removes_highest_priority_waiter (sema : semaphore) (s : KState)
    (hne : sema.waiters ≠ []) (hblk : waiters_blocked sema s) :
    ∃ t sema' s', sema_up sema s = some (sema', s') ∧
      sema.waiters.Perm (t :: sema'.waiters) ∧
      ∀ u ∈ sema.waiters, (s.threads u).priority ≤ (s.threads t).priority := by
  obtain ⟨t, rest, hsort, hup⟩ := sema_up_wake sema s hne hblk
  refine ⟨t, _, _, hup, ?_, ?_⟩
  · have hp := list_sort_perm (cmp_priority s) sema.waiters
    rw [hsort] at hp
    exact hp.symm
  · exact list_sort_head_max (fun a => (s.threads a).priority) sema.waiters t rest hsort

/-- Witness for C1: with threads 2 (priority 5) and 3 (priority 9) waiting,
`sema_up` wakes a thread of highest priority. -/
theorem sema_up_removes_highest_priority_waiter_witness :
    (({ value := 0, waiters := [2, 3] } : semaphore).waiters ≠ []) ∧
    waiters_blocked { value := 0, waiters := [2, 3] } example_state ∧
    ∃ t sema' s', sema_up { value := 0, waiters := [2, 3] } example_state = some (sema', s') ∧
      ([2, 3] : List thread_ptr).Perm (t :: sema'.waiters) ∧
      ∀ u ∈ ([2, 3] : List thread_ptr),
        (example_state.threads u).priority ≤ (example_state.threads t).priority :=
  ⟨by decide, by unfold waiters_blocked; decide,
   sema_up_removes_highest_priority_waiter { value := 0, waiters := [2, 3] } example_state
     (by decide) (by unfold waiters_blocked; decide)⟩

/-- C2 (amended): for every semaphore whose waiters are live blocked threads
and whose counter is below the largest `unsigned` value, `sema_up` increases
the counter by exactly one; and when the counter is 0 and the sole waiter is
the blocked thread `A`, it leaves the wait set empty, makes `A` READY, appends
`A` to the ready queue (one more occurrence of `A` there) and leaves the counter
at exactly 1. -/
theorem sema_up_no_lost_wakeup (sema : semaphore) (s : KState)
    (hblk : waiters_blocked sema s) (hlt : sema.value + 1 < UINT_MODULUS) :
    ∃ sema' s', sema_up sema s = some (sema', s') ∧
      sema'.value = sema.value + 1 ∧
      ∀ A, sema.waiters = [A] → sema.value = 0 →
        sema'.waiters = [] ∧ (s'.threads A).status = THREAD_READY ∧
        s'.ready_list = s.ready_list ++ [A] ∧
        s'.ready_list.count A = s.ready_list.count A + 1 ∧
        sema'.value = 1 := by
  by_cases hne : sema.waiters = []
  · refine ⟨_, _, sema_up_no_waiter sema s hne, Nat.mod_eq_of_lt hlt, ?_⟩
    intro A hA
    rw [hne] at hA
    exact absurd hA (by simp)
  · obtain ⟨t, rest, hsort, hup⟩ := sema_up_wake sema s hne hblk
    refine ⟨_, _, hup, Nat.mod_eq_of_lt hlt, ?_⟩
    intro A hA hz
    rw [hA] at hsort
    simp only [list_sort, sort_insert, List.cons.injEq] at hsort
    obtain ⟨h1, h2⟩ := hsort
    subst h1 h2
    have hrl := (test_max_priority_threads
      { intr_disable s with
        threads := upd s.threads A { s.threads A with status := THREAD_READY },
        ready_list := s.ready_list ++ [A] })
    refine ⟨rfl, ?_, ?_, ?_, ?_⟩
    · simp [intr_set_level, hrl.1, upd]
    · simp [intr_set_level, hrl.2.2.1]
    · simp [intr_set_level, hrl.2.2.1]
    · simp only [hz]
      exact Nat.mod_eq_of_lt (by decide)

/-- Witness for C2: thread 2 is the sole waiter of a semaphore at 0. -/
theorem sema_up_no_lost_wakeup_witness :
    waiters_blocked { value := 0, waiters := [2] } example_state ∧
    (({ value := 0, waiters := [2] } : semaphore).value + 1 < UINT_MODULUS) ∧
    ∃ sema' s', sema_up { value := 0, waiters := [2] } example_state = some (sema', s') ∧
      sema'.value = ({ value := 0, waiters := [2] } : semaphore).value + 1 ∧
      ∀ A, ({ value := 0, waiters := [2] } : semaphore).waiters = [A] →
        ({ value := 0, waiters := [2] } : semaphore).value = 0 →
        sema'.waiters = [] ∧ (s'.threads A).status = THREAD_READY ∧
        s'.ready_list = example_state.ready_list ++ [A] ∧
        s'.ready_list.count A = example_state.ready_list.count A + 1 ∧
        sema'.value = 1 :=
  ⟨by unfold waiters_blocked; decide, by decide,
   sema_up_no_lost_wakeup { value := 0, waiters := [2] } example_state
     (by unfold waiters_blocked; decide) (by decide)⟩

/-- Counterexample to C2 as stated: at the largest `unsigned` value the
counter wraps to 0 instead of increasing by one. -/
theorem sema_up_counter_wraps :
    ∃ sema' s', sema_up { value := 4294967295, waiters := [] } example_state
        = some (sema', s') ∧
      sema'.value = 0 ∧ sema'.value ≠ 4294967295 + 1 :=
  ⟨_, _, rfl, rfl, by decide⟩

/-- C3: outside interrupt context, `sema_down` on a positive counter
decrements it by exactly one and changes neither the wait set nor any part of
the kernel state; on a counter of 0 it appends the caller to the wait set,
leaves the caller BLOCKED and the counter at 0, and a woken waiter that
re-enters the loop at a counter of 0 is enqueued again.  In every case the
counter is decremented only when it is positive, so it never wraps below 0. -/
theorem sema_down_decrements_or_blocks (sema : semaphore) (s : KState)
    (hctx : s.in_intr_context = false) :
    (0 < sema.value →
      sema_down sema s
        = some (completed, { value := sema.value - 1, waiters := sema.waiters }, s) ∧
      (sema.value - 1) + 1 = sema.value) ∧
    (sema.value = 0 → can_switch_out s →
      ∃ s', sema_down sema s
          = some (suspended, { value := 0, waiters := sema.waiters ++ [s.current] }, s') ∧
        (s'.threads s.current).status = THREAD_BLOCKED) ∧
    (∀ old_level, sema.value = 0 → can_switch_out s → s.level = INTR_OFF →
      ∃ s', sema_down_loop old_level sema s
          = some (suspended, { value := 0, waiters := sema.waiters ++ [s.current] }, s') ∧
        (s'.threads s.current).status = THREAD_BLOCKED) ∧
    (∀ st sema' s', sema_down sema s = some (st, sema', s') →
      (sema.value = 0 → sema'.value = 0) ∧
      (0 < sema.value → sema'.value + 1 = sema.value)) := by
  refine ⟨?_, ?_, ?_, ?_⟩
  · intro hpos
    have hz : sema.value ≠ 0 := Nat.pos_iff_ne_zero.mp hpos
    refine ⟨?_, by omega⟩
    simp [sema_down, hctx, sema_down_loop, hz, intr_restore]
  · intro hz hsw
    obtain ⟨s', h1, h2, _⟩ := sema_down_loop_zero s.level sema (intr_disable s)
      hctx rfl (can_switch_out_intr_disable s hsw) hz
    exact ⟨s', by simpa [sema_down, hctx] using h1, h2⟩
  · intro old_level hz hsw hlev
    obtain ⟨s', h1, h2, _⟩ := sema_down_loop_zero old_level sema s hctx hlev hsw hz
    exact ⟨s', h1, h2⟩
  · intro st sema' s' h
    simp only [sema_down, hctx, Bool.false_eq_true, if_false] at h
    have := sema_down_loop_value _ _ _ _ _ _ h
    exact ⟨fun h0 => (this.1 h0).1, fun hp => (this.2 hp).1⟩

/-- Witness for C3: thread 1 of the example state calls `sema_down` on a
semaphore at 0 and is blocked behind the waiting thread 2. -/
theorem sema_down_decrements_or_blocks_witness :
    example_state.in_intr_context = false ∧ can_switch_out example_state ∧
    ∃ s', sema_down { value := 0, waiters := [2] } example_state
        = some (suspended, { value := 0, waiters := [2] ++ [example_state.current] }, s') ∧
      (s'.threads example_state.current).status = THREAD_BLOCKED :=
  ⟨rfl, ⟨by decide, 4, rfl, by decide, rfl⟩,
   (sema_down_decrements_or_blocks { value := 0, waiters := [2] } example_state rfl).2.1 rfl
     ⟨by decide, 4, rfl, by decide, rfl⟩⟩

/-- C4: `sema_try_down` returns true exactly when the counter was positive;
on true the counter is one less, on false it is unchanged; the wait set and the
whole kernel state (so every thread's status) are unchanged either way. -/
theorem sema_try_down_spec (sema : semaphore) (s : KState) :
    ((sema_try_down sema s).1 = true ↔ 0 < sema.value) ∧
    ((sema_try_down sema s).1 = true → (sema_try_down sema s).2.1.value + 1 = sema.value) ∧
    ((sema_try_down sema s).1 = false → (sema_try_down sema s).2.1.value = sema.value) ∧
    (sema_try_down sema s).2.1.waiters = sema.waiters ∧
    (sema_try_down sema s).2.2 = s := by
  by_cases hpos : 0 < sema.value
  · simp [sema_try_down, hpos, intr_restore]
    omega
  · have hz : sema.value = 0 := by omega
    simp [sema_try_down, hz, intr_restore]

/-! ## Lemmas on locks -/

theorem thread_current_eq (s : KState) (c : thread_ptr) (h : thread_current s = some c) :
    c = s.current := by
  unfold thread_current at h
  split_ifs at h
  simp only [Option.some.injEq] at h
  exact h.symm

theorem donate_priority_locks (s s' : KState) (h : donate_priority s = some s') :
    s'.locks = s.locks := by
  unfold donate_priority donate_priority_trace at h
  cases hc : thread_current s with
  | none => simp [hc] at h
  | some t =>
    simp only [hc] at h
    cases hd : donate_loop 8 t s with
    | none => simp [hd] at h
    | some r =>
      obtain ⟨s2, w⟩ := r
      simp only [hd, Option.map_some', Option.some.injEq] at h
      subst h
      exact donate_loop_locks _ _ _ _ _ hd

theorem thread_unblock_locks (t : thread_ptr) (s s' : KState)
    (h : thread_unblock t s = some s') : s'.locks = s.locks := by
  obtain ⟨h1, h2⟩ := thread_unblock_some t s s' h
  rw [thread_unblock_blocked t s h1 h2] at h
  simp only [Option.some.injEq] at h
  subst h
  rfl

/-- The function `sema_up` adds one to the counter modulo the size of
`unsigned` and leaves the locks untouched. -/
theorem sema_up_value (sema sema' : semaphore) (s s' : KState)
    (h : sema_up sema s = some (sema', s')) :
    sema'.value = (sema.value + 1) % UINT_MODULUS ∧ s'.locks = s.locks := by
  unfold sema_up at h
  by_cases hne : sema.waiters = []
  · simp only [hne, ne_eq, not_true_eq_false, if_false, Option.some.injEq,
      Prod.mk.injEq] at h
    obtain ⟨h1, h2⟩ := h
    subst h1 h2
    exact ⟨rfl, by simp [intr_set_level, (test_max_priority_threads _).2.1, intr_disable]⟩
  · simp only [hne, ne_eq, not_false_eq_true, if_true] at h
    cases hl : list_sort (cmp_priority (intr_disable s)) sema.waiters with
    | nil => simp [hl] at h
    | cons t rest =>
      simp only [hl] at h
      cases hu : thread_unblock t (intr_disable s) with
      | none => simp [hu] at h
      | some s2 =>
        simp only [hu, Option.some.injEq, Prod.mk.injEq] at h
        obtain ⟨h1, h2⟩ := h
        subst h1 h2
        refine ⟨rfl, ?_⟩
        have := thread_unblock_locks _ _ _ hu
        simp [intr_set_level, (test_max_priority_threads _).2.1, this, intr_disable]

theorem remove_with_lock_locks (l : lock_ptr) (s s' : KState)
    (h : remove_with_lock l s = some s') : s'.locks = s.locks := by
  unfold remove_with_lock at h
  cases hc : thread_current s with
  | none => simp [hc] at h
  | some cur =>
    simp only [hc, Option.some.injEq] at h
    subst h
    rfl

theorem refresh_priority_locks (s s' : KState)
    (h : refresh_priority s = some s') : s'.locks = s.locks := by
  unfold refresh_priority at h
  cases hc : thread_current s with
  | none => simp [hc] at h
  | some cur =>
    simp only [hc] at h
    split_ifs at h
    · split at h
      · simp at h
      · split_ifs at h <;> simp only [Option.some.injEq] at h <;> subst h <;> rfl
    · simp only [Option.some.injEq] at h
      subst h
      rfl

/-- Effect on lock `l` of the semaphore loop followed by the end of
`lock_acquire`. -/
theorem after_down_lock (l : lock_ptr) (cur : thread_ptr) (old_level : intr_level)
    (sema : semaphore) (s0 s' : KState) (st : call_status)
    (h : (sema_down_loop old_level sema s0).map (lock_acquire_after_down l cur)
      = some (st, s')) :
    (st = completed → (s'.locks l).holder = some cur ∧
      (s'.locks l).semaphore.value + 1 = sema.value) ∧
    (st = suspended → (s'.locks l).holder = (s0.locks l).holder ∧
      sema.value = 0 ∧ (s'.locks l).semaphore.value = 0) := by
  cases hd : sema_down_loop old_level sema s0 with
  | none => simp [hd] at h
  | some r =>
    obtain ⟨st0, sema1, s1⟩ := r
    have hv := sema_down_loop_value _ _ _ _ _ _ hd
    have hl := sema_down_loop_locks _ _ _ _ _ _ hd
    simp only [hd, Option.map_some', Option.some.injEq] at h
    cases st0 with
    | completed =>
      simp only [lock_acquire_after_down, Prod.mk.injEq] at h
      obtain ⟨h1, h2⟩ := h
      subst h1 h2
      have hpos : 0 < sema.value := by
        rcases Nat.eq_zero_or_pos sema.value with h0 | h0
        · exact absurd (hv.1 h0).2 (by decide)
        · exact h0
      refine ⟨fun _ => ⟨?_, ?_⟩, fun h => absurd h (by decide)⟩
      · simp [lock_acquire_finish, set_lock, set_thread, upd]
      · simpa [lock_acquire_finish, set_lock, set_thread, upd] using (hv.2 hpos).1
    | suspended =>
      simp only [lock_acquire_after_down, Prod.mk.injEq] at h
      obtain ⟨h1, h2⟩ := h
      subst h1 h2
      have hz : sema.value = 0 := by
        rcases Nat.eq_zero_or_pos sema.value with h0 | h0
        · exact h0
        · exact absurd (hv.2 h0).2 (by decide)
      refine ⟨fun h => absurd h (by decide), fun _ => ⟨?_, hz, ?_⟩⟩
      · simp [set_lock, upd, hl]
      · simpa [set_lock, upd] using (hv.1 hz).1

theorem sema_down_after_lock (l : lock_ptr) (cur : thread_ptr)
    (s s3 s' : KState) (st : call_status) (hl : s3.locks = s.locks)
    (h : (sema_down (s3.locks l).semaphore s3).map (lock_acquire_after_down l cur)
      = some (st, s')) :
    (st = completed → (s'.locks l).holder = some cur ∧
      (s'.locks l).semaphore.value + 1 = (s.locks l).semaphore.value) ∧
    (st = suspended → (s'.locks l).holder = (s.locks l).holder ∧
      (s.locks l).semaphore.value = 0 ∧ (s'.locks l).semaphore.value = 0) := by
  unfold sema_down at h
  split_ifs at h with hctx
  · simp at h
  · have := after_down_lock l cur _ _ _ _ _ h
    have hl2 : (intr_disable s3).locks = s.locks := hl
    rw [hl2, hl] at this
    exact this

/-- Effect of `lock_acquire` on the lock it is called on. -/
theorem lock_acquire_lock (l : lock_ptr) (s s' : KState) (st : call_status)
    (h : lock_acquire l s = some (st, s')) :
    (s.locks l).holder ≠ some s.current ∧
    (st = completed → (s'.locks l).holder = some s.current ∧
      (s'.locks l).semaphore.value + 1 = (s.locks l).semaphore.value) ∧
    (st = suspended → (s'.locks l).holder = (s.locks l).holder ∧
      (s.locks l).semaphore.value = 0 ∧ (s'.locks l).semaphore.value = 0) := by
  unfold lock_acquire at h
  split_ifs at h with hctx
  unfold lock_held_by_current_thread at h
  cases hc : thread_current s with
  | none => simp [hc] at h
  | some cur =>
    have hcur := thread_current_eq s cur hc
    subst hcur
    simp only [hc] at h
    by_cases hheld : (s.locks l).holder = some s.current
    · simp [hheld] at h
    · refine ⟨hheld, ?_⟩
      simp only [hheld, decide_False] at h
      cases hH : (s.locks l).holder with
      | none =>
        simp only [hH] at h
        have := sema_down_after_lock l s.current s s s' st rfl h
        rw [hH] at this
        exact this
      | some holder =>
        simp only [hH] at h
        split at h
        · simp at h
        · rename_i s3 hd
          have hl3 : s3.locks = s.locks := by
            have hx := donate_priority_locks _ _ hd
            exact hx
          have := sema_down_after_lock l s.current s s3 s' st hl3 h
          rw [hH] at this
          exact this

/-- Effect of resuming a suspended `lock_acquire` on its lock. -/
theorem lock_acquire_resume_lock (old_level : intr_level) (l : lock_ptr) (s s' : KState)
    (st : call_status) (h : lock_acquire_resume old_level l s = some (st, s')) :
    (st = completed → (s'.locks l).holder = some s.current ∧
      (s'.locks l).semaphore.value + 1 = (s.locks l).semaphore.value) ∧
    (st = suspended → (s'.locks l).holder = (s.locks l).holder ∧
      (s.locks l).semaphore.value = 0 ∧ (s'.locks l).semaphore.value = 0) :=
  after_down_lock l s.current old_level _ s s' st h

/-- Effect of `lock_try_acquire` on its lock. -/
theorem lock_try_acquire_lock (l : lock_ptr) (s s' : KState) (b : Bool)
    (h : lock_try_acquire l s = some (b, s')) :
    (s.locks l).holder ≠ some s.current ∧
    (b = true → 0 < (s.locks l).semaphore.value ∧ (s'.locks l).holder = some s.current ∧
      (s'.locks l).semaphore.value + 1 = (s.locks l).semaphore.value) ∧
    (b = false → (s.locks l).semaphore.value = 0 ∧ s'.locks l = s.locks l) := by
  unfold lock_try_acquire lock_held_by_current_thread at h
  cases hc : thread_current s with
  | none => simp [hc] at h
  | some cur =>
    have hcur := thread_current_eq s cur hc
    subst hcur
    simp only [hc] at h
    by_cases hheld : (s.locks l).holder = some s.current
    · simp [hheld] at h
    · refine ⟨hheld, ?_⟩
      simp only [hheld, decide_False] at h
      by_cases hpos : 0 < (s.locks l).semaphore.value
      · simp only [sema_try_down, hpos, if_true, intr_restore, hc, Option.some.injEq,
          Prod.mk.injEq] at h
        obtain ⟨h1, h2⟩ := h
        subst h1 h2
        refine ⟨fun _ => ⟨hpos, ?_, ?_⟩, fun hf => absurd hf (by decide)⟩
        · simp [set_lock, upd]
        · simp only [set_lock, upd, if_true]
          omega
      · simp only [sema_try_down, hpos, if_false, intr_restore, Option.some.injEq,
          Prod.mk.injEq] at h
        obtain ⟨h1, h2⟩ := h
        subst h1 h2
        refine ⟨fun hf => absurd hf (by decide), fun _ => ⟨by omega, ?_⟩⟩
        simp [set_lock, upd]

/-- Effect of `lock_release` on its lock. -/
theorem lock_release_lock (l : lock_ptr) (s s' : KState)
    (h : lock_release l s = some s') :
    (s.locks l).holder = some s.current ∧ (s'.locks l).holder = none ∧
    (s'.locks l).semaphore.value = ((s.locks l).semaphore.value + 1) % UINT_MODULUS := by
  unfold lock_release lock_held_by_current_thread at h
  cases hc : thread_current s with
  | none => simp [hc] at h
  | some cur =>
    have hcur := thread_current_eq s cur hc
    subst hcur
    simp only [hc] at h
    by_cases hheld : (s.locks l).holder = some s.current
    · refine ⟨hheld, ?_⟩
      simp only [hheld, decide_True] at h
      cases hr : remove_with_lock l s with
      | none => simp [hr] at h
      | some s1 =>
        simp only [hr] at h
        cases hf : refresh_priority s1 with
        | none => simp [hf] at h
        | some s2 =>
          simp only [hf] at h
          have hl1 := remove_with_lock_locks _ _ _ hr
          have hl2 := refresh_priority_locks _ _ hf
          split at h
          · simp at h
          · rename_i sema s4 hu
            simp only [Option.some.injEq] at h
            subst h
            have hv := sema_up_value _ _ _ _ hu
            refine ⟨by simp [set_lock, upd, hv.2], ?_⟩
            simp only [set_lock, upd, if_true]
            rw [hv.1]
            simp [set_lock, upd, hl2, hl1]
    · simp [hheld] at h

/-! ## Claim C5: the lock invariant -/

/-- In every reachable state the counter of the lock is at most 1, and it is 0
while the lock has a holder. -/
theorem lock_reachable_inv (l : lock_ptr) (s : KState) (h : lock_reachable l s) :
    (s.locks l).semaphore.value ≤ 1 ∧
    ((s.locks l).holder ≠ none → (s.locks l).semaphore.value = 0) := by
  induction h with
  | init s0 => simp [set_lock, upd, lock_init, sema_init]
  | acquire s0 s1 st _ hstep ih =>
    obtain ⟨_, hc, hs⟩ := lock_acquire_lock l s0 s1 st hstep
    cases st with
    | completed =>
      have := (hc rfl).2
      have hv : (s1.locks l).semaphore.value = 0 := by omega
      exact ⟨by omega, fun _ => hv⟩
    | suspended =>
      obtain ⟨_, _, hv⟩ := hs rfl
      exact ⟨by omega, fun _ => hv⟩
  | resume s0 s1 old st _ hstep ih =>
    obtain ⟨hc, hs⟩ := lock_acquire_resume_lock old l s0 s1 st hstep
    cases st with
    | completed =>
      have := (hc rfl).2
      have hv : (s1.locks l).semaphore.value = 0 := by omega
      exact ⟨by omega, fun _ => hv⟩
    | suspended =>
      obtain ⟨_, _, hv⟩ := hs rfl
      exact ⟨by omega, fun _ => hv⟩
  | try_acquire s0 s1 b _ hstep ih =>
    obtain ⟨_, ht, hf⟩ := lock_try_acquire_lock l s0 s1 b hstep
    cases b with
    | true =>
      have := (ht rfl).2.2
      have hv : (s1.locks l).semaphore.value = 0 := by omega
      exact ⟨by omega, fun _ => hv⟩
    | false =>
      rw [(hf rfl).2]
      exact ih
  | release s0 s1 _ hstep ih =>
    obtain ⟨hh, hn, hv⟩ := lock_release_lock l s0 s1 hstep
    have h0 : (s0.locks l).semaphore.value = 0 := ih.2 (by rw [hh]; simp)
    rw [h0] at hv
    have hv1 : (s1.locks l).semaphore.value = 1 := by rw [hv]; decide
    exact ⟨by omega, fun hne => absurd hn hne⟩
  | other s0 s1 _ hsame ih =>
    rw [hsame]
    exact ih

/-- C5: in every state reachable from `lock_init` through `lock_acquire`,
`lock_try_acquire` and `lock_release` calls that pass their assertions, a lock
with a holder has semaphore counter 0; `lock_try_acquire` returns true only
when the lock had no holder, and then the caller is the holder; when it returns
false, holder and counter are unchanged. -/
theorem lock_holder_implies_counter_zero (l : lock_ptr) (s : KState)
    (h : lock_reachable l s) :
    ((s.locks l).holder ≠ none → (s.locks l).semaphore.value = 0) ∧
    (∀ b s', lock_try_acquire l s = some (b, s') →
      (b = true → (s.locks l).holder = none ∧ (s'.locks l).holder = some s.current) ∧
      (b = false → (s'.locks l).holder = (s.locks l).holder ∧
        (s'.locks l).semaphore.value = (s.locks l).semaphore.value)) := by
  have hinv := lock_reachable_inv l s h
  refine ⟨hinv.2, ?_⟩
  intro b s' hstep
  obtain ⟨_, ht, hf⟩ := lock_try_acquire_lock l s s' b hstep
  refine ⟨fun hb => ?_, fun hb => ?_⟩
  · obtain ⟨hpos, hh, _⟩ := ht hb
    refine ⟨?_, hh⟩
    by_contra hne
    have := hinv.2 hne
    omega
  · rw [(hf hb).2]
    exact ⟨rfl, rfl⟩

/-- Witness for C5: after thread 1 has acquired the freshly initialised lock 0
the lock has a holder, its counter is 0 and `lock_try_acquire` cannot succeed. -/
theorem lock_holder_implies_counter_zero_witness :
    lock_reachable 0 example_locked ∧
    (example_locked.locks 0).holder = some 1 ∧
    (((example_locked.locks 0).holder ≠ none →
        (example_locked.locks 0).semaphore.value = 0) ∧
     (∀ b s', lock_try_acquire 0 example_locked = some (b, s') →
      (b = true → (example_locked.locks 0).holder = none ∧
        (s'.locks 0).holder = some example_locked.current) ∧
      (b = false → (s'.locks 0).holder = (example_locked.locks 0).holder ∧
        (s'.locks 0).semaphore.value = (example_locked.locks 0).semaphore.value))) :=
  ⟨lock_reachable.acquire _ _ completed (lock_reachable.init example_state) rfl, rfl,
   lock_holder_implies_counter_zero 0 example_locked
     (lock_reachable.acquire _ _ completed (lock_reachable.init example_state) rfl)⟩

/-! ## Claims C6 and C7: the code evaluated on donation scenarios -/

/-- C6 (evaluation of the code on the scenario of the claim): L = thread 1
is created with priority 1 and acquires lock 0; H = thread 2 is created with
priority 10, calls `lock_acquire` and blocks, and L then has priority 10.  When
L releases the lock, H becomes READY, but L ends with priority 0, not 1:
`init_thread` never stores the creation priority in `original_priority`, which
`refresh_priority` restores.  When H resumes it becomes the holder. -/
theorem donation_scenario_loses_base_priority :
    (holder_has_lock 1 10).map
        (fun r => (r.1, (r.2.locks 0).holder, (r.2.threads 1).priority))
      = some (completed, some 1, 1) ∧
    (waiter_calls_acquire 1 10).map
        (fun r => (r.1, (r.2.threads 2).status, (r.2.threads 1).priority))
      = some (suspended, THREAD_BLOCKED, 10) ∧
    (holder_releases 1 10).map
        (fun s => ((s.threads 1).priority, (s.threads 1).original_priority,
          (s.threads 2).status, s.ready_list))
      = some (0, 0, THREAD_READY, [2]) ∧
    (waiter_resumes 1 10).map (fun r => (r.1, (r.2.locks 0).holder))
      = some (completed, some 2) := by
  refine ⟨?_, ?_, ?_, ?_⟩ <;> decide

/-- C7 (evaluation of the code on a failing input): thread 2, of priority 5,
waits on lock 0, whose holder thread 1 has priority 20.  One call of
`donate_priority` leaves the holder with priority 5, not with the maximum 20:
the walk assigns the donor's priority without comparing. -/
theorem donate_priority_lowers_holder :
    before_donation.map (fun s => (s.current, (s.threads 2).priority,
        (s.threads 2).lock_to_wait_on, (s.locks 0).holder, (s.threads 1).priority))
      = some (2, 5, some 0, some 1, 20) ∧
    (before_donation.bind donate_priority).map (fun s => (s.threads 1).priority) = some 5 ∧
    (waiter_calls_acquire 20 5).map (fun r => (r.2.threads 1).priority) = some 5 := by
  refine ⟨?_, ?_, ?_⟩ <;> decide

/-! ## Claim C8: the bounded donation walk -/

theorem waits_for_set_priority (s : KState) (h : thread_ptr) (p : Int) (a b : thread_ptr) :
    waits_for (set_thread s h { s.threads h with priority := p }) a b ↔ waits_for s a b := by
  unfold waits_for waited_holder set_thread upd
  by_cases hah : a = h
  · subst hah
    simp
  · simp [hah]

theorem chain_set_priority (s : KState) (h : thread_ptr) (p : Int) (t : thread_ptr)
    (hs : List thread_ptr) (hc : List.Chain (waits_for s) t hs) :
    List.Chain (waits_for (set_thread s h { s.threads h with priority := p })) t hs := by
  induction hc with
  | nil => exact List.Chain.nil
  | cons hab _ ih => exact List.Chain.cons ((waits_for_set_priority s h p _ _).mpr hab) ih

/-- The donation walk along a chain of lock waits: it assigns the donor's
priority to the first `depth` holders of the chain and to no other thread. -/
theorem donate_loop_chain (depth : Nat) (t : thread_ptr) (s : KState)
    (hs : List thread_ptr) (p : Int)
    (hchain : List.Chain (waits_for s) t hs)
    (hp : (s.threads t).priority = p)
    (hroot : hs.length < depth →
      (s.threads ((t :: hs).getLast (List.cons_ne_nil t hs))).lock_to_wait_on = none) :
    ∃ s', donate_loop depth t s = some (s', hs.take depth) ∧
      (∀ h ∈ hs.take depth, (s'.threads h).priority = p) ∧
      (∀ u, u ∉ hs.take depth → s'.threads u = s.threads u) := by
  induction depth generalizing t s hs with
  | zero => exact ⟨s, by simp [donate_loop], by simp, fun _ _ => rfl⟩
  | succ n ih =>
    cases hs with
    | nil =>
      have h0 := hroot (by simp)
      simp only [List.getLast_singleton] at h0
      exact ⟨s, by simp [donate_loop, h0], by simp, fun _ _ => rfl⟩
    | cons h hs' =>
      rw [List.chain_cons] at hchain
      obtain ⟨hth, hrest⟩ := hchain
      unfold waits_for waited_holder at hth
      cases hw : (s.threads t).lock_to_wait_on with
      | none => simp [hw] at hth
      | some l =>
        simp only [hw] at hth
        have hroot' : hs'.length < n →
            ((set_thread s h { s.threads h with priority := (s.threads t).priority }).threads
              ((h :: hs').getLast (List.cons_ne_nil h hs'))).lock_to_wait_on = none := by
          intro hlen
          have := hroot (by simp; omega)
          rw [List.getLast_cons (List.cons_ne_nil h hs')] at this
          simp only [set_thread, upd]
          split
          · rename_i heq
            rw [heq] at this
            exact this
          · exact this
        obtain ⟨s', hd, hpri, hsame⟩ := ih h
          (set_thread s h { s.threads h with priority := (s.threads t).priority }) hs'
          (chain_set_priority s h _ h hs' hrest) (by simp [set_thread, upd, hp]) hroot'
        refine ⟨s', by simp [donate_loop, hw, hth, hd], ?_, ?_⟩
        · intro x hx
          by_cases hxt : x ∈ hs'.take n
          · exact hpri x hxt
          · simp only [List.take_succ_cons, List.mem_cons] at hx
            rcases hx with hx | hx
            · subst hx
              rw [hsame x hxt]
              simp [set_thread, upd, hp]
            · exact absurd hx hxt
        · intro u hu
          simp only [List.take_succ_cons, List.mem_cons, not_or] at hu
          rw [hsame u hu.2]
          simp [set_thread, upd, hu.1]

/-- The donation walk assigns at most `depth` priorities, and every thread
outside the list of assigned ones is left as it was. -/
theorem donate_loop_written (depth : Nat) (t : thread_ptr) (s s' : KState)
    (written : List thread_ptr) (h : donate_loop depth t s = some (s', written)) :
    written.length ≤ depth ∧ ∀ u, u ∉ written → s'.threads u = s.threads u := by
  induction depth generalizing t s s' written with
  | zero =>
    simp only [donate_loop, Option.some.injEq, Prod.mk.injEq] at h
    obtain ⟨h1, h2⟩ := h
    subst h1 h2
    exact ⟨by simp, fun _ _ => rfl⟩
  | succ n ih =>
    simp only [donate_loop] at h
    cases hw : (s.threads t).lock_to_wait_on with
    | none =>
      simp only [hw, Option.some.injEq, Prod.mk.injEq] at h
      obtain ⟨h1, h2⟩ := h
      subst h1 h2
      exact ⟨by simp, fun _ _ => rfl⟩
    | some l =>
      simp only [hw] at h
      cases hh : (s.locks l).holder with
      | none => simp [hh] at h
      | some holder =>
        simp only [hh] at h
        cases hd : donate_loop n holder
            (set_thread s holder { s.threads holder with priority := (s.threads t).priority }) with
        | none => simp [hd] at h
        | some r =>
          obtain ⟨s2, w2⟩ := r
          simp only [hd, Option.some.injEq, Prod.mk.injEq] at h
          obtain ⟨h1, h2⟩ := h
          subst h1 h2
          obtain ⟨hlen, hsame⟩ := ih _ _ _ _ hd
          refine ⟨by simp; omega, ?_⟩
          intro u hu
          simp only [List.mem_cons, not_or] at hu
          rw [hsame u hu.2]
          simp [set_thread, upd, hu.1]

/-- The donation walk returns whenever every lock that some thread waits on
has a holder (the wait graph may be cyclic). -/
theorem donate_loop_total (depth : Nat) (t : thread_ptr) (s : KState)
    (hheld : ∀ u l, (s.threads u).lock_to_wait_on = some l → (s.locks l).holder ≠ none) :
    ∃ r, donate_loop depth t s = some r := by
  induction depth generalizing t s with
  | zero => exact ⟨_, rfl⟩
  | succ n ih =>
    cases hw : (s.threads t).lock_to_wait_on with
    | none => exact ⟨(s, []), by simp [donate_loop, hw]⟩
    | some l =>
      cases hh : (s.locks l).holder with
      | none => exact absurd hh (hheld t l hw)
      | some holder =>
        have hheld' : ∀ u l',
            ((set_thread s holder
              { s.threads holder with priority := (s.threads t).priority }).threads u).lock_to_wait_on
              = some l' →
            ((set_thread s holder
              { s.threads holder with priority := (s.threads t).priority }).locks l').holder
              ≠ none := by
          intro u l' hu
          have hu' : (s.threads u).lock_to_wait_on = some l' := by
            by_cases huh : u = holder
            · subst huh
              simpa [set_thread, upd] using hu
            · simpa [set_thread, upd, huh] using hu
          exact hheld u l' hu'
        obtain ⟨⟨s2, w⟩, hd⟩ := ih holder _ hheld'
        exact ⟨(s2, holder :: w), by simp [donate_loop, hw, hh, hd]⟩

/-- C8: let the running thread T0 have effective priority `p` and let
`hs = [H1, ..., HN]` be a chain of nested lock waits from T0 (each thread
holds the lock its predecessor waits on, the holders are distinct, each has
priority below `p`, and a chain shorter than 8 ends in a thread that waits on
nothing).  Then `donate_priority` assigns exactly the first 8 holders of the
chain: each of them ends with priority `p` (all of them when N ≤ 8), and H9 and
every later holder keep their previous priority, which is below `p`.  For every
state whatsoever, cyclic wait graphs included, a `donate_priority` that returns
has assigned at most 8 priorities and has left every thread outside the
assigned holders unchanged; and it does return whenever every lock waited on
has a holder. -/
theorem donate_priority_bounded_depth (s : KState) (hs : List thread_ptr) (p : Int)
    (hcur : thread_current s = some s.current)
    (hp : (s.threads s.current).priority = p)
    (hchain : List.Chain (waits_for s) s.current hs)
    (hnodup : hs.Nodup)
    (hlow : ∀ h ∈ hs, (s.threads h).priority < p)
    (hroot : hs.length < 8 →
      (s.threads ((s.current :: hs).getLast (List.cons_ne_nil s.current hs))).lock_to_wait_on
        = none) :
    (∃ s', donate_priority_trace s = some (s', hs.take 8) ∧
      (∀ h ∈ hs.take 8, (s'.threads h).priority = p) ∧
      (hs.length ≤ 8 → ∀ h ∈ hs, (s'.threads h).priority = p) ∧
      (∀ h ∈ hs.drop 8, (s'.threads h).priority = (s.threads h).priority ∧
        (s'.threads h).priority < p) ∧
      (∀ u, u ∉ hs.take 8 → s'.threads u = s.threads u)) ∧
    (∀ g g' written, donate_priority_trace g = some (g', written) →
      written.length ≤ 8 ∧ ∀ u, u ∉ written → g'.threads u = g.threads u) ∧
    (∀ g, thread_current g = some g.current →
      (∀ u l, (g.threads u).lock_to_wait_on = some l → (g.locks l).holder ≠ none) →
      ∃ r, donate_priority_trace g = some r) := by
  refine ⟨?_, ?_, ?_⟩
  · obtain ⟨s', hd, hpri, hsame⟩ := donate_loop_chain 8 s.current s hs p hchain hp hroot
    refine ⟨s', by simp [donate_priority_trace, hcur, hd], hpri, ?_, ?_, hsame⟩
    · intro hlen h hh
      apply hpri
      rw [List.take_of_length_le hlen]
      exact hh
    · intro h hh
      have hnot : h ∉ hs.take 8 := by
        intro hin
        have hd' : (hs.take 8 ++ hs.drop 8).Nodup := by
          rw [List.take_append_drop]; exact hnodup
        exact (List.nodup_append.mp hd').2.2 hin hh
      have hmem : h ∈ hs := List.mem_of_mem_drop hh
      rw [hsame h hnot]
      exact ⟨rfl, hlow h hmem⟩
  · intro g g' written hg
    unfold donate_priority_trace at hg
    cases hc : thread_current g with
    | none => simp [hc] at hg
    | some t =>
      simp only [hc] at hg
      exact donate_loop_written 8 t g g' written hg
  · intro g hg hheld
    simp only [donate_priority_trace, hg]
    exact donate_loop_total 8 g.current g hheld

theorem chain_state_chain :
    List.Chain (waits_for chain_state) chain_state.current [1, 2, 3, 4, 5, 6, 7, 8, 9] := by
  repeat (first | exact List.Chain.nil | refine List.Chain.cons (by decide) ?_)

/-- Witness for C8: on the nine-deep chain the walk from thread 0 reaches
threads 1 to 8 and stops before thread 9. -/
theorem donate_priority_bounded_depth_witness :
    thread_current chain_state = some chain_state.current ∧
    List.Chain (waits_for chain_state) chain_state.current [1, 2, 3, 4, 5, 6, 7, 8, 9] ∧
    (∃ s', donate_priority_trace chain_state = some (s', [1, 2, 3, 4, 5, 6, 7, 8]) ∧
      (∀ h ∈ [1, 2, 3, 4, 5, 6, 7, 8], (s'.threads h).priority = 40) ∧
      (s'.threads 9).priority = 10) :=
  ⟨by decide, chain_state_chain,
   match (donate_priority_bounded_depth chain_state [1, 2, 3, 4, 5, 6, 7, 8, 9] 40
      (by decide) (by decide) chain_state_chain (by decide) (by decide) (by decide)).1 with
   | ⟨s', h1, h2, _, h4, _⟩ => ⟨s', h1, h2, (h4 9 (by decide)).1⟩⟩

/-! ## Lemmas on lock_release -/

theorem upd_upd {α : Type} (f : Nat → α) (i : Nat) (v w : α) :
    upd (upd f i v) i w = upd f i w := by
  funext j
  simp only [upd]
  split <;> rfl

theorem threads_set_thread_same (s : KState) (c : thread_ptr) (v : thread) :
    (set_thread s c v).threads c = v := by
  simp [set_thread, upd]

theorem threads_set_thread_ne (s : KState) (c u : thread_ptr) (v : thread) (h : u ≠ c) :
    (set_thread s c v).threads u = s.threads u := by
  simp [set_thread, upd, h]

theorem set_thread_set_thread (s : KState) (c : thread_ptr) (v w : thread) :
    set_thread (set_thread s c v) c w = set_thread s c w := by
  simp [set_thread, upd_upd]

theorem thread_current_set_thread (s : KState) (c : thread_ptr) (v : thread)
    (hc : thread_current s = some c) (hm : v.magic = (s.threads c).magic)
    (hs : v.status = (s.threads c).status) :
    thread_current (set_thread s c v) = some c := by
  have hcur := thread_current_eq s c hc
  subst hcur
  unfold thread_current at hc ⊢
  split_ifs at hc with h
  simp only [set_thread, upd, if_true, is_thread, hm, hs]
  simp only [is_thread] at h
  simp [h]

/-- What `refresh_priority` computes: the running thread `c` gets its donors
sorted and a priority `P` that is at least its base priority and at least the
priority of every donor, and that is attained by the base or by a donor. -/
theorem refresh_priority_spec (s : KState) (c : thread_ptr)
    (hc : thread_current s = some c) :
    ∃ D P, refresh_priority s
        = some (set_thread s c { s.threads c with priority := P, donators_list := D }) ∧
      D.Perm (s.threads c).donators_list ∧
      (s.threads c).original_priority ≤ P ∧
      (∀ d ∈ D, d ≠ c → (s.threads d).priority ≤ P) ∧
      (P = (s.threads c).original_priority ∨ ∃ d ∈ D, d ≠ c ∧ (s.threads d).priority = P) := by
  by_cases hemp : (s.threads c).donators_list = []
  · refine ⟨[], (s.threads c).original_priority, ?_, by rw [hemp], le_refl _, by simp,
      Or.inl rfl⟩
    simp only [refresh_priority, hc, set_thread, upd, if_true, hemp, ne_eq,
      not_true_eq_false, if_false]
  · have hsort := list_sort_ne_nil
      (cmp_donator_priority
        (set_thread s c { s.threads c with priority := (s.threads c).original_priority }))
      (s.threads c).donators_list hemp
    cases hl : list_sort
      (cmp_donator_priority
        (set_thread s c { s.threads c with priority := (s.threads c).original_priority }))
      (s.threads c).donators_list with
    | nil => exact absurd hl hsort
    | cons top tl =>
      have hperm := list_sort_perm
        (cmp_donator_priority
          (set_thread s c { s.threads c with priority := (s.threads c).original_priority }))
        (s.threads c).donators_list
      rw [hl] at hperm
      have hmax := list_sort_head_max
        (fun a => ((set_thread s c
          { s.threads c with priority := (s.threads c).original_priority }).threads a).priority)
        (s.threads c).donators_list top tl hl
      have hkey : ∀ u, u ≠ c → ((set_thread s c
          { s.threads c with priority := (s.threads c).original_priority }).threads u).priority
          = (s.threads u).priority := by
        intro u hu
        simp [set_thread, upd, hu]
      have hkeyc : ((set_thread s c
          { s.threads c with priority := (s.threads c).original_priority }).threads c).priority
          = (s.threads c).original_priority := by
        simp [set_thread, upd]
      have hle : ∀ d ∈ top :: tl, d ≠ c → (s.threads d).priority ≤
          ((set_thread s c { s.threads c with
            priority := (s.threads c).original_priority }).threads top).priority := by
        intro d hd hdc
        have := hmax d (hperm.subset hd)
        simp only at this
        rw [hkey d hdc] at this
        exact this
      have hrun : refresh_priority s = some (set_thread s c
          { s.threads c with
            priority :=
              if ((set_thread s c { s.threads c with
                    priority := (s.threads c).original_priority }).threads top).priority
                  > (s.threads c).original_priority
              then ((set_thread s c { s.threads c with
                    priority := (s.threads c).original_priority }).threads top).priority
              else (s.threads c).original_priority,
            donators_list := top :: tl }) := by
        unfold refresh_priority
        simp only [hc, threads_set_thread_same]
        rw [if_pos hemp]
        split
        · rename_i heq
          exact absurd (heq.symm.trans hl) (by simp)
        · rename_i t' tl' heq
          have h2 : t' :: tl' = top :: tl := heq.symm.trans hl
          obtain ⟨h3, h4⟩ := List.cons.inj h2
          subst h3 h4
          simp only [heq, set_thread_set_thread]
          by_cases htc : t' = c
          · subst htc
            simp [threads_set_thread_same, set_thread_set_thread]
          · simp only [threads_set_thread_ne _ _ _ _ htc, threads_set_thread_same]
            split_ifs <;> simp [set_thread_set_thread]
      refine ⟨top :: tl, _, hrun, hperm, ?_, ?_, ?_⟩
      · split_ifs with hgt
        · exact le_of_lt hgt
        · exact le_refl _
      · intro d hd hdc
        have h1 := hle d hd hdc
        split_ifs with hgt
        · exact h1
        · exact le_trans h1 (not_lt.mp hgt)
      · split_ifs with hgt
        · right
          have htop : top ≠ c := by
            intro heq
            rw [heq, hkeyc] at hgt
            exact lt_irrefl _ hgt
          exact ⟨top, List.mem_cons_self _ _, htop, (hkey top htop).symm⟩
        · left; rfl

theorem sema_up_succeeds (sema : semaphore) (s : KState) (hblk : waiters_blocked sema s) :
    ∃ r, sema_up sema s = some r := by
  by_cases hne : sema.waiters = []
  · exact ⟨_, sema_up_no_waiter sema s hne⟩
  · obtain ⟨t, rest, _, hup⟩ := sema_up_wake sema s hne hblk
    exact ⟨_, hup⟩

/-- The function `sema_up` touches no priority, no base priority, no
`lock_to_wait_on` and no donors list. -/
theorem sema_up_donation_fields (sema sema' : semaphore) (s s' : KState)
    (h : sema_up sema s = some (sema', s')) :
    ∀ u, same_donation (s'.threads u) (s.threads u) := by
  unfold sema_up at h
  by_cases hne : sema.waiters = []
  · simp only [hne, ne_eq, not_true_eq_false, if_false, Option.some.injEq,
      Prod.mk.injEq] at h
    obtain ⟨_, h2⟩ := h
    subst h2
    intro u
    simp [same_donation, intr_set_level, (test_max_priority_threads _).1, intr_disable]
  · simp only [hne, ne_eq, not_false_eq_true, if_true] at h
    cases hl : list_sort (cmp_priority (intr_disable s)) sema.waiters with
    | nil => simp [hl] at h
    | cons t rest =>
      simp only [hl] at h
      cases hu : thread_unblock t (intr_disable s) with
      | none => simp [hu] at h
      | some s2 =>
        simp only [hu, Option.some.injEq, Prod.mk.injEq] at h
        obtain ⟨_, h2⟩ := h
        subst h2
        obtain ⟨ht1, ht2⟩ := thread_unblock_some _ _ _ hu
        rw [thread_unblock_blocked _ _ ht1 ht2] at hu
        simp only [Option.some.injEq] at hu
        subst hu
        intro u
        simp only [same_donation, intr_set_level, (test_max_priority_threads _).1, intr_disable,
          upd]
        split <;> simp_all

theorem remove_with_lock_eq (l : lock_ptr) (s : KState) (c : thread_ptr)
    (hc : thread_current s = some c) :
    remove_with_lock l s = some (set_thread s c
      { s.threads c with
        donators_list := remove_with_lock_loop s l (s.threads c).donators_list }) := by
  simp [remove_with_lock, hc]

/-- What `lock_release` does to the thread control blocks when the running
thread `c` may release `l`: `c` keeps the donors not waiting on `l`, sorted
into a list `D`, and gets a priority `P` that is at least its base priority and
at least every remaining donor's, attained by the base or by a remaining donor;
the donation fields of every other thread are unchanged. -/
theorem lock_release_spec (l : lock_ptr) (s : KState) (h : can_release l s) :
    ∃ D P s', lock_release l s = some s' ∧
      D.Perm (remove_with_lock_loop s l (s.threads s.current).donators_list) ∧
      (s.threads s.current).original_priority ≤ P ∧
      (∀ d ∈ D, d ≠ s.current → (s.threads d).priority ≤ P) ∧
      (P = (s.threads s.current).original_priority ∨
        ∃ d ∈ D, d ≠ s.current ∧ (s.threads d).priority = P) ∧
      (s'.threads s.current).priority = P ∧
      (s'.threads s.current).donators_list = D ∧
      (s'.threads s.current).original_priority = (s.threads s.current).original_priority ∧
      (∀ u, u ≠ s.current → same_donation (s'.threads u) (s.threads u)) ∧
      (∀ u, (s'.threads u).lock_to_wait_on = (s.threads u).lock_to_wait_on) := by
  obtain ⟨hc, hheld, hblk⟩ := h
  have hrem := remove_with_lock_eq l s s.current hc
  have hc1 : thread_current (set_thread s s.current
      { s.threads s.current with
        donators_list := remove_with_lock_loop s l (s.threads s.current).donators_list })
      = some s.current := thread_current_set_thread s s.current _ hc rfl rfl
  obtain ⟨D, P, hrefresh, hperm, hbase, hle, hatt⟩ := refresh_priority_spec _ _ hc1
  simp only [threads_set_thread_same, set_thread_set_thread] at hrefresh hperm hbase hle hatt
  have hle' : ∀ d ∈ D, d ≠ s.current → (s.threads d).priority ≤ P := by
    intro d hd hdc
    have := hle d hd hdc
    rw [threads_set_thread_ne _ _ _ _ hdc] at this
    exact this
  have hatt' : P = (s.threads s.current).original_priority ∨
      ∃ d ∈ D, d ≠ s.current ∧ (s.threads d).priority = P := by
    rcases hatt with h1 | ⟨d, hd, hdc, hp⟩
    · exact Or.inl h1
    · rw [threads_set_thread_ne _ _ _ _ hdc] at hp
      exact Or.inr ⟨d, hd, hdc, hp⟩
  -- the state in which `sema_up` is called
  have hblk3 : waiters_blocked (s.locks l).semaphore
      (set_lock (set_thread s s.current
        { s.threads s.current with priority := P, donators_list := D }) l
        { holder := none, semaphore := (s.locks l).semaphore }) := by
    intro t ht
    obtain ⟨h1, h2⟩ := hblk t ht
    by_cases htc : t = s.current
    · subst htc
      simpa [set_lock, set_thread, upd, is_thread] using And.intro h1 h2
    · simpa [set_lock, set_thread, upd, htc] using And.intro h1 h2
  obtain ⟨⟨sema', s4⟩, hup⟩ := sema_up_succeeds _ _ hblk3
  have hfields := sema_up_donation_fields _ _ _ _ hup
  refine ⟨D, P, set_lock s4 l { s4.locks l with semaphore := sema' }, ?_, hperm, hbase,
    hle', hatt', ?_, ?_, ?_, ?_, ?_⟩
  · simp only [lock_release, lock_held_by_current_thread, hc, hheld, decide_True, hrem,
      hrefresh]
    have hsem : ((set_lock (set_thread s s.current
        { s.threads s.current with priority := P, donators_list := D }) l
        { (set_thread s s.current
          { s.threads s.current with priority := P, donators_list := D }).locks l with
          holder := none }).locks l).semaphore = (s.locks l).semaphore := by
      simp [set_lock, set_thread, upd]
    rw [hsem]
    have hst : set_lock (set_thread s s.current
        { s.threads s.current with priority := P, donators_list := D }) l
        { (set_thread s s.current
          { s.threads s.current with priority := P, donators_list := D }).locks l with
          holder := none }
        = set_lock (set_thread s s.current
        { s.threads s.current with priority := P, donators_list := D }) l
        { holder := none, semaphore := (s.locks l).semaphore } := by
      simp [set_lock, set_thread]
    rw [hst, hup]
  · have := (hfields s.current).1
    simpa [set_lock, set_thread, upd] using this
  · have := (hfields s.current).2.2.2
    simpa [set_lock, set_thread, upd] using this
  · have := (hfields s.current).2.1
    simpa [set_lock, set_thread, upd] using this
  · intro u hu
    have := hfields u
    simpa [same_donation, set_lock, set_thread, upd, hu] using this
  · intro u
    have := (hfields u).2.2.1
    by_cases hu : u = s.current
    · subst hu
      simpa [set_lock, set_thread, upd] using this
    · simpa [set_lock, set_thread, upd, hu] using this

theorem foldr_max_eq (b v : Int) (xs : List Int) (hb : b ≤ v) (hle : ∀ x ∈ xs, x ≤ v)
    (hatt : v = b ∨ v ∈ xs) : xs.foldr max b = v := by
  induction xs with
  | nil =>
    rcases hatt with h | h
    · exact h.symm
    · simp at h
  | cons x xs ih =>
    simp only [List.foldr_cons]
    have hx : x ≤ v := hle x (List.mem_cons_self _ _)
    have hrest : ∀ y ∈ xs, y ≤ v := fun y hy => hle y (List.mem_cons_of_mem _ hy)
    have hfold : xs.foldr max b ≤ v := by
      clear ih hatt
      induction xs with
      | nil => simpa using hb
      | cons y ys ih2 =>
        simp only [List.foldr_cons]
        exact max_le (hrest y (List.mem_cons_self _ _))
          (ih2 (fun z hz => hle z (by
            rcases List.mem_cons.mp hz with h | h
            · exact List.mem_cons.mpr (Or.inl h)
            · exact List.mem_cons.mpr (Or.inr (List.mem_cons_of_mem _ h))))
            (fun z hz => hrest z (List.mem_cons_of_mem _ hz)))
    apply le_antisymm (max_le hx hfold)
    rcases hatt with h | h
    · have := ih hrest (Or.inl h)
      rw [this]; exact le_max_right _ _
    · rcases List.mem_cons.mp h with h | h
      · rw [h]; exact le_max_left _ _
      · have := ih hrest (Or.inr h)
        rw [this]; exact le_max_right _ _

theorem mem_remove_with_lock_loop (s : KState) (l : lock_ptr) (ds : List thread_ptr)
    (t : thread_ptr) :
    t ∈ remove_with_lock_loop s l ds ↔ t ∈ ds ∧ (s.threads t).lock_to_wait_on ≠ some l := by
  induction ds with
  | nil => simp [remove_with_lock_loop]
  | cons d ds ih =>
    simp only [remove_with_lock_loop]
    by_cases hd : (s.threads d).lock_to_wait_on = some l
    · simp only [hd, if_true, ih, List.mem_cons]
      constructor
      · rintro ⟨h1, h2⟩; exact ⟨Or.inr h1, h2⟩
      · rintro ⟨h1 | h1, h2⟩
        · subst h1; exact absurd hd h2
        · exact ⟨h1, h2⟩
    · simp only [hd, if_false, List.mem_cons, ih]
      constructor
      · rintro (h1 | ⟨h1, h2⟩)
        · subst h1; exact ⟨Or.inl rfl, hd⟩
        · exact ⟨Or.inr h1, h2⟩
      · rintro ⟨h1 | h1, h2⟩
        · exact Or.inl h1
        · exact Or.inr ⟨h1, h2⟩

theorem remove_with_lock_loop_eq_filter (s : KState) (l : lock_ptr) (ds : List thread_ptr) :
    remove_with_lock_loop s l ds
      = ds.filter (fun t => decide ((s.threads t).lock_to_wait_on ≠ some l)) := by
  induction ds with
  | nil => simp [remove_with_lock_loop]
  | cons d ds ih =>
    simp only [remove_with_lock_loop, List.filter_cons]
    by_cases hd : (s.threads d).lock_to_wait_on = some l
    · simp [hd, ih]
    · simp [hd, ih]

/-! ## Claims C9 and C10: lock_release -/

/-- C9: when the running thread C, holder of lock `l`, calls `lock_release`,
its effective priority afterwards is the maximum of its base priority and the
effective priorities of the donors remaining in its donors list (the former
donors not waiting on `l`); it is the base priority when no donor remains, and
no remaining donor has a priority above it. -/
theorem lock_release_recomputes_priority (l : lock_ptr) (s : KState)
    (h : can_release l s) :
    ∃ s', lock_release l s = some s' ∧
      (s'.threads s.current).original_priority = (s.threads s.current).original_priority ∧
      (s'.threads s.current).donators_list.Perm
        (remove_with_lock_loop s l (s.threads s.current).donators_list) ∧
      (s'.threads s.current).priority
        = max_over_donors s' (s'.threads s.current).original_priority
            (s'.threads s.current).donators_list ∧
      (s.current ∉ (s.threads s.current).donators_list →
        (s'.threads s.current).priority
          = max_over_donors s (s.threads s.current).original_priority
              (remove_with_lock_loop s l (s.threads s.current).donators_list)) ∧
      ((s'.threads s.current).donators_list = [] →
        (s'.threads s.current).priority = (s'.threads s.current).original_priority) ∧
      (∀ d ∈ (s'.threads s.current).donators_list,
        (s'.threads d).priority ≤ (s'.threads s.current).priority) := by
  obtain ⟨D, P, s', hrel, hperm, hbase, hle, hatt, hP, hD, horig, hothers, _⟩ :=
    lock_release_spec l s h
  have hkey : ∀ d, d ≠ s.current → (s'.threads d).priority = (s.threads d).priority :=
    fun d hd => (hothers d hd).1
  have hall : ∀ d ∈ D, (s'.threads d).priority ≤ P := by
    intro d hd
    by_cases hdc : d = s.current
    · rw [hdc, hP]
    · rw [hkey d hdc]; exact hle d hd hdc
  refine ⟨s', hrel, horig, by rw [hD]; exact hperm, ?_, ?_, ?_, ?_⟩
  · rw [hP, hD, horig]
    symm
    apply foldr_max_eq _ _ _ hbase
    · intro x hx
      obtain ⟨d, hd, rfl⟩ := List.mem_map.mp hx
      exact hall d hd
    · rcases hatt with h1 | ⟨d, hd, hdc, hp⟩
      · exact Or.inl h1
      · exact Or.inr (List.mem_map.mpr ⟨d, hd, by rw [hkey d hdc]; exact hp⟩)
  · intro hself
    have hnot : ∀ d ∈ D, d ≠ s.current := by
      intro d hd hdc
      have h1 := hperm.subset hd
      rw [hdc] at h1
      exact hself ((mem_remove_with_lock_loop _ _ _ _).mp h1).1
    rw [hP]
    symm
    apply foldr_max_eq _ _ _ hbase
    · intro x hx
      obtain ⟨d, hd, rfl⟩ := List.mem_map.mp hx
      have hdD := hperm.symm.subset hd
      exact hle d hdD (hnot d hdD)
    · rcases hatt with h1 | ⟨d, hd, _, hp⟩
      · exact Or.inl h1
      · exact Or.inr (List.mem_map.mpr ⟨d, hperm.subset hd, hp⟩)
  · intro hnil
    rw [hD] at hnil
    rw [hP, horig]
    rcases hatt with h1 | ⟨d, hd, _, _⟩
    · exact h1
    · rw [hnil] at hd; simp at hd
  · intro d hd
    rw [hD] at hd
    rw [hP]
    exact hall d hd

/-- Witness for C9: thread 1 releases lock 1 and keeps thread 2 as donor. -/
theorem lock_release_recomputes_priority_witness :
    can_release 1 release_state ∧
    ∃ s', lock_release 1 release_state = some s' ∧
      (s'.threads 1).priority = 10 ∧ (s'.threads 1).original_priority = 3 :=
  ⟨⟨by decide, by decide, by unfold waiters_blocked; decide⟩,
   match lock_release_recomputes_priority 1 release_state
      ⟨by decide, by decide, by unfold waiters_blocked; decide⟩ with
   | ⟨s', h1, h2, _, _, h5, _, _⟩ => ⟨s', h1, (h5 (by decide)).trans (by decide), h2⟩⟩

/-- C10: after the running thread C has released lock `l`, its donors list
holds exactly the former donors whose `lock_to_wait_on` is not `l`: no
remaining donor waits on `l`, and no donor waiting on another lock (or on none)
was removed. -/
theorem lock_release_cleans_donors (l : lock_ptr) (s : KState) (h : can_release l s) :
    ∃ s', lock_release l s = some s' ∧
      (s'.threads s.current).donators_list.Perm
        ((s.threads s.current).donators_list.filter
          (fun t => decide ((s.threads t).lock_to_wait_on ≠ some l))) ∧
      (∀ t, t ∈ (s'.threads s.current).donators_list ↔
        t ∈ (s.threads s.current).donators_list ∧ (s.threads t).lock_to_wait_on ≠ some l) ∧
      (∀ t ∈ (s'.threads s.current).donators_list,
        (s'.threads t).lock_to_wait_on ≠ some l) := by
  obtain ⟨D, P, s', hrel, hperm, _, _, _, _, hD, _, _, hwait⟩ := lock_release_spec l s h
  have hmem : ∀ t, t ∈ (s'.threads s.current).donators_list ↔
      t ∈ (s.threads s.current).donators_list ∧ (s.threads t).lock_to_wait_on ≠ some l := by
    intro t
    rw [hD, hperm.mem_iff]
    exact mem_remove_with_lock_loop _ _ _ _
  refine ⟨s', hrel, ?_, hmem, ?_⟩
  · rw [hD, ← remove_with_lock_loop_eq_filter]
    exact hperm
  · intro t ht
    rw [hwait t]
    exact ((hmem t).mp ht).2

/-- Witness for C10: thread 1 releases lock 0; of its donors 2 and 3 only
thread 3, which waits on lock 1, remains. -/
theorem lock_release_cleans_donors_witness :
    can_release 0 release_state ∧
    ∃ s', lock_release 0 release_state = some s' ∧
      (s'.threads 1).donators_list.Perm [3] :=
  ⟨⟨by decide, by decide, by unfold waiters_blocked; decide⟩,
   match lock_release_cleans_donors 0 release_state
      ⟨by decide, by decide, by unfold waiters_blocked; decide⟩ with
   | ⟨s', h1, h2, _, _⟩ => ⟨s', h1, h2⟩⟩

/-! ## Claims C11 and C12: the code evaluated on base priorities -/

/-- C11 (evaluation of the code on failing inputs): right after creation with
priority 1 and no donors, thread 1 has effective priority 1 but base priority
0, so its effective priority is not the maximum of base and donors (0); the
same holds for thread 2 created with priority 10.  And when thread 1, boosted
to 10 by its donor thread 2, calls `thread_set_priority (3)`, its effective
priority drops to 3, below the priority 10 of the donor it still has. -/
theorem priority_invariant_fails :
    (two_threads 1 10).map
        (fun s => ((s.threads 1).priority, (s.threads 1).original_priority,
          (s.threads 1).donators_list,
          max_over_donors s (s.threads 1).original_priority (s.threads 1).donators_list))
      = some (1, 0, [], 0) ∧
    (two_threads 1 10).map
        (fun s => ((s.threads 2).priority,
          max_over_donors s (s.threads 2).original_priority (s.threads 2).donators_list))
      = some (10, 0) ∧
    ((waiter_calls_acquire 1 10).bind
        (fun r => thread_set_priority 3 (intr_set_level INTR_ON r.2))).map
        (fun s => (s.current, (s.threads 1).priority, (s.threads 1).donators_list,
          max_over_donors s (s.threads 1).original_priority (s.threads 1).donators_list))
      = some (1, 3, [2], 10) := by
  refine ⟨?_, ?_, ?_⟩ <;> rfl

/-- C12 (evaluation of the code on failing inputs): `init_thread` with
priority 10 leaves effective priority 10 but base priority
(`original_priority`) 0; and after the running thread 1, which has no donors,
calls `thread_set_priority (5)`, `thread_get_priority` returns 5 while the base
priority is still 0. -/
theorem base_priority_never_stored :
    (init_thread 2 10 boot_state).map
        (fun s => ((s.threads 2).priority, (s.threads 2).original_priority))
      = some (10, 0) ∧
    ((two_threads 1 10).bind (thread_set_priority 5)).map
        (fun s => (s.current, (s.threads 1).donators_list, thread_get_priority s,
          (s.threads 1).original_priority))
      = some (1, [], some 5, 0) := by
  refine ⟨?_, ?_⟩ <;> rfl

/-! ## Lemmas on schedule and context switches -/

/-- What a successful `schedule` did: the thread chosen by
`next_thread_to_run` is live, it is now RUNNING and the running thread, the
front of the ready list (if any) is gone, the tick counter is 0. -/
theorem schedule_spec (s s' : KState) (h : schedule s = some s') :
    ∃ next, (next_thread_to_run s).1 = some next ∧ is_thread (s.threads next) = true ∧
      s.level = INTR_OFF ∧ (s.threads s.current).status ≠ THREAD_RUNNING ∧
      s'.threads = upd s.threads next { s.threads next with status := THREAD_RUNNING } ∧
      s'.ready_list = s.ready_list.tail ∧ s'.current = next ∧ s'.thread_ticks = 0 ∧
      s'.sleep_list = s.sleep_list ∧ s'.idle_thread = s.idle_thread ∧
      s'.next_tick_to_awake = s.next_tick_to_awake ∧ s'.level = s.level ∧
      s'.in_intr_context = s.in_intr_context := by
  unfold schedule next_thread_to_run at h
  cases hr : s.ready_list with
  | nil =>
    simp only [hr] at h
    cases hi : s.idle_thread with
    | none => simp [hi] at h
    | some n =>
      simp only [hi] at h
      refine ⟨n, by simp [next_thread_to_run, hr, hi], ?_⟩
      split_ifs at h with h1 h2 h3 h4 h5 <;>
        simp only [Option.some.injEq] at h <;> subst h <;>
        simp_all [set_thread]
  | cons r rest =>
    simp only [hr] at h
    refine ⟨r, by simp [next_thread_to_run, hr], ?_⟩
    split_ifs at h with h1 h2 h3 h4 h5 <;>
      simp only [Option.some.injEq] at h <;> subst h <;>
      simp_all [set_thread]

/-- The function `schedule` succeeds when interrupts are off, the running
thread has left state RUNNING and the thread chosen next is live. -/
theorem schedule_some (s : KState) (next : thread_ptr)
    (hn : (next_thread_to_run s).1 = some next) (hlev : s.level = INTR_OFF)
    (hst : (s.threads s.current).status ≠ THREAD_RUNNING)
    (hlive : is_thread (s.threads next) = true) :
    ∃ s', schedule s = some s' := by
  unfold schedule
  cases hr : s.ready_list with
  | nil =>
    simp only [next_thread_to_run, hr] at hn ⊢
    simp only [hn]
    simp only [hlev, ne_eq, not_true_eq_false, if_false, hst, hlive, Bool.true_eq_false]
    split_ifs <;> exact ⟨_, rfl⟩
  | cons r rest =>
    simp only [next_thread_to_run, hr, Option.some.injEq] at hn ⊢
    subst hn
    simp only [hlev, ne_eq, not_true_eq_false, if_false, hst, hlive, Bool.true_eq_false]
    split_ifs <;> exact ⟨_, rfl⟩

theorem next_thread_to_run_fst_congr (p s : KState) (hr : p.ready_list = s.ready_list)
    (hi : p.idle_thread = s.idle_thread) :
    (next_thread_to_run p).1 = (next_thread_to_run s).1 := by
  unfold next_thread_to_run
  rw [hr, hi]
  cases s.ready_list <;> rfl

/-- After `schedule`, entered with no live thread in state RUNNING, exactly
the chosen thread is RUNNING. -/
theorem only_running_after_schedule (p s' : KState)
    (hnone : ∀ t, ¬ (is_thread (p.threads t) = true ∧ (p.threads t).status = THREAD_RUNNING))
    (h : schedule p = some s') :
    only_running s' s'.current ∧ (next_thread_to_run p).1 = some s'.current ∧
      s'.thread_ticks = 0 := by
  obtain ⟨next, hn, hlive, _, _, hth, _, hcur, hticks, _⟩ := schedule_spec p s' h
  refine ⟨?_, by rw [hcur]; exact hn, hticks⟩
  intro t
  rw [hcur, hth]
  by_cases ht : t = next
  · subst ht
    simp only [upd, if_true, iff_true]
    exact ⟨by simpa [is_thread] using hlive, trivial⟩
  · simp only [upd, ht, if_false, iff_false]
    exact hnone t

/-- Taking the one RUNNING thread out of state RUNNING leaves no live thread
RUNNING. -/
theorem none_running_after_status (s p : KState) (c : thread_ptr) (st : thread_status)
    (hone : only_running s c) (hst : st ≠ THREAD_RUNNING)
    (hp : p.threads = upd s.threads c { s.threads c with status := st }) :
    ∀ t, ¬ (is_thread (p.threads t) = true ∧ (p.threads t).status = THREAD_RUNNING) := by
  intro t
  rw [hp]
  by_cases ht : t = c
  · subst ht
    simp only [upd, if_true]
    intro h
    exact hst h.2
  · simp only [upd, ht, if_false]
    intro h
    exact ht ((hone t).mp h)

theorem only_running_current (s : KState) (c cur : thread_ptr) (hone : only_running s c)
    (hc : thread_current s = some cur) : cur = c ∧ s.current = c := by
  have hcur := thread_current_eq s cur hc
  subst hcur
  unfold thread_current at hc
  split_ifs at hc with h
  exact ⟨(hone _).mp h, (hone _).mp h⟩

theorem thread_block_unfold (s s' : KState) (h : thread_block s = some s') :
    thread_current s = some s.current ∧ s.in_intr_context = false ∧ s.level = INTR_OFF ∧
    ∃ p, schedule p = some s' ∧ enters_schedule s p THREAD_BLOCKED s.ready_list := by
  unfold thread_block at h
  split_ifs at h with hctx hlev
  cases hc : thread_current s with
  | none => simp [hc] at h
  | some cur =>
    simp only [hc] at h
    have hcur := thread_current_eq s cur hc
    subst hcur
    have hlev' : s.level = INTR_OFF := by simpa using hlev
    exact ⟨rfl, by simpa using hctx, hlev', _, h, rfl, rfl, rfl, rfl, rfl, rfl, hlev'⟩

theorem do_schedule_unfold (st : thread_status) (s s' : KState)
    (h : do_schedule st s = some s') :
    thread_current s = some s.current ∧
    ∃ p, schedule p = some s' ∧ enters_schedule s p st s.ready_list := by
  unfold do_schedule at h
  split_ifs at h with hlev
  cases hc : thread_current s with
  | none => simp [hc] at h
  | some cur =>
    simp only [hc] at h
    have hcur := thread_current_eq s cur hc
    subst hcur
    exact ⟨rfl, _, h, rfl, rfl, rfl, rfl, rfl, rfl, by simpa using hlev⟩

theorem thread_current_congr (p s : KState) (ht : p.threads = s.threads)
    (hc : p.current = s.current) : thread_current p = thread_current s := by
  unfold thread_current
  rw [ht, hc]

theorem thread_yield_unfold (s s' : KState) (h : thread_yield s = some s') :
    thread_current s = some s.current ∧ s.in_intr_context = false ∧
    ∃ p, schedule p = some s' ∧
      enters_schedule s p THREAD_READY
        (if some s.current ≠ s.idle_thread then s.ready_list ++ [s.current]
         else s.ready_list) := by
  unfold thread_yield at h
  cases hc : thread_current s with
  | none => simp [hc] at h
  | some cur =>
    simp only [hc] at h
    have hcur := thread_current_eq s cur hc
    subst hcur
    split_ifs at h with hctx hidle
    · obtain ⟨_, p, hp, h1, h2, h3, h4, h5, h6, h7⟩ := do_schedule_unfold _ _ _ h
      have hidle' : some s.current ≠ s.idle_thread := hidle
      refine ⟨rfl, by simpa using hctx, p, hp, h1, ?_, h3, h4, h5, h6, h7⟩
      rw [h2, if_pos hidle']
      rfl
    · obtain ⟨_, p, hp, h1, h2, h3, h4, h5, h6, h7⟩ := do_schedule_unfold _ _ _ h
      have hidle' : ¬ some s.current ≠ s.idle_thread := hidle
      refine ⟨rfl, by simpa using hctx, p, hp, h1, ?_, h3, h4, h5, h6, h7⟩
      rw [h2, if_neg hidle']
      rfl

theorem thread_exit_unfold (s s' : KState) (h : thread_exit s = some s') :
    thread_current s = some s.current ∧ s.in_intr_context = false ∧
    ∃ p, schedule p = some s' ∧ enters_schedule s p THREAD_DYING s.ready_list := by
  unfold thread_exit at h
  split_ifs at h with hctx
  obtain ⟨hc, p, hp, h1, h2, h3, h4, h5, h6, h7⟩ := do_schedule_unfold _ _ _ h
  exact ⟨hc, by simpa using hctx, p, hp, h1, h2, h3, h4, h5, h6, h7⟩

/-- Exactly one RUNNING thread before, the running thread moved out of RUNNING,
then `schedule`: exactly the chosen thread is RUNNING afterwards. -/
theorem only_running_after_switch (s p s' : KState) (c : thread_ptr) (st : thread_status)
    (q : List thread_ptr) (hone : only_running s c) (hc : thread_current s = some s.current)
    (hst : st ≠ THREAD_RUNNING) (hp : enters_schedule s p st q) (h : schedule p = some s') :
    only_running s' s'.current ∧
    (next_thread_to_run { s with ready_list := q }).1 = some s'.current ∧
    s'.thread_ticks = 0 := by
  obtain ⟨hcc, _⟩ := only_running_current s c s.current hone hc
  obtain ⟨hth, hq, hi, _⟩ := hp
  rw [hcc] at hth
  have hnone := none_running_after_status s p c st hone hst hth
  obtain ⟨h1, h2, h3⟩ := only_running_after_schedule p s' hnone h
  refine ⟨h1, ?_, h3⟩
  rw [← h2]
  exact (next_thread_to_run_fst_congr p { s with ready_list := q } hq hi).symm

theorem ready_list_eta (s : KState) : { s with ready_list := s.ready_list } = s := by
  cases s; rfl

/-! ## Claims C14 and C15: the running thread and thread_yield -/

/-- C14: if exactly one live thread is RUNNING, then after `thread_block`,
`thread_yield` or `thread_exit` (each ending in `schedule`) exactly one live
thread is RUNNING, namely the new running thread, which is the one
`next_thread_to_run` chose (for `thread_yield`: chose after the caller was
appended to the ready list), and `thread_ticks` is 0; `thread_unblock` leaves
the RUNNING thread what it was. -/
theorem exactly_one_running_preserved (s : KState) (c : thread_ptr)
    (hone : only_running s c) :
    (∀ s', thread_block s = some s' →
      only_running s' s'.current ∧ (next_thread_to_run s).1 = some s'.current ∧
      s'.thread_ticks = 0) ∧
    (∀ s', thread_yield s = some s' →
      only_running s' s'.current ∧
      (next_thread_to_run
        { s with
          ready_list :=
            if some s.current ≠ s.idle_thread then s.ready_list ++ [s.current]
            else s.ready_list }).1 = some s'.current ∧
      s'.thread_ticks = 0) ∧
    (∀ s', thread_exit s = some s' →
      only_running s' s'.current ∧ (next_thread_to_run s).1 = some s'.current ∧
      s'.thread_ticks = 0) ∧
    (∀ t s', thread_unblock t s = some s' → only_running s' c ∧ s'.current = s.current) := by
  refine ⟨?_, ?_, ?_, ?_⟩
  · intro s' h
    obtain ⟨hc, _, _, p, hp, hent⟩ := thread_block_unfold s s' h
    have := only_running_after_switch s p s' c _ _ hone hc (by decide) hent hp
    rw [ready_list_eta] at this
    exact this
  · intro s' h
    obtain ⟨hc, _, p, hp, hent⟩ := thread_yield_unfold s s' h
    exact only_running_after_switch s p s' c _ _ hone hc (by decide) hent hp
  · intro s' h
    obtain ⟨hc, _, p, hp, hent⟩ := thread_exit_unfold s s' h
    have := only_running_after_switch s p s' c _ _ hone hc (by decide) hent hp
    rw [ready_list_eta] at this
    exact this
  · intro t s' h
    obtain ⟨h1, h2⟩ := thread_unblock_some t s s' h
    rw [thread_unblock_blocked t s h1 h2] at h
    simp only [Option.some.injEq] at h
    subst h
    refine ⟨?_, rfl⟩
    intro u
    simp only [upd]
    by_cases hu : u = t
    · subst hu
      simp only [if_true]
      constructor
      · intro hh; exact absurd hh.2 (by decide)
      · intro huc
        have := (hone u).mpr huc
        rw [h2] at this
        exact absurd this.2 (by decide)
    · simp only [hu, if_false]
      exact hone u

/-- The state after a context switch, thread by thread: the chosen thread is
RUNNING, the thread switched out has the status it was given, every other
thread is as before. -/
theorem switch_result (s p s' : KState) (st : thread_status) (q : List thread_ptr)
    (hp : enters_schedule s p st q) (h : schedule p = some s') :
    ∃ next, (next_thread_to_run { s with ready_list := q }).1 = some next ∧
      is_thread (s.threads next) = true ∧ s'.current = next ∧ s'.ready_list = q.tail ∧
      (∀ t, s'.threads t =
        if t = next then { s.threads t with status := THREAD_RUNNING }
        else if t = s.current then { s.threads t with status := st }
        else s.threads t) ∧
      s'.sleep_list = s.sleep_list ∧ s'.idle_thread = s.idle_thread ∧
      s'.next_tick_to_awake = s.next_tick_to_awake ∧ s'.thread_ticks = 0 := by
  obtain ⟨hth, hq, hi, hcur, hsl, hnt, _⟩ := hp
  obtain ⟨next, hn, hlive, _, _, hth', hrl, hc', hticks, hsl', hi', hnt', _⟩ :=
    schedule_spec p s' h
  refine ⟨next, ?_, ?_, hc', by rw [hrl, hq], ?_, by rw [hsl', hsl], by rw [hi', hi],
    by rw [hnt', hnt], hticks⟩
  · rw [← hn]
    exact (next_thread_to_run_fst_congr p { s with ready_list := q } hq hi).symm
  · rw [hth] at hlive
    by_cases hnc : next = s.current
    · rw [hnc] at hlive ⊢
      simpa [upd, is_thread] using hlive
    · simpa [upd, hnc] using hlive
  · intro t
    rw [hth', hth]
    by_cases ht : t = next
    · subst ht
      by_cases htc : t = s.current
      · simp [upd, htc]
      · simp [upd, htc]
    · by_cases htc : t = s.current
      · rw [htc] at ht ⊢
        have ht' : ¬ next = s.current := fun h => ht h.symm
        simp [upd, ht, ht']
      · simp [upd, ht, htc]

/-- The function `thread_yield` succeeds for a running caller outside
interrupt context when the thread that will be chosen is live. -/
theorem thread_yield_some (s : KState) (next : thread_ptr)
    (hc : thread_current s = some s.current) (hctx : s.in_intr_context = false)
    (hn : (next_thread_to_run
      { s with
        ready_list :=
          if some s.current ≠ s.idle_thread then s.ready_list ++ [s.current]
          else s.ready_list }).1 = some next)
    (hlive : is_thread (s.threads next) = true) :
    ∃ s', thread_yield s = some s' := by
  have hsched : ∀ p : KState,
      enters_schedule s p THREAD_READY
        (if some s.current ≠ s.idle_thread then s.ready_list ++ [s.current]
         else s.ready_list) →
      ∃ s', schedule p = some s' := by
    intro p hp
    obtain ⟨hth, hq, hi, hcur, _, _, hlev⟩ := hp
    apply schedule_some p next
    · rw [← hn]
      exact next_thread_to_run_fst_congr p _ hq hi
    · exact hlev
    · rw [hth, hcur]
      simp [upd]
    · rw [hth]
      by_cases hnc : next = s.current
      · rw [hnc] at hlive ⊢
        simpa [upd, is_thread] using hlive
      · simpa [upd, hnc] using hlive
  unfold thread_yield
  simp only [hc, hctx, Bool.false_eq_true, if_false]
  unfold do_schedule
  by_cases hidle : some s.current ≠ (intr_disable s).idle_thread
  · have hidle' : some s.current ≠ s.idle_thread := hidle
    rw [if_pos hidle]
    have hc2 : thread_current
        { intr_disable s with ready_list := (intr_disable s).ready_list ++ [s.current] }
        = some s.current := by
      rw [← hc]; exact thread_current_congr _ s rfl rfl
    simp only [hc2]
    rw [if_neg (by simp [intr_disable])]
    apply hsched
    refine ⟨rfl, ?_, rfl, rfl, rfl, rfl, rfl⟩
    rw [if_pos hidle']
    rfl
  · have hidle' : ¬ some s.current ≠ s.idle_thread := hidle
    rw [if_neg hidle]
    have hc2 : thread_current (intr_disable s) = some s.current := by
      rw [← hc]; exact thread_current_congr _ s rfl rfl
    simp only [hc2]
    rw [if_neg (by simp [intr_disable])]
    apply hsched
    refine ⟨rfl, ?_, rfl, rfl, rfl, rfl, rfl⟩
    rw [if_neg hidle']
    rfl

theorem next_thread_to_run_nonempty (s : KState) (q : List thread_ptr) (hq : q ≠ []) :
    (next_thread_to_run { s with ready_list := q }).1 = q.head? := by
  cases q with
  | nil => exact absurd rfl hq
  | cons n r => rfl

theorem example_only_running : only_running example_state 1 := by
  intro t
  constructor
  · intro h
    by_contra hne
    simp only [example_state, hne, if_false] at h
    split_ifs at h <;> simp [live_thread, thread_zero, is_thread, THREAD_MAGIC] at h
  · intro h
    subst h
    decide

/-- Witness for C14: thread 1 of the example state yields to thread 4. -/
theorem exactly_one_running_preserved_witness :
    only_running example_state 1 ∧
    thread_yield example_state = some example_yielded ∧
    only_running example_yielded example_yielded.current ∧
    example_yielded.current = 4 ∧ example_yielded.thread_ticks = 0 :=
  ⟨example_only_running, rfl,
   ((exactly_one_running_preserved example_state 1 example_only_running).2.1
      example_yielded rfl).1,
   rfl, rfl⟩

/-- C15: `thread_yield` by a running thread that is not the idle thread puts
the caller at the back of the ready list before the successor is chosen: the
new running thread is the front of the old ready list extended by the caller,
the new ready list is the rest of it, and the caller is READY (RUNNING if it
was chosen itself), never BLOCKED; with an empty ready list the caller is
chosen again and stays RUNNING.  `thread_yield` by the idle thread only pops
the front of the ready list and does not add the idle thread. -/
theorem thread_yield_requeues_caller (s : KState)
    (hc : thread_current s = some s.current) (hctx : s.in_intr_context = false) :
    (some s.current ≠ s.idle_thread →
      (∀ s', thread_yield s = some s' →
        some s'.current = (s.ready_list ++ [s.current]).head? ∧
        s'.ready_list = (s.ready_list ++ [s.current]).tail ∧
        (s'.threads s.current).status
          = (if s'.current = s.current then THREAD_RUNNING else THREAD_READY)) ∧
      (s.ready_list = [] →
        ∃ s', thread_yield s = some s' ∧ s'.current = s.current ∧
          (s'.threads s.current).status = THREAD_RUNNING ∧ s'.ready_list = []) ∧
      (∀ n rest, s.ready_list = n :: rest → is_thread (s.threads n) = true →
        ∃ s', thread_yield s = some s' ∧ s'.current = n ∧
          s'.ready_list = rest ++ [s.current])) ∧
    (some s.current = s.idle_thread →
      ∀ s', thread_yield s = some s' →
        s'.ready_list = s.ready_list.tail ∧
        (s.current ∉ s.ready_list → s.current ∉ s'.ready_list)) := by
  have hlivec : is_thread (s.threads s.current) = true := by
    unfold thread_current at hc
    split_ifs at hc with h
    exact h.1
  constructor
  · intro hidle
    have key : ∀ s', thread_yield s = some s' →
        some s'.current = (s.ready_list ++ [s.current]).head? ∧
        s'.ready_list = (s.ready_list ++ [s.current]).tail ∧
        (s'.threads s.current).status
          = (if s'.current = s.current then THREAD_RUNNING else THREAD_READY) := by
      intro s' h
      obtain ⟨_, _, p, hp, hent⟩ := thread_yield_unfold s s' h
      rw [if_pos hidle] at hent
      obtain ⟨next, hn, _, hcur, hrl, hth, _⟩ := switch_result s p s' _ _ hent hp
      rw [next_thread_to_run_nonempty s _ (by simp)] at hn
      refine ⟨by rw [hcur]; exact hn.symm, hrl, ?_⟩
      rw [hth s.current, hcur]
      by_cases hnc : next = s.current
      · simp [hnc]
      · have hnc' : ¬ s.current = next := fun h => hnc h.symm
        simp [hnc, hnc']
    refine ⟨key, ?_, ?_⟩
    · intro hempty
      have hn : (next_thread_to_run
          { s with
            ready_list :=
              if some s.current ≠ s.idle_thread then s.ready_list ++ [s.current]
              else s.ready_list }).1 = some s.current := by
        rw [if_pos hidle, hempty]
        rfl
      obtain ⟨s', hs'⟩ := thread_yield_some s s.current hc hctx hn hlivec
      obtain ⟨h1, h2, h3⟩ := key s' hs'
      rw [hempty] at h1 h2
      simp only [List.nil_append, List.head?_cons, Option.some.injEq] at h1
      refine ⟨s', hs', h1, ?_, by simpa using h2⟩
      rw [h3, if_pos h1]
    · intro n rest hr hlive
      have hn : (next_thread_to_run
          { s with
            ready_list :=
              if some s.current ≠ s.idle_thread then s.ready_list ++ [s.current]
              else s.ready_list }).1 = some n := by
        rw [if_pos hidle, hr]
        rfl
      obtain ⟨s', hs'⟩ := thread_yield_some s n hc hctx hn hlive
      obtain ⟨h1, h2, _⟩ := key s' hs'
      rw [hr] at h1 h2
      simp only [List.cons_append, List.head?_cons, Option.some.injEq] at h1
      exact ⟨s', hs', h1, by simpa using h2⟩
  · intro hidle s' h
    obtain ⟨_, _, p, hp, hent⟩ := thread_yield_unfold s s' h
    rw [if_neg (by simp [hidle])] at hent
    obtain ⟨next, _, _, _, hrl, _⟩ := switch_result s p s' _ _ hent hp
    refine ⟨hrl, ?_⟩
    intro hnot hin
    rw [hrl] at hin
    exact hnot (List.mem_of_mem_tail hin)

/-- Witness for C15: thread 1 of the example state, whose ready list holds
thread 4, yields; thread 4 runs and thread 1 waits READY at the back. -/
theorem thread_yield_requeues_caller_witness :
    thread_current example_state = some example_state.current ∧
    example_state.in_intr_context = false ∧
    some example_state.current ≠ example_state.idle_thread ∧
    thread_yield example_state = some example_yielded ∧
    some example_yielded.current = ([4] ++ [1]).head? ∧
    example_yielded.ready_list = ([4] ++ [1]).tail ∧
    (example_yielded.threads 1).status = THREAD_READY :=
  ⟨by decide, rfl, by decide, rfl,
   (((thread_yield_requeues_caller example_state (by decide) rfl).1 (by decide)).1
      example_yielded rfl).1,
   (((thread_yield_requeues_caller example_state (by decide) rfl).1 (by decide)).1
      example_yielded rfl).2.1,
   rfl⟩

/-! ## Claim C13: the ready list is first in, first out -/

/-- The threads on a ready list built by `thread_unblock` and `thread_yield`
are distinct live threads in state READY. -/
theorem ready_queue_built_inv (s : KState) (h : ready_queue_built s) :
    (∀ t ∈ s.ready_list, is_thread (s.threads t) = true ∧
      (s.threads t).status = THREAD_READY) ∧ s.ready_list.Nodup := by
  induction h with
  | init s0 h0 => rw [h0]; exact ⟨by simp, List.nodup_nil⟩
  | unblock s0 s1 t _ hstep ih =>
    obtain ⟨h1, h2⟩ := thread_unblock_some t s0 s1 hstep
    rw [thread_unblock_blocked t s0 h1 h2] at hstep
    simp only [Option.some.injEq] at hstep
    subst hstep
    have hnot : t ∉ s0.ready_list := by
      intro hin
      have := (ih.1 t hin).2
      rw [h2] at this
      exact absurd this (by decide)
    constructor
    · intro u hu
      simp only [List.mem_append, List.mem_singleton] at hu
      by_cases hut : u = t
      · subst hut
        simp only [upd, if_true]
        exact ⟨by simpa [is_thread] using h1, trivial⟩
      · rcases hu with hu | hu
        · simpa [upd, hut] using ih.1 u hu
        · exact absurd hu hut
    · simp only
      exact List.Nodup.append ih.2 (List.nodup_singleton t) (by simpa using hnot)
  | yield s0 s1 _ hstep ih =>
    obtain ⟨hc, _, p, hp, hent⟩ := thread_yield_unfold s0 s1 hstep
    obtain ⟨next, hn, _, hcur, hrl, hth, _⟩ := switch_result s0 p s1 _ _ hent hp
    have hrun : is_thread (s0.threads s0.current) = true ∧
        (s0.threads s0.current).status = THREAD_RUNNING := by
      unfold thread_current at hc
      split_ifs at hc with h
      exact h
    have hnot : s0.current ∉ s0.ready_list := by
      intro hin
      have := (ih.1 _ hin).2
      rw [hrun.2] at this
      exact absurd this (by decide)
    have hqnd : (if some s0.current ≠ s0.idle_thread then s0.ready_list ++ [s0.current]
        else s0.ready_list).Nodup := by
      split_ifs
      · exact List.Nodup.append ih.2 (List.nodup_singleton _) (by simpa using hnot)
      · exact ih.2
    have hqmem : ∀ u ∈ (if some s0.current ≠ s0.idle_thread then s0.ready_list ++ [s0.current]
        else s0.ready_list), u ∈ s0.ready_list ∨ u = s0.current := by
      intro u hu
      split_ifs at hu
      · simpa using hu
      · exact Or.inl hu
    rw [hrl]
    refine ⟨?_, hqnd.tail⟩
    intro u hu
    -- `u` is behind the front of the queue, so it is not the chosen thread
    have hune : u ≠ next := by
      intro hun
      cases hq : (if some s0.current ≠ s0.idle_thread then s0.ready_list ++ [s0.current]
          else s0.ready_list) with
      | nil => rw [hq] at hu; simp at hu
      | cons n r =>
        rw [hq] at hu hqnd hn
        simp only [next_thread_to_run, Option.some.injEq] at hn
        simp only [List.tail_cons] at hu
        rw [hun, ← hn] at hu
        exact (List.nodup_cons.mp hqnd).1 hu
    rw [hth u]
    simp only [hune, if_false]
    rcases hqmem u (List.mem_of_mem_tail hu) with hin | hin
    · have huc : u ≠ s0.current := fun h => hnot (h ▸ hin)
      simpa [huc] using ih.1 u hin
    · simp only [hin, if_true]
      exact ⟨by simpa [is_thread] using hrun.1, trivial⟩

/-- C13 (amended): for every non-empty ready list built by `thread_unblock`
and `thread_yield`, `next_thread_to_run` returns and removes the thread at the
front, which is live and READY; it is the thread enqueued earliest, because
`thread_unblock` and `thread_yield` append at the back.  Priorities play no
part. -/
theorem next_thread_to_run_takes_front (s : KState) (h : ready_queue_built s)
    (hne : s.ready_list ≠ []) :
    ∃ t rest, s.ready_list = t :: rest ∧
      next_thread_to_run s = (some t, { s with ready_list := rest }) ∧
      is_thread (s.threads t) = true ∧ (s.threads t).status = THREAD_READY ∧
      (∀ u s', thread_unblock u s = some s' → s'.ready_list = t :: (rest ++ [u])) ∧
      (∀ s', thread_yield s = some s' → some s.current ≠ s.idle_thread →
        s'.current = t ∧ s'.ready_list = rest ++ [s.current]) := by
  cases hq : s.ready_list with
  | nil => exact absurd hq hne
  | cons t rest =>
    have hinv := ready_queue_built_inv s h
    have ht := hinv.1 t (by rw [hq]; exact List.mem_cons_self _ _)
    refine ⟨t, rest, rfl, by simp [next_thread_to_run, hq], ht.1, ht.2, ?_, ?_⟩
    · intro u s' hu
      obtain ⟨h1, h2⟩ := thread_unblock_some u s s' hu
      rw [thread_unblock_blocked u s h1 h2] at hu
      simp only [Option.some.injEq] at hu
      subst hu
      simp [hq]
    · intro s' hy hidle
      obtain ⟨_, _, p, hp, hent⟩ := thread_yield_unfold s s' hy
      rw [if_pos hidle] at hent
      obtain ⟨next, hn, _, hcur, hrl, _⟩ := switch_result s p s' _ _ hent hp
      rw [hq] at hn hrl
      simp only [List.cons_append, next_thread_to_run, Option.some.injEq] at hn
      exact ⟨by rw [hcur, hn], by simpa using hrl⟩

theorem fifo_state_built : ready_queue_built fifo_state :=
  ready_queue_built.unblock
    (match thread_unblock 2 { example_state with ready_list := [] } with
      | some s => s
      | none => example_state)
    fifo_state 3
    (ready_queue_built.unblock { example_state with ready_list := [] } _ 2
      (ready_queue_built.init _ rfl) rfl)
    rfl

/-- Witness for C13 (amended): on the ready list built by unblocking thread 2
and then thread 3, `next_thread_to_run` returns thread 2. -/
theorem next_thread_to_run_takes_front_witness :
    ready_queue_built fifo_state ∧ fifo_state.ready_list = [2, 3] ∧
    ∃ t rest, fifo_state.ready_list = t :: rest ∧
      next_thread_to_run fifo_state = (some t, { fifo_state with ready_list := rest }) ∧
      is_thread (fifo_state.threads t) = true ∧
      (fifo_state.threads t).status = THREAD_READY :=
  ⟨fifo_state_built, rfl,
   match next_thread_to_run_takes_front fifo_state fifo_state_built (by decide) with
   | ⟨t, rest, h1, h2, h3, h4, _⟩ => ⟨t, rest, h1, h2, h3, h4⟩⟩

/-- Counterexample to C13 as stated: the ready list built by unblocking thread
2 (priority 5) and then thread 3 (priority 9) makes `next_thread_to_run` return
thread 2, whose priority is below that of thread 3 in the same list. -/
theorem next_thread_to_run_ignores_priority :
    ready_queue_built fifo_state ∧
    (next_thread_to_run fifo_state).1 = some 2 ∧
    3 ∈ fifo_state.ready_list ∧
    (fifo_state.threads 2).priority < (fifo_state.threads 3).priority :=
  ⟨fifo_state_built, rfl, by decide, by decide⟩

/-! ## Claim C16: the time slice -/

/-- One call of `thread_tick` in interrupt context: the counter advances by
one modulo the size of `unsigned`, and a yield is requested exactly when the
new count has reached `TIME_SLICE`. -/
theorem thread_tick_spec (s : KState) (hc : thread_current s = some s.current)
    (hctx : s.in_intr_context = true) :
    ∃ s', thread_tick s = some s' ∧
      s'.thread_ticks = (s.thread_ticks + 1) % UINT_MODULUS ∧
      s'.yield_on_return
        = (s.yield_on_return || decide (TIME_SLICE ≤ (s.thread_ticks + 1) % UINT_MODULUS)) ∧
      thread_current s' = some s'.current ∧ s'.in_intr_context = true := by
  unfold thread_tick
  simp only [hc]
  by_cases hidle : some s.current = s.idle_thread
  · by_cases hts : TIME_SLICE ≤ (s.thread_ticks + 1) % UINT_MODULUS
    · refine ⟨_, by simp [hidle, hts, intr_yield_on_return, hctx]; rfl, ?_, ?_, ?_, ?_⟩
      · rfl
      · simp [hts]
      · rw [← hc]; exact thread_current_congr _ s rfl rfl
      · rfl
    · refine ⟨_, by simp [hidle, hts]; rfl, ?_, ?_, ?_, ?_⟩
      · rfl
      · simp [hts]
      · rw [← hc]; exact thread_current_congr _ s rfl rfl
      · exact hctx
  · by_cases hts : TIME_SLICE ≤ (s.thread_ticks + 1) % UINT_MODULUS
    · refine ⟨_, by simp [hidle, hts, intr_yield_on_return, hctx]; rfl, ?_, ?_, ?_, ?_⟩
      · rfl
      · simp [hts]
      · rw [← hc]; exact thread_current_congr _ s rfl rfl
      · rfl
    · refine ⟨_, by simp [hidle, hts]; rfl, ?_, ?_, ?_, ?_⟩
      · rfl
      · simp [hts]
      · rw [← hc]; exact thread_current_congr _ s rfl rfl
      · exact hctx

/-- After `k` consecutive calls of `thread_tick` in interrupt context the
counter has advanced by `k` modulo the size of `unsigned`. -/
theorem thread_tick_times_spec (k : Nat) (s : KState)
    (hc : thread_current s = some s.current) (hctx : s.in_intr_context = true)
    (hr : s.thread_ticks < UINT_MODULUS) :
    ∃ sk, thread_tick_times k s = some sk ∧
      sk.thread_ticks = (s.thread_ticks + k) % UINT_MODULUS ∧
      thread_current sk = some sk.current ∧ sk.in_intr_context = true := by
  induction k with
  | zero => exact ⟨s, rfl, (Nat.mod_eq_of_lt hr).symm, hc, hctx⟩
  | succ n ih =>
    obtain ⟨sn, hsn, hticks, hcn, hctxn⟩ := ih
    obtain ⟨s', hs', ht', _, hc', hctx'⟩ := thread_tick_spec sn hcn hctxn
    refine ⟨s', by simp [thread_tick_times, hsn, hs'], ?_, hc', hctx'⟩
    rw [ht', hticks]
    simp only [UINT_MODULUS]
    omega

/-- C16 (amended): starting from `thread_ticks = 0`, for every `k` from 1 up
to the largest `unsigned` value the `k`-th consecutive call of `thread_tick`
raises the counter from `k - 1` to `k`, and it requests a yield on interrupt
return exactly when `k ≥ TIME_SLICE = 4`: the flag `yield_on_return` is set by
the call when `k ≥ 4` and left as it was when `k ≤ 3`. -/
theorem thread_tick_time_slice (s : KState) (k : Nat)
    (hc : thread_current s = some s.current) (hctx : s.in_intr_context = true)
    (h0 : s.thread_ticks = 0) (hk1 : 1 ≤ k) (hk : k < UINT_MODULUS) :
    ∃ s1 s2, thread_tick_times (k - 1) s = some s1 ∧ thread_tick s1 = some s2 ∧
      thread_tick_times k s = some s2 ∧
      s1.thread_ticks = k - 1 ∧ s2.thread_ticks = s1.thread_ticks + 1 ∧
      s2.thread_ticks = k ∧
      s2.yield_on_return = (s1.yield_on_return || decide (TIME_SLICE ≤ k)) ∧
      (thread_tick { s1 with yield_on_return := false }).map (fun r => r.yield_on_return)
        = some (decide (TIME_SLICE ≤ k)) := by
  obtain ⟨s1, hs1, ht1, hc1, hctx1⟩ :=
    thread_tick_times_spec (k - 1) s hc hctx (by rw [h0]; decide)
  obtain ⟨s2, hs2, ht2, hy2, _, _⟩ := thread_tick_spec s1 hc1 hctx1
  have hk' : k - 1 + 1 = k := by omega
  have h1 : s1.thread_ticks = k - 1 := by
    rw [ht1, h0]
    simp only [UINT_MODULUS] at hk ⊢
    omega
  have h2 : (s1.thread_ticks + 1) % UINT_MODULUS = k := by
    rw [h1, hk']
    exact Nat.mod_eq_of_lt hk
  obtain ⟨s3, hs3, _, hy3, _, _⟩ := thread_tick_spec { s1 with yield_on_return := false }
    (by rw [← hc1]; exact thread_current_congr _ s1 rfl rfl) hctx1
  refine ⟨s1, s2, hs1, hs2, ?_, h1, ?_, ?_, ?_, ?_⟩
  · have : thread_tick_times k s = thread_tick_times (k - 1 + 1) s := by rw [hk']
    rw [this]
    simp [thread_tick_times, hs1, hs2]
  · rw [ht2, h2, h1, hk']
  · rw [ht2, h2]
  · rw [hy2, h2]
  · rw [hs3]
    simp only [Option.map_some', Option.some.injEq]
    rw [hy3]
    simp only [Bool.false_or]
    have : ({ s1 with yield_on_return := false } : KState).thread_ticks = s1.thread_ticks := rfl
    rw [this, h2]

/-- Witness for C16: the fourth consecutive tick in the example state. -/
theorem thread_tick_time_slice_witness :
    thread_current tick_state = some tick_state.current ∧
    tick_state.in_intr_context = true ∧ tick_state.thread_ticks = 0 ∧
    ∃ s1 s2, thread_tick_times 3 tick_state = some s1 ∧ thread_tick s1 = some s2 ∧
      s1.thread_ticks = 3 ∧ s1.yield_on_return = false ∧
      s2.thread_ticks = 4 ∧ s2.yield_on_return = true :=
  ⟨by decide, rfl, rfl,
   match thread_tick_time_slice tick_state 4 (by decide) rfl rfl (by decide) (by decide) with
   | ⟨s1, s2, h1, h2, _, h4, _, h6, h7, _⟩ =>
     have hflag : s1.yield_on_return = false := by
       have : thread_tick_times 3 tick_state
           = some (match thread_tick_times 3 tick_state with
             | some r => r
             | none => tick_state) := rfl
       rw [this] at h1
       simp only [Option.some.injEq] at h1
       rw [← h1]
       rfl
     ⟨s1, s2, h1, h2, h4, hflag, h6, by rw [h7, hflag]; rfl⟩⟩

/-- Counterexample to C16 as stated: the call number 4294967296 finds the
`unsigned` counter at its largest value, wraps it to 0 and requests no yield,
although 4294967296 ≥ 4. -/
theorem thread_tick_counter_wraps :
    ∃ s1 s2, thread_tick_times 4294967295 tick_state = some s1 ∧
      thread_tick s1 = some s2 ∧
      s1.thread_ticks = 4294967295 ∧ s2.thread_ticks = 0 ∧
      (thread_tick { s1 with yield_on_return := false }).map (fun r => r.yield_on_return)
        = some false := by
  obtain ⟨s1, hs1, ht1, hc1, hctx1⟩ :=
    thread_tick_times_spec 4294967295 tick_state (by decide) rfl (by decide)
  have h1 : s1.thread_ticks = 4294967295 := by
    rw [ht1]
    decide
  obtain ⟨s2, hs2, ht2, _, _, _⟩ := thread_tick_spec s1 hc1 hctx1
  obtain ⟨s3, hs3, _, hy3, _, _⟩ := thread_tick_spec { s1 with yield_on_return := false }
    (by rw [← hc1]; exact thread_current_congr _ s1 rfl rfl) hctx1
  have hsame : ({ s1 with yield_on_return := false } : KState).thread_ticks
      = s1.thread_ticks := rfl
  refine ⟨s1, s2, hs1, hs2, h1, ?_, ?_⟩
  · rw [ht2, h1]
    decide
  · rw [hs3]
    simp only [Option.map_some', Option.some.injEq]
    rw [hy3, hsame, h1]
    simp only [Bool.false_or]
    decide

/-! ## Claims C17 and C18: the sleep list -/

theorem update_next_tick_eq_min (tick : Int) (s : KState) :
    (update_next_tick_to_awake tick s).next_tick_to_awake = min s.next_tick_to_awake tick := by
  simp only [update_next_tick_to_awake]
  split_ifs with h
  · exact (min_eq_right (le_of_lt h)).symm
  · exact (min_eq_left (not_lt.mp h)).symm

/-- The loop of `thread_awake`, started with the sleep list split into the
part `kept` already visited and the part `rest` still to visit. -/
theorem thread_awake_loop_spec (now : Int) (rest kept : List thread_ptr) (s : KState)
    (hs : s.sleep_list = kept ++ rest) (hnd : (kept ++ rest).Nodup)
    (hblk : ∀ t ∈ rest, is_thread (s.threads t) = true ∧
      (s.threads t).status = THREAD_BLOCKED) :
    ∃ s', thread_awake_loop now rest s = some s' ∧
      s'.sleep_list = kept ++ rest.filter (fun t => decide (now < (s.threads t).wakeup_tick)) ∧
      s'.ready_list
        = s.ready_list ++ rest.filter (fun t => decide ((s.threads t).wakeup_tick ≤ now)) ∧
      (∀ t, s'.threads t =
        if t ∈ rest ∧ (s.threads t).wakeup_tick ≤ now then
          { s.threads t with status := THREAD_READY }
        else s.threads t) ∧
      s'.next_tick_to_awake
        = ((rest.filter (fun t => decide (now < (s.threads t).wakeup_tick))).map
            (fun t => (s.threads t).wakeup_tick)).foldl min s.next_tick_to_awake ∧
      s'.idle_thread = s.idle_thread ∧ s'.current = s.current := by
  induction rest generalizing kept s with
  | nil =>
    refine ⟨s, rfl, by simpa using hs, by simp, ?_, rfl, rfl, rfl⟩
    intro t
    simp
  | cons t rest ih =>
    have htk : t ∉ kept := by
      intro hin
      have := (List.nodup_append.mp hnd).2.2 hin (List.mem_cons_self t rest)
      exact this
    have htr : t ∉ rest := by
      have := (List.nodup_append.mp hnd).2.1
      exact (List.nodup_cons.mp this).1
    have hnd' : (kept ++ rest).Nodup := by
      have h1 := List.nodup_append.mp hnd
      refine List.nodup_append.mpr ⟨h1.1, (List.nodup_cons.mp h1.2.1).2, ?_⟩
      intro a ha hb
      exact h1.2.2 ha (List.mem_cons_of_mem _ hb)
    by_cases hdue : (s.threads t).wakeup_tick ≤ now
    · -- `t` is due: unlink it and unblock it
      obtain ⟨hlive, hst⟩ := hblk t (List.mem_cons_self _ _)
      have herase : s.sleep_list.erase t = kept ++ rest := by
        rw [hs, List.erase_append_right _ htk, List.erase_cons_head]
      have hub := thread_unblock_blocked t { s with sleep_list := s.sleep_list.erase t }
        hlive hst
      have hw : ∀ u, ((upd s.threads t { s.threads t with status := THREAD_READY }) u).wakeup_tick
          = (s.threads u).wakeup_tick := by
        intro u
        by_cases hu : u = t
        · subst hu; simp [upd]
        · simp [upd, hu]
      obtain ⟨s', hloop, hsl, hrl, hth, hnt, hidle, hcur⟩ := ih kept
        { s with
          sleep_list := s.sleep_list.erase t,
          threads := upd s.threads t { s.threads t with status := THREAD_READY },
          ready_list := s.ready_list ++ [t] }
        herase hnd'
        (by
          intro u hu
          have hut : u ≠ t := fun h => htr (h ▸ hu)
          simpa [upd, hut] using hblk u (List.mem_cons_of_mem _ hu))
      simp only [hw] at hsl hrl hth hnt
      refine ⟨s', ?_, ?_, ?_, ?_, ?_, hidle, hcur⟩
      · simp only [thread_awake_loop, ge_iff_le, hdue, if_true, hub]
        exact hloop
      · rw [hsl]
        simp [List.filter_cons, not_lt.mpr hdue]
      · rw [hrl]
        simp [List.filter_cons, hdue]
      · intro u
        rw [hth u]
        by_cases hut : u = t
        · subst hut
          simp [htr, hdue, upd]
        · simp [hut, upd]
      · rw [hnt]
        simp [List.filter_cons, not_lt.mpr hdue]
    · -- `t` stays: its wake-up tick enters the minimum
      have hlt : now < (s.threads t).wakeup_tick := not_le.mp hdue
      obtain ⟨s', hloop, hsl, hrl, hth, hnt, hidle, hcur⟩ := ih (kept ++ [t])
        (update_next_tick_to_awake (s.threads t).wakeup_tick s)
        (by simpa [update_next_tick_to_awake] using hs)
        (by simpa using hnd)
        (fun u hu => hblk u (List.mem_cons_of_mem _ hu))
      have hthreads : (update_next_tick_to_awake (s.threads t).wakeup_tick s).threads
          = s.threads := rfl
      simp only [hthreads] at hsl hrl hth hnt
      refine ⟨s', ?_, ?_, ?_, ?_, ?_, hidle, hcur⟩
      · simp only [thread_awake_loop, ge_iff_le, hdue, if_false]
        exact hloop
      · rw [hsl]
        simp [List.filter_cons, hlt]
      · rw [hrl]
        have hready : (update_next_tick_to_awake (s.threads t).wakeup_tick s).ready_list
            = s.ready_list := rfl
        rw [hready]
        simp [List.filter_cons, hdue]
      · intro u
        rw [hth u]
        by_cases hut : u = t
        · subst hut
          simp [htr, hdue]
        · simp [hut]
      · rw [hnt, update_next_tick_eq_min]
        simp [List.filter_cons, hlt]

theorem foldl_min_le_init (a : Int) (ws : List Int) : ws.foldl min a ≤ a := by
  induction ws generalizing a with
  | nil => exact le_refl _
  | cons w ws ih => exact le_trans (ih (min a w)) (min_le_left a w)

theorem foldl_min_le_mem (a : Int) (ws : List Int) : ∀ w ∈ ws, ws.foldl min a ≤ w := by
  induction ws generalizing a with
  | nil => simp
  | cons x ws ih =>
    intro w hw
    rcases List.mem_cons.mp hw with h | h
    · subst h
      exact le_trans (foldl_min_le_init (min a w) ws) (min_le_right a w)
    · exact ih (min a x) w h

theorem foldl_min_mem (a : Int) (ws : List Int) : ws.foldl min a = a ∨ ws.foldl min a ∈ ws := by
  induction ws generalizing a with
  | nil => exact Or.inl rfl
  | cons x ws ih =>
    rcases ih (min a x) with h | h
    · rcases min_choice a x with hm | hm
      · left; rw [List.foldl_cons, h, hm]
      · right; rw [List.foldl_cons, h, hm]; exact List.mem_cons_self _ _
    · right; exact List.mem_cons_of_mem _ h

/-- The minimum the loop of `thread_awake` accumulates, starting from
`INT64_MAX`, is the minimum wake-up tick of the threads it visited and kept. -/
theorem foldl_min_is_min_wakeup (s : KState) (l : List thread_ptr)
    (hrange : ∀ t ∈ l, (s.threads t).wakeup_tick ≤ INT64_MAX) :
    is_min_wakeup s l ((l.map (fun t => (s.threads t).wakeup_tick)).foldl min INT64_MAX) := by
  refine ⟨?_, ?_, ?_⟩
  · intro h; rw [h]; rfl
  · intro t ht
    exact foldl_min_le_mem _ _ _ (List.mem_map.mpr ⟨t, ht, rfl⟩)
  · intro hne
    rcases foldl_min_mem INT64_MAX (l.map (fun t => (s.threads t).wakeup_tick)) with h | h
    · cases l with
      | nil => exact absurd rfl hne
      | cons t r =>
        refine ⟨t, List.mem_cons_self _ _, ?_⟩
        apply le_antisymm
        · exact foldl_min_le_mem _ _ _ (List.mem_map.mpr ⟨t, List.mem_cons_self _ _, rfl⟩)
        · rw [h]; exact hrange t (List.mem_cons_self _ _)
    · obtain ⟨t, ht, heq⟩ := List.mem_map.mp h
      exact ⟨t, ht, heq.symm⟩

/-- What `thread_awake` does to a sleep list of distinct live blocked
threads. -/
theorem thread_awake_spec (now : Int) (s : KState) (hnd : s.sleep_list.Nodup)
    (hblk : sleepers_blocked s) :
    ∃ s', thread_awake now s = some s' ∧
      s'.sleep_list = s.sleep_list.filter (fun t => decide (now < (s.threads t).wakeup_tick)) ∧
      s'.ready_list = s.ready_list
        ++ s.sleep_list.filter (fun t => decide ((s.threads t).wakeup_tick ≤ now)) ∧
      (∀ t, s'.threads t =
        if t ∈ s.sleep_list ∧ (s.threads t).wakeup_tick ≤ now then
          { s.threads t with status := THREAD_READY }
        else s.threads t) ∧
      s'.next_tick_to_awake
        = ((s.sleep_list.filter (fun t => decide (now < (s.threads t).wakeup_tick))).map
            (fun t => (s.threads t).wakeup_tick)).foldl min INT64_MAX ∧
      s'.idle_thread = s.idle_thread ∧ s'.current = s.current := by
  have := thread_awake_loop_spec now s.sleep_list [] { s with next_tick_to_awake := INT64_MAX }
    (by simp) (by simpa using hnd) hblk
  simpa [thread_awake] using this

/-- C17: on a sleep list of distinct live blocked threads,
`thread_awake (current_tick)` removes from the sleep list and makes READY (at
the back of the ready list) exactly the threads whose `wakeup_tick` is at most
`current_tick`, keeps exactly the others, untouched and so still BLOCKED, and
leaves in `next_tick_to_awake` the minimum `wakeup_tick` of the threads that
remain, or `INT64_MAX` when none remains. -/
theorem thread_awake_wakes_due_threads (now : Int) (s : KState)
    (hnd : s.sleep_list.Nodup) (hblk : sleepers_blocked s)
    (hrange : ∀ t ∈ s.sleep_list, (s.threads t).wakeup_tick ≤ INT64_MAX) :
    ∃ s', thread_awake now s = some s' ∧
      s'.sleep_list = s.sleep_list.filter (fun t => decide (now < (s.threads t).wakeup_tick)) ∧
      s'.ready_list = s.ready_list
        ++ s.sleep_list.filter (fun t => decide ((s.threads t).wakeup_tick ≤ now)) ∧
      (∀ t ∈ s.sleep_list, (s.threads t).wakeup_tick ≤ now →
        (s'.threads t).status = THREAD_READY ∧ t ∉ s'.sleep_list ∧ t ∈ s'.ready_list) ∧
      (∀ t ∈ s.sleep_list, now < (s.threads t).wakeup_tick →
        s'.threads t = s.threads t ∧ (s'.threads t).status = THREAD_BLOCKED ∧
        t ∈ s'.sleep_list) ∧
      (∀ t, t ∉ s.sleep_list → s'.threads t = s.threads t) ∧
      is_min_wakeup s' s'.sleep_list s'.next_tick_to_awake := by
  obtain ⟨s', hrun, hsl, hrl, hth, hnt, _, _⟩ := thread_awake_spec now s hnd hblk
  refine ⟨s', hrun, hsl, hrl, ?_, ?_, ?_, ?_⟩
  · intro t ht hdue
    refine ⟨?_, ?_, ?_⟩
    · rw [hth t]; simp [ht, hdue]
    · rw [hsl]; simp [List.mem_filter, not_lt.mpr hdue]
    · rw [hrl]; simp [List.mem_filter, ht, hdue]
  · intro t ht hlt
    have hnd' : ¬ (s.threads t).wakeup_tick ≤ now := not_le.mpr hlt
    have heq : s'.threads t = s.threads t := by rw [hth t]; simp [hnd']
    refine ⟨heq, ?_, ?_⟩
    · rw [heq]; exact (hblk t ht).2
    · rw [hsl]; simp [List.mem_filter, ht, hlt]
  · intro t ht
    rw [hth t]; simp [ht]
  · have hw : ∀ t, (s'.threads t).wakeup_tick = (s.threads t).wakeup_tick := by
      intro t
      rw [hth t]
      split_ifs <;> rfl
    have hmin := foldl_min_is_min_wakeup s
      (s.sleep_list.filter (fun t => decide (now < (s.threads t).wakeup_tick)))
      (fun t ht => hrange t (List.mem_of_mem_filter ht))
    rw [← hnt, ← hsl] at hmin
    obtain ⟨h1, h2, h3⟩ := hmin
    refine ⟨h1, ?_, ?_⟩
    · intro t ht; rw [hw t]; exact h2 t ht
    · intro hne
      obtain ⟨t, ht, heq⟩ := h3 hne
      exact ⟨t, ht, by rw [hw t]; exact heq⟩

/-- Witness for C17: threads 1, 2 and 3 sleep until ticks 5, 3 and 8;
`thread_awake 3` wakes only thread 2, `thread_awake 5` then only thread 1,
`thread_awake 8` then thread 3, and the cached tick is 5, then 8, then
`INT64_MAX`. -/
theorem thread_awake_wakes_due_threads_witness :
    three_sleepers.sleep_list = [1, 2, 3] ∧
    three_sleepers.sleep_list.map (fun t => (three_sleepers.threads t).wakeup_tick)
      = [5, 3, 8] ∧
    three_sleepers.sleep_list.Nodup ∧ sleepers_blocked three_sleepers ∧
    (∃ s', thread_awake 3 three_sleepers = some s' ∧
      s'.sleep_list = [1, 3] ∧ s'.ready_list = [2] ∧
      is_min_wakeup s' s'.sleep_list s'.next_tick_to_awake) ∧
    (thread_awake 3 three_sleepers).map
        (fun s => (s.sleep_list, s.ready_list, s.next_tick_to_awake))
      = some ([1, 3], [2], 5) ∧
    ((thread_awake 3 three_sleepers).bind (thread_awake 5)).map
        (fun s => (s.sleep_list, s.ready_list, s.next_tick_to_awake))
      = some ([3], [2, 1], 8) ∧
    (((thread_awake 3 three_sleepers).bind (thread_awake 5)).bind (thread_awake 8)).map
        (fun s => (s.sleep_list, s.ready_list, s.next_tick_to_awake))
      = some ([], [2, 1, 3], INT64_MAX) :=
  ⟨by decide, by decide, by decide, by unfold sleepers_blocked; decide,
   match thread_awake_wakes_due_threads 3 three_sleepers (by decide)
      (by unfold sleepers_blocked; decide) (by decide) with
   | ⟨s', h1, h2, h3, _, _, _, h7⟩ => ⟨s', h1, h2, h3, h7⟩,
   by decide, by decide, by decide⟩

theorem thread_current_running (s : KState) (c : thread_ptr)
    (hc : thread_current s = some c) :
    is_thread (s.threads c) = true ∧ (s.threads c).status = THREAD_RUNNING := by
  have hcur := thread_current_eq s c hc
  subst hcur
  unfold thread_current at hc
  split_ifs at hc with h
  exact h

/-- A context switch keeps the queues consistent.  `m` is the state in which
the running thread gives up the CPU with new status `st`, `q` the ready list
`schedule` chooses from; the running thread may itself be on `q` (then it
becomes READY) or on the sleep list (then it becomes BLOCKED). -/
theorem switch_keeps_queues (m p s' : KState) (st : thread_status) (q : List thread_ptr)
    (hc : thread_current m = some m.current)
    (hp : enters_schedule m p st q) (h : schedule p = some s')
    (hR : ∀ t ∈ q, t ≠ m.current →
      is_thread (m.threads t) = true ∧ (m.threads t).status = THREAD_READY)
    (hRc : m.current ∈ q → st = THREAD_READY) (hRN : q.Nodup)
    (hS : ∀ t ∈ m.sleep_list, t ≠ m.current →
      is_thread (m.threads t) = true ∧ (m.threads t).status = THREAD_BLOCKED)
    (hSc : m.current ∈ m.sleep_list → st = THREAD_BLOCKED) (hSN : m.sleep_list.Nodup)
    (hF : ∀ t ∈ m.sleep_list, some t ≠ m.idle_thread)
    (hW : ∀ t ∈ m.sleep_list, (m.threads t).wakeup_tick ≤ INT64_MAX) :
    queues_consistent s' ∧ s'.sleep_list = m.sleep_list ∧
    s'.next_tick_to_awake = m.next_tick_to_awake ∧
    (∀ t, (s'.threads t).wakeup_tick = (m.threads t).wakeup_tick) ∧
    (∀ t ∈ m.sleep_list, (s'.threads t).status = THREAD_BLOCKED) := by
  obtain ⟨hlivec, _⟩ := thread_current_running m m.current hc
  obtain ⟨next, hn, hlive, hcur, hrl, hth, hsl, hidle, hnt, _⟩ := switch_result m p s' st q hp h
  have hw : ∀ t, (s'.threads t).wakeup_tick = (m.threads t).wakeup_tick := by
    intro t
    rw [hth t]
    split_ifs <;> rfl
  -- no sleeper is on the list `schedule` chooses from
  have hdisj : ∀ t ∈ m.sleep_list, t ∉ q := by
    intro t hts htq
    by_cases htc : t = m.current
    · rw [htc] at hts htq
      have h1 := hRc htq
      have h2 := hSc hts
      rw [h1] at h2
      exact absurd h2 (by decide)
    · have h1 := (hR t htq htc).2
      have h2 := (hS t hts htc).2
      rw [h1] at h2
      exact absurd h2 (by decide)
  -- the chosen thread is the front of `q`, or the idle thread
  have hnext : next ∈ q ∨ (q = [] ∧ m.idle_thread = some next) := by
    cases hq : q with
    | nil =>
      rw [hq] at hn
      exact Or.inr ⟨rfl, hn⟩
    | cons n r =>
      rw [hq] at hn
      simp only [next_thread_to_run, Option.some.injEq] at hn
      exact Or.inl (by rw [← hn]; exact List.mem_cons_self _ _)
  have hnosleep : ∀ t ∈ m.sleep_list, t ≠ next := by
    intro t hts htn
    rcases hnext with h1 | ⟨_, h1⟩
    · exact hdisj t hts (htn ▸ h1)
    · exact hF t hts (by rw [h1, htn])
  have hblocked : ∀ t ∈ m.sleep_list,
      is_thread (s'.threads t) = true ∧ (s'.threads t).status = THREAD_BLOCKED := by
    intro t hts
    rw [hth t]
    simp only [hnosleep t hts, if_false]
    by_cases htc : t = m.current
    · rw [htc] at hts
      rw [if_pos htc, htc]
      exact ⟨by simpa [is_thread] using hlivec, hSc hts⟩
    · rw [if_neg htc]
      exact hS t hts htc
  refine ⟨⟨?_, ?_, ?_, ?_, ?_, ?_⟩, hsl, hnt, hw, fun t ht => (hblocked t ht).2⟩
  · intro t ht
    rw [hrl] at ht
    have htq : t ∈ q := List.mem_of_mem_tail ht
    have htn : t ≠ next := by
      intro htn
      cases hq : q with
      | nil => rw [hq] at ht; simp at ht
      | cons n r =>
        rw [hq] at hn ht hRN
        simp only [next_thread_to_run, Option.some.injEq] at hn
        simp only [List.tail_cons] at ht
        rw [htn, ← hn] at ht
        exact (List.nodup_cons.mp hRN).1 ht
    rw [hth t]
    simp only [htn, if_false]
    by_cases htc : t = m.current
    · rw [htc] at htq
      rw [if_pos htc, htc]
      exact ⟨by simpa [is_thread] using hlivec, hRc htq⟩
    · rw [if_neg htc]
      exact hR t htq htc
  · rw [hrl]; exact hRN.tail
  · intro t ht
    rw [hsl] at ht
    exact hblocked t ht
  · rw [hsl]; exact hSN
  · intro t ht
    rw [hsl] at ht
    rw [hidle]
    exact hF t ht
  · intro t ht
    rw [hsl] at ht
    rw [hw t]
    exact hW t ht

/-- The function `thread_sleep` as a call of `thread_block` in the state `m`
in which the caller has recorded its wake-up tick, lowered the cached minimum
and queued itself on the sleep list. -/
theorem thread_sleep_unfold (tick : Int) (s s' : KState)
    (h : thread_sleep tick s = some s') :
    thread_current s = some s.current ∧ some s.current ≠ s.idle_thread ∧
    ∃ m, thread_block m = some s' ∧
      m.threads = upd s.threads s.current { s.threads s.current with wakeup_tick := tick } ∧
      m.sleep_list = s.sleep_list ++ [s.current] ∧
      m.next_tick_to_awake = min s.next_tick_to_awake tick ∧
      m.ready_list = s.ready_list ∧ m.idle_thread = s.idle_thread ∧
      m.current = s.current := by
  unfold thread_sleep at h
  have hcc : thread_current (intr_disable s) = thread_current s :=
    thread_current_congr _ s rfl rfl
  simp only [hcc] at h
  cases hc : thread_current s with
  | none => simp [hc] at h
  | some cur =>
    simp only [hc] at h
    have hcur := thread_current_eq s cur hc
    subst hcur
    split_ifs at h with hidle
    refine ⟨rfl, hidle, _, h, rfl, rfl, ?_, rfl, rfl, rfl⟩
    exact update_next_tick_eq_min tick _

theorem is_min_wakeup_congr (s s' : KState) (l : List thread_ptr) (v : Int)
    (hw : ∀ t, (s'.threads t).wakeup_tick = (s.threads t).wakeup_tick)
    (h : is_min_wakeup s l v) : is_min_wakeup s' l v := by
  obtain ⟨h1, h2, h3⟩ := h
  refine ⟨h1, ?_, ?_⟩
  · intro t ht; rw [hw t]; exact h2 t ht
  · intro hne
    obtain ⟨t, ht, heq⟩ := h3 hne
    exact ⟨t, ht, by rw [hw t]; exact heq⟩

/-- What `thread_sleep` does in a consistent state whose cached tick is the
minimum over the sleep list. -/
theorem thread_sleep_spec (tick : Int) (s s' : KState) (htick : tick ≤ INT64_MAX)
    (hq : queues_consistent s) (hmin : is_min_wakeup s s.sleep_list s.next_tick_to_awake)
    (h : thread_sleep tick s = some s') :
    queues_consistent s' ∧ is_min_wakeup s' s'.sleep_list s'.next_tick_to_awake ∧
    (s'.threads s.current).wakeup_tick = tick ∧
    s'.sleep_list = s.sleep_list ++ [s.current] ∧
    (s'.threads s.current).status = THREAD_BLOCKED ∧
    s'.next_tick_to_awake = min s.next_tick_to_awake tick := by
  obtain ⟨hR, hRN, hS, hSN, hF, hW⟩ := hq
  obtain ⟨hc, hidle, m, hblock, hmth, hmsl, hmnt, hmrl, hmidle, hmcur⟩ :=
    thread_sleep_unfold tick s s' h
  obtain ⟨hlive, hrun⟩ := thread_current_running s s.current hc
  have hcr : s.current ∉ s.ready_list := by
    intro hin
    have := (hR _ hin).2
    rw [hrun] at this
    exact absurd this (by decide)
  have hcs : s.current ∉ s.sleep_list := by
    intro hin
    have := (hS _ hin).2
    rw [hrun] at this
    exact absurd this (by decide)
  have hmc : thread_current m = some m.current := by
    unfold thread_current
    have hm1 : m.threads m.current = { s.threads s.current with wakeup_tick := tick } := by
      rw [hmth, hmcur]; simp [upd]
    rw [hm1]
    have h1 : is_thread { s.threads s.current with wakeup_tick := tick } = true := by
      simpa [is_thread] using hlive
    have h2 : ({ s.threads s.current with wakeup_tick := tick } : thread).status
        = THREAD_RUNNING := hrun
    rw [if_pos ⟨h1, h2⟩]
  obtain ⟨_, _, _, p, hp, hent⟩ := thread_block_unfold m s' hblock
  have hother : ∀ t, t ≠ s.current → m.threads t = s.threads t := by
    intro t ht
    rw [hmth]
    simp [upd, ht]
  have hkeep := switch_keeps_queues m p s' THREAD_BLOCKED m.ready_list hmc hent hp
    (by
      intro t ht htc
      rw [hmrl] at ht
      rw [hmcur] at htc
      rw [hother t htc]
      exact hR t ht)
    (by
      intro hin
      rw [hmrl, hmcur] at hin
      exact absurd hin hcr)
    (by rw [hmrl]; exact hRN)
    (by
      intro t ht htc
      rw [hmcur] at htc
      rw [hmsl] at ht
      rw [hother t htc]
      rcases List.mem_append.mp ht with h1 | h1
      · exact hS t h1
      · exact absurd (List.mem_singleton.mp h1) htc)
    (fun _ => rfl)
    (by
      rw [hmsl]
      exact List.Nodup.append hSN (List.nodup_singleton _) (by simpa using hcs))
    (by
      intro t ht
      rw [hmsl] at ht
      rw [hmidle]
      rcases List.mem_append.mp ht with h1 | h1
      · exact hF t h1
      · rw [List.mem_singleton.mp h1]; exact hidle)
    (by
      intro t ht
      rw [hmsl] at ht
      rcases List.mem_append.mp ht with h1 | h1
      · have htc : t ≠ s.current := fun h => hcs (h ▸ h1)
        rw [hother t htc]
        exact hW t h1
      · rw [List.mem_singleton.mp h1, hmth]
        simpa [upd] using htick)
  obtain ⟨hq', hsl', hnt', hw', hblk'⟩ := hkeep
  have hmw : (m.threads s.current).wakeup_tick = tick := by
    rw [hmth]; simp [upd]
  -- the cached tick in `m` is the minimum over the extended sleep list
  have hmmin : is_min_wakeup m m.sleep_list m.next_tick_to_awake := by
    rw [hmsl, hmnt]
    obtain ⟨h1, h2, h3⟩ := hmin
    refine ⟨by simp, ?_, ?_⟩
    · intro t ht
      rcases List.mem_append.mp ht with ht1 | ht1
      · have htc : t ≠ s.current := fun h => hcs (h ▸ ht1)
        rw [hother t htc]
        exact le_trans (min_le_left _ _) (h2 t ht1)
      · rw [List.mem_singleton.mp ht1, hmw]
        exact min_le_right _ _
    · intro _
      by_cases hle : s.next_tick_to_awake ≤ tick
      · by_cases hemp : s.sleep_list = []
        · refine ⟨s.current, by simp, ?_⟩
          rw [hmw, h1 hemp]
          exact min_eq_right htick
        · obtain ⟨t, ht, heq⟩ := h3 hemp
          have htc : t ≠ s.current := fun h => hcs (h ▸ ht)
          refine ⟨t, List.mem_append.mpr (Or.inl ht), ?_⟩
          rw [hother t htc, min_eq_left hle]
          exact heq
      · refine ⟨s.current, by simp, ?_⟩
        rw [hmw]
        exact min_eq_right (le_of_lt (not_le.mp hle))
  refine ⟨hq', ?_, ?_, ?_, ?_, ?_⟩
  · rw [hsl', hnt']
    exact is_min_wakeup_congr m s' _ _ hw' hmmin
  · rw [hw', hmw]
  · rw [hsl', hmsl]
  · exact hblk' s.current (by rw [hmsl]; simp)
  · rw [hnt', hmnt]

/-- The function `thread_yield` keeps the queues consistent and does not
touch the sleep list, the wake-up ticks or the cached tick. -/
theorem thread_yield_keeps (s s' : KState) (hq : queues_consistent s)
    (hmin : is_min_wakeup s s.sleep_list s.next_tick_to_awake)
    (h : thread_yield s = some s') :
    queues_consistent s' ∧ is_min_wakeup s' s'.sleep_list s'.next_tick_to_awake := by
  obtain ⟨hR, hRN, hS, hSN, hF, hW⟩ := hq
  obtain ⟨hc, _, p, hp, hent⟩ := thread_yield_unfold s s' h
  obtain ⟨hlive, hrun⟩ := thread_current_running s s.current hc
  have hcr : s.current ∉ s.ready_list := by
    intro hin
    have := (hR _ hin).2
    rw [hrun] at this
    exact absurd this (by decide)
  have hcs : s.current ∉ s.sleep_list := by
    intro hin
    have := (hS _ hin).2
    rw [hrun] at this
    exact absurd this (by decide)
  have hkeep := switch_keeps_queues s p s' THREAD_READY _ hc hent hp
    (by
      intro t ht htc
      split_ifs at ht
      · rcases List.mem_append.mp ht with h1 | h1
        · exact hR t h1
        · exact absurd (List.mem_singleton.mp h1) htc
      · exact hR t ht)
    (fun _ => rfl)
    (by
      split_ifs
      · exact List.Nodup.append hRN (List.nodup_singleton _) (by simpa using hcr)
      · exact hRN)
    (fun t ht _ => hS t ht)
    (fun hin => absurd hin hcs)
    hSN hF hW
  obtain ⟨hq', hsl', hnt', hw', _⟩ := hkeep
  refine ⟨hq', ?_⟩
  rw [hsl', hnt']
  exact is_min_wakeup_congr s s' _ _ hw' hmin

/-- The function `thread_awake` succeeds in a consistent state, keeps the
queues consistent and leaves the cached tick at the minimum over the sleep
list. -/
theorem thread_awake_keeps (now : Int) (s : KState) (hq : queues_consistent s) :
    ∃ s', thread_awake now s = some s' ∧ queues_consistent s' ∧
      is_min_wakeup s' s'.sleep_list s'.next_tick_to_awake := by
  obtain ⟨hR, hRN, hS, hSN, hF, hW⟩ := hq
  obtain ⟨s', hrun, hsl, hrl, hth, hnt, hidle, _⟩ := thread_awake_spec now s hSN hS
  have hw : ∀ t, (s'.threads t).wakeup_tick = (s.threads t).wakeup_tick := by
    intro t
    rw [hth t]
    split_ifs <;> rfl
  have hnotboth : ∀ t ∈ s.ready_list, t ∉ s.sleep_list := by
    intro t htr hts
    have h1 := (hR t htr).2
    have h2 := (hS t hts).2
    rw [h1] at h2
    exact absurd h2 (by decide)
  refine ⟨s', hrun, ⟨?_, ?_, ?_, ?_, ?_, ?_⟩, ?_⟩
  · intro t ht
    rw [hrl] at ht
    rw [hth t]
    rcases List.mem_append.mp ht with h1 | h1
    · have : ¬ (t ∈ s.sleep_list ∧ (s.threads t).wakeup_tick ≤ now) :=
        fun h => hnotboth t h1 h.1
      rw [if_neg this]
      exact hR t h1
    · obtain ⟨h2, h3⟩ := List.mem_filter.mp h1
      have h3' : (s.threads t).wakeup_tick ≤ now := by simpa using h3
      rw [if_pos ⟨h2, h3'⟩]
      exact ⟨by simpa [is_thread] using (hS t h2).1, rfl⟩
  · rw [hrl]
    refine List.Nodup.append hRN (hSN.filter _) ?_
    intro t htr hts
    exact hnotboth t htr (List.mem_of_mem_filter hts)
  · intro t ht
    rw [hsl] at ht
    obtain ⟨h2, h3⟩ := List.mem_filter.mp ht
    have h3' : now < (s.threads t).wakeup_tick := by simpa using h3
    rw [hth t, if_neg (fun h => absurd h.2 (not_le.mpr h3'))]
    exact hS t h2
  · rw [hsl]; exact hSN.filter _
  · intro t ht
    rw [hsl] at ht
    rw [hidle]
    exact hF t (List.mem_of_mem_filter ht)
  · intro t ht
    rw [hsl] at ht
    rw [hw t]
    exact hW t (List.mem_of_mem_filter ht)
  · have hmin := foldl_min_is_min_wakeup s
      (s.sleep_list.filter (fun t => decide (now < (s.threads t).wakeup_tick)))
      (fun t ht => hW t (List.mem_of_mem_filter ht))
    rw [← hnt, ← hsl] at hmin
    exact is_min_wakeup_congr s s' _ _ hw hmin

/-- In every state reachable through `thread_sleep`, `thread_awake` and
`thread_yield` the queues are consistent and the cached tick is the minimum
wake-up tick over the sleep list. -/
theorem sleep_reachable_inv (s : KState) (h : sleep_reachable s) :
    queues_consistent s ∧ is_min_wakeup s s.sleep_list s.next_tick_to_awake := by
  induction h with
  | init s0 hsl hnt hR hRN =>
    refine ⟨⟨hR, hRN, ?_, ?_, ?_, ?_⟩, ?_, ?_, ?_⟩
    · intro t ht; rw [hsl] at ht; simp at ht
    · rw [hsl]; exact List.nodup_nil
    · intro t ht; rw [hsl] at ht; simp at ht
    · intro t ht; rw [hsl] at ht; simp at ht
    · intro _; exact hnt
    · intro t ht; rw [hsl] at ht; simp at ht
    · intro hne; exact absurd hsl hne
  | sleep s0 s1 tick _ htick hstep ih =>
    obtain ⟨h1, h2, _⟩ := thread_sleep_spec tick s0 s1 htick ih.1 ih.2 hstep
    exact ⟨h1, h2⟩
  | awake s0 s1 now _ hstep ih =>
    obtain ⟨s', hrun, h1, h2⟩ := thread_awake_keeps now s0 ih.1
    rw [hrun] at hstep
    simp only [Option.some.injEq] at hstep
    subst hstep
    exact ⟨h1, h2⟩
  | yield s0 s1 _ hstep ih => exact thread_yield_keeps s0 s1 ih.1 ih.2 hstep

/-- C18: in every state reachable from an initial state with an empty sleep
list and `next_tick_to_awake = INT64_MAX` through calls of `thread_sleep` (by
non-idle threads), `thread_awake` and `thread_yield`, `next_tick_to_awake` is
the minimum `wakeup_tick` over the threads on the sleep list, and `INT64_MAX`
when the list is empty; and `thread_sleep (tick)` there records
`wakeup_tick = tick` for the caller, who is not the idle thread, appends the
caller to the sleep list, leaves it BLOCKED and sets the cached tick to the
minimum of its previous value and `tick`. -/
theorem next_tick_to_awake_is_minimum (s : KState) (h : sleep_reachable s) :
    (s.sleep_list = [] → s.next_tick_to_awake = INT64_MAX) ∧
    (∀ t ∈ s.sleep_list, s.next_tick_to_awake ≤ (s.threads t).wakeup_tick) ∧
    (s.sleep_list ≠ [] →
      ∃ t ∈ s.sleep_list, s.next_tick_to_awake = (s.threads t).wakeup_tick) ∧
    (∀ tick s', tick ≤ INT64_MAX → thread_sleep tick s = some s' →
      some s.current ≠ s.idle_thread ∧
      (s'.threads s.current).wakeup_tick = tick ∧
      s'.sleep_list = s.sleep_list ++ [s.current] ∧
      (s'.threads s.current).status = THREAD_BLOCKED ∧
      s'.next_tick_to_awake = min s.next_tick_to_awake tick) := by
  obtain ⟨hq, h1, h2, h3⟩ := sleep_reachable_inv s h
  refine ⟨h1, h2, h3, ?_⟩
  intro tick s' htick hstep
  obtain ⟨_, _, h4, h5, h6, h7⟩ := thread_sleep_spec tick s s' htick hq ⟨h1, h2, h3⟩ hstep
  exact ⟨(thread_sleep_unfold tick s s' hstep).2.1, h4, h5, h6, h7⟩

theorem sleep_boot_reachable : sleep_reachable sleep_boot :=
  sleep_reachable.init sleep_boot rfl rfl (by decide) (by decide)

theorem three_sleepers_reachable : sleep_reachable three_sleepers :=
  sleep_reachable.sleep
    (match (thread_sleep 5 sleep_boot).bind (thread_sleep 3) with
      | some s => s
      | none => sleep_boot)
    three_sleepers 8
    (sleep_reachable.sleep
      (match thread_sleep 5 sleep_boot with
        | some s => s
        | none => sleep_boot)
      _ 3
      (sleep_reachable.sleep sleep_boot _ 5 sleep_boot_reachable (by decide) rfl)
      (by decide) rfl)
    (by decide) rfl

/-- Witness for C18: after threads 1, 2 and 3 have gone to sleep until ticks
5, 3 and 8 the cached tick is 3, the minimum. -/
theorem next_tick_to_awake_is_minimum_witness :
    sleep_reachable three_sleepers ∧ three_sleepers.sleep_list = [1, 2, 3] ∧
    three_sleepers.next_tick_to_awake = 3 ∧
    (∀ t ∈ three_sleepers.sleep_list,
      three_sleepers.next_tick_to_awake ≤ (three_sleepers.threads t).wakeup_tick) ∧
    (three_sleepers.sleep_list ≠ [] →
      ∃ t ∈ three_sleepers.sleep_list,
        three_sleepers.next_tick_to_awake = (three_sleepers.threads t).wakeup_tick) :=
  ⟨three_sleepers_reachable, rfl, rfl,
   (next_tick_to_awake_is_minimum three_sleepers three_sleepers_reachable).2.1,
   (next_tick_to_awake_is_minimum three_sleepers three_sleepers_reachable).2.2.1⟩

/-! ## Claims C19 and C20: cond_signal -/

theorem test_max_priority_semas (s : KState) : (test_max_priority s).semas = s.semas := by
  unfold test_max_priority
  split <;> rfl

/-- C19: when the running thread holds the lock and every entry of the
non-empty waiter list is the private semaphore of a live blocked thread,
`cond_signal` removes exactly one entry `p` from the waiter list, the thread
`t` blocked on `p` has effective priority at least that of the thread blocked
on any entry, `sema_up` is applied to `p` and to no other semaphore, and `t` is
the only thread whose state changes: it becomes READY at the back of the ready
list. -/
theorem cond_signal_wakes_highest_priority_waiter (cond : condition) (lock : lock_ptr)
    (s : KState) (hctx : s.in_intr_context = false)
    (hheld : lock_held_by_current_thread lock s = some true)
    (hne : cond.waiters ≠ []) (hblk : cond_waiters_blocked cond s) :
    ∃ p t cond' s', cond_signal cond lock s = some (cond', s') ∧
      cond.waiters.Perm (p :: cond'.waiters) ∧
      (s.semas p).waiters = [t] ∧
      (∀ q ∈ cond.waiters, ∀ u, (s.semas q).waiters = [u] →
        (s.threads u).priority ≤ (s.threads t).priority) ∧
      (s'.semas p).waiters = [] ∧
      (s'.semas p).value = ((s.semas p).value + 1) % UINT_MODULUS ∧
      (∀ q, q ≠ p → s'.semas q = s.semas q) ∧
      (s'.threads t).status = THREAD_READY ∧
      (∀ u, u ≠ t → s'.threads u = s.threads u) ∧
      s'.ready_list = s.ready_list ++ [t] := by
  have hsort := list_sort_ne_nil (cmp_sema_priority s) cond.waiters hne
  cases hl : list_sort (cmp_sema_priority s) cond.waiters with
  | nil => exact absurd hl hsort
  | cons p rest =>
    have hperm := list_sort_perm (cmp_sema_priority s) cond.waiters
    rw [hl] at hperm
    have hp : p ∈ cond.waiters := hperm.subset (List.mem_cons_self _ _)
    obtain ⟨t, hwt, hlive, hst⟩ := hblk p hp
    have hmax := list_sort_head_max (fun a => sema_front_priority s a) cond.waiters p rest hl
    have hfront : ∀ q u, (s.semas q).waiters = [u] →
        sema_front_priority s q = (s.threads u).priority := by
      intro q u hq
      simp [sema_front_priority, hq]
    have hany : cond.waiters.any (fun q => (s.semas q).waiters.isEmpty) = false := by
      rw [List.any_eq_false]
      intro q hq
      obtain ⟨u, hu, _⟩ := hblk q hq
      simp [hu]
    have hwb : waiters_blocked (s.semas p) s := by
      intro u hu
      rw [hwt] at hu
      rw [List.mem_singleton.mp hu]
      exact ⟨hlive, hst⟩
    obtain ⟨t', rest', hsort', hup⟩ := sema_up_wake (s.semas p) s (by rw [hwt]; simp) hwb
    rw [hwt] at hsort'
    simp only [list_sort, sort_insert, List.cons.injEq] at hsort'
    obtain ⟨ht', hrest'⟩ := hsort'
    subst ht' hrest'
    obtain ⟨sema1, s1, hup1, hw1, hv1, hsem1, hth1, hrl1⟩ :
        ∃ sema1 s1, sema_up (s.semas p) s = some (sema1, s1) ∧ sema1.waiters = [] ∧
          sema1.value = ((s.semas p).value + 1) % UINT_MODULUS ∧ s1.semas = s.semas ∧
          s1.threads = upd s.threads t { s.threads t with status := THREAD_READY } ∧
          s1.ready_list = s.ready_list ++ [t] :=
      ⟨_, _, hup, rfl, rfl,
        by simp [intr_set_level, test_max_priority_semas, intr_disable],
        by simp [intr_set_level, (test_max_priority_threads _).1],
        by simp [intr_set_level, (test_max_priority_threads _).2.2.1]⟩
    refine ⟨p, t, { waiters := rest }, { s1 with semas := upd s1.semas p sema1 }, ?_,
      hperm.symm, hwt, ?_, ?_, ?_, ?_, ?_, ?_, ?_⟩
    · simp [cond_signal, hctx, hheld, hne, hany, hl, hup1]
    · intro q hq u hu
      have := hmax q hq
      simp only at this
      rw [hfront q u hu, hfront p t hwt] at this
      exact this
    · simp [upd, hw1]
    · simp [upd, hv1]
    · intro q hq
      simp [upd, hq, hsem1]
    · simp [hth1, upd]
    · intro u hu
      simp [hth1, upd, hu]
    · exact hrl1

/-- Witness for C19: of the waiting threads 2 (priority 5) and 3 (priority 9)
`cond_signal` wakes thread 3, through its semaphore 1. -/
theorem cond_signal_wakes_highest_priority_waiter_witness :
    cond_state.in_intr_context = false ∧
    lock_held_by_current_thread 0 cond_state = some true ∧
    cond_waiters_blocked { waiters := [0, 1] } cond_state ∧
    (cond_signal { waiters := [0, 1] } 0 cond_state).map
        (fun r => (r.1.waiters, (r.2.semas 1).value, (r.2.semas 1).waiters,
          (r.2.semas 0).waiters, (r.2.threads 3).status, (r.2.threads 2).status,
          r.2.ready_list))
      = some ([0], 1, [], [2], THREAD_READY, THREAD_BLOCKED, [3]) ∧
    ∃ p t cond' s', cond_signal { waiters := [0, 1] } 0 cond_state = some (cond', s') ∧
      ([0, 1] : List Nat).Perm (p :: cond'.waiters) ∧
      (cond_state.semas p).waiters = [t] ∧ (s'.threads t).status = THREAD_READY :=
  ⟨rfl, by decide,
   by
     intro p hp
     simp only [List.mem_cons, List.mem_singleton, List.not_mem_nil, or_false] at hp
     rcases hp with h | h
     · subst h; exact ⟨2, by decide, by decide, by decide⟩
     · subst h; exact ⟨3, by decide, by decide, by decide⟩,
   rfl,
   match cond_signal_wakes_highest_priority_waiter { waiters := [0, 1] } 0 cond_state rfl
      (by decide)
      (by decide)
      (by
        intro p hp
        simp only [List.mem_cons, List.mem_singleton, List.not_mem_nil, or_false] at hp
        rcases hp with h | h
        · subst h; exact ⟨2, by decide, by decide, by decide⟩
        · subst h; exact ⟨3, by decide, by decide, by decide⟩) with
   | ⟨p, t, cond', s', h1, h2, h3, _, _, _, _, h8, _, _⟩ => ⟨p, t, cond', s', h1, h2, h3, h8⟩⟩

/-- C20 (evaluation of the code on the failing input): the running thread 1
holds lock 0, is outside interrupt context and signals a condition variable
without waiters.  The call does not complete: the statement after the `if`
pops the front of the empty waiter list, which the list library asserts
against.  This holds for every lock and every kernel state. -/
theorem cond_signal_empty_fails :
    lock_held_by_current_thread 0 example_locked = some true ∧
    example_locked.in_intr_context = false ∧
    cond_signal cond_init 0 example_locked = none ∧
    ∀ (lock : lock_ptr) (s : KState), cond_signal { waiters := [] } lock s = none := by
  refine ⟨by decide, rfl, rfl, ?_⟩
  intro lock s
  unfold cond_signal
  by_cases hctx : s.in_intr_context = true
  · simp [hctx]
  · cases lock_held_by_current_thread lock s with
    | none => simp [hctx]
    | some b => cases b <;> simp [hctx]

/-! ## Claim C23: thread_unblock -/

/-- C23: `thread_unblock t` succeeds exactly when `t` is a live thread
(`is_thread`) in state BLOCKED.  On success `t` becomes READY and is appended
at the back of the ready list, every other thread control block, the running
thread, the interrupt level and the sleep list are unchanged and no yield is
requested.  When `t` is not BLOCKED the call fails its assertion. -/
theorem thread_unblock_spec (t : thread_ptr) (s : KState) :
    ((∃ s', thread_unblock t s = some s') ↔
      (is_thread (s.threads t) = true ∧ (s.threads t).status = THREAD_BLOCKED)) ∧
    (∀ s', thread_unblock t s = some s' →
      s'.threads t = { s.threads t with status := THREAD_READY } ∧
      s'.ready_list = s.ready_list ++ [t] ∧
      (∀ u, u ≠ t → s'.threads u = s.threads u) ∧
      s'.current = s.current ∧ (∀ c, thread_current s = some c → thread_current s' = some c) ∧
      s'.level = s.level ∧ s'.sleep_list = s.sleep_list ∧
      s'.yield_requested = s.yield_requested ∧ s'.yield_on_return = s.yield_on_return) ∧
    ((s.threads t).status ≠ THREAD_BLOCKED → thread_unblock t s = none) := by
  refine ⟨⟨?_, ?_⟩, ?_, ?_⟩
  · rintro ⟨s', h⟩
    exact thread_unblock_some t s s' h
  · rintro ⟨h1, h2⟩
    exact ⟨_, thread_unblock_blocked t s h1 h2⟩
  · intro s' h
    obtain ⟨h1, h2⟩ := thread_unblock_some t s s' h
    rw [thread_unblock_blocked t s h1 h2] at h
    simp only [Option.some.injEq] at h
    subst h
    refine ⟨by simp [upd], rfl, ?_, rfl, ?_, rfl, rfl, rfl, rfl⟩
    · intro u hu
      simp [upd, hu]
    · intro c hc
      have hcc := thread_current_eq s c hc
      obtain ⟨hr1, hr2⟩ := thread_current_running s c hc
      have hne : s.current ≠ t := by
        intro he
        rw [hcc, he, h2] at hr2
        exact absurd hr2 (by decide)
      unfold thread_current at hc ⊢
      simp only [upd, hne, if_false]
      exact hc
  · intro hst
    cases h : thread_unblock t s with
    | none => rfl
    | some s' => exact absurd (thread_unblock_some t s s' h).2 hst


/-! ## Claim C26: the donation walk after a release -/

/-- C26 (evaluation of the code on the failing input): in
`released_before_resume` thread 1 runs outside interrupt context and does not
hold lock 1, so it passes the assertions of `lock_acquire` on lock 1, and no
yield is pending.  Lock 1 is held by thread 2, which is READY, still has
`lock_to_wait_on` set to lock 0, and lock 0 has no holder.  The donation walk
reaches thread 2 in its first step and then reads the holder of lock 0:
`donate_priority` fails on the null holder, and so does `lock_acquire`. -/
theorem donate_priority_reads_unowned_lock :
    released_before_resume.map
        (fun s => (s.current, s.in_intr_context, lock_held_by_current_thread 1 s,
          (s.locks 1).holder, (s.threads 2).status, (s.threads 2).lock_to_wait_on,
          (s.locks 0).holder, s.yield_requested))
      = some (1, false, some false, some 2, THREAD_READY, some 0, none, false) ∧
    (walk_entry.bind (donate_loop 1 1)).map (fun r => r.2) = some [2] ∧
    (walk_entry.bind donate_priority).isNone = true ∧
    (released_before_resume.bind (lock_acquire 1)).isNone = true := by
  refine ⟨?_, ?_, ?_, ?_⟩ <;> rfl

/-- Witness for C23: in the example state the blocked thread 2 is unblocked
and joins the ready list behind thread 4; the running thread stays thread 1. -/
theorem thread_unblock_spec_witness :
    (thread_unblock 2 example_state).map
        (fun s => ((s.threads 2).status, s.ready_list, s.current)) = some (THREAD_READY, [4, 2], 1) ∧
    ((∃ s', thread_unblock 2 example_state = some s') ↔
      (is_thread (example_state.threads 2) = true ∧
        (example_state.threads 2).status = THREAD_BLOCKED)) ∧
    thread_unblock 4 example_state = none :=
  ⟨rfl, (thread_unblock_spec 2 example_state).1,
    (thread_unblock_spec 4 example_state).2.2 (by decide)⟩

/-! ## Claim C24: the donation edge of lock_acquire -/

theorem same_donation_refl (a : thread) : same_donation a a :=
  ⟨rfl, rfl, rfl, rfl⟩

theorem same_donation_trans (a b c : thread) (h1 : same_donation a b) (h2 : same_donation b c) :
    same_donation a c :=
  ⟨h1.1.trans h2.1, h1.2.1.trans h2.2.1, h1.2.2.1.trans h2.2.2.1, h1.2.2.2.trans h2.2.2.2⟩

/-- The scheduler writes only the status of a thread. -/
theorem schedule_donation (p s' : KState) (h : schedule p = some s') :
    ∀ u, same_donation (s'.threads u) (p.threads u) := by
  obtain ⟨next, _, _, _, _, hth, _⟩ := schedule_spec p s' h
  intro u
  rw [hth]
  by_cases hu : u = next
  · subst hu
    simp [upd, same_donation]
  · simp [upd, hu, same_donation]

theorem thread_block_donation (s s' : KState) (h : thread_block s = some s') :
    ∀ u, same_donation (s'.threads u) (s.threads u) := by
  obtain ⟨_, _, _, p, hp, hent⟩ := thread_block_unfold s s' h
  intro u
  have h1 := schedule_donation p s' hp u
  have h2 : same_donation (p.threads u) (s.threads u) := by
    rw [hent.1]
    by_cases hu : u = s.current
    · subst hu
      simp [upd, same_donation]
    · simp [upd, hu, same_donation]
  exact same_donation_trans _ _ _ h1 h2

/-- The donation walk writes only priorities. -/
theorem donate_loop_keeps (depth : Nat) (t : thread_ptr) (s s' : KState)
    (written : List thread_ptr) (h : donate_loop depth t s = some (s', written)) :
    ∀ u, (s'.threads u).lock_to_wait_on = (s.threads u).lock_to_wait_on ∧
      (s'.threads u).donators_list = (s.threads u).donators_list ∧
      (s'.threads u).status = (s.threads u).status ∧
      (s'.threads u).magic = (s.threads u).magic := by
  induction depth generalizing t s s' written with
  | zero =>
    simp only [donate_loop, Option.some.injEq, Prod.mk.injEq] at h
    rw [← h.1]
    intro u
    exact ⟨rfl, rfl, rfl, rfl⟩
  | succ n ih =>
    simp only [donate_loop] at h
    cases hw : (s.threads t).lock_to_wait_on with
    | none =>
      simp only [hw, Option.some.injEq, Prod.mk.injEq] at h
      rw [← h.1]
      intro u
      exact ⟨rfl, rfl, rfl, rfl⟩
    | some l =>
      simp only [hw] at h
      cases hh : (s.locks l).holder with
      | none => simp [hh] at h
      | some holder =>
        simp only [hh] at h
        cases hd : donate_loop n holder
            (set_thread s holder { s.threads holder with priority := (s.threads t).priority }) with
        | none => simp [hd] at h
        | some r =>
          obtain ⟨s2, w2⟩ := r
          simp only [hd, Option.some.injEq, Prod.mk.injEq] at h
          have hi := ih _ _ _ _ hd
          rw [← h.1]
          intro u
          obtain ⟨i1, i2, i3, i4⟩ := hi u
          rw [i1, i2, i3, i4]
          by_cases hu : u = holder
          · subst hu
            simp [set_thread, upd]
          · simp [set_thread, upd, hu]

/-- What the part of `lock_acquire` from the loop of `sema_down` onwards does
to the thread control blocks and to the lock. -/
theorem after_down_threads (l : lock_ptr) (cur : thread_ptr) (old_level : intr_level)
    (sema : semaphore) (s0 s' : KState) (st : call_status)
    (h : (sema_down_loop old_level sema s0).map (lock_acquire_after_down l cur)
      = some (st, s')) :
    (st = suspended → ∀ u, same_donation (s'.threads u) (s0.threads u)) ∧
    (st = completed →
      (s'.threads cur).lock_to_wait_on = none ∧ (s'.locks l).holder = some cur ∧
      ∀ u, (s'.threads u).priority = (s0.threads u).priority ∧
        (s'.threads u).donators_list = (s0.threads u).donators_list) := by
  cases hd : sema_down_loop old_level sema s0 with
  | none => simp [hd] at h
  | some r =>
    obtain ⟨st1, sema1, s1⟩ := r
    rw [hd] at h
    unfold sema_down_loop at hd
    by_cases hz : sema.value = 0
    · simp only [hz, if_true] at hd
      cases hc : thread_current s0 with
      | none => simp [hc] at hd
      | some c =>
        cases hb : thread_block s0 with
        | none => simp [hc, hb] at hd
        | some sb =>
          simp only [hc, hb, Option.some.injEq, Prod.mk.injEq] at hd
          obtain ⟨e1, e2, e3⟩ := hd
          subst e1 e2 e3
          simp only [Option.map_some', lock_acquire_after_down, Option.some.injEq,
            Prod.mk.injEq] at h
          obtain ⟨e1, e2⟩ := h
          subst e1 e2
          refine ⟨fun _ u => ?_, fun hcomp => absurd hcomp (by decide)⟩
          exact thread_block_donation s0 _ hb u
    · simp only [hz, if_false, Option.some.injEq, Prod.mk.injEq] at hd
      obtain ⟨e1, e2, e3⟩ := hd
      subst e1 e2 e3
      simp only [Option.map_some', lock_acquire_after_down, Option.some.injEq,
        Prod.mk.injEq] at h
      obtain ⟨e1, e2⟩ := h
      subst e1 e2
      refine ⟨fun hs => absurd hs (by decide), fun _ => ⟨?_, ?_, fun u => ?_⟩⟩
      · simp [lock_acquire_finish, set_lock, set_thread, upd]
      · simp [lock_acquire_finish, set_lock, set_thread, upd]
      · by_cases hu : u = cur
        · subst hu
          simp [lock_acquire_finish, set_lock, set_thread, upd, intr_set_level]
        · simp [lock_acquire_finish, set_lock, set_thread, upd, intr_set_level, hu]

/-- The donation walk writes nothing but thread control blocks. -/
theorem donate_loop_frame (depth : Nat) (t : thread_ptr) (s s' : KState)
    (written : List thread_ptr) (h : donate_loop depth t s = some (s', written)) :
    s' = { s with threads := s'.threads } := by
  induction depth generalizing t s s' written with
  | zero =>
    simp only [donate_loop, Option.some.injEq, Prod.mk.injEq] at h
    rw [← h.1]
  | succ n ih =>
    simp only [donate_loop] at h
    cases hw : (s.threads t).lock_to_wait_on with
    | none =>
      simp only [hw, Option.some.injEq, Prod.mk.injEq] at h
      rw [← h.1]
    | some l =>
      simp only [hw] at h
      cases hh : (s.locks l).holder with
      | none => simp [hh] at h
      | some holder =>
        simp only [hh] at h
        cases hd : donate_loop n holder
            (set_thread s holder { s.threads holder with priority := (s.threads t).priority }) with
        | none => simp [hd] at h
        | some r =>
          obtain ⟨s2, w2⟩ := r
          simp only [hd, Option.some.injEq, Prod.mk.injEq] at h
          have hi := ih _ _ _ _ hd
          rw [← h.1]
          exact hi

theorem donate_priority_unfold (s s' : KState) (h : donate_priority s = some s') :
    ∃ written, donate_loop 8 s.current s = some (s', written) := by
  unfold donate_priority donate_priority_trace at h
  cases hc : thread_current s with
  | none => simp [hc] at h
  | some c =>
    have := thread_current_eq s c hc
    subst this
    simp only [hc] at h
    cases hd : donate_loop 8 s.current s with
    | none => simp [hd] at h
    | some r =>
      obtain ⟨s2, w⟩ := r
      simp only [hd, Option.map_some', Option.some.injEq] at h
      subst h
      exact ⟨w, rfl⟩

/-- The steps of `lock_acquire` before `sema_down`: the assertions hold, and
`sema_down` is entered in a state `s3` that is `s` itself when the lock has no
holder, and otherwise `s` with the caller's `lock_to_wait_on` set, the caller
appended to the holder's donors and priorities rewritten by the donation
walk. -/
theorem lock_acquire_unfold (l : lock_ptr) (s s' : KState) (st : call_status)
    (h : lock_acquire l s = some (st, s')) :
    thread_current s = some s.current ∧ s.in_intr_context = false ∧
    (s.locks l).holder ≠ some s.current ∧
    ∃ s3, (sema_down_loop s3.level (s3.locks l).semaphore (intr_disable s3)).map
          (lock_acquire_after_down l s.current) = some (st, s') ∧
      ((s.locks l).holder = none → s3 = s) ∧
      (∀ T, (s.locks l).holder = some T →
        (s3.threads s.current).lock_to_wait_on = some l ∧
        (s3.threads T).donators_list = (s.threads T).donators_list ++ [s.current] ∧
        (∀ u, u ≠ T → (s3.threads u).donators_list = (s.threads u).donators_list) ∧
        (∀ u, u ≠ s.current →
          (s3.threads u).lock_to_wait_on = (s.threads u).lock_to_wait_on)) ∧
      s3 = { s with threads := s3.threads } ∧
      (∀ u, (s3.threads u).status = (s.threads u).status ∧
        (s3.threads u).magic = (s.threads u).magic) := by
  unfold lock_acquire at h
  by_cases hctx : s.in_intr_context = true
  · simp [hctx] at h
  simp only [hctx] at h
  have hctx' : s.in_intr_context = false := by simpa using hctx
  cases hc : thread_current s with
  | none => simp [lock_held_by_current_thread, hc] at h
  | some cur =>
    have hcur := thread_current_eq s cur hc
    subst hcur
    by_cases hheld : (s.locks l).holder = some s.current
    · simp [lock_held_by_current_thread, hc, hheld] at h
    · simp only [lock_held_by_current_thread, hc, hheld, decide_False, if_false] at h
      refine ⟨rfl, hctx', hheld, ?_⟩
      cases hh : (s.locks l).holder with
      | none =>
        simp only [hh] at h
        refine ⟨s, ?_, fun _ => rfl, fun T hT => by simp at hT, rfl, fun u => ⟨rfl, rfl⟩⟩
        simpa [sema_down, hctx'] using h
      | some T =>
        have hTc : T ≠ s.current := by
          intro he
          rw [he] at hh
          exact hheld hh
        have hcT : s.current ≠ T := fun he => hTc he.symm
        simp only [hh] at h
        cases hd : donate_priority
            (set_thread (set_thread s s.current
              { s.threads s.current with lock_to_wait_on := some l }) T
              { (set_thread s s.current
                  { s.threads s.current with lock_to_wait_on := some l }).threads T with
                donators_list := ((set_thread s s.current
                  { s.threads s.current with lock_to_wait_on := some l }).threads T).donators_list
                    ++ [s.current] }) with
        | none => simp [hd] at h
        | some s3 =>
          simp only [hd] at h
          obtain ⟨written, hloop⟩ := donate_priority_unfold _ _ hd
          have hframe := donate_loop_frame _ _ _ _ _ hloop
          have hkeep := donate_loop_keeps _ _ _ _ _ hloop
          have hctx3 : s3.in_intr_context = false := by
            rw [hframe]
            exact hctx'
          refine ⟨s3, ?_, fun hn => by simp at hn, ?_, hframe.trans rfl, ?_⟩
          rotate_left
          · intro T' hT'
            simp only [Option.some.injEq] at hT'
            subst hT'
            refine ⟨?_, ?_, ?_, ?_⟩
            · rw [(hkeep s.current).1]
              simp [set_thread, upd, hcT]
            · rw [(hkeep T).2.1]
              simp [set_thread, upd, hTc]
            · intro u hu
              rw [(hkeep u).2.1]
              by_cases huc : u = s.current
              · subst huc
                simp [set_thread, upd, hu]
              · simp [set_thread, upd, hu, huc]
            · intro u hu
              rw [(hkeep u).1]
              by_cases huT : u = T
              · subst huT
                simp [set_thread, upd, hu]
              · simp [set_thread, upd, hu, huT]
          · intro u
            rw [(hkeep u).2.2.1, (hkeep u).2.2.2]
            by_cases huT : u = T
            · subst huT
              simp [set_thread, upd, hTc]
            · by_cases huc : u = s.current
              · subst huc
                simp [set_thread, upd, huT]
              · simp [set_thread, upd, huT, huc]
          · simpa [sema_down, hctx3] using h
/-- C24: let `lock_acquire l` pass its assertions and run to its return or to
the context switch inside `sema_down`.  If the lock is held by a thread `T`
(which is not the caller), then with the counter at 0 the caller is suspended,
and in the state in which it blocks its `lock_to_wait_on` is `l` and the donors
list of `T` is the old list with the caller appended once at the back, every
other donors list being unchanged.  If the lock has no holder, no donors list
and no priority changes.  Whenever `lock_acquire` returns, at once or when the
suspended caller is resumed, the caller's `lock_to_wait_on` is null and the
holder of the lock is the caller. -/
theorem lock_acquire_records_donation_edge (l : lock_ptr) (s s' : KState) (st : call_status)
    (h : lock_acquire l s = some (st, s')) :
    (∀ T, (s.locks l).holder = some T →
      T ≠ s.current ∧
      ((s.locks l).semaphore.value = 0 → st = suspended) ∧
      (st = suspended →
        (s'.threads s.current).lock_to_wait_on = some l ∧
        (s'.threads T).donators_list = (s.threads T).donators_list ++ [s.current] ∧
        (s.current ∉ (s.threads T).donators_list →
          (s'.threads T).donators_list.count s.current = 1) ∧
        (∀ u, u ≠ T → (s'.threads u).donators_list = (s.threads u).donators_list))) ∧
    ((s.locks l).holder = none →
      ∀ u, (s'.threads u).donators_list = (s.threads u).donators_list ∧
        (s'.threads u).priority = (s.threads u).priority) ∧
    (st = completed →
      (s'.threads s.current).lock_to_wait_on = none ∧ (s'.locks l).holder = some s.current) ∧
    (∀ old_level g g', lock_acquire_resume old_level l g = some (completed, g') →
      (g'.threads g.current).lock_to_wait_on = none ∧
      (g'.locks l).holder = some g.current) := by
  obtain ⟨hc, hctx, hheld, s3, hdown, hfree, howned, _, _⟩ :=
    lock_acquire_unfold l s s' st h
  obtain ⟨hsusp, hcomp⟩ := after_down_threads l s.current _ _ _ _ _ hdown
  have hval := (lock_acquire_lock l s s' st h).2.1
  refine ⟨?_, ?_, ?_, ?_⟩
  · intro T hT
    obtain ⟨o1, o2, o3, o4⟩ := howned T hT
    have hTc : T ≠ s.current := by
      intro he
      rw [he] at hT
      exact hheld hT
    refine ⟨hTc, ?_, ?_⟩
    · intro hz
      cases st with
      | suspended => rfl
      | completed =>
        have := (hval rfl).2
        omega
    · intro hst
      have hs := hsusp hst
      have e1 : (s'.threads s.current).lock_to_wait_on = some l := by
        rw [(hs s.current).2.2.1]
        exact o1
      have e2 : (s'.threads T).donators_list = (s.threads T).donators_list ++ [s.current] := by
        rw [(hs T).2.2.2]
        exact o2
      refine ⟨e1, e2, ?_, ?_⟩
      · intro hnot
        rw [e2, List.count_append, List.count_eq_zero_of_not_mem hnot]
        simp
      · intro u hu
        rw [(hs u).2.2.2]
        exact o3 u hu
  · intro hn
    have h3 := hfree hn
    subst h3
    intro u
    cases st with
    | suspended =>
      have hs := hsusp rfl u
      exact ⟨hs.2.2.2, hs.1⟩
    | completed =>
      have hk := (hcomp rfl).2.2 u
      exact ⟨hk.2, hk.1⟩
  · intro hst
    exact ⟨(hcomp hst).1, (hcomp hst).2.1⟩
  · intro old_level g g' hg
    unfold lock_acquire_resume at hg
    have := (after_down_threads l g.current _ _ _ _ _ hg).2 rfl
    exact ⟨this.1, this.2.1⟩

/-- Witness for C24: thread 2 calls `lock_acquire` on lock 0, held by thread 1,
and blocks with `lock_to_wait_on` set to lock 0 and as the one donor of thread
1; when it is resumed after the release, it holds the lock and waits on
nothing. -/
theorem lock_acquire_records_donation_edge_witness :
    lock_acquire 0 contended_acquire = some (suspended, contended_blocked) ∧
    contended_acquire.current = 2 ∧ (contended_acquire.locks 0).holder = some 1 ∧
    (contended_acquire.threads 1).donators_list = [] ∧
    (contended_blocked.threads 2).lock_to_wait_on = some 0 ∧
    (contended_blocked.threads 1).donators_list = [2] ∧
    (waiter_resumes 1 10).map
        (fun r => (r.1, (r.2.threads 2).lock_to_wait_on, (r.2.locks 0).holder))
      = some (completed, none, some 2) ∧
    ((contended_blocked.threads contended_acquire.current).lock_to_wait_on = some 0 ∧
      (contended_blocked.threads 1).donators_list
        = (contended_acquire.threads 1).donators_list ++ [contended_acquire.current]) :=
  ⟨rfl, rfl, rfl, rfl, rfl, rfl, rfl,
    match (lock_acquire_records_donation_edge 0 contended_acquire contended_blocked suspended
      rfl).1 1 rfl with
    | ⟨_, _, h3⟩ => ⟨(h3 rfl).1, (h3 rfl).2.1⟩⟩

/-! ## Claim C21: cond_broadcast -/

/-- What `cond_signal` does on a non-empty waiter list of private semaphores
of blocked threads. -/
theorem cond_signal_spec (cond : condition) (lock : lock_ptr)
    (s : KState) (hctx : s.in_intr_context = false)
    (hheld : lock_held_by_current_thread lock s = some true)
    (hne : cond.waiters ≠ []) (hblk : cond_waiters_blocked cond s) :
    ∃ p t rest s', cond_signal cond lock s = some ({ waiters := rest }, s') ∧
      cond.waiters.Perm (p :: rest) ∧
      (s.semas p).waiters = [t] ∧
      s'.semas = upd s.semas p
        { value := ((s.semas p).value + 1) % UINT_MODULUS, waiters := [] } ∧
      s'.threads = upd s.threads t { s.threads t with status := THREAD_READY } ∧
      s'.ready_list = s.ready_list ++ [t] ∧
      s'.locks = s.locks ∧ s'.current = s.current ∧
      s'.in_intr_context = s.in_intr_context := by
  have hsort := list_sort_ne_nil (cmp_sema_priority s) cond.waiters hne
  cases hl : list_sort (cmp_sema_priority s) cond.waiters with
  | nil => exact absurd hl hsort
  | cons p rest =>
    have hperm := list_sort_perm (cmp_sema_priority s) cond.waiters
    rw [hl] at hperm
    have hp : p ∈ cond.waiters := hperm.subset (List.mem_cons_self _ _)
    obtain ⟨t, hwt, hlive, hst⟩ := hblk p hp
    have hany : cond.waiters.any (fun q => (s.semas q).waiters.isEmpty) = false := by
      rw [List.any_eq_false]
      intro q hq
      obtain ⟨u, hu, _⟩ := hblk q hq
      simp [hu]
    have hwb : waiters_blocked (s.semas p) s := by
      intro u hu
      rw [hwt] at hu
      rw [List.mem_singleton.mp hu]
      exact ⟨hlive, hst⟩
    obtain ⟨t', rest', hsort', hup⟩ := sema_up_wake (s.semas p) s (by rw [hwt]; simp) hwb
    rw [hwt] at hsort'
    simp only [list_sort, sort_insert, List.cons.injEq] at hsort'
    obtain ⟨ht', hrest'⟩ := hsort'
    subst ht' hrest'
    obtain ⟨sema1, s1, hup1, hw1, hv1, hsem1, hth1, hrl1, hlk1, hcu1, hcx1⟩ :
        ∃ sema1 s1, sema_up (s.semas p) s = some (sema1, s1) ∧ sema1.waiters = [] ∧
          sema1.value = ((s.semas p).value + 1) % UINT_MODULUS ∧ s1.semas = s.semas ∧
          s1.threads = upd s.threads t { s.threads t with status := THREAD_READY } ∧
          s1.ready_list = s.ready_list ++ [t] ∧ s1.locks = s.locks ∧
          s1.current = s.current ∧ s1.in_intr_context = s.in_intr_context :=
      ⟨_, _, hup, rfl, rfl,
        by simp [intr_set_level, test_max_priority_semas, intr_disable],
        by simp [intr_set_level, (test_max_priority_threads _).1],
        by simp [intr_set_level, (test_max_priority_threads _).2.2.1],
        by simp [intr_set_level, (test_max_priority_threads _).2.1, intr_disable],
        by simp [intr_set_level, (test_max_priority_threads _).2.2.2, intr_disable],
        by simp only [intr_set_level, test_max_priority]; split <;> rfl⟩
    refine ⟨p, t, rest, { s1 with semas := upd s1.semas p sema1 }, ?_,
      hperm.symm, hwt, ?_, hth1, hrl1, hlk1, hcu1, hcx1⟩
    · simp [cond_signal, hctx, hheld, hne, hany, hl, hup1]
    · cases sema1 with
      | mk v w =>
        simp only at hw1 hv1
        subst hw1 hv1
        simp [hsem1]

theorem lock_held_unfold (l : lock_ptr) (s : KState)
    (h : lock_held_by_current_thread l s = some true) :
    thread_current s = some s.current ∧ (s.locks l).holder = some s.current := by
  unfold lock_held_by_current_thread at h
  cases hc : thread_current s with
  | none => simp [hc] at h
  | some c =>
    have := thread_current_eq s c hc
    subst this
    simp only [hc, Option.some.injEq, decide_eq_true_eq] at h
    exact ⟨rfl, h⟩

theorem lock_held_of (l : lock_ptr) (s : KState) (hc : thread_current s = some s.current)
    (hh : (s.locks l).holder = some s.current) :
    lock_held_by_current_thread l s = some true := by
  simp [lock_held_by_current_thread, hc, hh]

/-- The loop of `cond_broadcast` on a waiter list of length at most `fuel`. -/
theorem cond_broadcast_loop_spec (lock : lock_ptr) (fuel : Nat) :
    ∀ (cond : condition) (s : KState), s.in_intr_context = false →
      lock_held_by_current_thread lock s = some true →
      cond.waiters.Nodup → cond_waiters_blocked cond s → cond_waiters_distinct cond s →
      cond.waiters.length ≤ fuel →
      ∃ cond' s', cond_broadcast_loop lock fuel cond s
          = some (cond', s', cond.waiters.length) ∧
        cond'.waiters = [] ∧
        (∀ p ∈ cond.waiters, s'.semas p =
          { value := ((s.semas p).value + 1) % UINT_MODULUS, waiters := [] }) ∧
        (∀ p, p ∉ cond.waiters → s'.semas p = s.semas p) ∧
        (∀ p ∈ cond.waiters, ∀ t ∈ (s.semas p).waiters,
          s'.threads t = { s.threads t with status := THREAD_READY }) ∧
        (∀ u, (∀ p ∈ cond.waiters, u ∉ (s.semas p).waiters) → s'.threads u = s.threads u) ∧
        (∀ u, u ∈ s'.ready_list ↔
          u ∈ s.ready_list ∨ ∃ p ∈ cond.waiters, u ∈ (s.semas p).waiters) ∧
        s'.locks = s.locks ∧ s'.current = s.current := by
  induction fuel with
  | zero =>
    intro cond s _ _ _ _ _ hlen
    have he : cond.waiters = [] := List.length_eq_zero.mp (Nat.le_zero.mp hlen)
    refine ⟨cond, s, by simp [cond_broadcast_loop, he], he, ?_, fun _ _ => rfl, ?_,
      fun _ _ => rfl, ?_, rfl, rfl⟩
    · intro p hp; rw [he] at hp; simp at hp
    · intro p hp; rw [he] at hp; simp at hp
    · intro u; rw [he]; simp
  | succ n ih =>
    intro cond s hctx hheld hnd hblk hdis hlen
    by_cases he : cond.waiters = []
    · refine ⟨cond, s, by simp [cond_broadcast_loop, he], he, ?_, fun _ _ => rfl, ?_,
        fun _ _ => rfl, ?_, rfl, rfl⟩
      · intro p hp; rw [he] at hp; simp at hp
      · intro p hp; rw [he] at hp; simp at hp
      · intro u; rw [he]; simp
    · obtain ⟨p, t, rest, s1, hsig, hperm, hwt, hsem, hth, hrl, hlk, hcu, hcx⟩ :=
        cond_signal_spec cond lock s hctx hheld he hblk
      obtain ⟨hc, hh⟩ := lock_held_unfold lock s hheld
      obtain ⟨hrun1, hrun2⟩ := thread_current_running s _ hc
      have hp : p ∈ cond.waiters := hperm.symm.subset (List.mem_cons_self _ _)
      have hrest : ∀ q ∈ rest, q ∈ cond.waiters := fun q hq =>
        hperm.symm.subset (List.mem_cons_of_mem _ hq)
      have hnd2 : (p :: rest).Nodup := hperm.nodup_iff.mp hnd
      have hpr : p ∉ rest := (List.nodup_cons.mp hnd2).1
      have hndr : rest.Nodup := (List.nodup_cons.mp hnd2).2
      obtain ⟨tp, htp, htlive, htblk⟩ := hblk p hp
      have htt : tp = t := by
        rw [hwt] at htp
        simpa using htp.symm
      subst htt
      have htc : s.current ≠ tp := by
        intro hx
        rw [hx, htblk] at hrun2
        exact absurd hrun2 (by decide)
      -- the semaphores still queued are untouched
      have hsemq : ∀ q ∈ rest, s1.semas q = s.semas q := by
        intro q hq
        have : q ≠ p := fun hx => hpr (hx ▸ hq)
        rw [hsem]
        simp [upd, this]
      have hnot : ∀ q ∈ rest, tp ∉ (s.semas q).waiters := by
        intro q hq hmem
        have := hdis p hp q (hrest q hq) tp (by rw [hwt]; simp) hmem
        exact hpr (this ▸ hq)
      have hheld1 : lock_held_by_current_thread lock s1 = some true := by
        apply lock_held_of
        · unfold thread_current
          rw [hcu, hth]
          simp only [upd, htc, if_false]
          simp [hrun1, hrun2]
        · rw [hlk, hcu]; exact hh
      have hblk1 : cond_waiters_blocked { waiters := rest } s1 := by
        intro q hq
        obtain ⟨u, hu, hul, hub⟩ := hblk q (hrest q hq)
        have hut : u ≠ tp := by
          intro hx
          exact hnot q hq (by rw [hu, hx]; simp)
        refine ⟨u, by rw [hsemq q hq]; exact hu, ?_, ?_⟩
        · rw [hth]; simp only [upd, hut, if_false]; exact hul
        · rw [hth]; simp only [upd, hut, if_false]; exact hub
      have hdis1 : cond_waiters_distinct { waiters := rest } s1 := by
        intro a ha b hb u hua hub
        rw [hsemq a ha] at hua
        rw [hsemq b hb] at hub
        exact hdis a (hrest a ha) b (hrest b hb) u hua hub
      have hlen1 : rest.length ≤ n := by
        have := hperm.length_eq
        simp only [List.length_cons] at this
        omega
      obtain ⟨cond', s', hloop, hemp, hA, hB, hC, hD, hE, hF, hG⟩ :=
        ih { waiters := rest } s1 (by rw [hcx]; exact hctx) hheld1 hndr hblk1 hdis1 hlen1
      have hlen2 : cond.waiters.length = rest.length + 1 := by
        have := hperm.length_eq
        simpa using this
      refine ⟨cond', s', ?_, hemp, ?_, ?_, ?_, ?_, ?_, by rw [hF, hlk], by rw [hG, hcu]⟩
      · simp only [cond_broadcast_loop, he, if_false, hsig, hloop, hlen2]
      · intro q hq
        have hq' : q = p ∨ q ∈ rest := by
          have := hperm.subset hq
          simpa using this
        rcases hq' with hq' | hq'
        · subst hq'
          rw [hB q hpr, hsem]
          simp [upd]
        · rw [hA q hq', hsemq q hq']
      · intro q hq
        have hqp : q ≠ p := fun hx => hq (hx ▸ hp)
        have hqr : q ∉ rest := fun hx => hq (hrest q hx)
        rw [hB q hqr, hsem]
        simp [upd, hqp]
      · intro q hq u hu
        have hq' : q = p ∨ q ∈ rest := by
          have := hperm.subset hq
          simpa using this
        rcases hq' with hq' | hq'
        · subst hq'
          rw [hwt] at hu
          have hut : u = tp := by simpa using hu
          subst hut
          rw [hD u, hth]
          · simp [upd]
          · intro a ha hmem
            rw [hsemq a ha] at hmem
            exact hnot a ha hmem
        · have hu1 : u ∈ (s1.semas q).waiters := by rw [hsemq q hq']; exact hu
          have hut : u ≠ tp := fun hx => hnot q hq' (hx ▸ hu)
          rw [hC q hq' u hu1, hth]
          simp [upd, hut]
      · intro u hu
        have hut : u ≠ tp := by
          intro hx
          exact hu p hp (by rw [hwt, hx]; simp)
        rw [hD u, hth]
        · simp [upd, hut]
        · intro a ha hmem
          rw [hsemq a ha] at hmem
          exact hu a (hrest a ha) hmem
      · intro u
        rw [hE u, hrl]
        constructor
        · rintro (h1 | ⟨a, ha, hmem⟩)
          · rcases List.mem_append.mp h1 with h2 | h2
            · exact Or.inl h2
            · refine Or.inr ⟨p, hp, ?_⟩
              rw [hwt]; exact h2
          · rw [hsemq a ha] at hmem
            exact Or.inr ⟨a, hrest a ha, hmem⟩
        · rintro (h1 | ⟨a, ha, hmem⟩)
          · exact Or.inl (List.mem_append_left _ h1)
          · have ha' : a = p ∨ a ∈ rest := by
              have := hperm.subset ha
              simpa using this
            rcases ha' with ha' | ha'
            · subst ha'
              rw [hwt] at hmem
              exact Or.inl (List.mem_append_right _ hmem)
            · exact Or.inr ⟨a, ha', by rw [hsemq a ha']; exact hmem⟩

/-- C21: let the running thread hold the lock, outside interrupt context, and
let the waiter list of the condition variable hold `n` distinct private
semaphores, each with exactly one live blocked thread waiting on it, no thread
on two of them.  Then `cond_broadcast` returns, for every number of iterations
allowed from `n` on, after exactly `n` calls of `cond_signal`; the waiter list
is empty afterwards; every semaphore of the original list has been upped once
(its counter is one higher and its wait list is empty) and the thread that
waited on it is READY and on the ready list; every other semaphore and every
other thread is unchanged. -/
theorem cond_broadcast_signals_every_waiter (cond : condition) (lock : lock_ptr)
    (s : KState) (fuel : Nat) (hctx : s.in_intr_context = false)
    (hheld : lock_held_by_current_thread lock s = some true)
    (hnd : cond.waiters.Nodup) (hblk : cond_waiters_blocked cond s)
    (hdis : cond_waiters_distinct cond s) (hfuel : cond.waiters.length ≤ fuel) :
    ∃ cond' s', cond_broadcast fuel cond lock s = some (cond', s', cond.waiters.length) ∧
      cond'.waiters = [] ∧
      (∀ p ∈ cond.waiters,
        (s'.semas p).value = ((s.semas p).value + 1) % UINT_MODULUS ∧
        (s'.semas p).waiters = [] ∧
        ∀ t ∈ (s.semas p).waiters, (s'.threads t).status = THREAD_READY ∧ t ∈ s'.ready_list) ∧
      (∀ p, p ∉ cond.waiters → s'.semas p = s.semas p) ∧
      (∀ u, (∀ p ∈ cond.waiters, u ∉ (s.semas p).waiters) →
        s'.threads u = s.threads u ∧ (u ∈ s'.ready_list ↔ u ∈ s.ready_list)) := by
  obtain ⟨cond', s', hloop, hemp, hA, hB, hC, hD, hE, _, _⟩ :=
    cond_broadcast_loop_spec lock fuel cond s hctx hheld hnd hblk hdis hfuel
  refine ⟨cond', s', hloop, hemp, ?_, hB, ?_⟩
  · intro p hp
    refine ⟨by rw [hA p hp], by rw [hA p hp], ?_⟩
    intro t ht
    refine ⟨by rw [hC p hp t ht], ?_⟩
    exact (hE t).mpr (Or.inr ⟨p, hp, ht⟩)
  · intro u hu
    refine ⟨hD u hu, ?_⟩
    rw [hE u]
    constructor
    · rintro (h | ⟨p, hp, hmem⟩)
      · exact h
      · exact absurd hmem (hu p hp)
    · exact Or.inl

/-- Witness for C21: threads 2 and 3 wait on the condition variable through
their semaphores 0 and 1; `cond_broadcast` signals twice, wakes thread 3
(priority 9) before thread 2 (priority 5) and leaves no waiter. -/
theorem cond_broadcast_signals_every_waiter_witness :
    (cond_broadcast 2 { waiters := [0, 1] } 0 cond_state).map
        (fun r => (r.1.waiters, r.2.2, (r.2.1.semas 0).value, (r.2.1.semas 1).value,
          (r.2.1.semas 0).waiters, (r.2.1.semas 1).waiters, r.2.1.ready_list,
          (r.2.1.threads 2).status, (r.2.1.threads 3).status))
      = some ([], 2, 1, 1, [], [], [3, 2], THREAD_READY, THREAD_READY) ∧
    ∃ cond' s', cond_broadcast 2 { waiters := [0, 1] } 0 cond_state = some (cond', s', 2) ∧
      cond'.waiters = [] :=
  ⟨rfl,
   match cond_broadcast_signals_every_waiter { waiters := [0, 1] } 0 cond_state 2 rfl
      (by decide) (by decide)
      (by
        intro p hp
        simp only [List.mem_cons, List.mem_singleton, List.not_mem_nil, or_false] at hp
        rcases hp with h | h
        · subst h; exact ⟨2, by decide, by decide, by decide⟩
        · subst h; exact ⟨3, by decide, by decide, by decide⟩)
      (by
        have h0 : (cond_state.semas 0).waiters = [2] := rfl
        have h1 : (cond_state.semas 1).waiters = [3] := rfl
        intro p hp q hq t ht1 ht2
        simp only [List.mem_cons, List.mem_singleton, List.not_mem_nil, or_false] at hp hq
        rcases hp with hp | hp <;> rcases hq with hq | hq <;> subst hp <;> subst hq
        · rfl
        · rw [h0] at ht1; rw [h1] at ht2
          simp only [List.mem_singleton] at ht1 ht2
          rw [ht1] at ht2
          exact absurd ht2 (by decide)
        · rw [h1] at ht1; rw [h0] at ht2
          simp only [List.mem_singleton] at ht1 ht2
          rw [ht1] at ht2
          exact absurd ht2 (by decide)
        · rfl)
      (by decide) with
   | ⟨cond', s', h1, h2, _⟩ => ⟨cond', s', h1, h2⟩⟩

/-! ## Frame lemmas: the fields each function may write -/

theorem schedule_frame (s s' : KState) (h : schedule s = some s') :
    s' = { s with threads := s'.threads, ready_list := s'.ready_list,
                  destruction_req := s'.destruction_req, current := s'.current,
                  thread_ticks := s'.thread_ticks } := by
  unfold schedule next_thread_to_run at h
  cases hr : s.ready_list with
  | nil =>
    simp only [hr] at h
    cases hi : s.idle_thread with
    | none => simp [hi] at h
    | some n =>
      simp only [hi] at h
      split_ifs at h <;> simp only [Option.some.injEq] at h <;> subst h <;>
        simp only [set_thread, hi]
  | cons r rest =>
    simp only [hr] at h
    split_ifs at h <;> simp only [Option.some.injEq] at h <;> subst h <;>
      simp only [set_thread]

theorem thread_block_frame (s s' : KState) (h : thread_block s = some s') :
    s' = { s with threads := s'.threads, ready_list := s'.ready_list,
                  destruction_req := s'.destruction_req, current := s'.current,
                  thread_ticks := s'.thread_ticks } := by
  unfold thread_block at h
  split_ifs at h
  cases hc : thread_current s with
  | none => simp [hc] at h
  | some cur =>
    simp only [hc] at h
    exact (schedule_frame _ _ h).trans rfl

theorem do_schedule_frame (st : thread_status) (s s' : KState)
    (h : do_schedule st s = some s') :
    s' = { s with threads := s'.threads, ready_list := s'.ready_list,
                  destruction_req := s'.destruction_req, current := s'.current,
                  thread_ticks := s'.thread_ticks } := by
  unfold do_schedule at h
  split_ifs at h
  cases hc : thread_current s with
  | none => simp [hc] at h
  | some cur =>
    simp only [hc] at h
    exact (schedule_frame _ _ h).trans rfl

theorem thread_yield_frame (s s' : KState) (h : thread_yield s = some s') :
    s' = { s with threads := s'.threads, ready_list := s'.ready_list,
                  destruction_req := s'.destruction_req, current := s'.current,
                  thread_ticks := s'.thread_ticks, level := s'.level } := by
  unfold thread_yield at h
  cases hc : thread_current s with
  | none => simp [hc] at h
  | some cur =>
    simp only [hc] at h
    split_ifs at h
    · have := do_schedule_frame _ _ _ h
      rw [this]; rfl
    · have := do_schedule_frame _ _ _ h
      rw [this]; rfl

theorem thread_exit_frame (s s' : KState) (h : thread_exit s = some s') :
    s' = { s with threads := s'.threads, ready_list := s'.ready_list,
                  destruction_req := s'.destruction_req, current := s'.current,
                  thread_ticks := s'.thread_ticks, level := s'.level } := by
  unfold thread_exit at h
  split_ifs at h
  have := do_schedule_frame _ _ _ h
  rw [this]; rfl

theorem thread_unblock_frame (t : thread_ptr) (s s' : KState)
    (h : thread_unblock t s = some s') :
    s' = { s with threads := upd s.threads t { s.threads t with status := THREAD_READY },
                  ready_list := s.ready_list ++ [t] } := by
  obtain ⟨h1, h2⟩ := thread_unblock_some t s s' h
  rw [thread_unblock_blocked t s h1 h2] at h
  simp only [Option.some.injEq] at h
  exact h.symm

theorem test_max_priority_frame (s : KState) :
    test_max_priority s = { s with yield_requested := (test_max_priority s).yield_requested } := by
  unfold test_max_priority
  split <;> rfl

/-- What `sema_up` returns: without waiters only the counter moves; otherwise
the front `t` of the sorted waiters is unblocked. -/
theorem sema_up_unfold (sema sema' : semaphore) (s s' : KState)
    (h : sema_up sema s = some (sema', s')) :
    sema'.value = (sema.value + 1) % UINT_MODULUS ∧
    ((sema.waiters = [] ∧ sema'.waiters = [] ∧
        s' = { s with yield_requested := s'.yield_requested }) ∨
     (∃ t, list_sort (cmp_priority s) sema.waiters = t :: sema'.waiters ∧
        is_thread (s.threads t) = true ∧ (s.threads t).status = THREAD_BLOCKED ∧
        s' = { s with threads := upd s.threads t { s.threads t with status := THREAD_READY },
                      ready_list := s.ready_list ++ [t],
                      yield_requested := s'.yield_requested })) := by
  unfold sema_up at h
  by_cases hne : sema.waiters = []
  · simp only [hne, ne_eq, not_true_eq_false, if_false, Option.some.injEq, Prod.mk.injEq] at h
    obtain ⟨h1, h2⟩ := h
    subst h1 h2
    refine ⟨rfl, Or.inl ⟨hne, rfl, ?_⟩⟩
    simp only [intr_set_level]
    rw [test_max_priority_frame]
    cases s; rfl
  · simp only [hne, ne_eq, not_false_eq_true, if_true] at h
    have hcmp : cmp_priority (intr_disable s) = cmp_priority s := rfl
    rw [hcmp] at h
    cases hl : list_sort (cmp_priority s) sema.waiters with
    | nil => simp [hl] at h
    | cons t rest =>
      simp only [hl] at h
      cases hu : thread_unblock t (intr_disable s) with
      | none => simp [hu] at h
      | some s2 =>
        simp only [hu, Option.some.injEq, Prod.mk.injEq] at h
        obtain ⟨h1, h2⟩ := h
        subst h1 h2
        obtain ⟨hl1, hl2⟩ := thread_unblock_some _ _ _ hu
        have hf := thread_unblock_frame _ _ _ hu
        refine ⟨rfl, Or.inr ⟨t, rfl, hl1, hl2, ?_⟩⟩
        simp only [intr_set_level]
        rw [test_max_priority_frame, hf]
        cases s; rfl

theorem sema_down_loop_frame (old_level : intr_level) (sema sema' : semaphore)
    (s s' : KState) (st : call_status)
    (h : sema_down_loop old_level sema s = some (st, sema', s')) :
    s' = { s with threads := s'.threads, ready_list := s'.ready_list,
                  destruction_req := s'.destruction_req, current := s'.current,
                  thread_ticks := s'.thread_ticks, level := s'.level } := by
  unfold sema_down_loop at h
  split_ifs at h
  · cases hc : thread_current s with
    | none => simp [hc] at h
    | some cur =>
      cases hb : thread_block s with
      | none => simp [hc, hb] at h
      | some s1 =>
        simp only [hc, hb, Option.some.injEq, Prod.mk.injEq] at h
        obtain ⟨_, _, h3⟩ := h
        subst h3
        have := thread_block_frame _ _ hb
        rw [this]
  · simp only [Option.some.injEq, Prod.mk.injEq] at h
    obtain ⟨_, _, h3⟩ := h
    subst h3
    rfl

/-! ## Claim C22: thread_create -/

/-- The steps of `lock_release`: the assertion holds; the donors list and the
priority of the caller are rewritten, the holder is cleared, and `sema_up`
runs on the semaphore of the lock. -/
theorem lock_release_unfold (l : lock_ptr) (s s' : KState) (h : lock_release l s = some s') :
    thread_current s = some s.current ∧ (s.locks l).holder = some s.current ∧
    ∃ (P : Int) (D : List thread_ptr) (sema' : semaphore) (s4 : KState),
      sema_up (s.locks l).semaphore
        (set_lock (set_thread s s.current
            { s.threads s.current with priority := P, donators_list := D }) l
          { s.locks l with holder := none }) = some (sema', s4) ∧
      s' = set_lock s4 l { holder := none, semaphore := sema' } := by
  unfold lock_release at h
  cases hheld : lock_held_by_current_thread l s with
  | none => simp [hheld] at h
  | some b =>
    cases b with
    | false => simp [hheld] at h
    | true =>
      obtain ⟨hc, hh⟩ := lock_held_unfold l s hheld
      simp only [hheld, remove_with_lock_eq l s s.current hc] at h
      have hc1 : thread_current (set_thread s s.current
          { s.threads s.current with
            donators_list := remove_with_lock_loop s l (s.threads s.current).donators_list })
          = some s.current :=
        thread_current_set_thread s s.current _ hc rfl rfl
      obtain ⟨D, P, hrp, _⟩ := refresh_priority_spec _ _ hc1
      rw [hrp] at h
      simp only [set_thread_set_thread, threads_set_thread_same] at h
      refine ⟨hc, hh, P, D, ?_⟩
      cases hu : sema_up (s.locks l).semaphore
          (set_lock (set_thread s s.current
              { s.threads s.current with priority := P, donators_list := D }) l
            { s.locks l with holder := none }) with
      | none =>
        exfalso
        have : sema_up ((set_lock (set_thread s s.current
              { s.threads s.current with priority := P, donators_list := D }) l
            { (set_thread s s.current
              { s.threads s.current with priority := P, donators_list := D }).locks l with
              holder := none }).locks l).semaphore
            (set_lock (set_thread s s.current
              { s.threads s.current with priority := P, donators_list := D }) l
            { (set_thread s s.current
              { s.threads s.current with priority := P, donators_list := D }).locks l with
              holder := none }) = none := by
          simpa [set_lock, set_thread, upd] using hu
        simp [this] at h
      | some r =>
        obtain ⟨sema', s4⟩ := r
        refine ⟨sema', s4, rfl, ?_⟩
        have hlk := (sema_up_value _ _ _ _ hu).2
        have : sema_up ((set_lock (set_thread s s.current
              { s.threads s.current with priority := P, donators_list := D }) l
            { (set_thread s s.current
              { s.threads s.current with priority := P, donators_list := D }).locks l with
              holder := none }).locks l).semaphore
            (set_lock (set_thread s s.current
              { s.threads s.current with priority := P, donators_list := D }) l
            { (set_thread s s.current
              { s.threads s.current with priority := P, donators_list := D }).locks l with
              holder := none }) = some (sema', s4) := by
          simpa [set_lock, set_thread, upd] using hu
        simp only [this, Option.some.injEq] at h
        rw [← h]
        simp [set_lock, hlk, upd]

/-- The state in which `lock_acquire` returns, once the loop of `sema_down`
finds the counter positive. -/
theorem after_down_completed (l : lock_ptr) (cur : thread_ptr) (old_level : intr_level)
    (sema : semaphore) (s0 s' : KState)
    (h : (sema_down_loop old_level sema s0).map (lock_acquire_after_down l cur)
      = some (completed, s')) :
    sema.value ≠ 0 ∧
    s' = lock_acquire_finish l cur
      (set_lock (intr_set_level old_level s0) l
        { s0.locks l with semaphore := { sema with value := sema.value - 1 } }) := by
  unfold sema_down_loop at h
  by_cases hz : sema.value = 0
  · simp only [hz, if_true] at h
    cases hc : thread_current s0 with
    | none => simp [hc] at h
    | some c =>
      cases hb : thread_block s0 with
      | none => simp [hc, hb] at h
      | some sb =>
        simp [hc, hb, lock_acquire_after_down] at h
  · simp only [hz, if_false, Option.map_some', lock_acquire_after_down, Option.some.injEq,
      Prod.mk.injEq, true_and] at h
    exact ⟨hz, h.symm⟩

/-- What `lock_release` does to the scheduler's data: the caller's control
block keeps its status, at most one thread `w`, blocked before, is made READY
and appended to the ready list, and nothing else that the scheduler reads is
written. -/
theorem lock_release_effect (l : lock_ptr) (s s' : KState) (h : lock_release l s = some s') :
    thread_current s = some s.current ∧ (s.locks l).holder = some s.current ∧
    s'.current = s.current ∧ s'.next_tid = s.next_tid ∧ s'.sleep_list = s.sleep_list ∧
    s'.idle_thread = s.idle_thread ∧ s'.semas = s.semas ∧
    s'.in_intr_context = s.in_intr_context ∧ s'.level = s.level ∧
    (∀ k, k ≠ l → s'.locks k = s.locks k) ∧
    (s'.threads s.current).status = (s.threads s.current).status ∧
    (s'.threads s.current).magic = (s.threads s.current).magic ∧
    (((s.locks l).semaphore.waiters = [] ∧ (s'.locks l).semaphore.waiters = [] ∧
        s'.ready_list = s.ready_list ∧
        ∀ u, u ≠ s.current → s'.threads u = s.threads u) ∨
     (∃ w, (w :: (s'.locks l).semaphore.waiters).Perm (s.locks l).semaphore.waiters ∧
        w ∈ (s.locks l).semaphore.waiters ∧ w ≠ s.current ∧
        is_thread (s.threads w) = true ∧ (s.threads w).status = THREAD_BLOCKED ∧
        s'.ready_list = s.ready_list ++ [w] ∧
        s'.threads w = { s.threads w with status := THREAD_READY } ∧
        ∀ u, u ≠ s.current → u ≠ w → s'.threads u = s.threads u)) := by
  obtain ⟨hc, hh, P, D, sema', s4, hup, hs'⟩ := lock_release_unfold l s s' h
  obtain ⟨hrun1, hrun2⟩ := thread_current_running s _ hc
  obtain ⟨_, hcase⟩ := sema_up_unfold _ _ _ _ hup
  subst hs'
  rcases hcase with ⟨hw, hw', hs4⟩ | ⟨w, hsort, hlive, hblk, hs4⟩
  · refine ⟨hc, hh, ?_, ?_, ?_, ?_, ?_, ?_, ?_, ?_, ?_, ?_, Or.inl ⟨hw, ?_, ?_, ?_⟩⟩
    all_goals (rw [hs4])
    all_goals (try simp [set_lock, set_thread, upd])
    · intro k hk; simp [hk]
    · exact hw'
    · intro u hu; simp [hu]
  · have hwc : w ≠ s.current := by
      intro hx
      rw [hx] at hblk
      simp only [set_lock, set_thread, upd, if_true] at hblk
      rw [hblk] at hrun2
      exact absurd hrun2 (by decide)
    have hcw : s.current ≠ w := fun hx => hwc hx.symm
    have hperm := list_sort_perm (cmp_priority (set_lock (set_thread s s.current
            { s.threads s.current with priority := P, donators_list := D }) l
          { s.locks l with holder := none })) (s.locks l).semaphore.waiters
    rw [hsort] at hperm
    have hmem : w ∈ (s.locks l).semaphore.waiters := hperm.subset (List.mem_cons_self _ _)
    simp only [set_lock, set_thread, upd, hwc, if_false] at hlive hblk
    refine ⟨hc, hh, ?_, ?_, ?_, ?_, ?_, ?_, ?_, ?_, ?_, ?_, Or.inr ⟨w, ?_, hmem, hwc, hlive, hblk,
      ?_, ?_, ?_⟩⟩
    all_goals (rw [hs4])
    all_goals (try simp [set_lock, set_thread, upd, hwc, hcw])
    · intro k hk; simp [hk]
    · exact hperm
    · intro u hu huw; simp [hu, huw]

theorem allocate_tid_locked_spec (s s' : KState) (tid : Int)
    (h : allocate_tid_locked s = some (tid, s')) :
    s.next_tid < INT_MAX ∧ tid = s.next_tid ∧ s'.next_tid = s.next_tid + 1 ∧
    lock_release tid_lock { s with next_tid := s.next_tid + 1 } = some s' := by
  unfold allocate_tid_locked at h
  by_cases hmax : s.next_tid ≥ INT_MAX
  · simp [hmax] at h
  · simp only [hmax, if_false] at h
    cases hr : lock_release tid_lock { s with next_tid := s.next_tid + 1 } with
    | none => simp [hr] at h
    | some s1 =>
      simp only [hr, Option.some.injEq, Prod.mk.injEq] at h
      obtain ⟨h1, h2⟩ := h
      subst h1 h2
      have := (lock_release_effect _ _ _ hr).2.2.2.1
      exact ⟨not_le.mp hmax, rfl, this, rfl⟩

/-- Every identifier handed out is at least 1 and below the counter. -/
theorem tids_issued_inv (s : KState) (h : List Int) (hi : tids_issued s h) :
    1 ≤ s.next_tid ∧ ∀ x ∈ h, 1 ≤ x ∧ x < s.next_tid := by
  induction hi with
  | init s h1 =>
    rw [h1]
    exact ⟨le_refl _, fun x hx => by simp at hx⟩
  | allocate s s' h tid _ ha ih =>
    obtain ⟨_, h2, h3, _⟩ := allocate_tid_locked_spec s s' tid ha
    rw [h3, h2]
    refine ⟨by omega, ?_⟩
    intro x hx
    rcases List.mem_cons.mp hx with hx | hx
    · subst hx
      exact ⟨ih.1, by omega⟩
    · have := ih.2 x hx
      exact ⟨this.1, by omega⟩
  | other s s' h _ he ih =>
    rw [he]
    exact ih

/-- The end of `thread_create`, from the increment of the counter on. -/
theorem thread_create_tail (t : thread_ptr) (tid : Int) (s2 s5 s' : KState)
    (ha : allocate_tid_locked s2 = some (tid, s5))
    (hu : thread_unblock t (set_thread s5 t { s5.threads t with tid := tid }) = some s') :
    tid = s2.next_tid ∧ s'.next_tid = tid + 1 ∧ t ≠ s2.current ∧ s'.current = s2.current ∧
    s'.threads t = { s2.threads t with tid := tid, status := THREAD_READY } ∧
    (s2.threads t).status = THREAD_BLOCKED ∧ s'.ready_list = s5.ready_list ++ [t] := by
  obtain ⟨_, htid, hnext, hrel⟩ := allocate_tid_locked_spec s2 s5 tid ha
  obtain ⟨hc, _, hcur, _, _, _, _, _, _, _, hst, _, hcase⟩ := lock_release_effect _ _ _ hrel
  have hf := thread_unblock_frame _ _ _ hu
  obtain ⟨_, hblk⟩ := thread_unblock_some _ _ _ hu
  simp only [threads_set_thread_same] at hblk
  obtain ⟨_, hrun⟩ := thread_current_running _ _ hc
  simp only at hrun hcur hst
  have htc : t ≠ s2.current := by
    intro hx
    rw [hx, hst, hrun] at hblk
    exact absurd hblk (by decide)
  have hth : s5.threads t = s2.threads t := by
    rcases hcase with ⟨_, _, _, hsame⟩ | ⟨w, _, _, _, _, _, _, hw, hsame⟩
    · exact hsame t htc
    · by_cases htw : t = w
      · subst htw
        rw [hw] at hblk
        simp at hblk
      · exact hsame t htc htw
  refine ⟨htid, ?_, htc, ?_, ?_, ?_, ?_⟩
  · rw [hf, htid]; exact hnext
  · rw [hf]; exact hcur
  · rw [hf]
    simp [set_thread, upd, hth]
  · rw [← hth]; exact hblk
  · rw [hf]; rfl

/-- The end of `thread_create` once `lock_acquire` on `tid_lock` has returned
in state `s2`. -/
theorem thread_create_after_acquire (t : thread_ptr) (tid : Int) (s2 s' : KState)
    (h : List Int) (hh : tids_issued s2 h)
    (hret : (allocate_tid_after_acquire (completed, s2)).bind (thread_create_finish t)
      = some (some tid, s')) :
    tid ≠ TID_ERROR ∧ tid = s2.next_tid ∧ s'.next_tid = tid + 1 ∧ (∀ x ∈ h, x < tid) ∧
    tids_issued s' (tid :: h) ∧ t ≠ s2.current ∧ s'.current = s2.current ∧
    s'.threads t = { s2.threads t with tid := tid, status := THREAD_READY } ∧
    ∃ front, s'.ready_list = front ++ [t] := by
  simp only [allocate_tid_after_acquire] at hret
  cases ha : allocate_tid_locked s2 with
  | none => simp [ha] at hret
  | some r =>
    obtain ⟨tid', s5⟩ := r
    simp only [ha, Option.map_some', Option.some_bind, thread_create_finish] at hret
    cases hu : thread_unblock t (set_thread s5 t { s5.threads t with tid := tid' }) with
    | none => simp [hu] at hret
    | some s7 =>
      simp only [hu, Option.some.injEq, Prod.mk.injEq] at hret
      obtain ⟨e1, e2⟩ := hret
      subst e1 e2
      obtain ⟨t1, t2, t3, t4, t5, _, t7⟩ := thread_create_tail t tid' s2 s5 s7 ha hu
      obtain ⟨i1, i2⟩ := tids_issued_inv s2 h hh
      obtain ⟨_, _, a3, _⟩ := allocate_tid_locked_spec s2 s5 tid' ha
      refine ⟨?_, t1, t2, ?_, ?_, t3, t4, t5, ⟨_, t7⟩⟩
      · rw [t1]
        intro hx
        rw [hx] at i1
        exact absurd i1 (by decide)
      · intro x hx
        rw [t1]
        exact (i2 x hx).2
      · refine tids_issued.other s5 s7 _ (tids_issued.allocate s2 s5 h tid' hh ha) ?_
        rw [t2, a3, t1]

/-- With `tid_lock` free, a valid priority and a counter below its largest
value, `thread_create` on a page other than the caller's returns. -/
theorem thread_create_returns (priority : Int) (t : thread_ptr) (s : KState)
    (hc : thread_current s = some s.current) (hctx : s.in_intr_context = false)
    (ht : t ≠ s.current) (hp1 : PRI_MIN ≤ priority) (hp2 : priority ≤ PRI_MAX)
    (hmax : s.next_tid < INT_MAX) (hfree : s.locks tid_lock = lock_init) :
    ∃ tid s', thread_create priority (some t) s = some (some tid, s') := by
  obtain ⟨hrun1, hrun2⟩ := thread_current_running s _ hc
  have hct : s.current ≠ t := fun hx => ht hx.symm
  have hacq : ∃ s2, lock_acquire tid_lock (set_thread s t
      { thread_zero with status := THREAD_BLOCKED, priority := priority,
                         magic := THREAD_MAGIC }) = some (completed, s2) ∧
      thread_current s2 = some s2.current ∧ s2.current = s.current ∧
      (s2.locks tid_lock).holder = some s.current ∧
      (s2.locks tid_lock).semaphore.waiters = [] ∧
      s2.next_tid = s.next_tid ∧
      s2.threads t = { thread_zero with status := THREAD_BLOCKED, priority := priority,
                                        magic := THREAD_MAGIC } := by
    have hsome : ∃ r, lock_acquire tid_lock (set_thread s t
        { thread_zero with status := THREAD_BLOCKED, priority := priority,
                           magic := THREAD_MAGIC }) = some r := by
      simp [lock_acquire, lock_held_by_current_thread, thread_current, set_thread, upd, hct,
        hrun1, hrun2, hctx, hfree, lock_init, sema_init, sema_down, sema_down_loop,
        lock_acquire_after_down, intr_disable, set_lock]
    obtain ⟨⟨st, s2⟩, hr⟩ := hsome
    have hst : st = completed := by
      cases st with
      | completed => rfl
      | suspended =>
        have := ((lock_acquire_lock _ _ _ _ hr).2.2 rfl).2.1
        simp [set_thread, hfree, lock_init, sema_init] at this
    subst hst
    obtain ⟨_, _, _, s3, hdown, hfr, _⟩ := lock_acquire_unfold _ _ _ _ hr
    have h3 := hfr (by simp [set_thread, hfree, lock_init])
    subst h3
    obtain ⟨_, hs2⟩ := after_down_completed _ _ _ _ _ _ hdown
    refine ⟨s2, hr, ?_, ?_, ?_, ?_, ?_, ?_⟩
    · rw [hs2]
      simp [lock_acquire_finish, set_lock, set_thread, upd, intr_set_level, intr_disable,
        thread_current, hct, hrun2]
      simpa [is_thread] using hrun1
    · rw [hs2]; rfl
    · rw [hs2]; simp [lock_acquire_finish, set_lock, set_thread, upd]
    · rw [hs2]
      simp [lock_acquire_finish, set_lock, set_thread, upd, hfree, lock_init, sema_init,
        intr_set_level, intr_disable]
    · rw [hs2]; rfl
    · rw [hs2]
      simp [lock_acquire_finish, set_lock, set_thread, upd, intr_set_level, intr_disable, ht]
  obtain ⟨s2, h1, h2, h3, h4, h5, h6, h7⟩ := hacq
  have hcan : can_release tid_lock { s2 with next_tid := s2.next_tid + 1 } := by
    refine ⟨h2, by rw [h4, h3], ?_⟩
    intro u hu
    simp only at hu
    rw [h5] at hu
    simp at hu
  obtain ⟨_, _, s5, hrel, _⟩ := lock_release_spec tid_lock _ hcan
  obtain ⟨_, _, _, _, _, _, _, _, _, _, _, _, hcase⟩ := lock_release_effect _ _ _ hrel
  have hth : s5.threads t = s2.threads t := by
    have ht2 : t ≠ s2.current := by rw [h3]; exact ht
    rcases hcase with ⟨_, _, _, hsame⟩ | ⟨w, _, hw, _⟩
    · exact hsame t ht2
    · simp only at hw
      rw [h5] at hw
      simp at hw
  have hub : ∃ s', thread_unblock t (set_thread s5 t { s5.threads t with tid := s2.next_tid })
      = some s' :=
    ⟨_, thread_unblock_blocked _ _
      (by simp [set_thread, upd, hth, h7, is_thread])
      (by simp [set_thread, upd, hth, h7])⟩
  obtain ⟨s', hs'⟩ := hub
  have hmax2 : ¬ s2.next_tid ≥ INT_MAX := by rw [h6]; exact not_le.mpr hmax
  refine ⟨s2.next_tid, s', ?_⟩
  simp [thread_create, init_thread, hp1, hp2, allocate_tid, h1, allocate_tid_after_acquire,
    allocate_tid_locked, hmax2, hrel, thread_create_finish, hs']

/-- C22: let `tid_lock` be used through the lock functions only and let `h`
list the identifiers handed out so far.  When the page allocation fails,
`thread_create` returns `TID_ERROR` and leaves the whole kernel state as it
was; a call that returns does so with `TID_ERROR` exactly when the allocation
failed.  When the allocation yields the page `t` and the call returns `tid`
(at once, or after the caller was suspended on `tid_lock` and resumed), `tid`
is the value of the counter, which then moves on by one, `tid` is greater than
every identifier in `h`, and the new thread `t` carries `tid`, is READY, has
the requested priority and stands at the back of the ready list.  Incrementing
the counter at `INT_MAX` is undefined, so no call returns there; with the
counter below it, `tid_lock` free and a valid priority, the call does return. -/
theorem thread_create_returns_fresh_tid (priority : Int) (s : KState) (h : List Int)
    (hl : lock_reachable tid_lock s) (hh : tids_issued s h) :
    thread_create priority none s = some (some TID_ERROR, s) ∧
    (∀ page tid s', thread_create priority page s = some (some tid, s') →
      (tid = TID_ERROR ↔ page = none)) ∧
    (∀ t tid s', thread_create priority (some t) s = some (some tid, s') →
      tid = s.next_tid ∧ s'.next_tid = tid + 1 ∧ (∀ x ∈ h, x < tid) ∧
      tids_issued s' (tid :: h) ∧
      s'.threads t = { thread_zero with tid := tid, status := THREAD_READY,
                                        priority := priority, magic := THREAD_MAGIC } ∧
      (∃ front, s'.ready_list = front ++ [t]) ∧ s'.current = s.current) ∧
    (∀ old_level t tid s', thread_create_resume old_level t s = some (some tid, s') →
      tid ≠ TID_ERROR ∧ tid = s.next_tid ∧ s'.next_tid = tid + 1 ∧ (∀ x ∈ h, x < tid) ∧
      tids_issued s' (tid :: h) ∧
      s'.threads t = { s.threads t with tid := tid, status := THREAD_READY } ∧
      (∃ front, s'.ready_list = front ++ [t]) ∧ s'.current = s.current) ∧
    (∀ t, thread_current s = some s.current → s.in_intr_context = false → t ≠ s.current →
      PRI_MIN ≤ priority → priority ≤ PRI_MAX → s.next_tid < INT_MAX →
      s.locks tid_lock = lock_init →
      ∃ tid s', thread_create priority (some t) s = some (some tid, s')) := by
  have hdirect : ∀ t tid s', thread_create priority (some t) s = some (some tid, s') →
      tid ≠ TID_ERROR ∧ tid = s.next_tid ∧ s'.next_tid = tid + 1 ∧ (∀ x ∈ h, x < tid) ∧
      tids_issued s' (tid :: h) ∧
      s'.threads t = { thread_zero with tid := tid, status := THREAD_READY,
                                        priority := priority, magic := THREAD_MAGIC } ∧
      (∃ front, s'.ready_list = front ++ [t]) ∧ s'.current = s.current := by
    intro t tid s' hret
    simp only [thread_create, init_thread] at hret
    by_cases hpri : PRI_MIN ≤ priority ∧ priority ≤ PRI_MAX
    · simp only [hpri, and_self, if_true, allocate_tid] at hret
      cases hacq : lock_acquire tid_lock (set_thread s t
          { thread_zero with status := THREAD_BLOCKED, priority := priority,
                             magic := THREAD_MAGIC }) with
      | none => simp [hacq] at hret
      | some r =>
        obtain ⟨st, s2⟩ := r
        simp only [hacq, Option.some_bind] at hret
        cases st with
        | suspended => simp [allocate_tid_after_acquire, thread_create_finish] at hret
        | completed =>
          obtain ⟨_, _, _, s3, hdown, hfree, _⟩ := lock_acquire_unfold _ _ _ _ hacq
          have hval := ((lock_acquire_lock _ _ _ _ hacq).2.1 rfl).2
          have hinv := (lock_reachable_inv tid_lock s hl).2
          have hnone : (s.locks tid_lock).holder = none := by
            by_contra hne
            have := hinv hne
            simp only [set_thread] at hval
            omega
          have h3 := hfree hnone
          subst h3
          obtain ⟨_, hs2⟩ := after_down_completed _ _ _ _ _ _ hdown
          have hh2 : tids_issued s2 h := by
            refine tids_issued.other s s2 h hh ?_
            rw [hs2]; rfl
          obtain ⟨c1, c2, c3, c4, c5, c6, c7, c8, c9⟩ :=
            thread_create_after_acquire t tid s2 s' h hh2 hret
          have hcur : s2.current = s.current := by rw [hs2]; rfl
          have hnt : s2.next_tid = s.next_tid := by rw [hs2]; rfl
          rw [hcur] at c6 c7
          refine ⟨c1, by rw [c2, hnt], c3, c4, c5, ?_, c9, c7⟩
          rw [c8, hs2]
          simp [lock_acquire_finish, set_lock, set_thread, upd, intr_set_level, intr_disable,
            c6, thread_zero]
    · simp [hpri] at hret
  refine ⟨rfl, ?_, ?_, ?_, ?_⟩
  rotate_right
  · intro t h1 h2 h3 h4 h5 h6 h7
    exact thread_create_returns priority t s h1 h2 h3 h4 h5 h6 h7
  · intro page tid s' hret
    cases page with
    | none =>
      simp only [thread_create, Option.some.injEq, Prod.mk.injEq] at hret
      simp [← hret.1]
    | some t =>
      have := (hdirect t tid s' hret).1
      simp [this]
  · intro t tid s' hret
    exact (hdirect t tid s' hret).2
  · intro old_level t tid s' hret
    simp only [thread_create_resume, allocate_tid_resume] at hret
    cases hacq : lock_acquire_resume old_level tid_lock s with
    | none => simp [hacq] at hret
    | some r =>
      obtain ⟨st, s2⟩ := r
      simp only [hacq, Option.some_bind] at hret
      cases st with
      | suspended => simp [allocate_tid_after_acquire, thread_create_finish] at hret
      | completed =>
        unfold lock_acquire_resume at hacq
        obtain ⟨_, hs2⟩ := after_down_completed _ _ _ _ _ _ hacq
        have hh2 : tids_issued s2 h := by
          refine tids_issued.other s s2 h hh ?_
          rw [hs2]; rfl
        obtain ⟨c1, c2, c3, c4, c5, c6, c7, c8, c9⟩ :=
          thread_create_after_acquire t tid s2 s' h hh2 hret
        have hcur : s2.current = s.current := by rw [hs2]; rfl
        have hnt : s2.next_tid = s.next_tid := by rw [hs2]; rfl
        rw [hcur] at c6 c7
        refine ⟨c1, by rw [c2, hnt], c3, c4, c5, ?_, c9, c7⟩
        rw [c8, hs2]
        simp [lock_acquire_finish, set_lock, set_thread, upd, intr_set_level, c6]

/-- Witness for C22: in `create_state` thread 1 creates a thread of priority
20 in the page at address 5; the call returns identifier 1, the counter moves
to 2 and thread 5 is READY behind thread 4.  With no page the call returns
`TID_ERROR` and the state is unchanged. -/
theorem thread_create_returns_fresh_tid_witness :
    lock_reachable tid_lock create_state ∧ tids_issued create_state [] ∧
    thread_create 20 (some 5) create_state = some (some 1, created_state) ∧
    (created_state.threads 5).status = THREAD_READY ∧
    (created_state.threads 5).priority = 20 ∧ created_state.ready_list = [4, 5] ∧
    thread_create 20 none create_state = some (some TID_ERROR, create_state) ∧
    ((1 : Int) = create_state.next_tid ∧ created_state.next_tid = 1 + 1 ∧
      tids_issued created_state [1] ∧ ∃ front, created_state.ready_list = front ++ [5]) :=
  ⟨lock_reachable.init example_state, tids_issued.init _ rfl, rfl, rfl, rfl, rfl, rfl,
    match (thread_create_returns_fresh_tid 20 create_state []
      (lock_reachable.init example_state) (tids_issued.init _ rfl)).2.2.1 5 1 created_state
      rfl with
    | ⟨h1, h2, _, h4, _, h6, _⟩ => ⟨h1, h2, h4, h6⟩⟩

/-! ## Lemmas on the scheduling linkage -/

theorem sema_at_store_same (s : KState) (r : sema_ptr) (v : semaphore) :
    sema_at (store_sema s r v) r = v := by
  cases r <;> simp [sema_at, store_sema, set_lock, upd]

theorem sema_at_store_ne (s : KState) (r r' : sema_ptr) (v : semaphore) (h : r' ≠ r) :
    sema_at (store_sema s r v) r' = sema_at s r' := by
  cases r with
  | standalone p =>
    cases r' with
    | standalone p' =>
      have : p' ≠ p := fun hx => h (by rw [hx])
      simp [sema_at, store_sema, upd, this]
    | in_lock l' => simp [sema_at, store_sema]
  | in_lock l =>
    cases r' with
    | standalone p' => simp [sema_at, store_sema, set_lock]
    | in_lock l' =>
      have : l' ≠ l := fun hx => h (by rw [hx])
      simp [sema_at, store_sema, set_lock, upd, this]

theorem store_sema_frame (s : KState) (r : sema_ptr) (v : semaphore) :
    store_sema s r v = { s with locks := (store_sema s r v).locks,
                                semas := (store_sema s r v).semas } := by
  cases r <;> rfl

/-- A function that leaves locks and semaphores alone leaves every wait list
alone. -/
theorem sema_at_congr (s s' : KState) (hl : s'.locks = s.locks) (hs : s'.semas = s.semas)
    (r : sema_ptr) : sema_at s' r = sema_at s r := by
  cases r <;> simp [sema_at, hl, hs]

theorem thread_awake_loop_frame (now : Int) (l : List thread_ptr) :
    ∀ (s s' : KState), thread_awake_loop now l s = some s' →
      s' = { s with threads := s'.threads, ready_list := s'.ready_list,
                    sleep_list := s'.sleep_list,
                    next_tick_to_awake := s'.next_tick_to_awake } ∧
      (∀ t, t ∈ s'.ready_list → t ∈ s.ready_list ∨ t ∈ l) ∧
      (∀ t, t ∈ s'.sleep_list → t ∈ s.sleep_list) := by
  induction l with
  | nil =>
    intro s s' h
    simp only [thread_awake_loop, Option.some.injEq] at h
    subst h
    exact ⟨rfl, fun t ht => Or.inl ht, fun t ht => ht⟩
  | cons a rest ih =>
    intro s s' h
    simp only [thread_awake_loop] at h
    by_cases hdue : now ≥ (s.threads a).wakeup_tick
    · simp only [hdue, if_true] at h
      cases hu : thread_unblock a { s with sleep_list := s.sleep_list.erase a } with
      | none => simp [hu] at h
      | some s1 =>
        simp only [hu] at h
        obtain ⟨i1, i2, i3⟩ := ih s1 s' h
        have hf := thread_unblock_frame _ _ _ hu
        refine ⟨?_, ?_, ?_⟩
        · rw [i1, hf]
        · intro t ht
          rcases i2 t ht with h1 | h1
          · rw [hf] at h1
            simp only [List.mem_append, List.mem_singleton] at h1
            rcases h1 with h1 | h1
            · exact Or.inl h1
            · exact Or.inr (by rw [h1]; exact List.mem_cons_self _ _)
          · exact Or.inr (List.mem_cons_of_mem _ h1)
        · intro t ht
          have := i3 t ht
          rw [hf] at this
          exact List.mem_of_mem_erase this
    · simp only [hdue, if_false] at h
      obtain ⟨i1, i2, i3⟩ := ih _ s' h
      refine ⟨?_, ?_, ?_⟩
      · rw [i1]; rfl
      · intro t ht
        rcases i2 t ht with h1 | h1
        · exact Or.inl h1
        · exact Or.inr (List.mem_cons_of_mem _ h1)
      · intro t ht
        exact i3 t ht

/-- A step that writes neither a wait list nor the sleep list links no thread
beyond those it appends to the ready list. -/
theorem linked_of_ready (s s' : KState) (hl : s'.locks = s.locks) (hs : s'.semas = s.semas)
    (hsl : s'.sleep_list = s.sleep_list) (t : thread_ptr) (h : linked s' t) :
    t ∈ s'.ready_list ∨ linked s t := by
  rcases h with h | h | ⟨r, h⟩
  · exact Or.inl h
  · exact Or.inr (Or.inr (Or.inl (hsl ▸ h)))
  · rw [sema_at_congr s s' hl hs r] at h
    exact Or.inr (Or.inr (Or.inr ⟨r, h⟩))

theorem schedule_linked (s s' : KState) (h : schedule s = some s') :
    s'.idle_thread = s.idle_thread ∧ ∀ t, linked s' t → linked s t := by
  obtain ⟨_, _, _, _, _, _, hrl, _, _, hsl, hidle, _⟩ := schedule_spec s s' h
  have hf := schedule_frame s s' h
  refine ⟨hidle, fun t ht => ?_⟩
  rcases linked_of_ready s s' (by rw [hf]) (by rw [hf]) hsl t ht with h1 | h1
  · rw [hrl] at h1
    exact Or.inl (List.mem_of_mem_tail h1)
  · exact h1

theorem thread_block_linked (s s' : KState) (h : thread_block s = some s') :
    s'.idle_thread = s.idle_thread ∧ ∀ t, linked s' t → linked s t := by
  obtain ⟨_, _, _, p, hp, hent⟩ := thread_block_unfold s s' h
  obtain ⟨_, _, _, _, hrl, _, hsl, hidle, _⟩ := switch_result s p s' _ _ hent hp
  have hf := thread_block_frame s s' h
  refine ⟨hidle, fun t ht => ?_⟩
  rcases linked_of_ready s s' (by rw [hf]) (by rw [hf]) hsl t ht with h1 | h1
  · rw [hrl] at h1
    exact Or.inl (List.mem_of_mem_tail h1)
  · exact h1

theorem thread_yield_linked (s s' : KState) (h : thread_yield s = some s') :
    s'.idle_thread = s.idle_thread ∧
    ∀ t, linked s' t → linked s t ∨ (t = s.current ∧ some t ≠ s.idle_thread) := by
  obtain ⟨_, _, p, hp, hent⟩ := thread_yield_unfold s s' h
  obtain ⟨_, _, _, _, hrl, _, hsl, hidle, _⟩ := switch_result s p s' _ _ hent hp
  have hf := thread_yield_frame s s' h
  refine ⟨hidle, fun t ht => ?_⟩
  rcases linked_of_ready s s' (by rw [hf]) (by rw [hf]) hsl t ht with h1 | h1
  · rw [hrl] at h1
    have h2 := List.mem_of_mem_tail h1
    by_cases hi : some s.current ≠ s.idle_thread
    · rw [if_pos hi] at h2
      simp only [List.mem_append, List.mem_singleton] at h2
      rcases h2 with h2 | h2
      · exact Or.inl (Or.inl h2)
      · exact Or.inr ⟨h2, by rw [h2]; exact hi⟩
    · rw [if_neg hi] at h2
      exact Or.inl (Or.inl h2)
  · exact Or.inl h1

theorem thread_awake_linked (now : Int) (s s' : KState) (h : thread_awake now s = some s') :
    s'.idle_thread = s.idle_thread ∧ ∀ t, linked s' t → linked s t := by
  unfold thread_awake at h
  obtain ⟨hf, hr, hsl⟩ := thread_awake_loop_frame now _ _ _ h
  refine ⟨by rw [hf], fun t ht => ?_⟩
  rcases ht with h1 | h1 | ⟨r, h1⟩
  · rcases hr t h1 with h2 | h2
    · exact Or.inl h2
    · exact Or.inr (Or.inl h2)
  · exact Or.inr (Or.inl (hsl t h1))
  · rw [sema_at_congr s s' (by rw [hf]) (by rw [hf]) r] at h1
    exact Or.inr (Or.inr ⟨r, h1⟩)

/-- What `sema_up` on a stored semaphore does: the counter is incremented;
without waiters nothing else the scheduler reads changes; otherwise one waiter
`w`, blocked before, leaves the wait list, becomes READY and joins the ready
list at the back. -/
theorem sema_up_at_unfold (r : sema_ptr) (s s' : KState) (h : sema_up_at r s = some s') :
    (sema_at s' r).value = ((sema_at s r).value + 1) % UINT_MODULUS ∧
    (∀ r', r' ≠ r → sema_at s' r' = sema_at s r') ∧
    s'.sleep_list = s.sleep_list ∧ s'.idle_thread = s.idle_thread ∧
    s'.current = s.current ∧ s'.in_intr_context = s.in_intr_context ∧
    s'.next_tid = s.next_tid ∧ s'.level = s.level ∧
    (((sema_at s r).waiters = [] ∧ (sema_at s' r).waiters = [] ∧
        s'.threads = s.threads ∧ s'.ready_list = s.ready_list) ∨
     (∃ w, (w :: (sema_at s' r).waiters).Perm (sema_at s r).waiters ∧
        is_thread (s.threads w) = true ∧ (s.threads w).status = THREAD_BLOCKED ∧
        s'.threads = upd s.threads w { s.threads w with status := THREAD_READY } ∧
        s'.ready_list = s.ready_list ++ [w])) := by
  unfold sema_up_at at h
  cases hu : sema_up (sema_at s r) s with
  | none => simp [hu] at h
  | some x =>
    obtain ⟨sema', s4⟩ := x
    simp only [hu, Option.map_some', Option.some.injEq] at h
    subst h
    obtain ⟨hv, hcase⟩ := sema_up_unfold _ _ _ _ hu
    have hlk4 : s4.locks = s.locks ∧ s4.semas = s.semas ∧ s4.sleep_list = s.sleep_list ∧
        s4.idle_thread = s.idle_thread ∧ s4.current = s.current ∧
        s4.in_intr_context = s.in_intr_context ∧ s4.next_tid = s.next_tid ∧
        s4.level = s.level := by
      rcases hcase with ⟨_, _, hs4⟩ | ⟨w, _, _, _, hs4⟩ <;>
        exact ⟨by rw [hs4], by rw [hs4], by rw [hs4], by rw [hs4], by rw [hs4], by rw [hs4],
          by rw [hs4], by rw [hs4]⟩
    obtain ⟨k1, k2, k3, k4, k5, k6, k7, k8⟩ := hlk4
    have hst := store_sema_frame s4 r sema'
    refine ⟨by rw [sema_at_store_same]; exact hv, ?_, by rw [hst]; exact k3,
      by rw [hst]; exact k4, by rw [hst]; exact k5, by rw [hst]; exact k6,
      by rw [hst]; exact k7, by rw [hst]; exact k8, ?_⟩
    · intro r' hr'
      rw [sema_at_store_ne _ _ _ _ hr']
      exact sema_at_congr s s4 k1 k2 r'
    · rcases hcase with ⟨h1, h2, hs4⟩ | ⟨w, hsort, hlive, hblk, hs4⟩
      · refine Or.inl ⟨h1, by rw [sema_at_store_same]; exact h2, ?_, ?_⟩
        · rw [hst, hs4]
        · rw [hst, hs4]
      · refine Or.inr ⟨w, ?_, hlive, hblk, ?_, ?_⟩
        · rw [sema_at_store_same]
          have := list_sort_perm (cmp_priority s) (sema_at s r).waiters
          rw [hsort] at this
          exact this
        · rw [hst, hs4]
        · rw [hst, hs4]

theorem sema_up_at_linked (r : sema_ptr) (s s' : KState) (h : sema_up_at r s = some s') :
    s'.idle_thread = s.idle_thread ∧ ∀ t, linked s' t → linked s t := by
  obtain ⟨_, hother, hsl, hidle, _, _, _, _, hcase⟩ := sema_up_at_unfold r s s' h
  refine ⟨hidle, fun t ht => ?_⟩
  have hw : ∀ u, u ∈ (sema_at s' r).waiters → u ∈ (sema_at s r).waiters := by
    intro u hu
    rcases hcase with ⟨_, h2, _⟩ | ⟨w, hperm, _⟩
    · rw [h2] at hu; simp at hu
    · exact hperm.subset (List.mem_cons_of_mem _ hu)
  rcases ht with h1 | h1 | ⟨r', h1⟩
  · rcases hcase with ⟨_, _, _, hr⟩ | ⟨w, hperm, _, _, _, hr⟩
    · exact Or.inl (hr ▸ h1)
    · rw [hr] at h1
      simp only [List.mem_append, List.mem_singleton] at h1
      rcases h1 with h1 | h1
      · exact Or.inl h1
      · exact Or.inr (Or.inr ⟨r, by rw [h1]; exact hperm.subset (List.mem_cons_self _ _)⟩)
  · exact Or.inr (Or.inl (hsl ▸ h1))
  · by_cases hr : r' = r
    · subst hr
      exact Or.inr (Or.inr ⟨r', hw t h1⟩)
    · rw [hother r' hr] at h1
      exact Or.inr (Or.inr ⟨r', h1⟩)

/-! ## Claim C25: next_thread_to_run and the idle thread -/

theorem idle_parked_reachable_inv (s : KState) (h : idle_parked_reachable s) :
    ∃ i, s.idle_thread = some i ∧ ¬ linked s i := by
  induction h with
  | init s i h1 _ h3 => exact ⟨i, h1, h3⟩
  | yield s s' _ hy ih =>
    obtain ⟨i, hi, hn⟩ := ih
    obtain ⟨h1, h2⟩ := thread_yield_linked s s' hy
    refine ⟨i, by rw [h1]; exact hi, fun hl => ?_⟩
    rcases h2 i hl with h3 | ⟨_, h4⟩
    · exact hn h3
    · exact h4 hi.symm
  | up s s' r _ hu ih =>
    obtain ⟨i, hi, hn⟩ := ih
    obtain ⟨h1, h2⟩ := sema_up_at_linked r s s' hu
    exact ⟨i, by rw [h1]; exact hi, fun hl => hn (h2 i hl)⟩
  | awake s s' now _ ha ih =>
    obtain ⟨i, hi, hn⟩ := ih
    obtain ⟨h1, h2⟩ := thread_awake_linked now s s' ha
    exact ⟨i, by rw [h1]; exact hi, fun hl => hn (h2 i hl)⟩
  | block s s' _ hb ih =>
    obtain ⟨i, hi, hn⟩ := ih
    obtain ⟨h1, h2⟩ := thread_block_linked s s' hb
    exact ⟨i, by rw [h1]; exact hi, fun hl => hn (h2 i hl)⟩
  | schedule s s' _ hs ih =>
    obtain ⟨i, hi, hn⟩ := ih
    obtain ⟨h1, h2⟩ := schedule_linked s s' hs
    exact ⟨i, by rw [h1]; exact hi, fun hl => hn (h2 i hl)⟩

/-- C25: in every state reached after the idle thread has been initialised
and has blocked itself, by calls of `thread_yield`, `sema_up` and
`thread_awake` and by runs of the scheduler, the idle thread exists and is on
no list: not in the ready list, not in the sleep list, not in the wait list of
any semaphore.  There `next_thread_to_run` returns the idle thread exactly when
the ready list is empty, and then leaves the state as it is; on a non-empty
ready list it returns the front thread, which is not the idle thread, removes
it and leaves the other threads in their order. -/
theorem idle_thread_never_queued (s : KState) (h : idle_parked_reachable s) :
    (∃ i, s.idle_thread = some i ∧ i ∉ s.ready_list ∧ i ∉ s.sleep_list ∧
      ∀ r, i ∉ (sema_at s r).waiters) ∧
    ((next_thread_to_run s).1 = s.idle_thread ↔ s.ready_list = []) ∧
    (s.ready_list = [] → next_thread_to_run s = (s.idle_thread, s)) ∧
    (∀ t rest, s.ready_list = t :: rest →
      next_thread_to_run s = (some t, { s with ready_list := rest }) ∧
      some t ≠ s.idle_thread ∧
      s.ready_list = t :: (next_thread_to_run s).2.ready_list) := by
  obtain ⟨i, hi, hn⟩ := idle_parked_reachable_inv s h
  have hnr : i ∉ s.ready_list := fun hx => hn (Or.inl hx)
  refine ⟨⟨i, hi, hnr, fun hx => hn (Or.inr (Or.inl hx)),
    fun r hx => hn (Or.inr (Or.inr ⟨r, hx⟩))⟩, ?_, ?_, ?_⟩
  · constructor
    · intro hrun
      cases hr : s.ready_list with
      | nil => rfl
      | cons t rest =>
        exfalso
        simp only [next_thread_to_run, hr, hi, Option.some.injEq] at hrun
        rw [hr, hrun] at hnr
        exact hnr (List.mem_cons_self _ _)
    · intro hr
      simp [next_thread_to_run, hr]
  · intro hr
    simp [next_thread_to_run, hr]
  · intro t rest hr
    refine ⟨by simp [next_thread_to_run, hr], ?_, by simp [next_thread_to_run, hr]⟩
    intro hx
    rw [hi] at hx
    simp only [Option.some.injEq] at hx
    rw [hr, hx] at hnr
    exact hnr (List.mem_cons_self _ _)

theorem idle_parked_waiter_unlinked : ¬ linked idle_parked_waiter 2 := by
  rintro (h | h | ⟨r, h⟩)
  · exact absurd h (by decide)
  · exact absurd h (by decide)
  · cases r with
    | standalone p =>
      by_cases hp : p = 0
      · subst hp
        exact absurd h (by decide)
      · simp [sema_at, idle_parked_waiter, hp, sema_init] at h
    | in_lock l =>
      simp [sema_at, idle_parked_waiter, idle_parked, example_state, lock_init, sema_init] at h

theorem idle_gave_way_reachable : idle_parked_reachable idle_gave_way :=
  idle_parked_reachable.yield idle_woke_waiter _
    (idle_parked_reachable.up idle_running _ (sema_ptr.standalone 0)
      (idle_parked_reachable.block
        (match thread_yield idle_parked_waiter with
          | some s => s
          | none => idle_parked_waiter) _
        (idle_parked_reachable.yield idle_parked_waiter _
          (idle_parked_reachable.init idle_parked_waiter 2 rfl rfl idle_parked_waiter_unlinked)
          rfl)
        rfl)
      rfl)
    rfl

/-- Witness for C25: thread 1 yields and blocks, the idle thread 2 runs,
`sema_up` wakes thread 3 and the idle thread yields to it.  The idle thread is
then READY and not in the ready list, which is empty, and `next_thread_to_run`
returns the idle thread. -/
theorem idle_thread_never_queued_witness :
    idle_parked_reachable idle_gave_way ∧
    idle_woke_waiter.current = 2 ∧ idle_woke_waiter.ready_list = [3] ∧
    idle_gave_way.current = 3 ∧ idle_gave_way.idle_thread = some 2 ∧
    (idle_gave_way.threads 2).status = THREAD_READY ∧ idle_gave_way.ready_list = [] ∧
    ((next_thread_to_run idle_gave_way).1 = idle_gave_way.idle_thread ↔
      idle_gave_way.ready_list = []) ∧
    ∃ i, idle_gave_way.idle_thread = some i ∧ i ∉ idle_gave_way.ready_list :=
  ⟨idle_gave_way_reachable, rfl, rfl, rfl, rfl, rfl, rfl,
    (idle_thread_never_queued idle_gave_way idle_gave_way_reachable).2.1,
    match (idle_thread_never_queued idle_gave_way idle_gave_way_reachable).1 with
    | ⟨i, h1, h2, _⟩ => ⟨i, h1, h2⟩⟩

/-! ## The scheduling linkage is kept by the primitive steps -/

/-- The invariant reads only liveness and status of the threads, the three
kinds of lists and the idle thread. -/
theorem linkage_congr (s s' : KState) (h : linkage_invariant s)
    (hlive : ∀ u, is_thread (s'.threads u) = is_thread (s.threads u))
    (hstat : ∀ u, (s'.threads u).status = (s.threads u).status)
    (hr : s'.ready_list = s.ready_list) (hsl : s'.sleep_list = s.sleep_list)
    (hw : ∀ r, (sema_at s' r).waiters = (sema_at s r).waiters)
    (hidle : s'.idle_thread = s.idle_thread) : linkage_invariant s' := by
  constructor
  · intro t ht; rw [hlive, hstat]; exact h.ready_ok t (hr ▸ ht)
  · intro t h1 h2 h3
    rw [hr]
    exact h.ready_all t (by rw [← hlive]; exact h1) (by rw [← hstat]; exact h2)
      (by rw [← hidle]; exact h3)
  · intro t ht; rw [hlive, hstat]; exact h.sleep_ok t (hsl ▸ ht)
  · intro r t ht; rw [hlive, hstat]; exact h.wait_ok r t (hw r ▸ ht)
  · rw [hr]; exact h.ready_nodup
  · rw [hsl]; exact h.sleep_nodup
  · intro r; rw [hw]; exact h.wait_nodup r
  · intro t ht r; rw [hw]; exact h.sleep_wait t (hsl ▸ ht) r
  · intro r r' t h1 h2
    rw [hw] at h1 h2
    exact h.wait_wait r r' t h1 h2
  · intro i hi
    rw [hidle] at hi
    rw [hsl]
    exact ⟨(h.idle_free i hi).1, fun r => by rw [hw]; exact (h.idle_free i hi).2 r⟩

/-- A live RUNNING thread is on no list. -/
theorem running_unlinked (s : KState) (h : linkage_invariant s) (c : thread_ptr)
    (hrun : (s.threads c).status = THREAD_RUNNING) : ¬ linked s c := by
  rintro (h1 | h1 | ⟨r, h1⟩)
  · have := (h.ready_ok c h1).2
    rw [hrun] at this
    exact absurd this (by decide)
  · have := (h.sleep_ok c h1).2
    rw [hrun] at this
    exact absurd this (by decide)
  · have := (h.wait_ok r c h1).2
    rw [hrun] at this
    exact absurd this (by decide)

/-- A blocked thread `t` is made READY and appended to the ready list, while
the sleep list and the wait lists keep at most their threads other than `t`. -/
theorem linkage_ready (s s' : KState) (t : thread_ptr) (h : linkage_invariant s)
    (hlt : is_thread (s.threads t) = true) (hbt : (s.threads t).status = THREAD_BLOCKED)
    (hth : s'.threads = upd s.threads t { s.threads t with status := THREAD_READY })
    (hr : s'.ready_list = s.ready_list ++ [t])
    (hsl : ∀ u ∈ s'.sleep_list, u ∈ s.sleep_list ∧ u ≠ t) (hsn : s'.sleep_list.Nodup)
    (hw : ∀ r, ∀ u ∈ (sema_at s' r).waiters, u ∈ (sema_at s r).waiters ∧ u ≠ t)
    (hwn : ∀ r, (sema_at s' r).waiters.Nodup)
    (hidle : s'.idle_thread = s.idle_thread) : linkage_invariant s' := by
  have hsame : ∀ u, u ≠ t → s'.threads u = s.threads u := by
    intro u hu; rw [hth]; simp [upd, hu]
  have ht' : is_thread (s'.threads t) = true ∧ (s'.threads t).status = THREAD_READY := by
    rw [hth]
    refine ⟨?_, ?_⟩
    · simpa [upd, is_thread] using hlt
    · simp [upd]
  constructor
  · intro u hu
    rw [hr] at hu
    rcases List.mem_append.mp hu with h1 | h1
    · have := h.ready_ok u h1
      have hut : u ≠ t := by
        intro hx
        rw [hx, hbt] at this
        exact absurd this.2 (by decide)
      rw [hsame u hut]; exact this
    · rw [List.mem_singleton.mp h1]; exact ht'
  · intro u h1 h2 h3
    rw [hr]
    by_cases hut : u = t
    · rw [hut]; simp
    · rw [hsame u hut] at h1 h2
      exact List.mem_append_left _ (h.ready_all u h1 h2 (by rw [← hidle]; exact h3))
  · intro u hu
    obtain ⟨h1, h2⟩ := hsl u hu
    rw [hsame u h2]; exact h.sleep_ok u h1
  · intro r u hu
    obtain ⟨h1, h2⟩ := hw r u hu
    rw [hsame u h2]; exact h.wait_ok r u h1
  · rw [hr]
    refine List.Nodup.append h.ready_nodup (List.nodup_singleton t) ?_
    intro u h1 h2
    rw [List.mem_singleton.mp h2] at h1
    have := (h.ready_ok t h1).2
    rw [hbt] at this
    exact absurd this (by decide)
  · exact hsn
  · exact hwn
  · intro u hu r hur
    exact h.sleep_wait u (hsl u hu).1 r (hw r u hur).1
  · intro r r' u h1 h2
    exact h.wait_wait r r' u (hw r u h1).1 (hw r' u h2).1
  · intro i hi
    rw [hidle] at hi
    exact ⟨fun hx => (h.idle_free i hi).1 (hsl i hx).1,
      fun r hx => (h.idle_free i hi).2 r (hw r i hx).1⟩

/-- A blocked thread on no list, not the idle thread, is appended to the wait
list of the semaphore at `r`. -/
theorem linkage_enqueue_wait (s s' : KState) (t : thread_ptr) (r : sema_ptr)
    (h : linkage_invariant s)
    (hlt : is_thread (s.threads t) = true) (hbt : (s.threads t).status = THREAD_BLOCKED)
    (hun : ¬ linked s t) (hni : some t ≠ s.idle_thread)
    (hlive : ∀ u, is_thread (s'.threads u) = is_thread (s.threads u))
    (hstat : ∀ u, (s'.threads u).status = (s.threads u).status)
    (hr : s'.ready_list = s.ready_list) (hsl : s'.sleep_list = s.sleep_list)
    (hw : (sema_at s' r).waiters = (sema_at s r).waiters ++ [t])
    (hwo : ∀ r', r' ≠ r → (sema_at s' r').waiters = (sema_at s r').waiters)
    (hidle : s'.idle_thread = s.idle_thread) : linkage_invariant s' := by
  have hmem : ∀ r' u, u ∈ (sema_at s' r').waiters →
      u ∈ (sema_at s r').waiters ∨ (u = t ∧ r' = r) := by
    intro r' u hu
    by_cases hrr : r' = r
    · subst hrr
      rw [hw] at hu
      rcases List.mem_append.mp hu with h1 | h1
      · exact Or.inl h1
      · exact Or.inr ⟨List.mem_singleton.mp h1, rfl⟩
    · rw [hwo r' hrr] at hu
      exact Or.inl hu
  constructor
  · intro u hu; rw [hlive, hstat]; exact h.ready_ok u (hr ▸ hu)
  · intro u h1 h2 h3
    rw [hr]
    exact h.ready_all u (by rw [← hlive]; exact h1) (by rw [← hstat]; exact h2)
      (by rw [← hidle]; exact h3)
  · intro u hu; rw [hlive, hstat]; exact h.sleep_ok u (hsl ▸ hu)
  · intro r' u hu
    rw [hlive, hstat]
    rcases hmem r' u hu with h1 | ⟨h1, _⟩
    · exact h.wait_ok r' u h1
    · rw [h1]; exact ⟨hlt, hbt⟩
  · rw [hr]; exact h.ready_nodup
  · rw [hsl]; exact h.sleep_nodup
  · intro r'
    by_cases hrr : r' = r
    · subst hrr
      rw [hw]
      refine List.Nodup.append (h.wait_nodup r') (List.nodup_singleton t) ?_
      intro u h1 h2
      rw [List.mem_singleton.mp h2] at h1
      exact hun (Or.inr (Or.inr ⟨r', h1⟩))
    · rw [hwo r' hrr]; exact h.wait_nodup r'
  · intro u hu r' hur
    rw [hsl] at hu
    rcases hmem r' u hur with h1 | ⟨h1, _⟩
    · exact h.sleep_wait u hu r' h1
    · exact hun (Or.inr (Or.inl (h1 ▸ hu)))
  · intro r1 r2 u h1 h2
    rcases hmem r1 u h1 with a1 | ⟨a1, a2⟩ <;> rcases hmem r2 u h2 with b1 | ⟨b1, b2⟩
    · exact h.wait_wait r1 r2 u a1 b1
    · exact absurd (Or.inr (Or.inr ⟨r1, b1 ▸ a1⟩)) hun
    · exact absurd (Or.inr (Or.inr ⟨r2, a1 ▸ b1⟩)) hun
    · rw [a2, b2]
  · intro i hi
    rw [hidle] at hi
    rw [hsl]
    refine ⟨(h.idle_free i hi).1, fun r' hx => ?_⟩
    rcases hmem r' i hx with h1 | ⟨h1, _⟩
    · exact (h.idle_free i hi).2 r' h1
    · exact hni (by rw [← h1]; exact hi.symm)

/-- A blocked thread on no list, not the idle thread, is appended to the sleep
list. -/
theorem linkage_enqueue_sleep (s s' : KState) (t : thread_ptr)
    (h : linkage_invariant s)
    (hlt : is_thread (s.threads t) = true) (hbt : (s.threads t).status = THREAD_BLOCKED)
    (hun : ¬ linked s t) (hni : some t ≠ s.idle_thread)
    (hlive : ∀ u, is_thread (s'.threads u) = is_thread (s.threads u))
    (hstat : ∀ u, (s'.threads u).status = (s.threads u).status)
    (hr : s'.ready_list = s.ready_list) (hsl : s'.sleep_list = s.sleep_list ++ [t])
    (hw : ∀ r, (sema_at s' r).waiters = (sema_at s r).waiters)
    (hidle : s'.idle_thread = s.idle_thread) : linkage_invariant s' := by
  have hmem : ∀ u, u ∈ s'.sleep_list → u ∈ s.sleep_list ∨ u = t := by
    intro u hu
    rw [hsl] at hu
    rcases List.mem_append.mp hu with h1 | h1
    · exact Or.inl h1
    · exact Or.inr (List.mem_singleton.mp h1)
  constructor
  · intro u hu; rw [hlive, hstat]; exact h.ready_ok u (hr ▸ hu)
  · intro u h1 h2 h3
    rw [hr]
    exact h.ready_all u (by rw [← hlive]; exact h1) (by rw [← hstat]; exact h2)
      (by rw [← hidle]; exact h3)
  · intro u hu
    rw [hlive, hstat]
    rcases hmem u hu with h1 | h1
    · exact h.sleep_ok u h1
    · rw [h1]; exact ⟨hlt, hbt⟩
  · intro r u hu; rw [hlive, hstat]; exact h.wait_ok r u (hw r ▸ hu)
  · rw [hr]; exact h.ready_nodup
  · rw [hsl]
    refine List.Nodup.append h.sleep_nodup (List.nodup_singleton t) ?_
    intro u h1 h2
    rw [List.mem_singleton.mp h2] at h1
    exact hun (Or.inr (Or.inl h1))
  · intro r; rw [hw]; exact h.wait_nodup r
  · intro u hu r hur
    rw [hw] at hur
    rcases hmem u hu with h1 | h1
    · exact h.sleep_wait u h1 r hur
    · exact hun (Or.inr (Or.inr ⟨r, h1 ▸ hur⟩))
  · intro r r' u h1 h2
    rw [hw] at h1 h2
    exact h.wait_wait r r' u h1 h2
  · intro i hi
    rw [hidle] at hi
    refine ⟨fun hx => ?_, fun r => by rw [hw]; exact (h.idle_free i hi).2 r⟩
    rcases hmem i hx with h1 | h1
    · exact (h.idle_free i hi).1 h1
    · exact hni (by rw [← h1]; exact hi.symm)

/-- A page that holds no live thread is set up as a blocked thread; the new
thread is on no list. -/
theorem linkage_fresh (s s' : KState) (t : thread_ptr) (v : thread)
    (h : linkage_invariant s) (hnl : is_thread (s.threads t) = false)
    (hv : v.status = THREAD_BLOCKED)
    (hth : s'.threads = upd s.threads t v)
    (hr : s'.ready_list = s.ready_list) (hsl : s'.sleep_list = s.sleep_list)
    (hw : ∀ r, (sema_at s' r).waiters = (sema_at s r).waiters)
    (hidle : s'.idle_thread = s.idle_thread) :
    linkage_invariant s' ∧ ¬ linked s' t := by
  have hsame : ∀ u, u ≠ t → s'.threads u = s.threads u := by
    intro u hu; rw [hth]; simp [upd, hu]
  have hst : (s'.threads t).status = THREAD_BLOCKED := by
    rw [hth]; simp [upd, hv]
  have hne : ∀ u, is_thread (s.threads u) = true → u ≠ t := by
    intro u hu hx
    rw [hx, hnl] at hu
    exact absurd hu (by decide)
  have hun : ¬ linked s t := by
    rintro (h1 | h1 | ⟨r, h1⟩)
    · exact hne t (h.ready_ok t h1).1 rfl
    · exact hne t (h.sleep_ok t h1).1 rfl
    · exact hne t (h.wait_ok r t h1).1 rfl
  refine ⟨?_, ?_⟩
  · constructor
    · intro u hu
      rw [hr] at hu
      have := h.ready_ok u hu
      rw [hsame u (hne u this.1)]; exact this
    · intro u h1 h2 h3
      rw [hr]
      by_cases hut : u = t
      · rw [hut, hst] at h2
        exact absurd h2 (by decide)
      · rw [hsame u hut] at h1 h2
        exact h.ready_all u h1 h2 (by rw [← hidle]; exact h3)
    · intro u hu
      rw [hsl] at hu
      have := h.sleep_ok u hu
      rw [hsame u (hne u this.1)]; exact this
    · intro r u hu
      rw [hw] at hu
      have := h.wait_ok r u hu
      rw [hsame u (hne u this.1)]; exact this
    · rw [hr]; exact h.ready_nodup
    · rw [hsl]; exact h.sleep_nodup
    · intro r; rw [hw]; exact h.wait_nodup r
    · intro u hu r; rw [hw]; exact h.sleep_wait u (hsl ▸ hu) r
    · intro r r' u h1 h2
      rw [hw] at h1 h2
      exact h.wait_wait r r' u h1 h2
    · intro i hi
      rw [hidle] at hi
      rw [hsl]
      exact ⟨(h.idle_free i hi).1, fun r => by rw [hw]; exact (h.idle_free i hi).2 r⟩
  · rintro (h1 | h1 | ⟨r, h1⟩)
    · exact hun (Or.inl (hr ▸ h1))
    · exact hun (Or.inr (Or.inl (hsl ▸ h1)))
    · exact hun (Or.inr (Or.inr ⟨r, hw r ▸ h1⟩))

/-- A context switch keeps the linkage: the running thread takes status
`st` (READY when it yields, and is then queued unless it is the idle thread;
BLOCKED or DYING otherwise) and the scheduler pops the next thread. -/
theorem linkage_switch (s p s' : KState) (st : thread_status) (q : List thread_ptr)
    (h : linkage_invariant s) (hc : thread_current s = some s.current)
    (hp : enters_schedule s p st q) (hs : schedule p = some s')
    (hw : ∀ r, (sema_at s' r).waiters = (sema_at s r).waiters)
    (hq : (q = s.ready_list ∧ st ≠ THREAD_READY) ∨
      (st = THREAD_READY ∧
        q = if some s.current ≠ s.idle_thread then s.ready_list ++ [s.current]
            else s.ready_list)) :
    linkage_invariant s' ∧ s'.idle_thread = s.idle_thread ∧
    (∀ t, linked s' t → linked s t ∨ t = s.current) ∧
    (st = THREAD_BLOCKED → some s.current ≠ s.idle_thread →
      is_thread (s'.threads s.current) = true ∧
      (s'.threads s.current).status = THREAD_BLOCKED ∧ ¬ linked s' s.current) := by
  obtain ⟨next, hnext, hnl, _, hrl, hth, hsl, hidle, _, _⟩ := switch_result s p s' st q hp hs
  obtain ⟨hrun1, hrun2⟩ := thread_current_running s _ hc
  have hcun := running_unlinked s h s.current hrun2
  -- the queue the scheduler pops from
  have qmem : ∀ t ∈ q, t ∈ s.ready_list ∨
      (t = s.current ∧ st = THREAD_READY ∧ some s.current ≠ s.idle_thread) := by
    intro t ht
    rcases hq with ⟨h1, _⟩ | ⟨h1, h2⟩
    · exact Or.inl (h1 ▸ ht)
    · rw [h2] at ht
      by_cases hi : some s.current ≠ s.idle_thread
      · rw [if_pos hi] at ht
        rcases List.mem_append.mp ht with h3 | h3
        · exact Or.inl h3
        · exact Or.inr ⟨List.mem_singleton.mp h3, h1, hi⟩
      · rw [if_neg hi] at ht
        exact Or.inl ht
  have qsub : ∀ t ∈ s.ready_list, t ∈ q := by
    intro t ht
    rcases hq with ⟨h1, _⟩ | ⟨_, h2⟩
    · exact h1 ▸ ht
    · rw [h2]
      by_cases hi : some s.current ≠ s.idle_thread
      · rw [if_pos hi]; exact List.mem_append_left _ ht
      · rw [if_neg hi]; exact ht
  have qcur : st = THREAD_READY → some s.current ≠ s.idle_thread → s.current ∈ q := by
    intro h1 hi
    rcases hq with ⟨_, h2⟩ | ⟨_, h2⟩
    · exact absurd h1 h2
    · rw [h2, if_pos hi]; simp
  have qnd : q.Nodup := by
    rcases hq with ⟨h1, _⟩ | ⟨_, h2⟩
    · rw [h1]; exact h.ready_nodup
    · rw [h2]
      by_cases hi : some s.current ≠ s.idle_thread
      · rw [if_pos hi]
        refine List.Nodup.append h.ready_nodup (List.nodup_singleton _) ?_
        intro u h1 h2
        rw [List.mem_singleton.mp h2] at h1
        exact hcun (Or.inl h1)
      · rw [if_neg hi]; exact h.ready_nodup
  -- the thread that is popped
  have hhead : (q = [] ∧ s.idle_thread = some next) ∨ ∃ rest, q = next :: rest := by
    cases hq' : q with
    | nil =>
      rw [hq'] at hnext
      exact Or.inl ⟨rfl, by simpa [next_thread_to_run] using hnext⟩
    | cons x rest =>
      rw [hq'] at hnext
      simp only [next_thread_to_run, Option.some.injEq] at hnext
      exact Or.inr ⟨rest, by rw [hnext]⟩
  have htail : ∀ t ∈ q.tail, t ∈ q ∧ t ≠ next := by
    intro t ht
    rcases hhead with ⟨h1, _⟩ | ⟨rest, h1⟩
    · rw [h1] at ht; simp at ht
    · rw [h1] at ht qnd
      simp only [List.tail_cons] at ht
      refine ⟨by rw [h1]; exact List.mem_cons_of_mem _ ht, ?_⟩
      intro hx
      exact (List.nodup_cons.mp qnd).1 (hx ▸ ht)
  have hintail : ∀ t ∈ q, t ≠ next → t ∈ q.tail := by
    intro t ht hne
    rcases hhead with ⟨h1, _⟩ | ⟨rest, h1⟩
    · rw [h1] at ht; simp at ht
    · rw [h1] at ht ⊢
      rcases List.mem_cons.mp ht with h2 | h2
      · exact absurd h2 hne
      · exact h2
  have hblocked_ne : ∀ t, (s.threads t).status = THREAD_BLOCKED →
      (t ∈ s.sleep_list ∨ ∃ r, t ∈ (sema_at s r).waiters) → t ≠ next := by
    intro t hbt hl hx
    rcases hhead with ⟨_, h2⟩ | ⟨rest, h1⟩
    · rw [hx] at hl
      rcases hl with h3 | ⟨r, h3⟩
      · exact (h.idle_free next h2).1 h3
      · exact (h.idle_free next h2).2 r h3
    · have hnq : next ∈ q := by rw [h1]; exact List.mem_cons_self _ _
      rcases qmem next hnq with h3 | ⟨h3, _⟩
      · have := (h.ready_ok next h3).2
        rw [← hx, hbt] at this
        exact absurd this (by decide)
      · rw [hx, h3, hrun2] at hbt
        exact absurd hbt (by decide)
  -- liveness and status after the switch
  have hlive : ∀ u, is_thread (s'.threads u) = is_thread (s.threads u) := by
    intro u
    rw [hth u]
    split_ifs <;> simp [is_thread]
  have hstat_next : (s'.threads next).status = THREAD_RUNNING := by
    rw [hth next]; simp
  have hstat_cur : s.current ≠ next → (s'.threads s.current).status = st := by
    intro hne
    rw [hth s.current]; simp [hne]
  have hstat_other : ∀ u, u ≠ next → u ≠ s.current →
      (s'.threads u).status = (s.threads u).status := by
    intro u h1 h2
    rw [hth u]; simp [h1, h2]
  have hlist_stat : ∀ u, (u ∈ s.sleep_list ∨ ∃ r, u ∈ (sema_at s r).waiters) →
      (s.threads u).status = THREAD_BLOCKED → (s'.threads u).status = THREAD_BLOCKED := by
    intro u hl hb
    have h1 := hblocked_ne u hb hl
    have h2 : u ≠ s.current := by
      intro hx
      rw [hx, hrun2] at hb
      exact absurd hb (by decide)
    rw [hstat_other u h1 h2]; exact hb
  have hinv : linkage_invariant s' := by
    constructor
    · intro t ht
      rw [hrl] at ht
      obtain ⟨h1, h2⟩ := htail t ht
      rw [hlive]
      rcases qmem t h1 with h3 | ⟨h3, h4, _⟩
      · have := h.ready_ok t h3
        have htc : t ≠ s.current := by
          intro hx
          rw [hx, hrun2] at this
          exact absurd this.2 (by decide)
        rw [hstat_other t h2 htc]; exact this
      · rw [h3] at h2 ⊢
        rw [hstat_cur h2]
        exact ⟨hrun1, h4⟩
    · intro t h1 h2 h3
      rw [hrl]
      rw [hlive] at h1
      rw [hidle] at h3
      have htn : t ≠ next := by
        intro hx
        rw [hx, hstat_next] at h2
        exact absurd h2 (by decide)
      apply hintail t _ htn
      by_cases htc : t = s.current
      · rw [htc] at h2 htn h3 ⊢
        rw [hstat_cur htn] at h2
        exact qcur h2 h3
      · rw [hstat_other t htn htc] at h2
        exact qsub t (h.ready_all t h1 h2 h3)
    · intro t ht
      rw [hsl] at ht
      have := h.sleep_ok t ht
      rw [hlive]
      exact ⟨this.1, hlist_stat t (Or.inl ht) this.2⟩
    · intro r t ht
      rw [hw] at ht
      have := h.wait_ok r t ht
      rw [hlive]
      exact ⟨this.1, hlist_stat t (Or.inr ⟨r, ht⟩) this.2⟩
    · rw [hrl]; exact qnd.tail
    · rw [hsl]; exact h.sleep_nodup
    · intro r; rw [hw]; exact h.wait_nodup r
    · intro t ht r; rw [hw]; exact h.sleep_wait t (hsl ▸ ht) r
    · intro r r' t h1 h2
      rw [hw] at h1 h2
      exact h.wait_wait r r' t h1 h2
    · intro i hi
      rw [hidle] at hi
      rw [hsl]
      exact ⟨(h.idle_free i hi).1, fun r => by rw [hw]; exact (h.idle_free i hi).2 r⟩
  have hlinked : ∀ t, linked s' t → linked s t ∨ t = s.current := by
    rintro t (h1 | h1 | ⟨r, h1⟩)
    · rw [hrl] at h1
      rcases qmem t (htail t h1).1 with h2 | ⟨h2, _⟩
      · exact Or.inl (Or.inl h2)
      · exact Or.inr h2
    · exact Or.inl (Or.inr (Or.inl (hsl ▸ h1)))
    · exact Or.inl (Or.inr (Or.inr ⟨r, hw r ▸ h1⟩))
  refine ⟨hinv, hidle, hlinked, ?_⟩
  intro hst hni
  have hcn : s.current ≠ next := by
    intro hx
    rcases hhead with ⟨_, h2⟩ | ⟨rest, h1⟩
    · exact hni (by rw [h2, hx])
    · have hnq : next ∈ q := by rw [h1]; exact List.mem_cons_self _ _
      rcases qmem next hnq with h3 | ⟨_, h4, _⟩
      · exact hcun (Or.inl (hx ▸ h3))
      · rw [hst] at h4
        exact absurd h4 (by decide)
  refine ⟨by rw [hlive]; exact hrun1, by rw [hstat_cur hcn]; exact hst, ?_⟩
  intro hl
  rcases hlinked s.current hl with h1 | _
  · exact hcun h1
  · rcases hl with h1 | h1 | ⟨r, h1⟩
    · rw [hrl] at h1
      rcases qmem _ (htail _ h1).1 with h2 | ⟨_, h3, _⟩
      · exact hcun (Or.inl h2)
      · rw [hst] at h3
        exact absurd h3 (by decide)
    · exact hcun (Or.inr (Or.inl (hsl ▸ h1)))
    · exact hcun (Or.inr (Or.inr ⟨r, hw r ▸ h1⟩))

/-! ## The scheduling linkage is kept by the kernel functions -/

theorem store_sema_threads (s : KState) (r : sema_ptr) (v : semaphore) :
    (store_sema s r v).threads = s.threads := by
  cases r <;> rfl

theorem store_sema_ready_list (s : KState) (r : sema_ptr) (v : semaphore) :
    (store_sema s r v).ready_list = s.ready_list := by
  cases r <;> rfl

theorem store_sema_sleep_list (s : KState) (r : sema_ptr) (v : semaphore) :
    (store_sema s r v).sleep_list = s.sleep_list := by
  cases r <;> rfl

theorem store_sema_idle_thread (s : KState) (r : sema_ptr) (v : semaphore) :
    (store_sema s r v).idle_thread = s.idle_thread := by
  cases r <;> rfl

theorem store_sema_current (s : KState) (r : sema_ptr) (v : semaphore) :
    (store_sema s r v).current = s.current := by
  cases r <;> rfl

theorem thread_yield_linkage (s s' : KState) (h : linkage_invariant s)
    (hy : thread_yield s = some s') :
    linkage_invariant s' ∧ s'.idle_thread = s.idle_thread ∧
    ∀ t, linked s' t → linked s t ∨ t = s.current := by
  obtain ⟨hc, _, p, hp, hent⟩ := thread_yield_unfold s s' hy
  have hf := thread_yield_frame s s' hy
  have hw : ∀ r, (sema_at s' r).waiters = (sema_at s r).waiters := fun r => by
    rw [sema_at_congr s s' (by rw [hf]) (by rw [hf]) r]
  obtain ⟨h1, h2, h3, _⟩ := linkage_switch s p s' _ _ h hc hent hp hw (Or.inr ⟨rfl, rfl⟩)
  exact ⟨h1, h2, h3⟩

theorem thread_exit_linkage (s s' : KState) (h : linkage_invariant s)
    (he : thread_exit s = some s') :
    linkage_invariant s' ∧ s'.idle_thread = s.idle_thread ∧
    ∀ t, linked s' t → linked s t ∨ t = s.current := by
  obtain ⟨hc, _, p, hp, hent⟩ := thread_exit_unfold s s' he
  have hf := thread_exit_frame s s' he
  have hw : ∀ r, (sema_at s' r).waiters = (sema_at s r).waiters := fun r => by
    rw [sema_at_congr s s' (by rw [hf]) (by rw [hf]) r]
  obtain ⟨h1, h2, h3, _⟩ := linkage_switch s p s' _ _ h hc hent hp hw
    (Or.inl ⟨rfl, by decide⟩)
  exact ⟨h1, h2, h3⟩

/-- The running thread, not the idle thread, blocks itself: afterwards it is a
live BLOCKED thread on no list. -/
theorem thread_block_linkage (s s' : KState) (h : linkage_invariant s)
    (hni : some s.current ≠ s.idle_thread) (hb : thread_block s = some s') :
    linkage_invariant s' ∧ s'.idle_thread = s.idle_thread ∧
    (∀ t, linked s' t → linked s t ∨ t = s.current) ∧
    is_thread (s'.threads s.current) = true ∧
    (s'.threads s.current).status = THREAD_BLOCKED ∧ ¬ linked s' s.current := by
  obtain ⟨hc, _, _, p, hp, hent⟩ := thread_block_unfold s s' hb
  have hf := thread_block_frame s s' hb
  have hw : ∀ r, (sema_at s' r).waiters = (sema_at s r).waiters := fun r => by
    rw [sema_at_congr s s' (by rw [hf]) (by rw [hf]) r]
  obtain ⟨h1, h2, h3, h4⟩ := linkage_switch s p s' _ _ h hc hent hp hw
    (Or.inl ⟨rfl, by decide⟩)
  exact ⟨h1, h2, h3, h4 rfl hni⟩

/-- The loop of `sema_down` on the semaphore stored at `r`, with the
semaphore written back. -/
theorem sema_down_loop_linkage (old_level : intr_level) (r : sema_ptr) (s s1 : KState)
    (sema' : semaphore) (st : call_status) (h : linkage_invariant s)
    (hni : some s.current ≠ s.idle_thread)
    (hd : sema_down_loop old_level (sema_at s r) s = some (st, sema', s1)) :
    linkage_invariant (store_sema s1 r sema') ∧
    (store_sema s1 r sema').idle_thread = s.idle_thread ∧
    (∀ t, linked (store_sema s1 r sema') t → linked s t ∨ t = s.current) ∧
    (st = completed → (store_sema s1 r sema').current = s.current ∧
      (store_sema s1 r sema').threads = s.threads ∧
      (store_sema s1 r sema').ready_list = s.ready_list ∧
      ∀ t, linked (store_sema s1 r sema') t → linked s t) := by
  unfold sema_down_loop at hd
  by_cases hz : (sema_at s r).value = 0
  · rw [if_pos hz] at hd
    cases hc : thread_current s with
    | none => simp [hc] at hd
    | some c =>
      cases hb : thread_block s with
      | none => simp [hc, hb] at hd
      | some sb =>
        have hcc := thread_current_eq s c hc
        subst hcc
        simp only [hc, hb, Option.some.injEq, Prod.mk.injEq] at hd
        obtain ⟨e1, e2, e3⟩ := hd
        subst e1 e3
        obtain ⟨b1, b2, b3, b4, b5, b6⟩ := thread_block_linkage s sb h hni hb
        have hf := thread_block_frame s sb hb
        have hwsb : ∀ r', sema_at sb r' = sema_at s r' := fun r' =>
          sema_at_congr s sb (by rw [hf]) (by rw [hf]) r'
        have hsw : sema'.waiters = (sema_at s r).waiters ++ [s.current] := by rw [← e2]
        have hinv : linkage_invariant (store_sema sb r sema') := by
          refine linkage_enqueue_wait sb _ s.current r b1 b4 b5 b6 (by rw [b2]; exact hni)
            (fun u => by rw [store_sema_threads]) (fun u => by rw [store_sema_threads])
            (store_sema_ready_list _ _ _) (store_sema_sleep_list _ _ _) ?_ ?_
            (store_sema_idle_thread _ _ _)
          · rw [sema_at_store_same, hwsb, hsw]
          · intro r' hr'
            rw [sema_at_store_ne _ _ _ _ hr']
        refine ⟨hinv, by rw [store_sema_idle_thread]; exact b2, ?_,
          fun hx => absurd hx (by decide)⟩
        rintro t (h1 | h1 | ⟨r', h1⟩)
        · rw [store_sema_ready_list] at h1
          exact b3 t (Or.inl h1)
        · rw [store_sema_sleep_list] at h1
          exact b3 t (Or.inr (Or.inl h1))
        · by_cases hr' : r' = r
          · subst hr'
            rw [sema_at_store_same, hsw] at h1
            simp only [List.mem_append, List.mem_singleton] at h1
            rcases h1 with h1 | h1
            · exact Or.inl (Or.inr (Or.inr ⟨r', h1⟩))
            · exact Or.inr h1
          · rw [sema_at_store_ne _ _ _ _ hr', hwsb] at h1
            exact Or.inl (Or.inr (Or.inr ⟨r', h1⟩))
  · rw [if_neg hz] at hd
    simp only [Option.some.injEq, Prod.mk.injEq] at hd
    obtain ⟨e1, e2, e3⟩ := hd
    subst e1 e3
    have hsw : sema'.waiters = (sema_at s r).waiters := by rw [← e2]
    have hw : ∀ r', (sema_at (store_sema (intr_set_level old_level s) r sema') r').waiters
        = (sema_at s r').waiters := by
      intro r'
      by_cases hr' : r' = r
      · subst hr'
        rw [sema_at_store_same, hsw]
      · rw [sema_at_store_ne _ _ _ _ hr']
        rfl
    have hmono : ∀ t, linked (store_sema (intr_set_level old_level s) r sema') t →
        linked s t := by
      rintro t (h1 | h1 | ⟨r', h1⟩)
      · rw [store_sema_ready_list] at h1
        exact Or.inl h1
      · rw [store_sema_sleep_list] at h1
        exact Or.inr (Or.inl h1)
      · rw [hw] at h1
        exact Or.inr (Or.inr ⟨r', h1⟩)
    exact ⟨linkage_congr s _ h (fun u => by rw [store_sema_threads]; rfl)
      (fun u => by rw [store_sema_threads]; rfl)
      (by rw [store_sema_ready_list]; rfl) (by rw [store_sema_sleep_list]; rfl) hw
      (by rw [store_sema_idle_thread]; rfl), by rw [store_sema_idle_thread]; rfl,
      fun t ht => Or.inl (hmono t ht),
      fun _ => ⟨by rw [store_sema_current]; rfl, by rw [store_sema_threads]; rfl,
        by rw [store_sema_ready_list]; rfl, hmono⟩⟩

theorem sema_up_at_linkage (r : sema_ptr) (s s' : KState) (h : linkage_invariant s)
    (hu : sema_up_at r s = some s') : linkage_invariant s' := by
  obtain ⟨_, hother, hsl, hidle, _, _, _, _, hcase⟩ := sema_up_at_unfold r s s' hu
  rcases hcase with ⟨h1, h2, h3, h4⟩ | ⟨w, hperm, hlive, hblk, hth, hr⟩
  · refine linkage_congr s s' h (fun u => by rw [h3]) (fun u => by rw [h3]) h4 hsl ?_ hidle
    intro r'
    by_cases hr' : r' = r
    · subst hr'
      rw [h1, h2]
    · rw [hother r' hr']
  · have hwmem : w ∈ (sema_at s r).waiters := hperm.subset (List.mem_cons_self _ _)
    have hnd : (w :: (sema_at s' r).waiters).Nodup := hperm.nodup_iff.mpr (h.wait_nodup r)
    refine linkage_ready s s' w h hlive hblk hth hr ?_ (by rw [hsl]; exact h.sleep_nodup) ?_ ?_
      hidle
    · intro u hmem
      rw [hsl] at hmem
      refine ⟨hmem, fun hx => ?_⟩
      exact h.sleep_wait u hmem r (hx ▸ hwmem)
    · intro r' u hmem
      by_cases hr' : r' = r
      · subst hr'
        refine ⟨hperm.subset (List.mem_cons_of_mem _ hmem), fun hx => ?_⟩
        exact (List.nodup_cons.mp hnd).1 (hx ▸ hmem)
      · rw [hother r' hr'] at hmem
        refine ⟨hmem, fun hx => ?_⟩
        exact hr' (h.wait_wait r' r u hmem (hx ▸ hwmem))
    · intro r'
      by_cases hr' : r' = r
      · subst hr'
        exact (List.nodup_cons.mp hnd).2
      · rw [hother r' hr']
        exact h.wait_nodup r'

theorem schedule_sleep_list (p : KState) (l : List thread_ptr) :
    schedule { p with sleep_list := l }
      = (schedule p).map (fun x => { x with sleep_list := l }) := by
  cases p with
  | mk threads locks ready sleep destr idle initial current tick ticks level ctx yr yo it kt sm nt =>
    unfold schedule next_thread_to_run
    cases ready with
    | nil =>
      cases idle with
      | none => rfl
      | some n =>
        simp only [set_thread]
        split_ifs <;> rfl
    | cons r rest =>
      simp only [set_thread]
      split_ifs <;> rfl

theorem thread_block_sleep_list (m : KState) (l : List thread_ptr) :
    thread_block { m with sleep_list := l }
      = (thread_block m).map (fun x => { x with sleep_list := l }) := by
  cases m with
  | mk threads locks ready sleep destr idle initial current tick ticks level ctx yr yo it kt sm nt =>
    simp only [thread_block, thread_current]
    split_ifs
    · rfl
    · rfl
    · exact schedule_sleep_list (set_thread
        { threads := threads, locks := locks, ready_list := ready, sleep_list := sleep,
          destruction_req := destr, idle_thread := idle, initial_thread := initial,
          current := current, next_tick_to_awake := tick, thread_ticks := ticks,
          level := level, in_intr_context := ctx, yield_requested := yr,
          yield_on_return := yo, idle_ticks := it, kernel_ticks := kt, semas := sm,
          next_tid := nt } current { threads current with status := THREAD_BLOCKED }) l
    · rfl

theorem thread_sleep_linkage (tick : Int) (s s' : KState) (h : linkage_invariant s)
    (hs : thread_sleep tick s = some s') :
    linkage_invariant s' ∧ s'.idle_thread = s.idle_thread := by
  unfold thread_sleep at hs
  cases hc : thread_current (intr_disable s) with
  | none => simp [hc] at hs
  | some cur =>
    have hcc := thread_current_eq _ cur hc
    simp only [intr_disable] at hcc
    subst hcc
    simp only [hc] at hs
    by_cases hi : some s.current = (intr_disable s).idle_thread
    · simp [hi] at hs
    · simp only [hi, if_false] at hs
      have hni : some s.current ≠ s.idle_thread := hi
      rw [thread_block_sleep_list] at hs
      cases hb : thread_block (update_next_tick_to_awake tick
          (set_thread (intr_disable s) s.current
            { (intr_disable s).threads s.current with wakeup_tick := tick })) with
      | none => simp [hb] at hs
      | some s0 =>
        simp only [hb, Option.map_some', Option.some.injEq] at hs
        have hm : linkage_invariant (update_next_tick_to_awake tick
            (set_thread (intr_disable s) s.current
              { (intr_disable s).threads s.current with wakeup_tick := tick })) := by
          refine linkage_congr s _ h ?_ ?_ rfl rfl (fun r => ?_) rfl
          · intro u
            by_cases hu : u = s.current
            · subst hu
              simp [update_next_tick_to_awake, set_thread, upd, intr_disable, is_thread]
            · simp [update_next_tick_to_awake, set_thread, upd, intr_disable, hu]
          · intro u
            by_cases hu : u = s.current
            · subst hu
              simp [update_next_tick_to_awake, set_thread, upd, intr_disable]
            · simp [update_next_tick_to_awake, set_thread, upd, intr_disable, hu]
          · cases r <;> rfl
        obtain ⟨b1, b2, _, b4, b5, b6⟩ := thread_block_linkage _ s0 hm hni hb
        have hf := thread_block_frame _ s0 hb
        have hsl0 : s0.sleep_list = s.sleep_list := by rw [hf]; rfl
        subst hs
        refine ⟨linkage_enqueue_sleep s0 _ s.current b1 b4 b5 b6 (by rw [b2]; exact hni)
          (fun u => rfl) (fun u => rfl) rfl ?_ (fun r => ?_) rfl, b2⟩
        · simp only [hsl0]
          rfl
        · cases r <;> rfl

theorem thread_awake_loop_linkage (now : Int) (l : List thread_ptr) :
    ∀ (s s' : KState), linkage_invariant s → (∀ t ∈ l, t ∈ s.sleep_list) → l.Nodup →
      thread_awake_loop now l s = some s' → linkage_invariant s' := by
  induction l with
  | nil =>
    intro s s' h _ _ ha
    simp only [thread_awake_loop, Option.some.injEq] at ha
    subst ha
    exact h
  | cons a rest ih =>
    intro s s' h hsub hnd ha
    simp only [thread_awake_loop] at ha
    have hmem : a ∈ s.sleep_list := hsub a (List.mem_cons_self _ _)
    obtain ⟨hnotin, hndr⟩ := List.nodup_cons.mp hnd
    by_cases hdue : now ≥ (s.threads a).wakeup_tick
    · rw [if_pos hdue] at ha
      cases hu : thread_unblock a { s with sleep_list := s.sleep_list.erase a } with
      | none => simp [hu] at ha
      | some s1 =>
        simp only [hu] at ha
        have hf := thread_unblock_frame _ _ _ hu
        obtain ⟨hlt, hbt⟩ := h.sleep_ok a hmem
        have hsl1 : s1.sleep_list = s.sleep_list.erase a := by rw [hf]
        have hw1 : ∀ r, sema_at s1 r = sema_at s r := fun r =>
          sema_at_congr s s1 (by rw [hf]) (by rw [hf]) r
        have h1 : linkage_invariant s1 := by
          refine linkage_ready s s1 a h hlt hbt (by rw [hf]) (by rw [hf]) ?_ ?_ ?_ ?_
            (by rw [hf])
          · intro u hu'
            rw [hsl1] at hu'
            have := (h.sleep_nodup.mem_erase_iff).mp hu'
            exact ⟨this.2, this.1⟩
          · rw [hsl1]; exact h.sleep_nodup.erase a
          · intro r u hu'
            rw [hw1] at hu'
            refine ⟨hu', fun hx => ?_⟩
            exact h.sleep_wait a hmem r (hx ▸ hu')
          · intro r; rw [hw1]; exact h.wait_nodup r
        refine ih s1 s' h1 ?_ hndr ha
        intro u hu'
        rw [hsl1]
        refine (h.sleep_nodup.mem_erase_iff).mpr ⟨?_, hsub u (List.mem_cons_of_mem _ hu')⟩
        intro hx
        exact hnotin (hx ▸ hu')
    · rw [if_neg hdue] at ha
      refine ih _ s' ?_ ?_ hndr ha
      · exact linkage_congr s _ h (fun u => rfl) (fun u => rfl) rfl rfl
          (fun r => by cases r <;> rfl) rfl
      · intro u hu'
        exact hsub u (List.mem_cons_of_mem _ hu')

theorem thread_awake_linkage (now : Int) (s s' : KState) (h : linkage_invariant s)
    (ha : thread_awake now s = some s') : linkage_invariant s' := by
  unfold thread_awake at ha
  refine thread_awake_loop_linkage now s.sleep_list
    { s with next_tick_to_awake := INT64_MAX } s' ?_ (fun t ht => ht) h.sleep_nodup ha
  exact linkage_congr s _ h (fun u => rfl) (fun u => rfl) rfl rfl
    (fun r => by cases r <;> rfl) rfl

/-- The part of `lock_acquire` from the loop of `sema_down` onwards. -/
theorem after_down_linkage (l : lock_ptr) (cur : thread_ptr) (old_level : intr_level)
    (s0 s' : KState) (st : call_status) (h : linkage_invariant s0)
    (hni : some s0.current ≠ s0.idle_thread)
    (hd : (sema_down_loop old_level (s0.locks l).semaphore s0).map
      (lock_acquire_after_down l cur) = some (st, s')) :
    linkage_invariant s' ∧ s'.idle_thread = s0.idle_thread ∧
    (∀ t, linked s' t → linked s0 t ∨ t = s0.current) ∧
    (st = completed → ∀ t, linked s' t → linked s0 t) := by
  cases hl : sema_down_loop old_level (s0.locks l).semaphore s0 with
  | none => simp [hl] at hd
  | some x =>
    obtain ⟨st1, sema', s1⟩ := x
    have hl' : sema_down_loop old_level (sema_at s0 (sema_ptr.in_lock l)) s0
        = some (st1, sema', s1) := hl
    obtain ⟨a1, a2, a3, a4⟩ := sema_down_loop_linkage old_level _ s0 s1 sema' st1 h hni hl'
    rw [hl] at hd
    cases st1 with
    | suspended =>
      simp only [Option.map_some', lock_acquire_after_down, Option.some.injEq,
        Prod.mk.injEq] at hd
      obtain ⟨e1, e2⟩ := hd
      subst e1 e2
      exact ⟨a1, a2, a3, fun hx => absurd hx (by decide)⟩
    | completed =>
      simp only [Option.map_some', lock_acquire_after_down, Option.some.injEq,
        Prod.mk.injEq] at hd
      obtain ⟨e1, e2⟩ := hd
      subst e1 e2
      have hw : ∀ r, (sema_at (lock_acquire_finish l cur
          (set_lock s1 l { s1.locks l with semaphore := sema' })) r).waiters
          = (sema_at (store_sema s1 (sema_ptr.in_lock l) sema') r).waiters := by
        intro r
        cases r with
        | standalone p => rfl
        | in_lock k =>
          by_cases hk : k = l
          · subst hk
            simp [sema_at, store_sema, lock_acquire_finish, set_lock, set_thread, upd]
          · simp [sema_at, store_sema, lock_acquire_finish, set_lock, set_thread, upd, hk]
      have hlive : ∀ u, is_thread ((lock_acquire_finish l cur
          (set_lock s1 l { s1.locks l with semaphore := sema' })).threads u)
          = is_thread ((store_sema s1 (sema_ptr.in_lock l) sema').threads u) := by
        intro u
        by_cases hu : u = cur
        · subst hu
          simp [store_sema, lock_acquire_finish, set_lock, set_thread, upd, is_thread]
        · simp [store_sema, lock_acquire_finish, set_lock, set_thread, upd, hu]
      have hstat : ∀ u, ((lock_acquire_finish l cur
          (set_lock s1 l { s1.locks l with semaphore := sema' })).threads u).status
          = ((store_sema s1 (sema_ptr.in_lock l) sema').threads u).status := by
        intro u
        by_cases hu : u = cur
        · subst hu
          simp [store_sema, lock_acquire_finish, set_lock, set_thread, upd]
        · simp [store_sema, lock_acquire_finish, set_lock, set_thread, upd, hu]
      have hmono : ∀ t, linked (lock_acquire_finish l cur
          (set_lock s1 l { s1.locks l with semaphore := sema' })) t →
          linked (store_sema s1 (sema_ptr.in_lock l) sema') t := by
        rintro t (h1 | h1 | ⟨r, h1⟩)
        · exact Or.inl h1
        · exact Or.inr (Or.inl h1)
        · rw [hw] at h1
          exact Or.inr (Or.inr ⟨r, h1⟩)
      exact ⟨linkage_congr _ _ a1 hlive hstat rfl rfl hw rfl, a2,
        fun t ht => a3 t (hmono t ht), fun _ t ht => (a4 rfl).2.2.2 t (hmono t ht)⟩

theorem lock_acquire_linkage (l : lock_ptr) (s s' : KState) (st : call_status)
    (h : linkage_invariant s) (hni : some s.current ≠ s.idle_thread)
    (ha : lock_acquire l s = some (st, s')) :
    linkage_invariant s' ∧ s'.idle_thread = s.idle_thread ∧
    (∀ t, linked s' t → linked s t ∨ t = s.current) ∧
    (st = completed → ∀ t, linked s' t → linked s t) := by
  obtain ⟨_, _, _, s3, hdown, _, _, hframe, hkeep⟩ := lock_acquire_unfold l s s' st ha
  have h3 : linkage_invariant (intr_disable s3) := by
    refine linkage_congr s _ h ?_ (fun u => (hkeep u).1) (by rw [hframe]; rfl)
      (by rw [hframe]; rfl) (fun r => ?_) (by rw [hframe]; rfl)
    · intro u
      simp only [intr_disable, is_thread, (hkeep u).2]
    · rw [sema_at_congr s (intr_disable s3) (by rw [hframe]; rfl) (by rw [hframe]; rfl) r]
  have hcur : (intr_disable s3).current = s.current := by rw [hframe]; rfl
  have hidle : (intr_disable s3).idle_thread = s.idle_thread := by rw [hframe]; rfl
  have hdown' : (sema_down_loop s3.level ((intr_disable s3).locks l).semaphore
      (intr_disable s3)).map (lock_acquire_after_down l s.current) = some (st, s') := hdown
  obtain ⟨a1, a2, a3, a4⟩ := after_down_linkage l s.current _ _ s' st h3
    (by rw [hcur, hidle]; exact hni) hdown'
  have hmono : ∀ t, linked (intr_disable s3) t → linked s t := by
    rintro t (h1 | h1 | ⟨r, h1⟩)
    · exact Or.inl (by rw [hframe] at h1; exact h1)
    · exact Or.inr (Or.inl (by rw [hframe] at h1; exact h1))
    · rw [sema_at_congr s (intr_disable s3) (by rw [hframe]; rfl) (by rw [hframe]; rfl) r] at h1
      exact Or.inr (Or.inr ⟨r, h1⟩)
  refine ⟨a1, by rw [a2, hidle], ?_, ?_⟩
  · intro t ht
    rcases a3 t ht with h1 | h1
    · exact Or.inl (hmono t h1)
    · exact Or.inr (by rw [h1, hcur])
  · intro hst t ht
    exact hmono t (a4 hst t ht)

theorem lock_release_linkage (l : lock_ptr) (s s' : KState) (h : linkage_invariant s)
    (hr : lock_release l s = some s') :
    linkage_invariant s' ∧ s'.idle_thread = s.idle_thread ∧
    ∀ t, linked s' t → linked s t := by
  obtain ⟨_, _, P, D, sema', s4, hup, hs'⟩ := lock_release_unfold l s s' hr
  have hlk := (sema_up_value _ _ _ _ hup).2
  have hm : linkage_invariant (set_lock (set_thread s s.current
      { s.threads s.current with priority := P, donators_list := D }) l
      { s.locks l with holder := none }) := by
    refine linkage_congr s _ h ?_ ?_ rfl rfl ?_ rfl
    · intro u
      by_cases hu : u = s.current
      · subst hu
        simp [set_lock, set_thread, upd, is_thread]
      · simp [set_lock, set_thread, upd, hu]
    · intro u
      by_cases hu : u = s.current
      · subst hu
        simp [set_lock, set_thread, upd]
      · simp [set_lock, set_thread, upd, hu]
    · intro r
      cases r with
      | standalone p => rfl
      | in_lock k =>
        by_cases hk : k = l
        · subst hk
          simp [sema_at, set_lock, set_thread, upd]
        · simp [sema_at, set_lock, set_thread, upd, hk]
  have hat : sema_up_at (sema_ptr.in_lock l) (set_lock (set_thread s s.current
      { s.threads s.current with priority := P, donators_list := D }) l
      { s.locks l with holder := none }) = some s' := by
    have hsem : sema_at (set_lock (set_thread s s.current
        { s.threads s.current with priority := P, donators_list := D }) l
        { s.locks l with holder := none }) (sema_ptr.in_lock l) = (s.locks l).semaphore := by
      simp [sema_at, set_lock, upd]
    unfold sema_up_at
    rw [hsem, hup, hs']
    simp [store_sema, set_lock, hlk, upd]
  have hinv := sema_up_at_linkage _ _ s' hm hat
  obtain ⟨hi, hmono⟩ := sema_up_at_linked _ _ s' hat
  refine ⟨hinv, hi, ?_⟩
  intro t ht
  rcases hmono t ht with h1 | h1 | ⟨r, h1⟩
  · exact Or.inl h1
  · exact Or.inr (Or.inl h1)
  · refine Or.inr (Or.inr ⟨r, ?_⟩)
    cases r with
    | standalone p => exact h1
    | in_lock k =>
      by_cases hk : k = l
      · subst hk
        simpa [sema_at, set_lock, set_thread, upd] using h1
      · simpa [sema_at, set_lock, set_thread, upd, hk] using h1

/-- The end of `thread_create` once `lock_acquire` on `tid_lock` has
returned, for a new thread `t` that is on no list. -/
theorem thread_create_tail_linkage (t : thread_ptr) (s2 s' : KState) (ret : Option Int)
    (h : linkage_invariant s2) (hun : ¬ linked s2 t)
    (hret : (allocate_tid_after_acquire (completed, s2)).bind (thread_create_finish t)
      = some (ret, s')) : linkage_invariant s' := by
  simp only [allocate_tid_after_acquire] at hret
  cases ha : allocate_tid_locked s2 with
  | none => simp [ha] at hret
  | some x =>
    obtain ⟨tid, s5⟩ := x
    simp only [ha, Option.map_some', Option.some_bind, thread_create_finish] at hret
    cases hu : thread_unblock t (set_thread s5 t { s5.threads t with tid := tid }) with
    | none => simp [hu] at hret
    | some s7 =>
      simp only [hu, Option.some.injEq, Prod.mk.injEq] at hret
      obtain ⟨_, e2⟩ := hret
      subst e2
      obtain ⟨_, _, _, hrel⟩ := allocate_tid_locked_spec s2 s5 tid ha
      have h2 : linkage_invariant { s2 with next_tid := s2.next_tid + 1 } :=
        linkage_congr s2 _ h (fun u => rfl) (fun u => rfl) rfl rfl
          (fun r => by cases r <;> rfl) rfl
      obtain ⟨h5, _, hmono⟩ := lock_release_linkage _ _ s5 h2 hrel
      have hun5 : ¬ linked s5 t := by
        intro hl
        rcases hmono t hl with h1 | h1 | ⟨r, h1⟩
        · exact hun (Or.inl h1)
        · exact hun (Or.inr (Or.inl h1))
        · refine hun (Or.inr (Or.inr ⟨r, ?_⟩))
          cases r <;> exact h1
      have hw6 : ∀ r, sema_at (set_thread s5 t { s5.threads t with tid := tid }) r
          = sema_at s5 r := fun r => by cases r <;> rfl
      have h6 : linkage_invariant (set_thread s5 t { s5.threads t with tid := tid }) := by
        refine linkage_congr s5 _ h5 ?_ ?_ rfl rfl (fun r => by rw [hw6]) rfl
        · intro u
          by_cases hut : u = t
          · subst hut
            simp [set_thread, upd, is_thread]
          · simp [set_thread, upd, hut]
        · intro u
          by_cases hut : u = t
          · subst hut
            simp [set_thread, upd]
          · simp [set_thread, upd, hut]
      have hun6 : ¬ linked (set_thread s5 t { s5.threads t with tid := tid }) t := by
        rintro (h1 | h1 | ⟨r, h1⟩)
        · exact hun5 (Or.inl h1)
        · exact hun5 (Or.inr (Or.inl h1))
        · rw [hw6] at h1
          exact hun5 (Or.inr (Or.inr ⟨r, h1⟩))
      obtain ⟨hlt, hbt⟩ := thread_unblock_some _ _ _ hu
      have hf := thread_unblock_frame _ _ _ hu
      have hw7 : ∀ r, sema_at s7 r
          = sema_at (set_thread s5 t { s5.threads t with tid := tid }) r := fun r =>
        sema_at_congr _ s7 (by rw [hf]) (by rw [hf]) r
      refine linkage_ready _ s7 t h6 hlt hbt (by rw [hf]) (by rw [hf]) ?_ ?_ ?_ ?_ (by rw [hf])
      · intro u hmem
        have hmem' : u ∈ (set_thread s5 t { s5.threads t with tid := tid }).sleep_list := by
          rw [hf] at hmem; exact hmem
        exact ⟨hmem', fun hx => hun6 (Or.inr (Or.inl (hx ▸ hmem')))⟩
      · rw [hf]; exact h6.sleep_nodup
      · intro r u hmem
        rw [hw7] at hmem
        exact ⟨hmem, fun hx => hun6 (Or.inr (Or.inr ⟨r, hx ▸ hmem⟩))⟩
      · intro r; rw [hw7]; exact h6.wait_nodup r

theorem thread_create_linkage (priority : Int) (page : Option thread_ptr) (s s' : KState)
    (ret : Option Int) (h : linkage_invariant s) (hni : some s.current ≠ s.idle_thread)
    (hfresh : ∀ t, page = some t → is_thread (s.threads t) = false)
    (hc : thread_create priority page s = some (ret, s')) : linkage_invariant s' := by
  cases page with
  | none =>
    simp only [thread_create, Option.some.injEq, Prod.mk.injEq] at hc
    rw [← hc.2]; exact h
  | some t =>
    simp only [thread_create, init_thread] at hc
    by_cases hpri : PRI_MIN ≤ priority ∧ priority ≤ PRI_MAX
    · simp only [hpri, and_self, if_true, allocate_tid] at hc
      obtain ⟨h1, hun1⟩ := linkage_fresh s (set_thread s t
          { thread_zero with status := THREAD_BLOCKED, priority := priority,
                             magic := THREAD_MAGIC }) t _ h (hfresh t rfl) rfl rfl rfl rfl
          (fun r => by cases r <;> rfl) rfl
      cases hacq : lock_acquire tid_lock (set_thread s t
          { thread_zero with status := THREAD_BLOCKED, priority := priority,
                             magic := THREAD_MAGIC }) with
      | none => simp [hacq] at hc
      | some x =>
        obtain ⟨st, s2⟩ := x
        simp only [hacq, Option.some_bind] at hc
        obtain ⟨a1, _, _, a4⟩ := lock_acquire_linkage _ _ s2 st h1 hni hacq
        cases st with
        | suspended =>
          simp only [allocate_tid_after_acquire, Option.some_bind, thread_create_finish,
            Option.some.injEq, Prod.mk.injEq] at hc
          rw [← hc.2]; exact a1
        | completed =>
          exact thread_create_tail_linkage t s2 s' ret a1
            (fun hl => hun1 (a4 rfl t hl)) hc
    · simp [hpri] at hc

theorem thread_create_resume_linkage (old_level : intr_level) (t : thread_ptr)
    (s s' : KState) (ret : Option Int) (h : linkage_invariant s)
    (hni : some s.current ≠ s.idle_thread) (hun : ¬ linked s t)
    (hc : thread_create_resume old_level t s = some (ret, s')) : linkage_invariant s' := by
  simp only [thread_create_resume, allocate_tid_resume] at hc
  cases hacq : lock_acquire_resume old_level tid_lock s with
  | none => simp [hacq] at hc
  | some x =>
    obtain ⟨st, s2⟩ := x
    simp only [hacq, Option.some_bind] at hc
    unfold lock_acquire_resume at hacq
    obtain ⟨a1, _, _, a4⟩ := after_down_linkage _ _ _ s s2 st h hni hacq
    cases st with
    | suspended =>
      simp only [allocate_tid_after_acquire, Option.some_bind, thread_create_finish,
        Option.some.injEq, Prod.mk.injEq] at hc
      rw [← hc.2]; exact a1
    | completed =>
      exact thread_create_tail_linkage t s2 s' ret a1 (fun hl => hun (a4 rfl t hl)) hc

theorem sema_down_at_linkage (r : sema_ptr) (s s' : KState) (st : call_status)
    (h : linkage_invariant s) (hni : some s.current ≠ s.idle_thread)
    (hd : sema_down_at r s = some (st, s')) : linkage_invariant s' := by
  unfold sema_down_at sema_down at hd
  by_cases hctx : s.in_intr_context = true
  · simp [hctx] at hd
  · rw [if_neg hctx] at hd
    cases hl : sema_down_loop s.level (sema_at s r) (intr_disable s) with
    | none => simp [hl] at hd
    | some x =>
      obtain ⟨st1, sema', s1⟩ := x
      simp only [hl, Option.map_some', Option.some.injEq, Prod.mk.injEq] at hd
      obtain ⟨_, e2⟩ := hd
      subst e2
      have h0 : linkage_invariant (intr_disable s) :=
        linkage_congr s _ h (fun u => rfl) (fun u => rfl) rfl rfl
          (fun r => by cases r <;> rfl) rfl
      have hl' : sema_down_loop s.level (sema_at (intr_disable s) r) (intr_disable s)
          = some (st1, sema', s1) := by
        have : sema_at (intr_disable s) r = sema_at s r := by cases r <;> rfl
        rw [this]; exact hl
      exact (sema_down_loop_linkage _ r _ s1 sema' st1 h0 hni hl').1

theorem sema_down_resume_at_linkage (old_level : intr_level) (r : sema_ptr) (s s' : KState)
    (st : call_status) (h : linkage_invariant s) (hni : some s.current ≠ s.idle_thread)
    (hd : sema_down_resume_at old_level r s = some (st, s')) : linkage_invariant s' := by
  unfold sema_down_resume_at at hd
  cases hl : sema_down_loop old_level (sema_at s r) s with
  | none => simp [hl] at hd
  | some x =>
    obtain ⟨st1, sema', s1⟩ := x
    simp only [hl, Option.map_some', Option.some.injEq, Prod.mk.injEq] at hd
    obtain ⟨_, e2⟩ := hd
    subst e2
    exact (sema_down_loop_linkage _ r _ s1 sema' st1 h hni hl).1

/-- The scheduling linkage holds in every reachable state. -/
theorem linkage_reachable_inv (s : KState) (h : linkage_reachable s) :
    linkage_invariant s := by
  induction h with
  | init s h1 h2 h3 h4 =>
    constructor
    · intro t ht; rw [h1] at ht; simp at ht
    · intro t a b _; exact absurd b (h4 t a)
    · intro t ht; rw [h2] at ht; simp at ht
    · intro r t ht; rw [h3] at ht; simp at ht
    · rw [h1]; exact List.nodup_nil
    · rw [h2]; exact List.nodup_nil
    · intro r; rw [h3]; exact List.nodup_nil
    · intro t ht; rw [h2] at ht; simp at ht
    · intro r r' t ht; rw [h3] at ht; simp at ht
    · intro i _
      rw [h2]
      exact ⟨by simp, fun r => by rw [h3]; simp⟩
  | create s s' priority page ret _ hni hfresh hc ih =>
    exact thread_create_linkage priority page s s' ret ih hni hfresh hc
  | create_resume s s' old_level t ret _ hni hun hc ih =>
    exact thread_create_resume_linkage old_level t s s' ret ih hni hun hc
  | yield s s' _ hy ih => exact (thread_yield_linkage s s' ih hy).1
  | down s s' r st _ hni hd ih => exact sema_down_at_linkage r s s' st ih hni hd
  | down_resume s s' old_level r st _ hni hd ih =>
    exact sema_down_resume_at_linkage old_level r s s' st ih hni hd
  | up s s' r _ hu ih => exact sema_up_at_linkage r s s' ih hu
  | sleep s s' tick _ hs ih => exact (thread_sleep_linkage tick s s' ih hs).1
  | awake s s' now _ ha ih => exact thread_awake_linkage now s s' ih ha
  | exit s s' _ he ih => exact (thread_exit_linkage s s' ih he).1

/-! ## Claim C28: the scheduling linkage -/

/-- C28 (amended claim): in every state reachable through `thread_create`,
`thread_yield`, `sema_down`, `sema_up`, `thread_sleep`, `thread_awake` and
`thread_exit`, each thread occurs at most once in the union of the ready list,
the wait lists of all semaphores and the sleep list (no list holds a thread
twice and no two of the lists share a thread); every thread in the ready list
is READY and every READY thread other than the idle thread is in the ready
list; every thread in a wait list or in the sleep list is BLOCKED. -/
theorem scheduling_linkage_exclusive (s : KState) (h : linkage_reachable s) :
    (s.ready_list.Nodup ∧ s.sleep_list.Nodup ∧ (∀ r, (sema_at s r).waiters.Nodup) ∧
      (∀ t ∈ s.ready_list, t ∉ s.sleep_list ∧ ∀ r, t ∉ (sema_at s r).waiters) ∧
      (∀ t ∈ s.sleep_list, ∀ r, t ∉ (sema_at s r).waiters) ∧
      (∀ r r' t, t ∈ (sema_at s r).waiters → t ∈ (sema_at s r').waiters → r = r')) ∧
    ((∀ t ∈ s.ready_list,
        is_thread (s.threads t) = true ∧ (s.threads t).status = THREAD_READY) ∧
      (∀ t, is_thread (s.threads t) = true → (s.threads t).status = THREAD_READY →
        some t ≠ s.idle_thread → t ∈ s.ready_list)) ∧
    ((∀ t ∈ s.sleep_list,
        is_thread (s.threads t) = true ∧ (s.threads t).status = THREAD_BLOCKED) ∧
      (∀ r, ∀ t ∈ (sema_at s r).waiters,
        is_thread (s.threads t) = true ∧ (s.threads t).status = THREAD_BLOCKED)) := by
  have hi := linkage_reachable_inv s h
  refine ⟨⟨hi.ready_nodup, hi.sleep_nodup, hi.wait_nodup, ?_, hi.sleep_wait, hi.wait_wait⟩,
    ⟨hi.ready_ok, hi.ready_all⟩, ⟨hi.sleep_ok, hi.wait_ok⟩⟩
  intro t ht
  have hr := (hi.ready_ok t ht).2
  refine ⟨fun hx => ?_, fun r hx => ?_⟩
  · have := (hi.sleep_ok t hx).2
    rw [hr] at this
    exact absurd this (by decide)
  · have := (hi.wait_ok r t hx).2
    rw [hr] at this
    exact absurd this (by decide)

theorem idle_parked_linkage : linkage_reachable idle_parked := by
  refine linkage_reachable.init idle_parked rfl rfl (fun r => by cases r <;> rfl) ?_
  intro t ht hst
  by_cases h1 : t = 1
  · subst h1
    exact absurd hst (by decide)
  · by_cases h2 : t = 2
    · subst h2
      exact absurd hst (by decide)
    · simp [idle_parked, h1, h2, thread_zero, is_thread, THREAD_MAGIC] at ht

theorem idle_yielded_linkage : linkage_reachable idle_yielded :=
  linkage_reachable.yield sleeper_woken _
    (linkage_reachable.awake idle_runs _ 5
      (linkage_reachable.sleep idle_parked _ 5 idle_parked_linkage rfl) rfl) rfl

theorem linkage_example_reachable : linkage_reachable linkage_example :=
  linkage_reachable.sleep linkage_blocked _ 9
    (linkage_reachable.down linkage_created _ (sema_ptr.standalone 0) suspended
      (linkage_reachable.create idle_parked _ 20 (some 5) (some 1) idle_parked_linkage
        (by decide)
        (by
          intro t ht
          simp only [Option.some.injEq] at ht
          subst ht
          rfl)
        rfl)
      (by decide) rfl)
    rfl

/-- Witness for C28: thread 1 creates thread 5 and blocks on the semaphore at
address 0; thread 5 sleeps until tick 9 and the idle thread 2 runs.  Thread 1
is in the wait list of the semaphore, thread 5 in the sleep list, the ready
list is empty, and both threads are BLOCKED. -/
theorem scheduling_linkage_exclusive_witness :
    linkage_reachable linkage_example ∧
    linkage_example.current = 2 ∧ linkage_example.ready_list = [] ∧
    linkage_example.sleep_list = [5] ∧
    (sema_at linkage_example (sema_ptr.standalone 0)).waiters = [1] ∧
    (linkage_example.threads 1).status = THREAD_BLOCKED ∧
    (linkage_example.threads 5).status = THREAD_BLOCKED ∧
    ((∀ t ∈ linkage_example.sleep_list,
        is_thread (linkage_example.threads t) = true ∧
        (linkage_example.threads t).status = THREAD_BLOCKED) ∧
      (∀ r, ∀ t ∈ (sema_at linkage_example r).waiters,
        is_thread (linkage_example.threads t) = true ∧
        (linkage_example.threads t).status = THREAD_BLOCKED)) :=
  ⟨linkage_example_reachable, rfl, rfl, rfl, rfl, rfl, rfl,
    (scheduling_linkage_exclusive linkage_example linkage_example_reachable).2.2⟩

/-- C28 (counterexample to the claim as stated): from `idle_parked`, thread 1
sleeps until tick 5, the timer interrupt at tick 5 wakes it while the idle
thread 2 runs, and the idle thread yields.  In the state reached the idle
thread is a live thread in state READY, but the ready list is empty: the ready
list does not hold every READY thread. -/
theorem idle_thread_ready_not_queued :
    linkage_reachable idle_yielded ∧ idle_yielded.idle_thread = some 2 ∧
    idle_yielded.current = 1 ∧
    is_thread (idle_yielded.threads 2) = true ∧
    (idle_yielded.threads 2).status = THREAD_READY ∧
    idle_yielded.ready_list = [] ∧ 2 ∉ idle_yielded.ready_list :=
  ⟨idle_yielded_linkage, rfl, rfl, rfl, rfl, rfl, by decide⟩

/-! ## Lemmas on the donors lists -/

/-- A step that keeps the locks and the donation fields of every thread keeps
the donors part of the invariant. -/
theorem donation_congr (s s' : KState) (h : donation_invariant s)
    (hl : linkage_invariant s') (hlocks : s'.locks = s.locks)
    (hth : ∀ u, same_donation (s'.threads u) (s.threads u)) : donation_invariant s' := by
  refine ⟨hl, ?_, ?_⟩
  · intro l
    rw [hlocks]
    exact h.counter l
  · intro H t ht
    rw [(hth H).2.2.2] at ht
    obtain ⟨L, h1, h2, h3⟩ := h.donor_ok H t ht
    refine ⟨L, ?_, ?_, ?_⟩
    · rw [(hth t).2.2.1]; exact h1
    · rw [hlocks]; exact h2
    · rw [hlocks]; exact h3

theorem thread_yield_donation (s s' : KState) (h : thread_yield s = some s') :
    ∀ u, same_donation (s'.threads u) (s.threads u) := by
  obtain ⟨_, _, p, hp, hent⟩ := thread_yield_unfold s s' h
  intro u
  have h1 := schedule_donation p s' hp u
  have h2 : same_donation (p.threads u) (s.threads u) := by
    rw [hent.1]
    by_cases hu : u = s.current
    · subst hu
      simp [upd, same_donation]
    · simp [upd, hu, same_donation]
  exact same_donation_trans _ _ _ h1 h2

theorem thread_yield_donation_invariant (s s' : KState) (h : donation_invariant s)
    (hy : thread_yield s = some s') : donation_invariant s' := by
  have hf := thread_yield_frame s s' hy
  refine donation_congr s s' h (thread_yield_linkage s s' h.linkage hy).1 ?_
    (thread_yield_donation s s' hy)
  rw [hf]

theorem intr_set_level_donation_invariant (s : KState) (lv : intr_level)
    (h : donation_invariant s) : donation_invariant (intr_set_level lv s) := by
  refine donation_congr s _ h ?_ rfl (fun u => same_donation_refl _)
  exact linkage_congr s _ h.linkage (fun _ => rfl) (fun _ => rfl) rfl rfl
    (fun r => by cases r <;> rfl) rfl

theorem lock_release_donors (l : lock_ptr) (s s' : KState) (hl : linkage_invariant s)
    (h : lock_release l s = some s') :
    (∀ u, (s'.threads u).lock_to_wait_on = (s.threads u).lock_to_wait_on) ∧
    (∀ u, u ≠ s.current → (s'.threads u).donators_list = (s.threads u).donators_list) ∧
    (∀ t, t ∈ (s'.threads s.current).donators_list →
      t ∈ (s.threads s.current).donators_list ∧ (s.threads t).lock_to_wait_on ≠ some l) := by
  obtain ⟨hc, hh, _⟩ := lock_release_effect l s s' h
  have hcan : can_release l s := ⟨hc, hh, hl.wait_ok (sema_ptr.in_lock l)⟩
  obtain ⟨D, P, s2, h2, hperm, _, _, _, _, hD, _, hoth, hltw⟩ := lock_release_spec l s hcan
  rw [h] at h2
  simp only [Option.some.injEq] at h2
  subst h2
  refine ⟨hltw, fun u hu => (hoth u hu).2.2.2, ?_⟩
  intro t ht
  rw [hD] at ht
  exact (mem_remove_with_lock_loop s l _ t).mp (hperm.mem_iff.mp ht)

theorem lock_release_donation_invariant (l : lock_ptr) (s s' : KState)
    (h : donation_invariant s) (hr : lock_release l s = some s') : donation_invariant s' := by
  obtain ⟨hc, hh, _, _, _, _, _, _, _, hk, _, _, _⟩ := lock_release_effect l s s' hr
  obtain ⟨hltw, hoth, hcur⟩ := lock_release_donors l s s' h.linkage hr
  obtain ⟨_, hnone, hval⟩ := lock_release_lock l s s' hr
  have hkeep : ∀ H t L, (s.threads t).lock_to_wait_on = some L → (s.locks L).holder = some H →
      t ∈ (s.locks L).semaphore.waiters → L ≠ l →
      ∃ L, (s'.threads t).lock_to_wait_on = some L ∧ (s'.locks L).holder = some H ∧
        t ∈ (s'.locks L).semaphore.waiters := by
    intro H t L h1 h2 h3 hne
    refine ⟨L, ?_, ?_, ?_⟩
    · rw [hltw]; exact h1
    · rw [hk L hne]; exact h2
    · rw [hk L hne]; exact h3
  refine ⟨(lock_release_linkage l s s' h.linkage hr).1, ?_, ?_⟩
  · intro k
    by_cases hkl : k = l
    · subst hkl
      have h0 := (h.counter k).2 (by rw [hh]; simp)
      rw [hval, h0, hnone]
      simp [UINT_MODULUS]
    · rw [hk k hkl]
      exact h.counter k
  · intro H t ht
    by_cases hH : H = s.current
    · subst hH
      obtain ⟨hin, hne⟩ := hcur t ht
      obtain ⟨L, h1, h2, h3⟩ := h.donor_ok _ t hin
      refine hkeep _ t L h1 h2 h3 ?_
      intro e
      rw [e] at h1
      exact hne h1
    · rw [hoth H hH] at ht
      obtain ⟨L, h1, h2, h3⟩ := h.donor_ok _ t ht
      refine hkeep _ t L h1 h2 h3 ?_
      intro e
      rw [e, hh] at h2
      simp only [Option.some.injEq] at h2
      exact hH h2.symm

theorem after_down_suspended (l : lock_ptr) (cur : thread_ptr) (old_level : intr_level)
    (sema : semaphore) (s0 s' : KState)
    (h : (sema_down_loop old_level sema s0).map (lock_acquire_after_down l cur)
      = some (suspended, s')) :
    sema.value = 0 ∧ thread_current s0 = some s0.current ∧
    ∃ s1, thread_block s0 = some s1 ∧
      s' = set_lock s1 l
        { s1.locks l with
          semaphore := { sema with waiters := sema.waiters ++ [s0.current] } } := by
  unfold sema_down_loop at h
  by_cases hz : sema.value = 0
  · rw [if_pos hz] at h
    cases hc : thread_current s0 with
    | none => simp [hc] at h
    | some c =>
      have hcc := thread_current_eq s0 c hc
      subst hcc
      cases hb : thread_block s0 with
      | none => simp [hc, hb] at h
      | some s1 =>
        simp only [hc, hb, Option.map_some', lock_acquire_after_down, Option.some.injEq,
          Prod.mk.injEq, true_and] at h
        exact ⟨hz, rfl, s1, rfl, h.symm⟩
  · rw [if_neg hz] at h
    simp [lock_acquire_after_down] at h

/-- The semaphore part of `lock_acquire` keeps the donors lists sound.  Before
it the caller may already be on the donors list of the holder without being in
the wait list of the lock. -/
theorem after_down_donation (l : lock_ptr) (old_level : intr_level) (s0 s' : KState)
    (st : call_status)
    (hrun : (s0.threads s0.current).status = THREAD_RUNNING)
    (hblk : ∀ L, ∀ t ∈ (s0.locks L).semaphore.waiters,
      (s0.threads t).status = THREAD_BLOCKED)
    (hcnt : ∀ k, (s0.locks k).semaphore.value ≤ 1 ∧
      ((s0.locks k).holder ≠ none → (s0.locks k).semaphore.value = 0))
    (hdon : ∀ h t, t ∈ (s0.threads h).donators_list →
      ∃ L, (s0.threads t).lock_to_wait_on = some L ∧ (s0.locks L).holder = some h ∧
        (t ∈ (s0.locks L).semaphore.waiters ∨ (t = s0.current ∧ L = l)))
    (hd : (sema_down_loop old_level (s0.locks l).semaphore s0).map
      (lock_acquire_after_down l s0.current) = some (st, s')) :
    (∀ k, (s'.locks k).semaphore.value ≤ 1 ∧
      ((s'.locks k).holder ≠ none → (s'.locks k).semaphore.value = 0)) ∧
    (∀ h t, t ∈ (s'.threads h).donators_list →
      ∃ L, (s'.threads t).lock_to_wait_on = some L ∧ (s'.locks L).holder = some h ∧
        t ∈ (s'.locks L).semaphore.waiters) := by
  cases st with
  | completed =>
    obtain ⟨hv, hs'⟩ := after_down_completed _ _ _ _ _ _ hd
    have hnone : (s0.locks l).holder = none := by
      by_contra hne
      exact hv ((hcnt l).2 hne)
    have hlock : ∀ k, k ≠ l → s'.locks k = s0.locks k := by
      intro k hk
      rw [hs']
      simp [lock_acquire_finish, set_lock, set_thread, upd, intr_set_level, hk]
    have hthr : ∀ u, u ≠ s0.current → s'.threads u = s0.threads u := by
      intro u hu
      rw [hs']
      simp [lock_acquire_finish, set_lock, set_thread, upd, intr_set_level, hu]
    have hdl : ∀ u, (s'.threads u).donators_list = (s0.threads u).donators_list := by
      intro u
      rw [hs']
      by_cases hu : u = s0.current
      · subst hu
        simp [lock_acquire_finish, set_lock, set_thread, upd, intr_set_level]
      · simp [lock_acquire_finish, set_lock, set_thread, upd, intr_set_level, hu]
    refine ⟨?_, ?_⟩
    · intro k
      by_cases hk : k = l
      · subst hk
        have hle := (hcnt k).1
        have hval : (s'.locks k).semaphore.value = (s0.locks k).semaphore.value - 1 := by
          rw [hs']
          simp [lock_acquire_finish, set_lock, set_thread, upd, intr_set_level]
        refine ⟨by omega, fun _ => by omega⟩
      · rw [hlock k hk]
        exact hcnt k
    · intro H t ht
      rw [hdl] at ht
      obtain ⟨L, h1, h2, h3⟩ := hdon H t ht
      have hLl : L ≠ l := by
        intro e
        rw [e, hnone] at h2
        simp at h2
      have hmem : t ∈ (s0.locks L).semaphore.waiters := by
        rcases h3 with h3 | ⟨_, h3⟩
        · exact h3
        · exact absurd h3 hLl
      have htc : t ≠ s0.current := by
        intro e
        have := hblk L t hmem
        rw [e, hrun] at this
        exact absurd this (by decide)
      refine ⟨L, ?_, ?_, ?_⟩
      · rw [hthr t htc]; exact h1
      · rw [hlock L hLl]; exact h2
      · rw [hlock L hLl]; exact hmem
  | suspended =>
    obtain ⟨hz, _, s1, hb, hs'⟩ := after_down_suspended _ _ _ _ _ _ hd
    have hf := thread_block_frame s0 s1 hb
    have hl1 : s1.locks = s0.locks := by rw [hf]
    have hsd := thread_block_donation s0 s1 hb
    have hthr : s'.threads = s1.threads := by rw [hs']; rfl
    have hlock : ∀ k, k ≠ l → s'.locks k = s0.locks k := by
      intro k hk
      rw [hs', ← hl1]
      simp [set_lock, upd, hk]
    have hll : s'.locks l = { s0.locks l with
        semaphore := { (s0.locks l).semaphore with
          waiters := (s0.locks l).semaphore.waiters ++ [s0.current] } } := by
      rw [hs', ← hl1]
      simp [set_lock, upd]
    refine ⟨?_, ?_⟩
    · intro k
      by_cases hk : k = l
      · subst hk
        rw [hll]
        exact hcnt k
      · rw [hlock k hk]
        exact hcnt k
    · intro H t ht
      rw [hthr, (hsd H).2.2.2] at ht
      obtain ⟨L, h1, h2, h3⟩ := hdon H t ht
      refine ⟨L, ?_, ?_, ?_⟩
      · rw [hthr, (hsd t).2.2.1]; exact h1
      · by_cases hk : L = l
        · subst hk
          rw [hll]; exact h2
        · rw [hlock L hk]; exact h2
      · by_cases hk : L = l
        · subst hk
          rw [hll]
          rcases h3 with h3 | ⟨h3, _⟩
          · exact List.mem_append_left _ h3
          · rw [h3]; simp
        · rw [hlock L hk]
          rcases h3 with h3 | ⟨_, h3⟩
          · exact h3
          · exact absurd h3 hk

theorem lock_acquire_resume_donation_invariant (old_level : intr_level) (l : lock_ptr)
    (s s' : KState) (st : call_status) (h : donation_invariant s)
    (hni : some s.current ≠ s.idle_thread) (hc : thread_current s = some s.current)
    (hr : lock_acquire_resume old_level l s = some (st, s')) : donation_invariant s' := by
  unfold lock_acquire_resume at hr
  have hlink := (after_down_linkage l s.current old_level s s' st h.linkage hni hr).1
  obtain ⟨h1, h2⟩ := after_down_donation l old_level s s' st
    (thread_current_running s _ hc).2
    (fun L t ht => (h.linkage.wait_ok (sema_ptr.in_lock L) t ht).2)
    h.counter
    (fun H t ht => by
      obtain ⟨L, a, b, c⟩ := h.donor_ok H t ht
      exact ⟨L, a, b, Or.inl c⟩)
    hr
  exact ⟨hlink, h1, h2⟩

theorem lock_acquire_donation_invariant (l : lock_ptr) (s s' : KState) (st : call_status)
    (h : donation_invariant s) (hni : some s.current ≠ s.idle_thread)
    (ha : lock_acquire l s = some (st, s')) : donation_invariant s' := by
  have hlink := (lock_acquire_linkage l s s' st h.linkage hni ha).1
  obtain ⟨hc, _, hnh, s3, hdown, hfree, howned, hfr, hsm⟩ := lock_acquire_unfold l s s' st ha
  have hrun := (thread_current_running s _ hc).2
  have hcur3 : s3.current = s.current := by rw [hfr]
  have hlocks3 : s3.locks = s.locks := by rw [hfr]
  have hblocked : ∀ L, ∀ t ∈ (s.locks L).semaphore.waiters, t ≠ s.current := by
    intro L t ht e
    have := (h.linkage.wait_ok (sema_ptr.in_lock L) t ht).2
    rw [e, hrun] at this
    exact absurd this (by decide)
  rw [← hcur3] at hdown
  obtain ⟨h1, h2⟩ := after_down_donation l s3.level (intr_disable s3) s' st
    (by
      show (s3.threads s3.current).status = THREAD_RUNNING
      rw [(hsm _).1, hcur3]; exact hrun)
    (fun L t ht => by
      have ht' : t ∈ (s.locks L).semaphore.waiters := by
        rw [← hlocks3]; exact ht
      show (s3.threads t).status = THREAD_BLOCKED
      rw [(hsm t).1]
      exact (h.linkage.wait_ok (sema_ptr.in_lock L) t ht').2)
    (fun k => by
      show (s3.locks k).semaphore.value ≤ 1 ∧
        ((s3.locks k).holder ≠ none → (s3.locks k).semaphore.value = 0)
      rw [hlocks3]; exact h.counter k)
    (fun H t ht => by
      show ∃ L, (s3.threads t).lock_to_wait_on = some L ∧ (s3.locks L).holder = some H ∧
        (t ∈ (s3.locks L).semaphore.waiters ∨ (t = s3.current ∧ L = l))
      have ht3 : t ∈ (s3.threads H).donators_list := ht
      rw [hlocks3, hcur3]
      cases hh : (s.locks l).holder with
      | none =>
        have e := hfree hh
        subst e
        obtain ⟨L, a, b, c⟩ := h.donor_ok H t ht3
        exact ⟨L, a, b, Or.inl c⟩
      | some T =>
        obtain ⟨hw, hT, hoth, hltw⟩ := howned T hh
        have hold : t ∈ (s.threads H).donators_list →
            ∃ L, (s3.threads t).lock_to_wait_on = some L ∧ (s.locks L).holder = some H ∧
              (t ∈ (s.locks L).semaphore.waiters ∨ (t = s.current ∧ L = l)) := by
          intro hin
          obtain ⟨L, a, b, c⟩ := h.donor_ok H t hin
          refine ⟨L, ?_, b, Or.inl c⟩
          rw [hltw t (hblocked L t c)]
          exact a
        by_cases hHT : H = T
        · subst hHT
          rw [hT] at ht3
          rcases List.mem_append.mp ht3 with hin | hin
          · exact hold hin
          · simp only [List.mem_singleton] at hin
            subst hin
            exact ⟨l, hw, hh, Or.inr ⟨rfl, rfl⟩⟩
        · rw [hoth H hHT] at ht3
          exact hold ht3)
    hdown
  exact ⟨hlink, h1, h2⟩

theorem donation_reachable_inv (s : KState) (h : donation_reachable s) :
    donation_invariant s := by
  induction h with
  | init s hl hlocks hd =>
    refine ⟨hl, ?_, ?_⟩
    · intro l
      rw [hlocks]
      exact ⟨by decide, fun hne => absurd rfl hne⟩
    · intro H t ht
      rw [hd] at ht
      simp at ht
  | acquire s s' l st _ hni ha ih => exact lock_acquire_donation_invariant l s s' st ih hni ha
  | resume s s' old_level l st _ hni hc hr ih =>
    exact lock_acquire_resume_donation_invariant old_level l s s' st ih hni hc hr
  | release s s' l _ hr ih => exact lock_release_donation_invariant l s s' ih hr
  | yield s s' _ hy ih => exact thread_yield_donation_invariant s s' ih hy
  | level s lv _ ih => exact intr_set_level_donation_invariant s lv ih

theorem contenders_linkage : linkage_invariant contenders := by
  have hw : ∀ r, (sema_at contenders r).waiters = [] := fun r => by cases r <;> rfl
  refine ⟨?_, ?_, ?_, ?_, by decide, by decide, ?_, ?_, ?_, ?_⟩
  · intro t ht
    have h23 : t = 2 ∨ t = 3 := by simpa [contenders] using ht
    rcases h23 with h | h <;> subst h <;> exact ⟨rfl, rfl⟩
  · intro t hlive hst _
    by_cases h1 : t = 1
    · subst h1
      exact absurd hst (by decide)
    · by_cases h2 : t = 2
      · subst h2
        decide
      · by_cases h3 : t = 3
        · subst h3
          decide
        · simp [contenders, h1, h2, h3, thread_zero, is_thread, THREAD_MAGIC] at hlive
  · intro t ht
    simp [contenders, example_state] at ht
  · intro r t ht
    rw [hw r] at ht
    simp at ht
  · intro r
    rw [hw r]
    exact List.nodup_nil
  · intro t ht
    simp [contenders, example_state] at ht
  · intro r r' t ht
    rw [hw r] at ht
    simp at ht
  · intro i hi
    simp [contenders, example_state] at hi

theorem waiters_queued_reachable : donation_reachable waiters_queued :=
  donation_reachable.level third_blocked INTR_ON
    (donation_reachable.acquire third_runs third_blocked 0 suspended
      (donation_reachable.level second_blocked INTR_ON
        (donation_reachable.acquire second_runs second_blocked 0 suspended
          (donation_reachable.level second_scheduled INTR_ON
            (donation_reachable.yield first_acquired second_scheduled
              (donation_reachable.acquire contenders first_acquired 0 completed
                (donation_reachable.init contenders contenders_linkage (fun _ => rfl)
                  (fun t => by
                    by_cases h1 : t = 1
                    · subst h1; rfl
                    · by_cases h2 : t = 2
                      · subst h2; rfl
                      · by_cases h3 : t = 3
                        · subst h3; rfl
                        · simp [contenders, h1, h2, h3, thread_zero]))
                (by decide) rfl)
              rfl))
          (by decide) rfl))
      (by decide) rfl)

theorem lock_handed_over_reachable : donation_reachable lock_handed_over :=
  donation_reachable.resume second_resumes lock_handed_over INTR_ON 0 completed
    (donation_reachable.yield lock_released second_resumes
      (donation_reachable.release waiters_queued lock_released 0 waiters_queued_reachable rfl)
      rfl)
    (by decide) rfl rfl

/-! ## Claim C27: the donors lists -/

/-- C27 (amended): in every state reachable through `lock_acquire` and
`lock_release`, for every thread `H` the donors list of `H` contains only
threads `T` whose `lock_to_wait_on` is a lock currently held by `H`; such a
`T` is BLOCKED in the wait list of that lock. -/
theorem donors_wait_on_held_lock (s : KState) (h : donation_reachable s) :
    ∀ H T, T ∈ (s.threads H).donators_list →
      waits_for s T H ∧
      ∃ l, (s.threads T).lock_to_wait_on = some l ∧ (s.locks l).holder = some H ∧
        T ∈ (s.locks l).semaphore.waiters ∧ (s.threads T).status = THREAD_BLOCKED := by
  intro H T hT
  have hi := donation_reachable_inv s h
  obtain ⟨l, h1, h2, h3⟩ := hi.donor_ok H T hT
  refine ⟨?_, l, h1, h2, h3, (hi.linkage.wait_ok (sema_ptr.in_lock l) T h3).2⟩
  simp [waits_for, waited_holder, h1, h2]

/-- Witness for C27: in `waiters_queued` thread 1 holds lock 0, its donors are
threads 2 and 3, and both wait on lock 0. -/
theorem donors_wait_on_held_lock_witness :
    donation_reachable waiters_queued ∧
    (waiters_queued.locks 0).holder = some 1 ∧
    (waiters_queued.threads 1).donators_list = [2, 3] ∧
    waits_for waiters_queued 2 1 ∧ waits_for waiters_queued 3 1 :=
  ⟨waiters_queued_reachable, rfl, rfl,
    (donors_wait_on_held_lock waiters_queued waiters_queued_reachable 1 2 (by decide)).1,
    (donors_wait_on_held_lock waiters_queued waiters_queued_reachable 1 3 (by decide)).1⟩

/-- C27 (counterexample to the claim as stated): threads 2 and 3 wait on lock
0, held by thread 1; thread 1 releases the lock and thread 2 returns from
`lock_acquire` as the new holder.  In the state reached thread 3 is still
BLOCKED in the wait list of lock 0 with `lock_to_wait_on` set to lock 0, which
thread 2 holds, but the donors list of thread 2 is empty: the donors list of
thread 2 does not contain every thread that waits on a lock held by thread 2. -/
theorem donor_set_invariant_fails :
    donation_reachable lock_handed_over ∧
    lock_handed_over.current = 2 ∧ (lock_handed_over.locks 0).holder = some 2 ∧
    (lock_handed_over.locks 0).semaphore.waiters = [3] ∧
    (lock_handed_over.threads 3).status = THREAD_BLOCKED ∧
    (lock_handed_over.threads 3).lock_to_wait_on = some 0 ∧
    (lock_handed_over.threads 2).lock_to_wait_on = none ∧
    (lock_handed_over.threads 2).donators_list = [] ∧
    waits_for lock_handed_over 3 2 ∧ ¬ donor_set_invariant lock_handed_over :=
  ⟨lock_handed_over_reachable, rfl, rfl, rfl, rfl, rfl, rfl, rfl, by decide,
    fun hinv => absurd ((hinv 2 3).mpr (by decide)) (by decide)⟩

end PintOS
